import Mathlib

/-!
Verification of bwt2lcp: LCP induction and BWT merging.

A shallow embedding of `internal/include.hpp`, `internal/lcp.hpp` and
`internal/bwt_merger.hpp`.

Conventions of the embedding.

* `uint64_t` positions, depths and counters are natural numbers: every position the
  code computes is a rank inside a vector, hence bounded by the vector length.
* An LCP entry of width `w` bytes is a natural number below `2^(8w)`; a store
  `LCP[i] = d` keeps `d % 2^(8w)`, and `nil w = 2^(8w) - 1` is `~lcp_int_t(0)`.
* A vector is a list; reading or writing outside the vector, and a failing `assert`,
  abort the computation (`none`).
* A `std::stack` is a list whose head is the top of the stack.
* The `while(not S.empty())` loops are run with a step budget (`run_loop`).
* `std::sort` is embedded as an insertion sort on the comparison key.
-/

namespace Bwt2lcp

/-! ## Alphabet and basic records (include.hpp) -/

/-- Symbols of the alphabet, in the fixed order `TERM < A < C < G < N < T`. -/
inductive Sym
  | TERM | A | C | G | N | T
deriving DecidableEq, Repr

/-- Rank of a symbol in the alphabet order. -/
def Sym.code : Sym → Nat
  | .TERM => 0
  | .A => 1
  | .C => 2
  | .G => 3
  | .N => 4
  | .T => 5

/-- The pair `range_t = pair<uint64_t,uint64_t>`. -/
structure range_t where
  first : Nat
  second : Nat
deriving DecidableEq, Repr

/-- Record `sa_node`: a right-maximal string as a list of child boundaries. -/
structure sa_node where
  first_TERM : Nat
  first_A : Nat
  first_C : Nat
  first_G : Nat
  first_T : Nat
  last : Nat
  depth : Nat
deriving DecidableEq, Repr

/-- Record `sa_node_n`: the same with a child for `N`. -/
structure sa_node_n where
  first_TERM : Nat
  first_A : Nat
  first_C : Nat
  first_G : Nat
  first_N : Nat
  first_T : Nat
  last : Nat
  depth : Nat
deriving DecidableEq, Repr

/-- Record `sa_leaf`: the range of `W.TERM` and `depth = |W.TERM|`. -/
structure sa_leaf where
  rn : range_t
  depth : Nat
deriving DecidableEq, Repr

/-- Record `p_range`: one range per left-extension symbol. -/
structure p_range where
  A : range_t
  C : range_t
  G : range_t
  T : range_t
deriving DecidableEq, Repr

/-- Record `p_node`: one node per left-extension symbol. -/
structure p_node where
  A : sa_node
  C : sa_node
  G : sa_node
  T : sa_node
deriving DecidableEq, Repr

/-- The overload `node_size(sa_node)`. -/
def node_size (s : sa_node) : Nat := s.last - s.first_TERM

/-- The overload `node_size(pair<sa_node,sa_node>)`. -/
def node_size_pair (p : sa_node × sa_node) : Nat := node_size p.1 + node_size p.2

/-- The function `merge_nodes(sa_node, sa_node)`; the depths must agree. -/
def merge_nodes (a b : sa_node) : Option sa_node :=
  if a.depth = b.depth then
    some
      { first_TERM := a.first_TERM + b.first_TERM
        first_A := a.first_A + b.first_A
        first_C := a.first_C + b.first_C
        first_G := a.first_G + b.first_G
        first_T := a.first_T + b.first_T
        last := a.last + b.last
        depth := a.depth }
  else none

/-- The difference `r.second - r.first` computed by `range_length`. -/
def range_len (r : range_t) : Nat := r.second - r.first

/-- The function `range_length`, with its assertion `r.second >= r.first`. -/
def range_length (r : range_t) : Option Nat :=
  if r.second ≥ r.first then some (range_len r) else none

/-- The overload `leaf_size(sa_leaf)`. -/
def leaf_size (L : sa_leaf) : Option Nat := range_length L.rn

/-- The overload `leaf_size(pair<sa_leaf,sa_leaf>)`. -/
def leaf_size_pair (P : sa_leaf × sa_leaf) : Option Nat :=
  match leaf_size P.1, leaf_size P.2 with
  | some a, some b => some (a + b)
  | _, _ => none

def child_TERM (x : sa_node) : range_t := ⟨x.first_TERM, x.first_A⟩
def child_A (x : sa_node) : range_t := ⟨x.first_A, x.first_C⟩
def child_C (x : sa_node) : range_t := ⟨x.first_C, x.first_G⟩
def child_G (x : sa_node) : range_t := ⟨x.first_G, x.first_T⟩
def child_T (x : sa_node) : range_t := ⟨x.first_T, x.last⟩

def has_child_TERM (x : sa_node) : Bool := decide (x.first_A > x.first_TERM)
def has_child_A (x : sa_node) : Bool := decide (x.first_C > x.first_A)
def has_child_C (x : sa_node) : Bool := decide (x.first_G > x.first_C)
def has_child_G (x : sa_node) : Bool := decide (x.first_T > x.first_G)
def has_child_T (x : sa_node) : Bool := decide (x.last > x.first_T)

/-- The conversion `uint8_t(bool)`. -/
def b2n (b : Bool) : Nat := if b then 1 else 0

/-- The overload `number_of_children(sa_node)`. -/
def number_of_children (x : sa_node) : Nat :=
  b2n (decide (x.last > x.first_T)) + b2n (decide (x.first_T > x.first_G)) +
  b2n (decide (x.first_G > x.first_C)) + b2n (decide (x.first_C > x.first_A)) +
  b2n (decide (x.first_A > x.first_TERM))

/-- The overload `number_of_children(sa_node, sa_node)`: children of the union. -/
def number_of_children2 (N1 N2 : sa_node) : Nat :=
  b2n (decide (N1.last > N1.first_T) || decide (N2.last > N2.first_T)) +
  b2n (decide (N1.first_T > N1.first_G) || decide (N2.first_T > N2.first_G)) +
  b2n (decide (N1.first_G > N1.first_C) || decide (N2.first_G > N2.first_C)) +
  b2n (decide (N1.first_C > N1.first_A) || decide (N2.first_C > N2.first_A)) +
  b2n (decide (N1.first_A > N1.first_TERM) || decide (N2.first_A > N2.first_TERM))

/-- The overload `number_of_children(pair<sa_node,sa_node>)`. -/
def number_of_children_pair (P : sa_node × sa_node) : Nat := number_of_children2 P.1 P.2

/-! ## LCP vectors -/

/-- The sentinel `~lcp_int_t(0)` of an integer type of `w` bytes. -/
def nil (w : Nat) : Nat := 2 ^ (8 * w) - 1

/-- The two statements `assert(LCP[i]==nil); LCP[i] = d;` on a vector of `w`-byte integers. -/
def write_nil (w : Nat) (LCP : List Nat) (i d : Nat) : Option (List Nat) :=
  if LCP[i]? = some (nil w) then some (LCP.set i (d % 2 ^ (8 * w))) else none

/-- One guarded block of `update_lcp`: `if(c){ assert(LCP[i]==nil); LCP[i] = d; lcp_values++; }`. -/
def lcp_border (w : Nat) (c : Bool) (i d : Nat) (s : List Nat × Nat) : Option (List Nat × Nat) :=
  if c then
    match write_nil w s.1 i d with
    | some L => some (L, s.2 + 1)
    | none => none
  else some s

/-- The function `update_lcp<lcp_int_t>(sa_node&, LCP, lcp_values)`. -/
def update_lcp (w : Nat) (x : sa_node) (LCP : List Nat) (lcp_values : Nat) :
    Option (List Nat × Nat) :=
  if x.first_A ≥ x.first_TERM ∧ x.first_C ≥ x.first_A ∧ x.first_G ≥ x.first_C ∧
      x.first_T ≥ x.first_G ∧ number_of_children x ≥ 2 then
    (lcp_border w (has_child_TERM x && decide (x.first_A ≠ x.last)) x.first_A x.depth
        (LCP, lcp_values)).bind fun s1 =>
    (lcp_border w (has_child_A x && decide (x.first_C ≠ x.last)) x.first_C x.depth s1).bind
      fun s2 =>
    (lcp_border w (has_child_C x && decide (x.first_G ≠ x.last)) x.first_G x.depth s2).bind
      fun s3 =>
    lcp_border w (has_child_G x && decide (x.first_T ≠ x.last)) x.first_T x.depth s3
  else none

/-- The loop `for(i = start; i < start+len; ++i){ assert(LCP[i]==nil); LCP[i] = d; }`. -/
def fill_nil (w : Nat) (d : Nat) : Nat → Nat → List Nat → Option (List Nat)
  | _, 0, LCP => some LCP
  | start, len + 1, LCP =>
    match write_nil w LCP start d with
    | some L => fill_nil w d (start + 1) len L
    | none => none

/-! ## Sorting and loops -/

/-- Insertion of an element before the first element with a strictly larger key. -/
def insert_by_key {α : Type} (key : α → Nat) (a : α) : List α → List α
  | [] => [a]
  | b :: l => if key a ≤ key b then a :: b :: l else b :: insert_by_key key a l

/-- The call `std::sort(begin, begin+t, [](lhs, rhs){ return key(lhs) < key(rhs); })`. -/
def sort_by_key {α : Type} (key : α → Nat) : List α → List α
  | [] => []
  | a :: l => insert_by_key key a (sort_by_key key l)

/-- Result of running a `while` loop with a step budget. -/
inductive Outcome (α : Type)
  | done (a : α)
  | aborted
  | out_of_fuel
deriving DecidableEq, Repr

/-- A `while(not finished)` loop whose body may abort, run for at most `fuel` iterations. -/
def run_loop {σ : Type} (step : σ → Option σ) (finished : σ → Bool) : Nat → σ → Outcome σ
  | 0, s => if finished s then .done s else .out_of_fuel
  | fuel + 1, s =>
    if finished s then .done s
    else
      match step s with
      | some s1 => run_loop step finished fuel s1
      | none => .aborted

/-! ## The BWT self-index (dna_bwt.hpp) -/

/-- Modelled from the spec: `dna_bwt_t` (internal/dna_bwt.hpp is not part of the sources).
The value `rank(c, i)` is the number of occurrences of `c` in `B[0..i)`. -/
def bwt_rank (B : List Sym) (c : Sym) (i : Nat) : Nat := (B.take i).count c

/-- Modelled from the spec: the C-array of `dna_bwt_t`; `C[c]` is the number of positions
`j` with `B[j] < c`. -/
def bwt_C (B : List Sym) (c : Sym) : Nat := B.countP fun b => decide (b.code < c.code)

/-- Modelled from the spec: the boundary `C[c] + rank(c, i)` used by every `LF` of `dna_bwt_t`. -/
def bwt_LF_pos (B : List Sym) (c : Sym) (i : Nat) : Nat := bwt_C B c + bwt_rank B c i

/-- Modelled from the spec: `dna_bwt_t::LF(range_t)`, the interval LF for the symbols
`A, C, G, T`; `TERM` is not extended. -/
def bwt_LF_range (B : List Sym) (r : range_t) : p_range :=
  { A := ⟨bwt_LF_pos B .A r.first, bwt_LF_pos B .A r.second⟩
    C := ⟨bwt_LF_pos B .C r.first, bwt_LF_pos B .C r.second⟩
    G := ⟨bwt_LF_pos B .G r.first, bwt_LF_pos B .G r.second⟩
    T := ⟨bwt_LF_pos B .T r.first, bwt_LF_pos B .T r.second⟩ }

/-- Modelled from the spec: the node of `c·W` inside `dna_bwt_t::LF(sa_node)`: every child
boundary of `W` is LF-extended by `c` and the depth grows by one. -/
def bwt_LF_node1 (B : List Sym) (c : Sym) (x : sa_node) : sa_node :=
  { first_TERM := bwt_LF_pos B c x.first_TERM
    first_A := bwt_LF_pos B c x.first_A
    first_C := bwt_LF_pos B c x.first_C
    first_G := bwt_LF_pos B c x.first_G
    first_T := bwt_LF_pos B c x.first_T
    last := bwt_LF_pos B c x.last
    depth := x.depth + 1 }

/-- Modelled from the spec: `dna_bwt_t::LF(sa_node)`. -/
def bwt_LF_node (B : List Sym) (x : sa_node) : p_node :=
  { A := bwt_LF_node1 B .A x
    C := bwt_LF_node1 B .C x
    G := bwt_LF_node1 B .G x
    T := bwt_LF_node1 B .T x }

/-- Modelled from the spec: `dna_bwt_t::first_leaf()`, the interval `[0, C[A])` with depth 1. -/
def bwt_first_leaf (B : List Sym) : sa_leaf := ⟨⟨0, bwt_C B .A⟩, 1⟩

/-- Modelled from the spec: `dna_bwt_t::root()`, the interval `[0, n)` with boundaries `C[·]`
and depth 0. -/
def bwt_root (B : List Sym) : sa_node :=
  { first_TERM := 0
    first_A := bwt_C B .A
    first_C := bwt_C B .C
    first_G := bwt_C B .G
    first_T := bwt_C B .T
    last := B.length
    depth := 0 }

/-- Modelled from the spec: `dna_bwt_t::next_leaves(L, out, t, min_size)`: the child leaves
`LF(L.rn)` of size at least `min_size`, sorted by increasing size. The result is
`TMP_LEAVES[0..t)`. -/
def bwt_next_leaves (B : List Sym) (L : sa_leaf) (min_size : Nat) : Option (List sa_leaf) :=
  let ext := bwt_LF_range B L.rn
  match range_length ext.A, range_length ext.C, range_length ext.G, range_length ext.T with
  | some a, some c, some g, some t =>
    some (sort_by_key (fun l => range_len l.rn)
      ((if a ≥ min_size then [(⟨ext.A, L.depth + 1⟩ : sa_leaf)] else []) ++
       (if c ≥ min_size then [⟨ext.C, L.depth + 1⟩] else []) ++
       (if g ≥ min_size then [⟨ext.G, L.depth + 1⟩] else []) ++
       (if t ≥ min_size then [⟨ext.T, L.depth + 1⟩] else [])))
  | _, _, _, _ => none

/-- Modelled from the spec: `dna_bwt_t::next_nodes(N, out, t)`: the left-extensions of `N`
with at least two non-empty children, sorted by increasing interval length. The result is
`TMP_NODES[0..t)`. -/
def bwt_next_nodes (B : List Sym) (x : sa_node) : List sa_node :=
  let e := bwt_LF_node B x
  sort_by_key node_size
    ((if number_of_children e.A ≥ 2 then [e.A] else []) ++
     (if number_of_children e.C ≥ 2 then [e.C] else []) ++
     (if number_of_children e.G ≥ 2 then [e.G] else []) ++
     (if number_of_children e.T ≥ 2 then [e.T] else []))

/-! ## The LCP inducer (lcp.hpp) -/

/-- Variables of the first `while` loop of `lcp::lcp`. -/
structure LeafState where
  S : List sa_leaf
  LCP : List Nat
  m : Nat
  lcp_values : Nat
deriving DecidableEq, Repr

/-- Variables of the second `while` loop of `lcp::lcp`. -/
structure NodeState where
  S : List sa_node
  LCP : List Nat
  lcp_values : Nat
deriving DecidableEq, Repr

/-- Body of the first `while` loop of `lcp::lcp` (leaves of size at least 2). -/
def lcp_leaf_step (w : Nat) (B : List Sym) (s : LeafState) : Option LeafState :=
  match s.S with
  | [] => none
  | L :: rest =>
    if L.rn.second > L.rn.first then
      match fill_nil w L.depth (L.rn.first + 1) (L.rn.second - (L.rn.first + 1)) s.LCP with
      | none => none
      | some LCP1 =>
        if s.m + (L.rn.second - (L.rn.first + 1)) + 1 ≤ B.length then
          match bwt_next_leaves B L 2 with
          | none => none
          | some TMP =>
            some
              { S := TMP ++ rest
                LCP := LCP1
                m := s.m + (L.rn.second - (L.rn.first + 1)) + 1
                lcp_values := s.lcp_values + (L.rn.second - (L.rn.first + 1)) }
        else none
    else none

/-- Body of the second `while` loop of `lcp::lcp` (right-maximal nodes). -/
def lcp_node_step (w : Nat) (B : List Sym) (s : NodeState) : Option NodeState :=
  match s.S with
  | [] => none
  | x :: rest =>
    match update_lcp w x s.LCP s.lcp_values with
    | none => none
    | some (LCP1, v1) => some { S := bwt_next_nodes B x ++ rest, LCP := LCP1, lcp_values := v1 }

/-- State of `lcp::lcp` when the first loop is entered: `LCP = vector(n, nil); LCP[0] = 0`.
The store `LCP[0] = 0` needs `n > 0`. -/
def lcp_init (w : Nat) (B : List Sym) : Option LeafState :=
  if B.length = 0 then none
  else
    some
      { S := [bwt_first_leaf B]
        LCP := (List.replicate B.length (nil w)).set 0 0
        m := 0
        lcp_values := 1 }

/-- First pass of `lcp::lcp`. -/
def lcp_pass1 (w fuel : Nat) (B : List Sym) : Outcome LeafState :=
  match lcp_init w B with
  | none => .aborted
  | some s0 => run_loop (lcp_leaf_step w B) (fun s => s.S.isEmpty) fuel s0

/-- Second pass of `lcp::lcp`, started from the vector left by the first pass. -/
def lcp_pass2 (w fuel : Nat) (B : List Sym) (LCP : List Nat) (lcp_values : Nat) :
    Outcome NodeState :=
  run_loop (lcp_node_step w B) (fun s => s.S.isEmpty) fuel
    { S := [bwt_root B], LCP := LCP, lcp_values := lcp_values }

/-- The constructor `lcp<dna_bwt_t, lcp_int_t>::lcp(bwt)` for `sizeof(lcp_int_t) = w`;
the result is the member `LCP`. Each of the two loops gets the budget `fuel`. -/
def lcp_build (w fuel : Nat) (B : List Sym) : Outcome (List Nat) :=
  match lcp_pass1 w fuel B with
  | .done s1 =>
    match lcp_pass2 w fuel B s1.LCP s1.lcp_values with
    | .done s2 => .done s2.LCP
    | .aborted => .aborted
    | .out_of_fuel => .out_of_fuel
  | .aborted => .aborted
  | .out_of_fuel => .out_of_fuel

/-! ## The BWT merger (bwt_merger.hpp) -/

/-- The members and counters the merger updates: `DA`, `LCP`, `lcp_values`, `da_values`. -/
structure MergeVars where
  DA : List Bool
  LCP : List Nat
  lcp_values : Nat
  da_values : Nat
deriving DecidableEq, Repr

/-- The loop `for(i = start; i < start+len; ++i){ DA[i] = b; }`. -/
def fill_da (b : Bool) : Nat → Nat → List Bool → Option (List Bool)
  | _, 0, DA => some DA
  | start, len + 1, DA =>
    if start < DA.length then fill_da b (start + 1) len (DA.set start b) else none

/-- The method `bwt_merger::update_DA(L1, L2, compute_lcp, lcp_values, m)`; `n` is the member
`n` and `lcp_values`, `m` are the two reference parameters. -/
def update_DA (w n : Nat) (L1 L2 : sa_leaf) (compute_lcp : Bool) (DA : List Bool)
    (LCP : List Nat) (lcp_values m : Nat) : Option (List Bool × List Nat × Nat × Nat) :=
  let start1 := L1.rn.first + L2.rn.first
  let start2 := L2.rn.first + L1.rn.second
  let «end» := L1.rn.second + L2.rn.second
  if «end» > start1 then
    (fill_da false start1 (start2 - start1) DA).bind fun DA1 =>
    (fill_da true start2 («end» - start2) DA1).bind fun DA2 =>
    let m2 := m + (start2 - start1) + («end» - start2)
    if L1.depth = L2.depth then
      (if compute_lcp then
          (fill_nil w L1.depth (start1 + 1) («end» - (start1 + 1)) LCP).map fun L =>
            (L, lcp_values + («end» - (start1 + 1)))
        else some (LCP, lcp_values)).bind fun r =>
      if m2 ≤ n then some (DA2, r.1, r.2, m2) else none
    else none
  else none

/-- One block of `find_leaves`: a child whose two ranges have combined length 1 is a leaf
skipped by the first pass; `update_DA` is called with a local `dummy` counter. -/
def find_leaf (w n : Nat) (r1 r2 : range_t) (v : MergeVars) : Option MergeVars :=
  match range_length r1, range_length r2 with
  | some a, some b =>
    if a + b = 1 then
      match update_DA w n ⟨r1, 0⟩ ⟨r2, 0⟩ false v.DA v.LCP 0 v.da_values with
      | some (DA, _, _, m) => some { v with DA := DA, da_values := m }
      | none => none
    else some v
  | _, _ => none

/-- The method `bwt_merger::find_leaves(sa_node, sa_node, m)`. -/
def find_leaves (w n : Nat) (x1 x2 : sa_node) (v : MergeVars) : Option MergeVars :=
  (find_leaf w n (child_TERM x1) (child_TERM x2) v).bind fun v1 =>
  (find_leaf w n (child_A x1) (child_A x2) v1).bind fun v2 =>
  (find_leaf w n (child_C x1) (child_C x2) v2).bind fun v3 =>
  (find_leaf w n (child_G x1) (child_G x2) v3).bind fun v4 =>
  find_leaf w n (child_T x1) (child_T x2) v4

/-- Sort key of a pair of leaves: the value of `leaf_size(pair)` when its assertions hold. -/
def leaf_pair_len (P : sa_leaf × sa_leaf) : Nat := range_len P.1.rn + range_len P.2.rn

/-- One candidate of the paired `next_leaves`: the two extended ranges, kept when their
combined length is at least `min_size`. -/
def leaf_candidate (r1 r2 : range_t) (d1 d2 min_size : Nat) : Option (List (sa_leaf × sa_leaf)) :=
  match range_length r1, range_length r2 with
  | some a, some b => some (if a + b ≥ min_size then [(⟨r1, d1 + 1⟩, ⟨r2, d2 + 1⟩)] else [])
  | _, _ => none

/-- The function `next_leaves(dna_bwt_t*, dna_bwt_t*, L1, L2, TMP_LEAVES, t, min_size)`;
the result is `TMP_LEAVES[0..t)`. -/
def next_leaves (B1 B2 : List Sym) (L1 L2 : sa_leaf) (min_size : Nat) :
    Option (List (sa_leaf × sa_leaf)) :=
  let ext_1 := bwt_LF_range B1 L1.rn
  let ext_2 := bwt_LF_range B2 L2.rn
  (leaf_candidate ext_1.A ext_2.A L1.depth L2.depth min_size).bind fun a =>
  (leaf_candidate ext_1.C ext_2.C L1.depth L2.depth min_size).bind fun c =>
  (leaf_candidate ext_1.G ext_2.G L1.depth L2.depth min_size).bind fun g =>
  (leaf_candidate ext_1.T ext_2.T L1.depth L2.depth min_size).bind fun t =>
  some (sort_by_key leaf_pair_len (a ++ c ++ g ++ t))

/-- The function `next_nodes(dna_bwt_t*, dna_bwt_t*, N1, N2, TMP_NODES, t)`;
the result is `TMP_NODES[0..t)`. -/
def next_nodes (B1 B2 : List Sym) (N1 N2 : sa_node) : List (sa_node × sa_node) :=
  let left_exts1 := bwt_LF_node B1 N1
  let left_exts2 := bwt_LF_node B2 N2
  let A := (left_exts1.A, left_exts2.A)
  let C := (left_exts1.C, left_exts2.C)
  let G := (left_exts1.G, left_exts2.G)
  let T := (left_exts1.T, left_exts2.T)
  sort_by_key node_size_pair
    ((if number_of_children_pair A ≥ 2 then [A] else []) ++
     (if number_of_children_pair C ≥ 2 then [C] else []) ++
     (if number_of_children_pair G ≥ 2 then [G] else []) ++
     (if number_of_children_pair T ≥ 2 then [T] else []))

/-- Variables of the first `while` loop of `bwt_merger::bwt_merger`. -/
structure MLeafState where
  S : List (sa_leaf × sa_leaf)
  v : MergeVars
deriving DecidableEq, Repr

/-- Variables of the second `while` loop of `bwt_merger::bwt_merger`. -/
structure MNodeState where
  S : List (sa_node × sa_node)
  v : MergeVars
deriving DecidableEq, Repr

/-- Body of the first `while` loop of `bwt_merger::bwt_merger`. -/
def merge_leaf_step (w : Nat) (B1 B2 : List Sym) (compute_lcp : Bool) (s : MLeafState) :
    Option MLeafState :=
  match s.S with
  | [] => none
  | L :: rest =>
    match leaf_size_pair L with
    | none => none
    | some sz =>
      if sz > 0 then
        match update_DA w (B1.length + B2.length) L.1 L.2 compute_lcp s.v.DA s.v.LCP
            s.v.lcp_values s.v.da_values with
        | none => none
        | some (DA, LCP, lv, m) =>
          match next_leaves B1 B2 L.1 L.2 (if compute_lcp then 2 else 1) with
          | none => none
          | some TMP =>
            some { S := TMP ++ rest, v := { DA := DA, LCP := LCP, lcp_values := lv, da_values := m } }
      else none

/-- Body of the second `while` loop of `bwt_merger::bwt_merger`. -/
def merge_node_step (w : Nat) (B1 B2 : List Sym) (s : MNodeState) : Option MNodeState :=
  match s.S with
  | [] => none
  | N :: rest =>
    match merge_nodes N.1 N.2 with
    | none => none
    | some merged =>
      match find_leaves w (B1.length + B2.length) N.1 N.2 s.v with
      | none => none
      | some v1 =>
        match update_lcp w merged v1.LCP v1.lcp_values with
        | none => none
        | some (LCP, lv) =>
          some { S := next_nodes B1 B2 N.1 N.2 ++ rest, v := { v1 with LCP := LCP, lcp_values := lv } }

/-- State of `bwt_merger::bwt_merger` when the first loop is entered. The store `LCP[0] = 0`
needs `n > 0`. -/
def merge_init (w : Nat) (B1 B2 : List Sym) (compute_lcp : Bool) : Option MLeafState :=
  let n := B1.length + B2.length
  if compute_lcp then
    if n = 0 then none
    else
      some
        { S := [(bwt_first_leaf B1, bwt_first_leaf B2)]
          v := { DA := List.replicate n false
                 LCP := (List.replicate n (nil w)).set 0 0
                 lcp_values := 1
                 da_values := 0 } }
  else
    some
      { S := [(bwt_first_leaf B1, bwt_first_leaf B2)]
        v := { DA := List.replicate n false, LCP := [], lcp_values := 1, da_values := 0 } }

/-- First pass of `bwt_merger::bwt_merger`. -/
def merge_pass1 (w fuel : Nat) (B1 B2 : List Sym) (compute_lcp : Bool) : Outcome MLeafState :=
  match merge_init w B1 B2 compute_lcp with
  | none => .aborted
  | some s0 => run_loop (merge_leaf_step w B1 B2 compute_lcp) (fun s => s.S.isEmpty) fuel s0

/-- Second pass of `bwt_merger::bwt_merger`, entered when `compute_lcp` holds. -/
def merge_pass2 (w fuel : Nat) (B1 B2 : List Sym) (v : MergeVars) : Outcome MNodeState :=
  run_loop (merge_node_step w B1 B2) (fun s => s.S.isEmpty) fuel
    { S := [(bwt_root B1, bwt_root B2)], v := v }

/-- The constructor `bwt_merger<dna_bwt_t, lcp_int_t>::bwt_merger(bwt1, bwt2, compute_lcp)`
for `sizeof(lcp_int_t) = w`; the result holds the members `DA` and `LCP`. Each of the two
loops gets the budget `fuel`. -/
def merge_build (w fuel : Nat) (B1 B2 : List Sym) (compute_lcp : Bool) : Outcome MergeVars :=
  match merge_pass1 w fuel B1 B2 compute_lcp with
  | .done s1 =>
    if compute_lcp then
      match merge_pass2 w fuel B1 B2 s1.v with
      | .done s2 => .done s2.v
      | .aborted => .aborted
      | .out_of_fuel => .out_of_fuel
    else .done s1.v
  | .aborted => .aborted
  | .out_of_fuel => .out_of_fuel

/-- The loop of `bwt_merger::save_to_file` that writes the merged BWT, started at index `i`
with `rank1` ones already seen; `DA` is the part of the document array from `i` on. The
result is the sequence of bytes written; reading outside `bwt1` or `bwt2` aborts. -/
def emit_loop {α : Type} (bwt1 bwt2 : List α) : List Bool → Nat → Nat → Option (List α)
  | [], _, _ => some []
  | d :: DA, i, rank1 =>
    match (if d = false then bwt1[i - rank1]? else bwt2[rank1]?) with
    | none => none
    | some c => (emit_loop bwt1 bwt2 DA (i + 1) (rank1 + b2n d)).map fun out => c :: out

/-- The merged BWT that `bwt_merger::save_to_file` writes to `base_path.bwt`. -/
def save_bwt {α : Type} (bwt1 bwt2 : List α) (DA : List Bool) : Option (List α) :=
  emit_loop bwt1 bwt2 DA 0 0

/-! ## The 5-letter alphabet (include.hpp, dna_bwt_n.hpp) -/

/-- Record `p_range_n`: one range per left-extension symbol of the 5-letter alphabet. -/
structure p_range_n where
  A : range_t
  C : range_t
  G : range_t
  N : range_t
  T : range_t
deriving DecidableEq, Repr

/-- The overload `child_TERM(sa_node_n)`. -/
def child_TERM_n (x : sa_node_n) : range_t := ⟨x.first_TERM, x.first_A⟩
/-- The overload `child_A(sa_node_n)`. -/
def child_A_n (x : sa_node_n) : range_t := ⟨x.first_A, x.first_C⟩
/-- The overload `child_C(sa_node_n)`. -/
def child_C_n (x : sa_node_n) : range_t := ⟨x.first_C, x.first_G⟩
/-- The overload `child_G(sa_node_n)`. -/
def child_G_n (x : sa_node_n) : range_t := ⟨x.first_G, x.first_N⟩
/-- The function `child_N(sa_node_n)`. -/
def child_N_n (x : sa_node_n) : range_t := ⟨x.first_N, x.first_T⟩
/-- The overload `child_T(sa_node_n)`. -/
def child_T_n (x : sa_node_n) : range_t := ⟨x.first_T, x.last⟩

/-- The overload `has_child_TERM(sa_node_n)`. -/
def has_child_TERM_n (x : sa_node_n) : Bool := decide (x.first_A > x.first_TERM)
/-- The overload `has_child_A(sa_node_n)`. -/
def has_child_A_n (x : sa_node_n) : Bool := decide (x.first_C > x.first_A)
/-- The overload `has_child_C(sa_node_n)`. -/
def has_child_C_n (x : sa_node_n) : Bool := decide (x.first_G > x.first_C)
/-- The overload `has_child_G(sa_node_n)`. -/
def has_child_G_n (x : sa_node_n) : Bool := decide (x.first_N > x.first_G)
/-- The function `has_child_N(sa_node_n)`. -/
def has_child_N_n (x : sa_node_n) : Bool := decide (x.first_T > x.first_N)
/-- The overload `has_child_T(sa_node_n)`. -/
def has_child_T_n (x : sa_node_n) : Bool := decide (x.last > x.first_T)

/-- The overload `number_of_children(sa_node_n)`. -/
def number_of_children_n (x : sa_node_n) : Nat :=
  b2n (decide (x.last > x.first_T)) + b2n (decide (x.first_T > x.first_N)) +
  b2n (decide (x.first_N > x.first_G)) + b2n (decide (x.first_G > x.first_C)) +
  b2n (decide (x.first_C > x.first_A)) + b2n (decide (x.first_A > x.first_TERM))

/-- The function `update_lcp<lcp_int_t>(sa_node_n&, LCP, lcp_values)`. -/
def update_lcp_n (w : Nat) (x : sa_node_n) (LCP : List Nat) (lcp_values : Nat) :
    Option (List Nat × Nat) :=
  if x.first_A ≥ x.first_TERM ∧ x.first_C ≥ x.first_A ∧ x.first_G ≥ x.first_C ∧
      x.first_N ≥ x.first_G ∧ x.first_T ≥ x.first_N ∧ number_of_children_n x ≥ 2 then
    (lcp_border w (has_child_TERM_n x && decide (x.first_A ≠ x.last)) x.first_A x.depth
        (LCP, lcp_values)).bind fun s1 =>
    (lcp_border w (has_child_A_n x && decide (x.first_C ≠ x.last)) x.first_C x.depth s1).bind
      fun s2 =>
    (lcp_border w (has_child_C_n x && decide (x.first_G ≠ x.last)) x.first_G x.depth s2).bind
      fun s3 =>
    (lcp_border w (has_child_G_n x && decide (x.first_N ≠ x.last)) x.first_N x.depth s3).bind
      fun s4 =>
    lcp_border w (has_child_N_n x && decide (x.first_T ≠ x.last)) x.first_T x.depth s4
  else none

/-- The method `bwt_merger::find_leaves(sa_node_n, sa_node_n, m)`. -/
def find_leaves_n (w n : Nat) (x1 x2 : sa_node_n) (v : MergeVars) : Option MergeVars :=
  (find_leaf w n (child_TERM_n x1) (child_TERM_n x2) v).bind fun v1 =>
  (find_leaf w n (child_A_n x1) (child_A_n x2) v1).bind fun v2 =>
  (find_leaf w n (child_C_n x1) (child_C_n x2) v2).bind fun v3 =>
  (find_leaf w n (child_G_n x1) (child_G_n x2) v3).bind fun v4 =>
  (find_leaf w n (child_N_n x1) (child_N_n x2) v4).bind fun v5 =>
  find_leaf w n (child_T_n x1) (child_T_n x2) v5

/-- Modelled from the spec: `dna_bwt_n_t::LF(range_t)` (internal/dna_bwt_n.hpp is not part of
the sources), the interval LF for the symbols `A, C, G, N, T`; `TERM` is not extended. -/
def bwt_LF_range_n (B : List Sym) (r : range_t) : p_range_n :=
  { A := ⟨bwt_LF_pos B .A r.first, bwt_LF_pos B .A r.second⟩
    C := ⟨bwt_LF_pos B .C r.first, bwt_LF_pos B .C r.second⟩
    G := ⟨bwt_LF_pos B .G r.first, bwt_LF_pos B .G r.second⟩
    N := ⟨bwt_LF_pos B .N r.first, bwt_LF_pos B .N r.second⟩
    T := ⟨bwt_LF_pos B .T r.first, bwt_LF_pos B .T r.second⟩ }

/-- The function `next_leaves(dna_bwt_n_t*, dna_bwt_n_t*, L1, L2, TMP_LEAVES, t, min_size)`;
the result is `TMP_LEAVES[0..t)`. -/
def next_leaves_n (B1 B2 : List Sym) (L1 L2 : sa_leaf) (min_size : Nat) :
    Option (List (sa_leaf × sa_leaf)) :=
  let ext_1 := bwt_LF_range_n B1 L1.rn
  let ext_2 := bwt_LF_range_n B2 L2.rn
  (leaf_candidate ext_1.A ext_2.A L1.depth L2.depth min_size).bind fun a =>
  (leaf_candidate ext_1.C ext_2.C L1.depth L2.depth min_size).bind fun c =>
  (leaf_candidate ext_1.G ext_2.G L1.depth L2.depth min_size).bind fun g =>
  (leaf_candidate ext_1.N ext_2.N L1.depth L2.depth min_size).bind fun n =>
  (leaf_candidate ext_1.T ext_2.T L1.depth L2.depth min_size).bind fun t =>
  some (sort_by_key leaf_pair_len (a ++ c ++ g ++ n ++ t))

/-! ## The command-line tools (bwt2lcp.cpp, merge_bwt.cpp) -/

/-- The function `hasN` on the bytes of the file it opens: the loop
`while (i.get(c)){ if(c=='N') return true; } return false;`. A file that cannot be read has
no bytes. -/
def hasN : List Nat → Bool
  | [] => false
  | c :: cs => if c = 78 then true else hasN cs

/-- The byte kept by the conversions `lcp_size = atoi(optarg)` (to `uint8_t`) and
`TERM = atoi(optarg)` (to `char`); a `char` compares equal to `'A'` exactly when this byte
is 65. -/
def to_byte (a : Int) : Nat := (a % 256).toNat

/-- What a run of one of the two tools does: its exit status, whether it loaded and indexed
its input, the alphabet path, the `sizeof(lcp_int_t)` of the `lcp` or `bwt_merger` object it
constructed, whether that object computes the LCP, and whether the last line `Done.` was
printed. The constructors are embedded on their own (`lcp_build`, `merge_build`); a run
that reaches the end of `main` has exit status 0. -/
structure Run where
  exit_status : Int
  loaded : Bool
  five_letters : Bool
  width : Option Nat
  compute_lcp : Bool
  done : Bool
deriving DecidableEq, Repr

/-- The function `help()` of both tools: it prints the usage text and calls `exit(0)`. -/
def help : Run :=
  { exit_status := 0, loaded := false, five_letters := false, width := none,
    compute_lcp := false, done := false }

/-- An option of `bwt2lcp` as `getopt(argc, argv, "hi:o:l:t:")` returns it; the argument of
`-l` and `-t` is the value of `atoi(optarg)`, and `other` is any other return value. -/
inductive lcp_opt
  | h
  | i (optarg : String)
  | o (optarg : String)
  | l (optarg : Int)
  | t (optarg : Int)
  | other
deriving DecidableEq, Repr

/-- The globals of bwt2lcp.cpp that the options set. -/
structure lcp_globals where
  input_bwt : String
  output_file : String
  lcp_size : Nat
  TERM : Nat
deriving DecidableEq, Repr

/-- The initial values `lcp_size = 1` and `TERM = '#'` of bwt2lcp.cpp. -/
def lcp_globals_init : lcp_globals :=
  { input_bwt := "", output_file := "", lcp_size := 1, TERM := 35 }

/-- The `getopt` loop of `main` in bwt2lcp.cpp; `none` when `help()` was called. -/
def lcp_getopt : List lcp_opt → lcp_globals → Option lcp_globals
  | [], g => some g
  | .h :: _, _ => none
  | .i a :: os, g => lcp_getopt os { g with input_bwt := a }
  | .o a :: os, g => lcp_getopt os { g with output_file := a }
  | .l a :: os, g => lcp_getopt os { g with lcp_size := to_byte a }
  | .t a :: os, g => lcp_getopt os { g with TERM := to_byte a }
  | .other :: _, _ => none

/-- The function `main` of bwt2lcp.cpp; `file` gives the bytes of the file at a path. -/
def bwt2lcp_main (argc : Nat) (opts : List lcp_opt) (file : String → List Nat) : Run :=
  if argc < 3 then help
  else
    match lcp_getopt opts lcp_globals_init with
    | none => help
    | some g =>
      if g.lcp_size ≠ 1 ∧ g.lcp_size ≠ 2 ∧ g.lcp_size ≠ 4 ∧ g.lcp_size ≠ 8 then help
      else if g.TERM = 65 ∨ g.TERM = 67 ∨ g.TERM = 71 ∨ g.TERM = 84 ∨ g.TERM = 78 then help
      else if g.input_bwt.length = 0 then help
      else if g.output_file.length = 0 then help
      else
        { exit_status := 0
          loaded := true
          five_letters := hasN (file g.input_bwt)
          width :=
            match g.lcp_size with
            | 1 => some 1
            | 2 => some 2
            | 4 => some 4
            | 8 => some 8
            | _ => none
          compute_lcp := true
          done := true }

/-- An option of `merge_bwt` as `getopt(argc, argv, "h1:2:o:l:dt:")` returns it. -/
inductive merge_opt
  | h
  | one (optarg : String)
  | two (optarg : String)
  | o (optarg : String)
  | l (optarg : Int)
  | t (optarg : Int)
  | d
  | other
deriving DecidableEq, Repr

/-- The globals of merge_bwt.cpp that the options set. -/
structure merge_globals where
  input_bwt1 : String
  input_bwt2 : String
  output_file : String
  out_da : Bool
  lcp_size : Nat
  TERM : Nat
deriving DecidableEq, Repr

/-- The initial values `out_da = false`, `lcp_size = 0` and `TERM = '#'` of merge_bwt.cpp. -/
def merge_globals_init : merge_globals :=
  { input_bwt1 := "", input_bwt2 := "", output_file := "", out_da := false, lcp_size := 0,
    TERM := 35 }

/-- The `getopt` loop of `main` in merge_bwt.cpp; `none` when `help()` was called. -/
def merge_getopt : List merge_opt → merge_globals → Option merge_globals
  | [], g => some g
  | .h :: _, _ => none
  | .one a :: os, g => merge_getopt os { g with input_bwt1 := a }
  | .two a :: os, g => merge_getopt os { g with input_bwt2 := a }
  | .o a :: os, g => merge_getopt os { g with output_file := a }
  | .l a :: os, g => merge_getopt os { g with lcp_size := to_byte a }
  | .t a :: os, g => merge_getopt os { g with TERM := to_byte a }
  | .d :: os, g => merge_getopt os { g with out_da := true }
  | .other :: _, _ => none

/-- The function `main` of merge_bwt.cpp; `file` gives the bytes of the file at a path. -/
def merge_bwt_main (argc : Nat) (opts : List merge_opt) (file : String → List Nat) : Run :=
  if argc < 4 then help
  else
    match merge_getopt opts merge_globals_init with
    | none => help
    | some g =>
      if g.TERM = 65 ∨ g.TERM = 67 ∨ g.TERM = 71 ∨ g.TERM = 84 ∨ g.TERM = 78 then help
      else if g.input_bwt1.length = 0 then help
      else if g.input_bwt2.length = 0 then help
      else if g.output_file.length = 0 then help
      else
        { exit_status := 0
          loaded := true
          five_letters := hasN (file g.input_bwt1) || hasN (file g.input_bwt2)
          width :=
            match g.lcp_size with
            | 0 => some 1
            | 1 => some 1
            | 2 => some 2
            | 4 => some 4
            | 8 => some 8
            | _ => none
          compute_lcp :=
            match g.lcp_size with
            | 1 => true
            | 2 => true
            | 4 => true
            | 8 => true
            | _ => false
          done := true }

/-! ## Specification-level definitions -/

/-- Interleaving of `xs` and `ys` directed by a bit sequence: a `false` bit takes the next
element of `xs`, a `true` bit the next element of `ys`. -/
def weave {α : Type} : List Bool → List α → List α → List α
  | [], _, _ => []
  | false :: DA, x :: xs, ys => x :: weave DA xs ys
  | true :: DA, xs, y :: ys => y :: weave DA xs ys
  | false :: _, [], _ => []
  | true :: _, _, [] => []

/-- The elements of `out` at the positions where the bit sequence `DA` holds `b`. -/
def select_by {α : Type} (b : Bool) : List Bool → List α → List α
  | d :: DA, x :: out => if d = b then x :: select_by b DA out else select_by b DA out
  | _, _ => []

/-! ### Suffix collections -/

/-- Number of strings of `S` that are lexicographically below `X`. -/
def cnt_lt (S : List (List Nat)) (X : List Nat) : Nat := S.countP (fun s => decide (s < X))

/-- The leaf of the string `W.TERM` in a sorted list of suffixes: the range of the suffixes
equal to `W.TERM`, and its depth. Strings are lists of symbol ranks. -/
def leaf_of (S : List (List Nat)) (W : List Nat) : sa_leaf :=
  ⟨⟨cnt_lt S (W ++ [0]), cnt_lt S (W ++ [1])⟩, W.length + 1⟩

/-- The node of the string `W` in a sorted list of suffixes: the starts of the ranges of
`W.TERM`, `W.A`, `W.C`, `W.G`, `W.T` and the end of the range of `W`. -/
def node_of (S : List (List Nat)) (W : List Nat) : sa_node :=
  { first_TERM := cnt_lt S (W ++ [0])
    first_A := cnt_lt S (W ++ [1])
    first_C := cnt_lt S (W ++ [2])
    first_G := cnt_lt S (W ++ [3])
    first_T := cnt_lt S (W ++ [5])
    last := cnt_lt S (W ++ [6])
    depth := W.length }

/-- Length of the longest common prefix of two strings. -/
def lcp_len : List Nat → List Nat → Nat
  | a :: x, b :: y => if a = b then lcp_len x y + 1 else 0
  | _, _ => 0

/-- The suffixes of `r.TERM` that start inside `r` after its first symbol or at the
terminator, each with the symbol that precedes it. -/
def suffix_pairs : List Sym → List (Sym × List Nat)
  | [] => []
  | c :: r => (c, r.map Sym.code ++ [0]) :: suffix_pairs r

/-- All suffixes of the read `r.TERM`, each with the symbol that precedes it; the whole read
is preceded by its terminator. -/
def read_pairs (r : List Sym) : List (Sym × List Nat) :=
  (Sym.TERM, r.map Sym.code ++ [0]) :: suffix_pairs r

/-- All suffixes of a collection of reads, each with the symbol that precedes it. -/
def collection_pairs : List (List Sym) → List (Sym × List Nat)
  | [] => []
  | r :: rs => read_pairs r ++ collection_pairs rs

/-- A read over the alphabet `{A, C, G, T}`. -/
def dna_read (r : List Sym) : Prop := ∀ c ∈ r, c = Sym.A ∨ c = Sym.C ∨ c = Sym.G ∨ c = Sym.T

instance (r : List Sym) : Decidable (dna_read r) :=
  inferInstanceAs (Decidable (∀ c ∈ r, c = Sym.A ∨ c = Sym.C ∨ c = Sym.G ∨ c = Sym.T))

/-- The list `P` is a suffix-sorted arrangement of the collection `reads`: it lists every
suffix once, with its preceding symbol, in lexicographic order of the suffixes. Its first
components form a BWT of the collection and its second components are the sorted suffixes. -/
def sorted_arrangement (reads : List (List Sym)) (P : List (Sym × List Nat)) : Prop :=
  P.Perm (collection_pairs reads) ∧ (P.map Prod.snd).Sorted (· ≤ ·)

/-- The sequence `B` is a BWT of the collection `reads`. -/
def is_bwt_of (reads : List (List Sym)) (B : List Sym) : Prop :=
  ∃ P, sorted_arrangement reads P ∧ B = P.map Prod.fst

/-- A string over the ranks of `A, C, G, T`. -/
def dna_string (W : List Nat) : Prop := ∀ c ∈ W, c = 1 ∨ c = 2 ∨ c = 3 ∨ c = 5

/-- The properties of the sorted suffixes of a read collection that the traversals rely on:
the list is sorted, every string is a DNA string followed by one terminator, and a string
`c.s` with `c` not the terminator occurs at most as often as `s`. -/
structure suffix_collection (S : List (List Nat)) : Prop where
  sorted : S.Sorted (· ≤ ·)
  term : ∀ s ∈ S, ∃ W, s = W ++ [0] ∧ dna_string W
  tail : ∀ (c : Nat) (s : List Nat), c ≠ 0 → S.count (c :: s) ≤ S.count s

/-- The counting property of a suffix-sorted arrangement `P`: the multiset of its suffixes
consists of one terminator string per terminator of the BWT and of the strings `c.s` for the
pairs `(c, s)` of `P` with `c` not the terminator. -/
def closed_arrangement (P : List (Sym × List Nat)) : Prop :=
  ∀ q : List Nat → Bool,
    (P.map Prod.snd).countP q =
      P.countP (fun p => decide (p.1 = Sym.TERM) && q [0]) +
      P.countP (fun p => decide (p.1 ≠ Sym.TERM) && q (p.1.code :: p.2))


/-! ### Invariants of the traversals -/

/-- The string at rank `i` of the sorted suffix list (empty outside the list). -/
def str_at (S : List (List Nat)) (i : Nat) : List Nat := S.getD i []

/-- Position `i` lies inside a leaf: the suffixes of ranks `i - 1` and `i` are equal. -/
def leaf_pos (S : List (List Nat)) (i : Nat) : Prop := 0 < i ∧ str_at S (i - 1) = str_at S i

/-- Position `i` is a border between children of a node: the suffixes of ranks `i - 1` and
`i` differ. -/
def node_pos (S : List (List Nat)) (i : Nat) : Prop := 0 < i ∧ str_at S (i - 1) ≠ str_at S i

/-- Some string of the stack `Ws` is a suffix of `V`: the traversal has still to reach `V`. -/
def pending (Ws : List (List Nat)) (V : List Nat) : Prop := ∃ W ∈ Ws, W <:+ V

instance (Ws : List (List Nat)) (V : List Nat) : Decidable (pending Ws V) :=
  inferInstanceAs (Decidable (∃ W ∈ Ws, W <:+ V))

/-- No string of the stack is a suffix of another one. -/
def suffix_free (Ws : List (List Nat)) : Prop :=
  Ws.Pairwise fun a b => ¬ a <:+ b ∧ ¬ b <:+ a

/-- The string `W` of the leaf `W.TERM` that holds position `i`. -/
def leaf_str (S : List (List Nat)) (i : Nat) : List Nat := (str_at S i).dropLast

/-- The longest common prefix of the suffixes of ranks `i - 1` and `i`. -/
def node_str (S : List (List Nat)) (i : Nat) : List Nat :=
  (str_at S i).take (lcp_len (str_at S (i - 1)) (str_at S i))

/-- The value the constructors leave at `LCP[i]` for width `w`. -/
def lcp_target (S : List (List Nat)) (w i : Nat) : Nat :=
  if i = 0 then 0 else lcp_len (str_at S (i - 1)) (str_at S i) % 2 ^ (8 * w)

/-- Positions not yet written during the leaf pass with stack `Ws`. -/
def leaf_waiting (S Ws : List (List Nat)) (i : Nat) : Prop :=
  node_pos S i ∨ (leaf_pos S i ∧ pending Ws (leaf_str S i))

/-- Positions not yet written during the node pass with stack `Ws`. -/
def node_waiting (S Ws : List (List Nat)) (i : Nat) : Prop :=
  node_pos S i ∧ pending Ws (node_str S i)

instance (S Ws : List (List Nat)) (i : Nat) : Decidable (leaf_waiting S Ws i) :=
  inferInstanceAs (Decidable ((0 < i ∧ str_at S (i - 1) ≠ str_at S i) ∨
    ((0 < i ∧ str_at S (i - 1) = str_at S i) ∧ pending Ws (leaf_str S i))))

instance (S Ws : List (List Nat)) (i : Nat) : Decidable (node_waiting S Ws i) :=
  inferInstanceAs (Decidable ((0 < i ∧ str_at S (i - 1) ≠ str_at S i) ∧
    pending Ws (node_str S i)))

/-- State of an LCP vector: the waiting positions hold the sentinel and the others hold
their final value. -/
def lcp_inv (S : List (List Nat)) (w : Nat) (waiting : Nat → Prop) (LCP : List Nat) : Prop :=
  LCP.length = S.length ∧
  ∀ i, i < S.length →
    (waiting i → LCP[i]? = some (nil w)) ∧ (¬ waiting i → LCP[i]? = some (lcp_target S w i))


/-- The positions `update_lcp` writes for the node of `W`. -/
def written_by (S : List (List Nat)) (W : List Nat) (j : Nat) : Prop :=
  (j = cnt_lt S (W ++ [1]) ∧ cnt_lt S (W ++ [0]) < cnt_lt S (W ++ [1]) ∧
    cnt_lt S (W ++ [1]) ≠ cnt_lt S (W ++ [6])) ∨
  (j = cnt_lt S (W ++ [2]) ∧ cnt_lt S (W ++ [1]) < cnt_lt S (W ++ [2]) ∧
    cnt_lt S (W ++ [2]) ≠ cnt_lt S (W ++ [6])) ∨
  (j = cnt_lt S (W ++ [3]) ∧ cnt_lt S (W ++ [2]) < cnt_lt S (W ++ [3]) ∧
    cnt_lt S (W ++ [3]) ≠ cnt_lt S (W ++ [6])) ∨
  (j = cnt_lt S (W ++ [5]) ∧ cnt_lt S (W ++ [3]) < cnt_lt S (W ++ [5]) ∧
    cnt_lt S (W ++ [5]) ≠ cnt_lt S (W ++ [6]))


/-- Number of suffixes that a leaf pass with stack `Ws` has still to cover. -/
def leaf_weight (S Ws : List (List Nat)) : Nat :=
  S.countP fun s => decide (pending Ws s.dropLast)

/-- Number of borders that a node pass with stack `Ws` has still to write. -/
def node_weight (S Ws : List (List Nat)) : Nat :=
  (List.range S.length).countP fun j => decide (node_waiting S Ws j)

/-- The left extensions of `W` by `A, C, G, T` that satisfy `keep`, in this order. -/
def extensions (keep : List Nat → Bool) (W : List Nat) : List (List Nat) :=
  (if keep (1 :: W) then [1 :: W] else []) ++ (if keep (2 :: W) then [2 :: W] else []) ++
  (if keep (3 :: W) then [3 :: W] else []) ++ (if keep (5 :: W) then [5 :: W] else [])


/-- Invariant of the first loop of `lcp::lcp` on the suffixes `S`, with the measure `k`. -/
def leaf_pass_inv (S : List (List Nat)) (w : Nat) (st : LeafState) (k : Nat) : Prop :=
  ∃ Ws, st.S = Ws.map (leaf_of S) ∧ suffix_free Ws ∧ (∀ W ∈ Ws, 0 < S.count (W ++ [0])) ∧
    lcp_inv S w (leaf_waiting S Ws) st.LCP ∧ st.m + leaf_weight S Ws ≤ S.length ∧
    k = leaf_weight S Ws

/-- Invariant of the second loop of `lcp::lcp` on the suffixes `S`, with the measure `k`. -/
def node_pass_inv (S : List (List Nat)) (w : Nat) (st : NodeState) (k : Nat) : Prop :=
  ∃ Ws, st.S = Ws.map (node_of S) ∧ suffix_free Ws ∧
    (∀ W ∈ Ws, 2 ≤ number_of_children (node_of S W)) ∧
    lcp_inv S w (node_waiting S Ws) st.LCP ∧ k = node_weight S Ws


/-- The states of the first loop at width `w` and at width 8 agree up to truncation. -/
def leaf_trunc (w : Nat) (s8 sw : LeafState) : Prop :=
  sw.S = s8.S ∧ sw.m = s8.m ∧ sw.lcp_values = s8.lcp_values ∧
  sw.LCP = s8.LCP.map (· % 2 ^ (8 * w))

/-- The states of the second loop at width `w` and at width 8 agree up to truncation. -/
def node_trunc (w : Nat) (s8 sw : NodeState) : Prop :=
  sw.S = s8.S ∧ sw.lcp_values = s8.lcp_values ∧ sw.LCP = s8.LCP.map (· % 2 ^ (8 * w))

/-! ### Merging two suffix collections -/

/-- The stable merge of two sorted lists of strings; each string carries its origin, `false`
for the first list and `true` for the second, and equal strings of the first list come
first. -/
def merge_tagged : List (List Nat) → List (List Nat) → List (Bool × List Nat)
  | [], ys => ys.map fun y => (true, y)
  | x :: xs, [] => (x :: xs).map fun z => (false, z)
  | x :: xs, y :: ys =>
    if x ≤ y then (false, x) :: merge_tagged xs (y :: ys)
    else (true, y) :: merge_tagged (x :: xs) ys
termination_by xs ys => xs.length + ys.length

/-- The document array of the merge of two sorted suffix lists. -/
def merge_da (S1 S2 : List (List Nat)) : List Bool := (merge_tagged S1 S2).map Prod.fst

/-- The sorted suffixes of the union of two collections. -/
def merge_strs (S1 S2 : List (List Nat)) : List (List Nat) :=
  (merge_tagged S1 S2).map Prod.snd


/-- The pair of leaves of `W.TERM` in two collections. -/
def leaf_pair_of (S1 S2 : List (List Nat)) (W : List Nat) : sa_leaf × sa_leaf :=
  (leaf_of S1 W, leaf_of S2 W)

/-- The pair of nodes of `W` in two collections. -/
def node_pair_of (S1 S2 : List (List Nat)) (W : List Nat) : sa_node × sa_node :=
  (node_of S1 W, node_of S2 W)

/-- The `min_size` that the merger passes to `next_leaves`. -/
def min_size (compute_lcp : Bool) : Nat := if compute_lcp then 2 else 1


/-- Number of suffixes whose document-array entry a leaf pass with stack `Ws` and threshold
`k` has not written: those still to be reached and those in leaves smaller than `k`. -/
def da_weight (S Ws : List (List Nat)) (k : Nat) : Nat :=
  S.countP fun s => decide (pending Ws s.dropLast ∨ S.count s < k)

/-- Invariant of the first loop of `bwt_merger::bwt_merger` on the suffix lists `S1`, `S2`,
with the measure `k`. -/
def merge_leaf_inv (S1 S2 : List (List Nat)) (w : Nat) (c : Bool) (st : MLeafState)
    (k : Nat) : Prop :=
  ∃ Ws, st.S = Ws.map (leaf_pair_of S1 S2) ∧ suffix_free Ws ∧
    (∀ W ∈ Ws, min_size c ≤ (merge_strs S1 S2).count (W ++ [0])) ∧
    st.v.DA.length = (merge_strs S1 S2).length ∧
    (∀ j, j < (merge_strs S1 S2).length →
      min_size c ≤ (merge_strs S1 S2).count (str_at (merge_strs S1 S2) j) →
      ¬ pending Ws (leaf_str (merge_strs S1 S2) j) → st.v.DA[j]? = (merge_da S1 S2)[j]?) ∧
    (c = true → lcp_inv (merge_strs S1 S2) w (leaf_waiting (merge_strs S1 S2) Ws) st.v.LCP) ∧
    st.v.da_values + da_weight (merge_strs S1 S2) Ws (min_size c) ≤
      (merge_strs S1 S2).length ∧
    k = leaf_weight (merge_strs S1 S2) Ws


/-- The symbol that bounds the child `x` of a node: the children are `TERM, A, C, G, T` and
6 stands for the end of the node. -/
def next_sym (x : Nat) : Nat := if x = 3 then 5 else x + 1

/-- The node of `W` has a child that consists of the single suffix at position `j`: the
second pass writes `DA[j]` in `find_leaves` when it visits `W`. -/
def found_by (S : List (List Nat)) (W : List Nat) (j : Nat) : Prop :=
  ∃ x, (x = 0 ∨ x = 1 ∨ x = 2 ∨ x = 3 ∨ x = 5) ∧ cnt_lt S (W ++ [x]) = j ∧
    cnt_lt S (W ++ [next_sym x]) = j + 1

/-- The entry `DA[j]` is final during the node pass with stack `Ws`: the first pass wrote
it, or a node that is no longer pending found it. -/
def da_settled (S Ws : List (List Nat)) (j : Nat) : Prop :=
  2 ≤ S.count (str_at S j) ∨
  ∃ W, 2 ≤ number_of_children (node_of S W) ∧ found_by S W j ∧ ¬ pending Ws W

/-- State of the document array and of its counter: the positions that satisfy `D` hold
their final value, and `m` counts distinct positions that satisfy `D`. -/
def da_inv (S1 S2 : List (List Nat)) (D : Nat → Prop) (v : MergeVars) : Prop :=
  v.DA.length = (merge_strs S1 S2).length ∧
  (∀ j, j < (merge_strs S1 S2).length → D j → v.DA[j]? = (merge_da S1 S2)[j]?) ∧
  ∃ l : List Nat, l.Nodup ∧ (∀ j ∈ l, j < (merge_strs S1 S2).length ∧ D j) ∧
    v.da_values ≤ l.length

/-- Invariant of the second loop of `bwt_merger::bwt_merger` on the suffix lists `S1`, `S2`,
with the measure `k`. -/
def merge_node_inv (S1 S2 : List (List Nat)) (w : Nat) (st : MNodeState) (k : Nat) : Prop :=
  ∃ Ws, st.S = Ws.map (node_pair_of S1 S2) ∧ suffix_free Ws ∧
    (∀ W ∈ Ws, 2 ≤ number_of_children (node_of (merge_strs S1 S2) W)) ∧
    da_inv S1 S2 (da_settled (merge_strs S1 S2) Ws) st.v ∧
    lcp_inv (merge_strs S1 S2) w (node_waiting (merge_strs S1 S2) Ws) st.v.LCP ∧
    k = node_weight (merge_strs S1 S2) Ws



/-! ### Child boundaries of a node -/

/-- The guarded stores of `update_lcp` taken as a list, in the order of the source: each item
is the guard and the position of one block
`if(c){ assert(LCP[i]==nil); LCP[i] = d; lcp_values++; }`. -/
def lcp_borders (w d : Nat) : List (Bool × Nat) → List Nat × Nat → Option (List Nat × Nat)
  | [], s => some s
  | b :: bs, s => (lcp_border w b.1 b.2 d s).bind (lcp_borders w d bs)

/-- The guards and positions of the four blocks of `update_lcp(sa_node)`. -/
def guarded_borders (x : sa_node) : List (Bool × Nat) :=
  [(has_child_TERM x && decide (x.first_A ≠ x.last), x.first_A),
   (has_child_A x && decide (x.first_C ≠ x.last), x.first_C),
   (has_child_C x && decide (x.first_G ≠ x.last), x.first_G),
   (has_child_G x && decide (x.first_T ≠ x.last), x.first_T)]

/-- The guards and positions of the five blocks of `update_lcp(sa_node_n)`. -/
def guarded_borders_n (x : sa_node_n) : List (Bool × Nat) :=
  [(has_child_TERM_n x && decide (x.first_A ≠ x.last), x.first_A),
   (has_child_A_n x && decide (x.first_C ≠ x.last), x.first_C),
   (has_child_C_n x && decide (x.first_G ≠ x.last), x.first_G),
   (has_child_G_n x && decide (x.first_N ≠ x.last), x.first_N),
   (has_child_N_n x && decide (x.first_T ≠ x.last), x.first_T)]

/-- The positions of the items whose guard holds. -/
def enabled (bs : List (Bool × Nat)) : List Nat :=
  bs.filterMap fun b => if b.1 then some b.2 else none

/-- The eligible child boundaries of a node in `update_lcp(sa_node)`: the boundaries
`first_A`, `first_C`, `first_G`, `first_T` whose preceding child is non-empty and which differ
from `last`. -/
def eligible_borders (x : sa_node) : List Nat := enabled (guarded_borders x)

/-- The eligible child boundaries of a node in `update_lcp(sa_node_n)`. -/
def eligible_borders_n (x : sa_node_n) : List Nat := enabled (guarded_borders_n x)

/-- The child boundaries of a node, from `first_TERM` to `last`. -/
def boundaries (x : sa_node) : List Nat :=
  [x.first_TERM, x.first_A, x.first_C, x.first_G, x.first_T, x.last]

/-- The child boundaries of a node of the 5-letter alphabet, from `first_TERM` to `last`. -/
def boundaries_n (x : sa_node_n) : List Nat :=
  [x.first_TERM, x.first_A, x.first_C, x.first_G, x.first_N, x.first_T, x.last]

/-- The starting offsets of the non-empty children in a list of child boundaries. -/
def nonempty_starts : List Nat → List Nat
  | a :: b :: r => (if a < b then [a] else []) ++ nonempty_starts (b :: r)
  | _ => []

/-- The starting offsets of the non-empty children other than the first non-empty child. -/
def child_borders (bs : List Nat) : List Nat := (nonempty_starts bs).tail

/-- The boundaries between consecutive children that end a non-empty child and differ from
`last`. -/
def inner_ends (last : Nat) : List Nat → List Nat
  | a :: b :: r => (if a < b ∧ b ≠ last then [b] else []) ++ inner_ends last (b :: r)
  | _ => []


/-! ### Children of a pair of nodes -/

/-- The well-formed nodes: `first_TERM <= first_A <= first_C <= first_G <= first_T <= last`. -/
def well_formed (x : sa_node) : Prop :=
  x.first_TERM ≤ x.first_A ∧ x.first_A ≤ x.first_C ∧ x.first_C ≤ x.first_G ∧
    x.first_G ≤ x.first_T ∧ x.first_T ≤ x.last

instance (x : sa_node) : Decidable (well_formed x) :=
  inferInstanceAs (Decidable (x.first_TERM ≤ x.first_A ∧ x.first_A ≤ x.first_C ∧
    x.first_C ≤ x.first_G ∧ x.first_G ≤ x.first_T ∧ x.first_T ≤ x.last))

/-- The well-formed nodes of the 5-letter alphabet. -/
def well_formed_n (x : sa_node_n) : Prop :=
  x.first_TERM ≤ x.first_A ∧ x.first_A ≤ x.first_C ∧ x.first_C ≤ x.first_G ∧
    x.first_G ≤ x.first_N ∧ x.first_N ≤ x.first_T ∧ x.first_T ≤ x.last

instance (x : sa_node_n) : Decidable (well_formed_n x) :=
  inferInstanceAs (Decidable (x.first_TERM ≤ x.first_A ∧ x.first_A ≤ x.first_C ∧
    x.first_C ≤ x.first_G ∧ x.first_G ≤ x.first_N ∧ x.first_N ≤ x.first_T ∧
    x.first_T ≤ x.last))

/-- The blocks of `find_leaves` taken as a list over pairs of child ranges, in the order of
the source. -/
def find_list (w n : Nat) : List (range_t × range_t) → MergeVars → Option MergeVars
  | [], v => some v
  | c :: cs, v => (find_leaf w n c.1 c.2 v).bind (find_list w n cs)

/-- The children of a pair of nodes, symbol by symbol. -/
def child_pairs (x1 x2 : sa_node) : List (range_t × range_t) :=
  [(child_TERM x1, child_TERM x2), (child_A x1, child_A x2), (child_C x1, child_C x2),
   (child_G x1, child_G x2), (child_T x1, child_T x2)]

/-- The children of a pair of nodes of the 5-letter alphabet, symbol by symbol. -/
def child_pairs_n (x1 x2 : sa_node_n) : List (range_t × range_t) :=
  [(child_TERM_n x1, child_TERM_n x2), (child_A_n x1, child_A_n x2),
   (child_C_n x1, child_C_n x2), (child_G_n x1, child_G_n x2), (child_N_n x1, child_N_n x2),
   (child_T_n x1, child_T_n x2)]

/-- The document-array entries owed by the children of combined length 1: the position
`first_c(x1) + first_c(x2)` and the value, 0 (`false`) when the single position lies in the
first node and 1 (`true`) when it lies in the second. -/
def single_writes (cs : List (range_t × range_t)) : List (Nat × Bool) :=
  cs.filterMap fun c =>
    if range_len c.1 + range_len c.2 = 1 then
      some (c.1.first + c.2.first, decide (range_len c.2 = 1))
    else none


/-! ### Children of a pair of leaves -/

/-- Body of the first `while` loop of `bwt_merger::bwt_merger` for `bwt_t = dna_bwt_n_t`:
the template body of `merge_leaf_step` with the 5-letter overload of `next_leaves`. -/
def merge_leaf_step_n (w : Nat) (B1 B2 : List Sym) (compute_lcp : Bool) (s : MLeafState) :
    Option MLeafState :=
  match s.S with
  | [] => none
  | L :: rest =>
    match leaf_size_pair L with
    | none => none
    | some sz =>
      if sz > 0 then
        match update_DA w (B1.length + B2.length) L.1 L.2 compute_lcp s.v.DA s.v.LCP
            s.v.lcp_values s.v.da_values with
        | none => none
        | some (DA, LCP, lv, m) =>
          match next_leaves_n B1 B2 L.1 L.2 (if compute_lcp then 2 else 1) with
          | none => none
          | some TMP =>
            some { S := TMP ++ rest, v := { DA := DA, LCP := LCP, lcp_values := lv, da_values := m } }
      else none

/-- The pair that the symbol `c` extends the leaves `L1`, `L2` to: the ranges `LF_c(L1.rn)`
and `LF_c(L2.rn)` with the depths `L1.depth + 1` and `L2.depth + 1`. -/
def lf_pair (B1 B2 : List Sym) (L1 L2 : sa_leaf) (c : Sym) : sa_leaf × sa_leaf :=
  (⟨⟨bwt_LF_pos B1 c L1.rn.first, bwt_LF_pos B1 c L1.rn.second⟩, L1.depth + 1⟩,
   ⟨⟨bwt_LF_pos B2 c L2.rn.first, bwt_LF_pos B2 c L2.rn.second⟩, L2.depth + 1⟩)

/-- The pairs for the symbols `syms`, in this order, whose combined length is at least
`min_size`. -/
def lf_candidates (syms : List Sym) (B1 B2 : List Sym) (L1 L2 : sa_leaf) (min_size : Nat) :
    List (sa_leaf × sa_leaf) :=
  (syms.map (lf_pair B1 B2 L1 L2)).filter fun P => decide (min_size ≤ leaf_pair_len P)


/-! ### Nodes of the 5-letter alphabet (include.hpp, bwt_merger.hpp) -/

/-- Record `p_node_n`: one node per left-extension symbol of the 5-letter alphabet. -/
structure p_node_n where
  A : sa_node_n
  C : sa_node_n
  G : sa_node_n
  N : sa_node_n
  T : sa_node_n
deriving DecidableEq, Repr

/-- The overload `node_size(sa_node_n)`. -/
def node_size_n (s : sa_node_n) : Nat := s.last - s.first_TERM

/-- The overload `node_size(pair<sa_node_n,sa_node_n>)`. -/
def node_size_pair_n (p : sa_node_n × sa_node_n) : Nat := node_size_n p.1 + node_size_n p.2

/-- The function `merge_nodes(sa_node_n, sa_node_n)`; the depths must agree. -/
def merge_nodes_n (a b : sa_node_n) : Option sa_node_n :=
  if a.depth = b.depth then
    some
      { first_TERM := a.first_TERM + b.first_TERM
        first_A := a.first_A + b.first_A
        first_C := a.first_C + b.first_C
        first_G := a.first_G + b.first_G
        first_N := a.first_N + b.first_N
        first_T := a.first_T + b.first_T
        last := a.last + b.last
        depth := a.depth }
  else none

/-- The overload `number_of_children(sa_node_n, sa_node_n)`: children of the union. -/
def number_of_children2_n (N1 N2 : sa_node_n) : Nat :=
  b2n (decide (N1.last > N1.first_T) || decide (N2.last > N2.first_T)) +
  b2n (decide (N1.first_T > N1.first_N) || decide (N2.first_T > N2.first_N)) +
  b2n (decide (N1.first_N > N1.first_G) || decide (N2.first_N > N2.first_G)) +
  b2n (decide (N1.first_G > N1.first_C) || decide (N2.first_G > N2.first_C)) +
  b2n (decide (N1.first_C > N1.first_A) || decide (N2.first_C > N2.first_A)) +
  b2n (decide (N1.first_A > N1.first_TERM) || decide (N2.first_A > N2.first_TERM))

/-- The overload `number_of_children(pair<sa_node_n,sa_node_n>)`. -/
def number_of_children_pair_n (P : sa_node_n × sa_node_n) : Nat :=
  number_of_children2_n P.1 P.2

/-- Modelled from the spec: the node of `c·W` inside `dna_bwt_n_t::LF(sa_node_n)`
(internal/dna_bwt_n.hpp is not part of the sources): every child boundary of `W` is
LF-extended by `c` and the depth grows by one. -/
def bwt_LF_node1_n (B : List Sym) (c : Sym) (x : sa_node_n) : sa_node_n :=
  { first_TERM := bwt_LF_pos B c x.first_TERM
    first_A := bwt_LF_pos B c x.first_A
    first_C := bwt_LF_pos B c x.first_C
    first_G := bwt_LF_pos B c x.first_G
    first_N := bwt_LF_pos B c x.first_N
    first_T := bwt_LF_pos B c x.first_T
    last := bwt_LF_pos B c x.last
    depth := x.depth + 1 }

/-- Modelled from the spec: `dna_bwt_n_t::LF(sa_node_n)`. -/
def bwt_LF_node_n (B : List Sym) (x : sa_node_n) : p_node_n :=
  { A := bwt_LF_node1_n B .A x
    C := bwt_LF_node1_n B .C x
    G := bwt_LF_node1_n B .G x
    N := bwt_LF_node1_n B .N x
    T := bwt_LF_node1_n B .T x }

/-- Modelled from the spec: `dna_bwt_n_t::root()`, the interval `[0, n)` with boundaries
`C[·]` and depth 0. -/
def bwt_root_n (B : List Sym) : sa_node_n :=
  { first_TERM := 0
    first_A := bwt_C B .A
    first_C := bwt_C B .C
    first_G := bwt_C B .G
    first_N := bwt_C B .N
    first_T := bwt_C B .T
    last := B.length
    depth := 0 }

/-- The function `next_nodes(dna_bwt_n_t*, dna_bwt_n_t*, N1, N2, TMP_NODES, t)`;
the result is `TMP_NODES[0..t)`. -/
def next_nodes_n (B1 B2 : List Sym) (N1 N2 : sa_node_n) : List (sa_node_n × sa_node_n) :=
  let left_exts1 := bwt_LF_node_n B1 N1
  let left_exts2 := bwt_LF_node_n B2 N2
  let A := (left_exts1.A, left_exts2.A)
  let C := (left_exts1.C, left_exts2.C)
  let G := (left_exts1.G, left_exts2.G)
  let N := (left_exts1.N, left_exts2.N)
  let T := (left_exts1.T, left_exts2.T)
  sort_by_key node_size_pair_n
    ((if number_of_children_pair_n A ≥ 2 then [A] else []) ++
     (if number_of_children_pair_n C ≥ 2 then [C] else []) ++
     (if number_of_children_pair_n G ≥ 2 then [G] else []) ++
     (if number_of_children_pair_n N ≥ 2 then [N] else []) ++
     (if number_of_children_pair_n T ≥ 2 then [T] else []))

/-- Variables of the second `while` loop of `bwt_merger::bwt_merger` for
`bwt_t = dna_bwt_n_t`. -/
structure MNodeState_n where
  S : List (sa_node_n × sa_node_n)
  v : MergeVars
deriving DecidableEq, Repr

/-- Body of the second `while` loop of `bwt_merger::bwt_merger` for `bwt_t = dna_bwt_n_t`:
the template body of `merge_node_step` with the 5-letter overloads. -/
def merge_node_step_n (w : Nat) (B1 B2 : List Sym) (s : MNodeState_n) : Option MNodeState_n :=
  match s.S with
  | [] => none
  | N :: rest =>
    match merge_nodes_n N.1 N.2 with
    | none => none
    | some merged =>
      match find_leaves_n w (B1.length + B2.length) N.1 N.2 s.v with
      | none => none
      | some v1 =>
        match update_lcp_n w merged v1.LCP v1.lcp_values with
        | none => none
        | some (LCP, lv) =>
          some { S := next_nodes_n B1 B2 N.1 N.2 ++ rest, v := { v1 with LCP := LCP, lcp_values := lv } }

/-! ### States of a loop -/

/-- The state of a `while(not finished)` loop after `k` complete iterations; `none` when the
loop has ended or aborted before. -/
def loop_state {σ : Type} (step : σ → Option σ) (finished : σ → Bool) : Nat → σ → Option σ
  | 0, s => some s
  | k + 1, s => if finished s then none else (step s).bind (loop_state step finished k)

/-- The 4-letter node obtained from a 5-letter node by dropping `first_N`. -/
def drop_N (x : sa_node_n) : sa_node :=
  { first_TERM := x.first_TERM
    first_A := x.first_A
    first_C := x.first_C
    first_G := x.first_G
    first_T := x.first_T
    last := x.last
    depth := x.depth }

/-! ### Children of a pair of nodes under left extension -/

/-- The pair of nodes that the symbol `c` extends `N1`, `N2` to. -/
def lf_node_pair (B1 B2 : List Sym) (N1 N2 : sa_node) (c : Sym) : sa_node × sa_node :=
  (bwt_LF_node1 B1 c N1, bwt_LF_node1 B2 c N2)

/-- The pairs for the symbols `syms`, in this order, whose union has at least two non-empty
children. -/
def lf_node_candidates (syms : List Sym) (B1 B2 : List Sym) (N1 N2 : sa_node) :
    List (sa_node × sa_node) :=
  (syms.map (lf_node_pair B1 B2 N1 N2)).filter fun P => decide (2 ≤ number_of_children_pair P)

/-- The pair of 5-letter nodes that the symbol `c` extends `N1`, `N2` to. -/
def lf_node_pair_n (B1 B2 : List Sym) (N1 N2 : sa_node_n) (c : Sym) : sa_node_n × sa_node_n :=
  (bwt_LF_node1_n B1 c N1, bwt_LF_node1_n B2 c N2)

/-- The pairs of 5-letter nodes for the symbols `syms`, in this order, whose union has at
least two non-empty children. -/
def lf_node_candidates_n (syms : List Sym) (B1 B2 : List Sym) (N1 N2 : sa_node_n) :
    List (sa_node_n × sa_node_n) :=
  (syms.map (lf_node_pair_n B1 B2 N1 N2)).filter fun P =>
    decide (2 ≤ number_of_children_pair_n P)


/-! ### Sizes on the traversal stack -/

/-- The groups of siblings below the top group of a stack of sizes, from the top down, where
`U` is the sum of the sizes above the group: a group is what is left of the children of one
entry after the smallest ones were popped, so it has fewer than `s` entries, in
non-decreasing order, each at least as large as everything above it. -/
def groups_ok (s : Nat) : Nat → List (List Nat) → Prop
  | _, [] => True
  | U, G :: Gs =>
    G ≠ [] ∧ G.length + 1 ≤ s ∧ G.Sorted (· ≤ ·) ∧ (∀ z ∈ G, U ≤ z ∧ 1 ≤ z) ∧
      groups_ok s (U + G.sum) Gs

/-- Invariant of a stack of sizes `zs` (top first) of a traversal that pushes at most `s`
children per entry, smallest on top, with sizes adding up to at most the size of their
parent: the stack is a top group `T` followed by groups of siblings, and the sizes add up to
at most `n`. -/
def stack_inv (s n : Nat) (zs : List Nat) : Prop :=
  ∃ T Gs, zs = T ++ Gs.flatten ∧ (T = [] → Gs = []) ∧ T.length ≤ s ∧ T.Sorted (· ≤ ·) ∧
    (∀ z ∈ T, 1 ≤ z) ∧ groups_ok s T.sum Gs ∧ zs.sum ≤ n


/-! ### Leaves reached by left-extension from the first leaf -/

/-- The leaf that `first_leaf()` is taken to by the left-extensions spelled by `W`, the head
of `W` being the last extension: the range of `W·TERM` when `B` is a BWT. -/
def lf_leaf (B : List Sym) : List Sym → sa_leaf
  | [] => bwt_first_leaf B
  | c :: W =>
    ⟨⟨bwt_LF_pos B c (lf_leaf B W).rn.first, bwt_LF_pos B c (lf_leaf B W).rn.second⟩,
      (lf_leaf B W).depth + 1⟩

/-- The pair of leaves of `W` in two sequences. -/
def lf_leaf_pair (B1 B2 : List Sym) (W : List Sym) : sa_leaf × sa_leaf :=
  (lf_leaf B1 W, lf_leaf B2 W)

/-- Ghost description of a state of the first loop of the merger on arbitrary sequences: the
stack holds the leaves of the strings `Ws`, the strings `Vs` have been popped, no string
occurs twice, every string is a left-extension of a popped one, every entry is non-empty,
and `da_values` is the combined length of the popped leaves. -/
def leaf_trace_inv (B1 B2 : List Sym) (Vs Ws : List (List Sym)) (st : MLeafState) : Prop :=
  st.S = Ws.map (lf_leaf_pair B1 B2) ∧ (Vs ++ Ws).Nodup ∧
    (∀ W ∈ Vs ++ Ws, Sym.TERM ∉ W) ∧ (∀ c V, c :: V ∈ Vs ++ Ws → V ∈ Vs) ∧
    (∀ W ∈ Vs ++ Ws, 1 ≤ leaf_pair_len (lf_leaf_pair B1 B2 W)) ∧
    st.v.da_values = (Vs.map fun V => leaf_pair_len (lf_leaf_pair B1 B2 V)).sum ∧
    st.v.DA.length = B1.length + B2.length

/-! ## Loops -/

theorem run_loop_add {σ : Type} (step : σ → Option σ) (fin : σ → Bool) (k j : Nat) (s a : σ)
    (h : run_loop step fin k s = .done a) : run_loop step fin (k + j) s = .done a := by
  induction k generalizing s with
  | zero =>
    simp only [run_loop] at h
    by_cases hf : fin s = true
    · simp only [hf, if_true] at h
      cases j with
      | zero => simp [run_loop, hf, h]
      | succ j => simp [run_loop, hf, h]
    · simp [hf] at h
  | succ k ih =>
    rw [Nat.succ_add]
    simp only [run_loop] at h ⊢
    by_cases hf : fin s = true
    · simpa [hf] using h
    · simp only [hf] at h ⊢
      cases hs : step s with
      | none => simp [hs] at h
      | some s1 =>
        simp only [hs] at h ⊢
        exact ih s1 h

theorem run_loop_mono {σ : Type} (step : σ → Option σ) (fin : σ → Bool) (k k1 : Nat) (s a : σ)
    (h : run_loop step fin k s = .done a) (hk : k ≤ k1) : run_loop step fin k1 s = .done a := by
  obtain ⟨j, rfl⟩ := Nat.exists_eq_add_of_le hk
  exact run_loop_add step fin k j s a h

theorem run_loop_unique {σ : Type} (step : σ → Option σ) (fin : σ → Bool) (k k1 : Nat)
    (s a b : σ) (h : run_loop step fin k s = .done a) (h1 : run_loop step fin k1 s = .done b) :
    a = b := by
  have e1 := run_loop_mono step fin k (max k k1) s a h (le_max_left _ _)
  have e2 := run_loop_mono step fin k1 (max k k1) s b h1 (le_max_right _ _)
  rw [e1] at e2
  exact Outcome.done.inj e2

/-- Two loops whose bodies respect a relation finish in related states. -/
theorem run_loop_sim {σ τ : Type} (step : σ → Option σ) (fin : σ → Bool)
    (step1 : τ → Option τ) (fin1 : τ → Bool) (R : σ → τ → Prop)
    (hfin : ∀ s t, R s t → fin s = fin1 t)
    (hstep : ∀ s t s1, R s t → step s = some s1 → ∃ t1, step1 t = some t1 ∧ R s1 t1)
    (k : Nat) (s a : σ) (t : τ) (hR : R s t) (h : run_loop step fin k s = .done a) :
    ∃ b, run_loop step1 fin1 k t = .done b ∧ R a b := by
  induction k generalizing s t with
  | zero =>
    simp only [run_loop] at h ⊢
    by_cases hf : fin s = true
    · simp only [hf, if_true] at h
      cases h
      have hf1 : fin1 t = true := by rw [← hfin _ t hR]; exact hf
      exact ⟨t, by simp [hf1], hR⟩
    · simp [hf] at h
  | succ k ih =>
    simp only [run_loop] at h ⊢
    by_cases hf : fin s = true
    · simp only [hf, if_true] at h
      cases h
      have hf1 : fin1 t = true := by rw [← hfin _ t hR]; exact hf
      exact ⟨t, by simp [hf1], hR⟩
    · have hf1 : ¬ fin1 t = true := by rw [← hfin s t hR]; exact hf
      simp only [hf] at h
      simp only [hf1]
      cases hst : step s with
      | none => simp [hst] at h
      | some s1 =>
        simp only [hst] at h
        obtain ⟨t1, ht1, hR1⟩ := hstep s t s1 hR hst
        simp only [ht1]
        exact ih s1 t1 hR1 h

/-! ## Emission of the merged BWT -/

theorem count_false_add_count_true (DA : List Bool) :
    DA.count false + DA.count true = DA.length := by
  induction DA with
  | nil => rfl
  | cons d DA ih => cases d <;> simp [List.count_cons] <;> omega

theorem emit_loop_eq_weave {α : Type} (B1 B2 : List α) (DA : List Bool) (i r : Nat)
    (hr : r ≤ i) (h0 : DA.count false + (i - r) = B1.length)
    (h1 : DA.count true + r = B2.length) :
    emit_loop B1 B2 DA i r = some (weave DA (B1.drop (i - r)) (B2.drop r)) := by
  induction DA generalizing i r with
  | nil => simp [emit_loop, weave]
  | cons d DA ih =>
    cases d with
    | false =>
      simp only [List.count_cons, beq_self_eq_true, if_true,
        Bool.false_eq_true, if_false, Nat.add_zero, (by decide : (false == true) = false),
        (by decide : (true == false) = false)] at h0 h1
      have hlt : i - r < B1.length := by omega
      have hd : B1.drop (i - r) = B1[i - r] :: B1.drop (i - r + 1) :=
        List.drop_eq_getElem_cons hlt
      have hget : B1[i - r]? = some B1[i - r] := List.getElem?_eq_getElem hlt
      have hih := ih (i + 1) r (by omega) (by omega) (by omega)
      have e : i + 1 - r = i - r + 1 := by omega
      rw [e] at hih
      simp only [emit_loop, if_true, hget, b2n, Bool.false_eq_true, if_false, Nat.add_zero, hih,
        Option.map_some', hd, weave]
    | true =>
      simp only [List.count_cons, beq_self_eq_true, if_true,
        Bool.false_eq_true, if_false, Nat.add_zero, (by decide : (false == true) = false),
        (by decide : (true == false) = false)] at h0 h1
      have hlt : r < B2.length := by omega
      have hd : B2.drop r = B2[r] :: B2.drop (r + 1) := List.drop_eq_getElem_cons hlt
      have hget : B2[r]? = some B2[r] := List.getElem?_eq_getElem hlt
      have hih := ih (i + 1) (r + 1) (by omega) (by omega) (by omega)
      have e : i + 1 - (r + 1) = i - r := by omega
      rw [e] at hih
      simp only [emit_loop, hget, b2n, if_true, hih, Option.map_some', hd]
      cases hx : B1.drop (i - r) <;> simp [weave]

theorem weave_length {α : Type} (DA : List Bool) (xs ys : List α)
    (h0 : DA.count false = xs.length) (h1 : DA.count true = ys.length) :
    (weave DA xs ys).length = DA.length := by
  induction DA generalizing xs ys with
  | nil => simp [weave]
  | cons d DA ih =>
    cases d with
    | false =>
      cases xs with
      | nil => simp at h0
      | cons x xs =>
        simp only [List.count_cons, List.length_cons, beq_self_eq_true, if_true,
          Bool.false_eq_true, if_false, Nat.add_zero, (by decide : (false == true) = false),
          (by decide : (true == false) = false)] at h0 h1
        simp [weave, ih xs ys (by omega) h1]
    | true =>
      cases ys with
      | nil => simp at h1
      | cons y ys =>
        simp only [List.count_cons, List.length_cons, beq_self_eq_true, if_true,
          Bool.false_eq_true, if_false, Nat.add_zero, (by decide : (false == true) = false),
          (by decide : (true == false) = false)] at h0 h1
        cases xs <;> simp [weave, ih _ ys h0 (by omega)]

theorem weave_select {α : Type} (DA : List Bool) (xs ys : List α)
    (h0 : DA.count false = xs.length) (h1 : DA.count true = ys.length) :
    select_by false DA (weave DA xs ys) = xs ∧ select_by true DA (weave DA xs ys) = ys := by
  induction DA generalizing xs ys with
  | nil =>
    simp only [List.count_nil] at h0 h1
    have hx : xs = [] := List.length_eq_zero.mp h0.symm
    have hy : ys = [] := List.length_eq_zero.mp h1.symm
    subst hx; subst hy
    simp [weave, select_by]
  | cons d DA ih =>
    cases d with
    | false =>
      cases xs with
      | nil => simp at h0
      | cons x xs =>
        simp only [List.count_cons, List.length_cons, beq_self_eq_true, if_true,
          Bool.false_eq_true, if_false, Nat.add_zero, (by decide : (false == true) = false),
          (by decide : (true == false) = false)] at h0 h1
        have := ih xs ys (by omega) h1
        simp [weave, select_by, this.1, this.2]
    | true =>
      cases ys with
      | nil => simp at h1
      | cons y ys =>
        simp only [List.count_cons, List.length_cons, beq_self_eq_true, if_true,
          Bool.false_eq_true, if_false, Nat.add_zero, (by decide : (false == true) = false),
          (by decide : (true == false) = false)] at h0 h1
        have := ih xs ys h0 (by omega)
        cases xs <;> simp_all [weave, select_by]

theorem weave_count {α : Type} [DecidableEq α] (c : α) (DA : List Bool) (xs ys : List α)
    (h0 : DA.count false = xs.length) (h1 : DA.count true = ys.length) :
    (weave DA xs ys).count c = xs.count c + ys.count c := by
  induction DA generalizing xs ys with
  | nil =>
    simp only [List.count_nil] at h0 h1
    have hx : xs = [] := List.length_eq_zero.mp h0.symm
    have hy : ys = [] := List.length_eq_zero.mp h1.symm
    subst hx; subst hy
    simp [weave]
  | cons d DA ih =>
    cases d with
    | false =>
      cases xs with
      | nil => simp at h0
      | cons x xs =>
        simp only [List.count_cons, List.length_cons, beq_self_eq_true, if_true,
          Bool.false_eq_true, if_false, Nat.add_zero, (by decide : (false == true) = false),
          (by decide : (true == false) = false)] at h0 h1
        have := ih xs ys (by omega) h1
        simp only [weave, List.count_cons, this]
        omega
    | true =>
      cases ys with
      | nil => simp at h1
      | cons y ys =>
        simp only [List.count_cons, List.length_cons, beq_self_eq_true, if_true,
          Bool.false_eq_true, if_false, Nat.add_zero, (by decide : (false == true) = false),
          (by decide : (true == false) = false)] at h0 h1
        have := ih xs ys h0 (by omega)
        cases xs <;> simp only [weave, List.count_cons, this] <;> omega

theorem weave_get {α : Type} (DA : List Bool) (xs ys : List α)
    (h0 : DA.count false = xs.length) (h1 : DA.count true = ys.length) (i : Nat) (b : Bool)
    (hi : DA[i]? = some b) :
    (DA.take i).count b < (if b then ys.length else xs.length) ∧
    (weave DA xs ys)[i]? =
      if b then ys[(DA.take i).count true]? else xs[(DA.take i).count false]? := by
  induction DA generalizing xs ys i with
  | nil => simp at hi
  | cons d DA ih =>
    cases d with
    | false =>
      cases xs with
      | nil => simp at h0
      | cons x xs =>
        simp only [List.count_cons, List.length_cons, beq_self_eq_true, if_true,
          Bool.false_eq_true, if_false, Nat.add_zero, (by decide : (false == true) = false),
          (by decide : (true == false) = false)] at h0 h1
        cases i with
        | zero =>
          simp only [List.getElem?_cons_zero, Option.some.injEq] at hi
          subst hi
          simp [weave]
        | succ i =>
          simp only [List.getElem?_cons_succ] at hi
          obtain ⟨a1, a3⟩ := ih xs ys (by omega) h1 i hi
          cases b
          · simp only [Bool.false_eq_true, if_false] at a1 a3 ⊢
            simp only [weave, List.take_succ_cons, List.count_cons, beq_self_eq_true, if_true,
              List.length_cons, List.getElem?_cons_succ, a3]
            exact ⟨by omega, trivial⟩
          · simp only [if_true] at a1 a3 ⊢
            simp only [weave, List.take_succ_cons, List.count_cons,
              (by decide : (false == true) = false), Bool.false_eq_true, if_false, Nat.add_zero,
              List.getElem?_cons_succ, a3]
            exact ⟨a1, trivial⟩
    | true =>
      cases ys with
      | nil => simp at h1
      | cons y ys =>
        simp only [List.count_cons, List.length_cons, beq_self_eq_true, if_true,
          Bool.false_eq_true, if_false, Nat.add_zero, (by decide : (false == true) = false),
          (by decide : (true == false) = false)] at h0 h1
        have hw : weave (true :: DA) xs (y :: ys) = y :: weave DA xs ys := by
          cases xs <;> simp [weave]
        cases i with
        | zero =>
          simp only [List.getElem?_cons_zero, Option.some.injEq] at hi
          subst hi
          simp [hw]
        | succ i =>
          simp only [List.getElem?_cons_succ] at hi
          obtain ⟨a1, a3⟩ := ih xs ys h0 (by omega) i hi
          rw [hw]
          cases b
          · simp only [Bool.false_eq_true, if_false] at a1 a3 ⊢
            simp only [List.take_succ_cons, List.count_cons,
              (by decide : (true == false) = false), Bool.false_eq_true, if_false, Nat.add_zero,
              List.getElem?_cons_succ, a3]
            exact ⟨a1, trivial⟩
          · simp only [if_true] at a1 a3 ⊢
            simp only [List.take_succ_cons, List.count_cons, beq_self_eq_true, if_true,
              List.length_cons, List.getElem?_cons_succ, a3]
            exact ⟨by omega, trivial⟩

theorem count_take_split (DA : List Bool) (i : Nat) (hi : i ≤ DA.length) :
    (DA.take i).count false + (DA.take i).count true = i := by
  have := count_false_add_count_true (DA.take i)
  rw [List.length_take] at this
  omega

/-- The merged BWT written by `save_to_file` is the interleaving of `bwt1` and `bwt2`
directed by `DA`. -/
theorem save_bwt_eq_weave {α : Type} (B1 B2 : List α) (DA : List Bool)
    (hlen : DA.length = B1.length + B2.length) (hones : DA.count true = B2.length) :
    save_bwt B1 B2 DA = some (weave DA B1 B2) := by
  have h := count_false_add_count_true DA
  have := emit_loop_eq_weave B1 B2 DA 0 0 (le_refl _) (by omega) (by omega)
  simpa [save_bwt] using this

/-! ## Entry 0 of the LCP vector -/

theorem update_lcp_some (w : Nat) (x : sa_node) (L : List Nat) (v : Nat) (r : List Nat × Nat)
    (h : update_lcp w x L v = some r) :
    (x.first_A ≥ x.first_TERM ∧ x.first_C ≥ x.first_A ∧ x.first_G ≥ x.first_C ∧
      x.first_T ≥ x.first_G ∧ number_of_children x ≥ 2) ∧
    ∃ s1 s2 s3,
      lcp_border w (has_child_TERM x && decide (x.first_A ≠ x.last)) x.first_A x.depth (L, v)
        = some s1 ∧
      lcp_border w (has_child_A x && decide (x.first_C ≠ x.last)) x.first_C x.depth s1
        = some s2 ∧
      lcp_border w (has_child_C x && decide (x.first_G ≠ x.last)) x.first_G x.depth s2
        = some s3 ∧
      lcp_border w (has_child_G x && decide (x.first_T ≠ x.last)) x.first_T x.depth s3
        = some r := by
  unfold update_lcp at h
  split at h
  · rename_i hc
    refine ⟨hc, ?_⟩
    obtain ⟨s1, e1, h⟩ := Option.bind_eq_some.mp h
    obtain ⟨s2, e2, h⟩ := Option.bind_eq_some.mp h
    obtain ⟨s3, e3, h⟩ := Option.bind_eq_some.mp h
    exact ⟨s1, s2, s3, e1, e2, e3, h⟩
  · cases h

theorem find_leaf_lcp (w n : Nat) (r1 r2 : range_t) (v v1 : MergeVars)
    (h : find_leaf w n r1 r2 v = some v1) : v1.LCP = v.LCP ∧ v1.lcp_values = v.lcp_values := by
  unfold find_leaf at h
  split at h
  · split at h
    · split at h
      · cases h; exact ⟨rfl, rfl⟩
      · cases h
    · cases h; exact ⟨rfl, rfl⟩
  · cases h

theorem lcp_build_done (w fuel : Nat) (B : List Sym) (L : List Nat) :
    lcp_build w fuel B = .done L ↔
    ∃ s0 s1 s2, lcp_init w B = some s0 ∧
      run_loop (lcp_leaf_step w B) (fun s => s.S.isEmpty) fuel s0 = .done s1 ∧
      run_loop (lcp_node_step w B) (fun s => s.S.isEmpty) fuel
        { S := [bwt_root B], LCP := s1.LCP, lcp_values := s1.lcp_values } = .done s2 ∧
      s2.LCP = L := by
  unfold lcp_build lcp_pass1 lcp_pass2
  constructor
  · intro h
    cases h0 : lcp_init w B with
    | none => simp [h0] at h
    | some s0 =>
      simp only [h0] at h
      cases h1 : run_loop (lcp_leaf_step w B) (fun s => s.S.isEmpty) fuel s0 with
      | done s1 =>
        simp only [h1] at h
        cases h2 : run_loop (lcp_node_step w B) (fun s => s.S.isEmpty) fuel
            { S := [bwt_root B], LCP := s1.LCP, lcp_values := s1.lcp_values } with
        | done s2 =>
          simp only [h2, Outcome.done.injEq] at h
          exact ⟨s0, s1, s2, rfl, h1, h2, h⟩
        | aborted => simp [h2] at h
        | out_of_fuel => simp [h2] at h
      | aborted => simp [h1] at h
      | out_of_fuel => simp [h1] at h
  · rintro ⟨s0, s1, s2, h0, h1, h2, rfl⟩
    simp [h0, h1, h2]

theorem merge_build_done (w fuel : Nat) (B1 B2 : List Sym) (c : Bool) (v : MergeVars) :
    merge_build w fuel B1 B2 c = .done v ↔
    ∃ s0 s1, merge_init w B1 B2 c = some s0 ∧
      run_loop (merge_leaf_step w B1 B2 c) (fun s => s.S.isEmpty) fuel s0 = .done s1 ∧
      ((c = false ∧ v = s1.v) ∨
       (c = true ∧ ∃ s2, run_loop (merge_node_step w B1 B2) (fun s => s.S.isEmpty) fuel
          { S := [(bwt_root B1, bwt_root B2)], v := s1.v } = .done s2 ∧ v = s2.v)) := by
  unfold merge_build merge_pass1 merge_pass2
  constructor
  · intro h
    cases h0 : merge_init w B1 B2 c with
    | none => simp [h0] at h
    | some s0 =>
      simp only [h0] at h
      cases h1 : run_loop (merge_leaf_step w B1 B2 c) (fun s => s.S.isEmpty) fuel s0 with
      | done s1 =>
        simp only [h1] at h
        cases c with
        | false =>
          simp only [Bool.false_eq_true, if_false, Outcome.done.injEq] at h
          exact ⟨s0, s1, rfl, h1, Or.inl ⟨rfl, h.symm⟩⟩
        | true =>
          simp only [if_true] at h
          cases h2 : run_loop (merge_node_step w B1 B2) (fun s => s.S.isEmpty) fuel
              { S := [(bwt_root B1, bwt_root B2)], v := s1.v } with
          | done s2 =>
            simp only [h2, Outcome.done.injEq] at h
            exact ⟨s0, s1, rfl, h1, Or.inr ⟨rfl, s2, h2, h.symm⟩⟩
          | aborted => simp [h2] at h
          | out_of_fuel => simp [h2] at h
      | aborted => simp [h1] at h
      | out_of_fuel => simp [h1] at h
  · rintro ⟨s0, s1, h0, h1, h | h⟩
    · obtain ⟨rfl, rfl⟩ := h
      simp [h0, h1]
    · obtain ⟨rfl, s2, h2, rfl⟩ := h
      simp [h0, h1, h2]

theorem lcp_build_mono (w k k1 : Nat) (B : List Sym) (L : List Nat)
    (h : lcp_build w k B = .done L) (hk : k ≤ k1) : lcp_build w k1 B = .done L := by
  rw [lcp_build_done] at h ⊢
  obtain ⟨s0, s1, s2, h0, h1, h2, h3⟩ := h
  exact ⟨s0, s1, s2, h0, run_loop_mono _ _ k k1 _ _ h1 hk, run_loop_mono _ _ k k1 _ _ h2 hk, h3⟩

theorem merge_build_mono (w k k1 : Nat) (B1 B2 : List Sym) (c : Bool) (v : MergeVars)
    (h : merge_build w k B1 B2 c = .done v) (hk : k ≤ k1) :
    merge_build w k1 B1 B2 c = .done v := by
  rw [merge_build_done] at h ⊢
  obtain ⟨s0, s1, h0, h1, h2⟩ := h
  refine ⟨s0, s1, h0, run_loop_mono _ _ k k1 _ _ h1 hk, ?_⟩
  rcases h2 with h2 | ⟨hc, s2, h2, hv⟩
  · exact Or.inl h2
  · exact Or.inr ⟨hc, s2, run_loop_mono _ _ k k1 _ _ h2 hk, hv⟩

theorem nil_mod (w : Nat) (hw : w ≤ 8) : nil 8 % 2 ^ (8 * w) = nil w := by
  unfold nil
  interval_cases w <;> norm_num

theorem pow_width_dvd (w : Nat) (hw : w ≤ 8) : 2 ^ (8 * w) ∣ 2 ^ (8 * 8) :=
  Nat.pow_dvd_pow 2 (by omega)

theorem write_nil_trunc (w : Nat) (hw : w ≤ 8) (L L1 : List Nat) (i d : Nat)
    (h : write_nil 8 L i d = some L1) :
    write_nil w (L.map (· % 2 ^ (8 * w))) i d = some (L1.map (· % 2 ^ (8 * w))) := by
  unfold write_nil at h ⊢
  split at h
  · rename_i hL
    cases h
    have : (L.map (· % 2 ^ (8 * w)))[i]? = some (nil w) := by
      rw [List.getElem?_map, hL]
      simp [nil_mod w hw]
    rw [if_pos this, List.map_set]
    congr 2
    exact (Nat.mod_mod_of_dvd d (pow_width_dvd w hw)).symm
  · cases h

theorem fill_nil_trunc (w : Nat) (hw : w ≤ 8) (d len start : Nat) (L L1 : List Nat)
    (h : fill_nil 8 d start len L = some L1) :
    fill_nil w d start len (L.map (· % 2 ^ (8 * w))) = some (L1.map (· % 2 ^ (8 * w))) := by
  induction len generalizing start L with
  | zero =>
    simp only [fill_nil] at h ⊢
    cases h; rfl
  | succ len ih =>
    simp only [fill_nil] at h ⊢
    cases hw1 : write_nil 8 L start d with
    | none => simp [hw1] at h
    | some L2 =>
      simp only [hw1] at h
      rw [write_nil_trunc w hw L L2 start d hw1]
      exact ih (start + 1) L2 h

theorem lcp_border_trunc (w : Nat) (hw : w ≤ 8) (c : Bool) (i d : Nat) (s s1 : List Nat × Nat)
    (h : lcp_border 8 c i d s = some s1) :
    lcp_border w c i d (s.1.map (· % 2 ^ (8 * w)), s.2) =
      some (s1.1.map (· % 2 ^ (8 * w)), s1.2) := by
  unfold lcp_border at h ⊢
  cases c with
  | false =>
    simp only [Bool.false_eq_true, if_false] at h ⊢
    cases h; rfl
  | true =>
    simp only [if_true] at h ⊢
    cases hw1 : write_nil 8 s.1 i d with
    | none => simp [hw1] at h
    | some L2 =>
      simp only [hw1] at h
      cases h
      simp only [write_nil_trunc w hw s.1 L2 i d hw1]

theorem update_lcp_trunc (w : Nat) (hw : w ≤ 8) (x : sa_node) (L : List Nat) (v : Nat)
    (r : List Nat × Nat) (h : update_lcp 8 x L v = some r) :
    update_lcp w x (L.map (· % 2 ^ (8 * w))) v = some (r.1.map (· % 2 ^ (8 * w)), r.2) := by
  obtain ⟨hc, s1, s2, s3, e1, e2, e3, e4⟩ := update_lcp_some 8 x L v r h
  unfold update_lcp
  rw [if_pos hc]
  have f1 := lcp_border_trunc w hw _ _ _ _ _ e1
  have f2 := lcp_border_trunc w hw _ _ _ _ _ e2
  have f3 := lcp_border_trunc w hw _ _ _ _ _ e3
  have f4 := lcp_border_trunc w hw _ _ _ _ _ e4
  simp only at f1
  rw [f1, Option.some_bind, f2, Option.some_bind, f3, Option.some_bind, f4]

theorem lcp_leaf_step_trunc (w : Nat) (hw : w ≤ 8) (B : List Sym) (s8 sw s8a : LeafState)
    (hR : leaf_trunc w s8 sw) (h : lcp_leaf_step 8 B s8 = some s8a) :
    ∃ swa, lcp_leaf_step w B sw = some swa ∧ leaf_trunc w s8a swa := by
  obtain ⟨hS, hm, hv, hL⟩ := hR
  unfold lcp_leaf_step at h ⊢
  rw [hS, hm, hv, hL]
  split at h
  · cases h
  · rename_i L rest hSt
    split at h
    · rename_i hlt
      rw [if_pos hlt]
      split at h
      · cases h
      · rename_i LCP1 hfill
        rw [fill_nil_trunc w hw _ _ _ _ _ hfill]
        simp only
        split at h
        · rename_i hm1
          rw [if_pos hm1]
          split at h
          · cases h
          · rename_i TMP hT
            cases h
            exact ⟨_, rfl, rfl, rfl, rfl, rfl⟩
        · cases h
    · cases h

theorem lcp_node_step_trunc (w : Nat) (hw : w ≤ 8) (B : List Sym) (s8 sw s8a : NodeState)
    (hR : node_trunc w s8 sw) (h : lcp_node_step 8 B s8 = some s8a) :
    ∃ swa, lcp_node_step w B sw = some swa ∧ node_trunc w s8a swa := by
  obtain ⟨hS, hv, hL⟩ := hR
  unfold lcp_node_step at h ⊢
  rw [hS, hv, hL]
  split at h
  · cases h
  · rename_i x rest hSt
    split at h
    · cases h
    · rename_i LCP1 v1 hu
      cases h
      rw [update_lcp_trunc w hw _ _ _ _ hu]
      exact ⟨_, rfl, rfl, rfl, rfl⟩

theorem lcp_build_trunc (w : Nat) (hw : w ≤ 8) (fuel : Nat) (B : List Sym) (L8 : List Nat)
    (h : lcp_build 8 fuel B = .done L8) :
    lcp_build w fuel B = .done (L8.map (· % 2 ^ (8 * w))) := by
  rw [lcp_build_done] at h ⊢
  obtain ⟨s0, s1, s2, h0, h1, h2, h3⟩ := h
  have hn : B.length ≠ 0 := by
    intro hn
    simp [lcp_init, hn] at h0
  have h0w : lcp_init w B = some
      { S := [bwt_first_leaf B], LCP := (List.replicate B.length (nil w)).set 0 0, m := 0,
        lcp_values := 1 } := by
    simp [lcp_init, hn]
  have hR0 : leaf_trunc w s0
      { S := [bwt_first_leaf B], LCP := (List.replicate B.length (nil w)).set 0 0, m := 0,
        lcp_values := 1 } := by
    simp only [lcp_init, hn, if_false, Option.some.injEq] at h0
    subst h0
    refine ⟨rfl, rfl, rfl, ?_⟩
    simp only [List.map_set, List.map_replicate, nil_mod w hw, Nat.zero_mod]
  obtain ⟨t1, ht1, hR1⟩ := run_loop_sim (lcp_leaf_step 8 B) (fun s => s.S.isEmpty)
    (lcp_leaf_step w B) (fun s => s.S.isEmpty) (leaf_trunc w)
    (fun s t hR => by show s.S.isEmpty = t.S.isEmpty; rw [hR.1])
    (fun s t s1 hR hs => lcp_leaf_step_trunc w hw B s t s1 hR hs) fuel s0 s1 _ hR0 h1
  obtain ⟨hS1, hm1, hv1, hL1⟩ := hR1
  obtain ⟨t2, ht2, hR2⟩ := run_loop_sim (lcp_node_step 8 B) (fun s => s.S.isEmpty)
    (lcp_node_step w B) (fun s => s.S.isEmpty) (node_trunc w)
    (fun s t hR => by show s.S.isEmpty = t.S.isEmpty; rw [hR.1])
    (fun s t s1 hR hs => lcp_node_step_trunc w hw B s t s1 hR hs) fuel
    { S := [bwt_root B], LCP := s1.LCP, lcp_values := s1.lcp_values } s2
    { S := [bwt_root B], LCP := t1.LCP, lcp_values := t1.lcp_values }
    ⟨rfl, hv1, hL1⟩ h2
  exact ⟨_, t1, t2, h0w, ht1, ht2, by rw [hR2.2.2, h3]⟩

/-! ## Lexicographic order, common prefixes and counting in sorted lists -/

theorem cons_lt_cons_iff (a b : Nat) (x y : List Nat) :
    (a :: x) < (b :: y) ↔ a < b ∨ (a = b ∧ x < y) := by
  constructor
  · intro h
    cases h with
    | cons h => exact Or.inr ⟨rfl, h⟩
    | rel h => exact Or.inl h
  · rintro (h | ⟨rfl, h⟩)
    · exact List.Lex.rel h
    · exact List.Lex.cons h

theorem not_lt_nil (x : List Nat) : ¬ x < [] := List.Lex.not_nil_right _ _

theorem append_lt_append_iff (W x y : List Nat) : W ++ x < W ++ y ↔ x < y := by
  induction W with
  | nil => simp
  | cons c W ih =>
    simp only [List.cons_append, cons_lt_cons_iff, lt_irrefl, false_or, true_and, ih]

theorem append_le_append_iff (W x y : List Nat) : W ++ x ≤ W ++ y ↔ x ≤ y := by
  rw [← not_lt, ← not_lt, append_lt_append_iff]

/-- A string between `W.a` and `W.b` is `W` followed by a symbol in `[a, b)`. -/
theorem between_prefix (W : List Nat) (a b : Nat) (s : List Nat) (h1 : W ++ [a] ≤ s)
    (h2 : s < W ++ [b]) : ∃ x r, s = W ++ x :: r ∧ a ≤ x ∧ x < b := by
  induction W generalizing s with
  | nil =>
    cases s with
    | nil =>
      exact absurd (List.nil_lt_cons a []) (not_lt.mpr h1)
    | cons x r =>
      simp only [List.nil_append] at h1 h2 ⊢
      rw [cons_lt_cons_iff] at h2
      rw [← not_lt, cons_lt_cons_iff] at h1
      refine ⟨x, r, rfl, ?_, ?_⟩
      · by_contra hx
        exact h1 (Or.inl (by omega))
      · rcases h2 with h2 | ⟨_, h2⟩
        · exact h2
        · exact absurd h2 (not_lt_nil r)
  | cons c W ih =>
    cases s with
    | nil =>
      exact absurd (List.nil_lt_cons c _) (not_lt.mpr h1)
    | cons d s =>
      simp only [List.cons_append] at h1 h2 ⊢
      rw [cons_lt_cons_iff] at h2
      rw [← not_lt, cons_lt_cons_iff] at h1
      have hd : d = c := by
        rcases h2 with h2 | ⟨h2, _⟩
        · by_contra hne
          exact h1 (Or.inl (by omega))
        · exact h2
      subst hd
      have h2' : s < W ++ [b] := by
        rcases h2 with h2 | ⟨_, h2⟩
        · exact absurd h2 (lt_irrefl _)
        · exact h2
      have h1' : W ++ [a] ≤ s := by
        rw [← not_lt]
        intro hlt
        exact h1 (Or.inr ⟨rfl, hlt⟩)
      obtain ⟨x, r, hs, hx⟩ := ih s h1' h2'
      exact ⟨x, r, by rw [hs], hx⟩

theorem prefix_lt (W : List Nat) (x b : Nat) (r : List Nat) (h : x < b) :
    W ++ x :: r < W ++ [b] := by
  rw [append_lt_append_iff, cons_lt_cons_iff]
  exact Or.inl h

theorem prefix_ge (W : List Nat) (x a : Nat) (r : List Nat) (h : a ≤ x) :
    W ++ [a] ≤ W ++ x :: r := by
  rw [append_le_append_iff, ← not_lt, cons_lt_cons_iff]
  rintro (h1 | ⟨_, h1⟩)
  · omega
  · exact not_lt_nil _ h1

theorem lcp_len_self (s : List Nat) : lcp_len s s = s.length := by
  induction s with
  | nil => rfl
  | cons a s ih => simp [lcp_len, ih]

theorem lcp_len_branch (W : List Nat) (x y : Nat) (r1 r2 : List Nat) (h : x ≠ y) :
    lcp_len (W ++ x :: r1) (W ++ y :: r2) = W.length := by
  induction W with
  | nil => simp [lcp_len, h]
  | cons c W ih => simp [lcp_len, ih]

theorem lcp_len_le_left (s t : List Nat) : lcp_len s t ≤ s.length := by
  induction s generalizing t with
  | nil => simp [lcp_len]
  | cons a s ih =>
    cases t with
    | nil => simp [lcp_len]
    | cons b t =>
      simp only [lcp_len]
      split
      · simp only [List.length_cons]
        have := ih t
        omega
      · omega

/-- Two different strings split as a common prefix followed by different symbols, unless
one is a prefix of the other. -/
theorem lcp_len_split (s t : List Nat) (h : s < t) :
    (∃ r, t = s ++ r ∧ r ≠ []) ∨
    ∃ W x y r1 r2, s = W ++ x :: r1 ∧ t = W ++ y :: r2 ∧ x < y := by
  induction s generalizing t with
  | nil =>
    cases t with
    | nil => exact absurd h (lt_irrefl _)
    | cons b t => exact Or.inl ⟨b :: t, rfl, by simp⟩
  | cons a s ih =>
    cases t with
    | nil => exact absurd h (not_lt_nil _)
    | cons b t =>
      rw [cons_lt_cons_iff] at h
      rcases h with h | ⟨rfl, h⟩
      · exact Or.inr ⟨[], a, b, s, t, rfl, rfl, h⟩
      · rcases ih t h with ⟨r, ht, hr⟩ | ⟨W, x, y, r1, r2, hs, ht, hxy⟩
        · exact Or.inl ⟨r, by rw [ht]; rfl, hr⟩
        · exact Or.inr ⟨a :: W, x, y, r1, r2, by rw [hs]; rfl, by rw [ht]; rfl, hxy⟩

/-! ### Counting below a string in a sorted list -/

theorem cnt_lt_mono (S : List (List Nat)) (X Y : List Nat) (h : X ≤ Y) :
    cnt_lt S X ≤ cnt_lt S Y := by
  unfold cnt_lt
  apply List.countP_mono_left
  intro s _ hs
  simp only [decide_eq_true_eq] at hs ⊢
  exact lt_of_lt_of_le hs h

theorem cnt_lt_le_length (S : List (List Nat)) (X : List Nat) : cnt_lt S X ≤ S.length :=
  List.countP_le_length _

theorem cnt_lt_cons (a : List Nat) (S : List (List Nat)) (X : List Nat) :
    cnt_lt (a :: S) X = cnt_lt S X + if a < X then 1 else 0 := by
  unfold cnt_lt
  rw [List.countP_cons]
  simp

theorem cnt_lt_eq_zero (S : List (List Nat)) (X : List Nat) (h : ∀ s ∈ S, X ≤ s) :
    cnt_lt S X = 0 := by
  unfold cnt_lt
  rw [List.countP_eq_zero]
  intro s hs
  simp only [decide_eq_true_eq, not_lt]
  exact h s hs

/-- In a sorted list the strings below `X` are exactly the first `cnt_lt S X` entries. -/
theorem sorted_lt_iff (S : List (List Nat)) (hS : S.Sorted (· ≤ ·)) (X : List Nat) (i : Nat)
    (s : List Nat) (hi : S[i]? = some s) : s < X ↔ i < cnt_lt S X := by
  induction S generalizing i with
  | nil => simp at hi
  | cons a S ih =>
    rw [List.sorted_cons] at hS
    rw [cnt_lt_cons]
    cases i with
    | zero =>
      simp only [List.getElem?_cons_zero, Option.some.injEq] at hi
      subst hi
      constructor
      · intro h
        rw [if_pos h]
        omega
      · intro h
        by_contra hn
        rw [if_neg hn, cnt_lt_eq_zero S X (fun s hs => le_trans (not_lt.mp hn) (hS.1 s hs))] at h
        omega
    | succ i =>
      simp only [List.getElem?_cons_succ] at hi
      have hmem : s ∈ S := List.getElem?_mem hi
      by_cases ha : a < X
      · rw [if_pos ha, ih hS.2 i hi]
        omega
      · rw [if_neg ha, cnt_lt_eq_zero S X (fun s hs => le_trans (not_lt.mp ha) (hS.1 s hs))]
        have : ¬ s < X := not_lt.mpr (le_trans (not_lt.mp ha) (hS.1 s hmem))
        simp [this]

theorem sorted_ge_iff (S : List (List Nat)) (hS : S.Sorted (· ≤ ·)) (X : List Nat) (i : Nat)
    (s : List Nat) (hi : S[i]? = some s) : X ≤ s ↔ cnt_lt S X ≤ i := by
  rw [← not_lt, sorted_lt_iff S hS X i s hi]
  omega

/-- The strings below `X` form the prefix of length `cnt_lt` of a sorted arrangement. -/
theorem sorted_take_filter (P : List (Sym × List Nat)) (hS : (P.map Prod.snd).Sorted (· ≤ ·))
    (X : List Nat) :
    P.take (cnt_lt (P.map Prod.snd) X) = P.filter (fun p => decide (p.2 < X)) := by
  induction P with
  | nil => simp [cnt_lt]
  | cons p P ih =>
    simp only [List.map_cons] at hS ⊢
    rw [List.sorted_cons] at hS
    rw [cnt_lt_cons]
    by_cases hp : p.2 < X
    · rw [if_pos hp, List.take_succ_cons, ih hS.2, List.filter_cons_of_pos (by simpa using hp)]
    · have hz : cnt_lt (P.map Prod.snd) X = 0 :=
        cnt_lt_eq_zero _ X (fun s hs => le_trans (not_lt.mp hp) (hS.1 s hs))
      rw [if_neg hp, hz, List.take_zero, List.filter_cons_of_neg (by simpa using hp)]
      symm
      rw [List.filter_eq_nil_iff]
      intro q hq
      have : X ≤ q.2 := le_trans (not_lt.mp hp) (hS.1 q.2 (List.mem_map_of_mem _ hq))
      simpa using this

/-! ## Suffix-sorted arrangements of a read collection -/

theorem countP_add_pointwise {α : Type} (p q r t : α → Bool) (l : List α)
    (h : ∀ x ∈ l, (if p x then 1 else 0) + (if q x then 1 else 0) =
      (if r x then 1 else 0) + (if t x then 1 else 0)) :
    l.countP p + l.countP q = l.countP r + l.countP t := by
  induction l with
  | nil => simp
  | cons a l ih =>
    simp only [List.countP_cons]
    have h1 := h a (List.mem_cons_self a l)
    have h2 := ih (fun x hx => h x (List.mem_cons_of_mem a hx))
    omega

theorem code_inj (a b : Sym) (h : a.code = b.code) : a = b := by
  cases a <;> cases b <;> simp [Sym.code] at h ⊢

theorem code_le_five (a : Sym) : a.code ≤ 5 := by
  cases a <;> simp [Sym.code]

theorem suffix_pairs_closed (r : List Sym) (hr : dna_read r) (q : List Nat → Bool) :
    (suffix_pairs r).countP (fun p => decide (p.1 = Sym.TERM) && q [0]) = 0 ∧
    ((suffix_pairs r).map Prod.snd).countP q + (if q (r.map Sym.code ++ [0]) then 1 else 0) =
      (if q [0] then 1 else 0) +
      (suffix_pairs r).countP (fun p => decide (p.1 ≠ Sym.TERM) && q (p.1.code :: p.2)) := by
  induction r with
  | nil => simp [suffix_pairs]
  | cons c r ih =>
    have hc : c ≠ Sym.TERM := by
      rcases hr c (List.mem_cons_self c r) with h | h | h | h <;> rw [h] <;> decide
    obtain ⟨ih1, ih2⟩ := ih (fun x hx => hr x (List.mem_cons_of_mem c hx))
    simp only [suffix_pairs, List.countP_cons, List.map_cons, List.cons_append, ih1, hc,
      decide_False, Bool.false_and, Bool.false_eq_true, if_false, ne_eq, not_false_eq_true,
      decide_True, Bool.true_and]
    refine ⟨trivial, ?_⟩
    simp only [ne_eq] at ih2
    omega

theorem collection_pairs_closed (reads : List (List Sym)) (hr : ∀ r ∈ reads, dna_read r) :
    closed_arrangement (collection_pairs reads) := by
  intro q
  induction reads with
  | nil => simp [collection_pairs]
  | cons r rs ih =>
    obtain ⟨h1, h2⟩ := suffix_pairs_closed r (hr r (List.mem_cons_self r rs)) q
    have ih' := ih (fun x hx => hr x (List.mem_cons_of_mem r hx))
    simp only [collection_pairs, read_pairs, List.cons_append, List.map_cons, List.map_append,
      List.countP_cons, List.countP_append, h1, decide_True, Bool.true_and, ne_eq,
      not_true_eq_false, decide_False, Bool.false_and, Bool.false_eq_true, if_false]
    simp only [ne_eq] at h2 ih'
    omega

theorem closed_arrangement_perm (P Q : List (Sym × List Nat)) (h : P.Perm Q)
    (hQ : closed_arrangement Q) : closed_arrangement P := by
  intro q
  rw [(h.map Prod.snd).countP_eq, h.countP_eq, h.countP_eq]
  exact hQ q

theorem suffix_pairs_term (r : List Sym) (hr : dna_read r) :
    ∀ p ∈ suffix_pairs r, p.1 ≠ Sym.N ∧ ∃ W, p.2 = W ++ [0] ∧ dna_string W := by
  induction r with
  | nil => simp [suffix_pairs]
  | cons c r ih =>
    have hr' : dna_read r := fun x hx => hr x (List.mem_cons_of_mem c hx)
    intro p hp
    simp only [suffix_pairs, List.mem_cons] at hp
    rcases hp with rfl | hp
    · refine ⟨?_, r.map Sym.code, rfl, ?_⟩
      · rcases hr c (List.mem_cons_self c r) with h | h | h | h <;> rw [h] <;> simp
      · intro x hx
        obtain ⟨y, hy, rfl⟩ := List.mem_map.mp hx
        rcases hr' y hy with h | h | h | h <;> rw [h] <;> simp [Sym.code]
    · exact ih hr' p hp

theorem collection_pairs_term (reads : List (List Sym)) (hr : ∀ r ∈ reads, dna_read r) :
    ∀ p ∈ collection_pairs reads, p.1 ≠ Sym.N ∧ ∃ W, p.2 = W ++ [0] ∧ dna_string W := by
  induction reads with
  | nil => simp [collection_pairs]
  | cons r rs ih =>
    have hr0 := hr r (List.mem_cons_self r rs)
    intro p hp
    simp only [collection_pairs, read_pairs, List.cons_append, List.mem_cons,
      List.mem_append] at hp
    rcases hp with rfl | hp | hp
    · refine ⟨by simp, r.map Sym.code, rfl, ?_⟩
      intro x hx
      obtain ⟨y, hy, rfl⟩ := List.mem_map.mp hx
      rcases hr0 y hy with h | h | h | h <;> rw [h] <;> simp [Sym.code]
    · exact suffix_pairs_term r hr0 p hp
    · exact ih (fun x hx => hr x (List.mem_cons_of_mem r hx)) p hp

/-- The sorted suffixes of a collection of DNA reads form a suffix collection. -/
theorem arrangement_suffix_collection (reads : List (List Sym)) (hr : ∀ r ∈ reads, dna_read r)
    (P : List (Sym × List Nat)) (hP : sorted_arrangement reads P) :
    suffix_collection (P.map Prod.snd) := by
  have hcl := closed_arrangement_perm P _ hP.1 (collection_pairs_closed reads hr)
  refine ⟨hP.2, ?_, ?_⟩
  · intro s hs
    obtain ⟨p, hp, rfl⟩ := List.mem_map.mp hs
    exact (collection_pairs_term reads hr p (hP.1.mem_iff.mp hp)).2
  · intro c s hc
    rw [List.count_eq_countP, List.count_eq_countP, hcl, List.countP_map]
    have h0 : P.countP (fun p => decide (p.1 = Sym.TERM) && ([0] == c :: s)) = 0 := by
      rw [List.countP_eq_zero]
      intro p _
      have : ¬ (0 = c) := fun h => hc h.symm
      simp [this]
    rw [h0, Nat.zero_add]
    apply List.countP_mono_left
    intro p _ hp
    simp only [ne_eq, Bool.and_eq_true, decide_eq_true_eq, beq_iff_eq, List.cons.injEq,
      Function.comp_apply] at hp ⊢
    exact hp.2.2

/-- The start of the first-symbol block of rank `k` is the number of BWT symbols of smaller
rank. -/
theorem cnt_lt_singleton (P : List (Sym × List Nat)) (hcl : closed_arrangement P) (k : Nat) :
    cnt_lt (P.map Prod.snd) [k] = P.countP (fun p => decide (p.1.code < k)) := by
  unfold cnt_lt
  rw [hcl]
  have := countP_add_pointwise
    (fun p : Sym × List Nat => decide (p.1 = Sym.TERM) && decide ([0] < [k]))
    (fun p => decide (p.1 ≠ Sym.TERM) && decide (p.1.code :: p.2 < [k]))
    (fun p => decide (p.1.code < k)) (fun _ => false) P (by
      intro p _
      simp only [cons_lt_cons_iff, lt_irrefl, and_false, or_false, not_lt_nil]
      by_cases hp : p.1 = Sym.TERM
      · simp [hp, Sym.code]
      · simp [hp])
  simpa using this

/-- The LF step: the number of suffixes below `c.X` is `C[c] + rank(c, number of suffixes
below X)`. -/
theorem LF_cnt_lt (P : List (Sym × List Nat)) (hcl : closed_arrangement P)
    (hS : (P.map Prod.snd).Sorted (· ≤ ·)) (c : Sym) (hc : c ≠ Sym.TERM) (X : List Nat) :
    bwt_LF_pos (P.map Prod.fst) c (cnt_lt (P.map Prod.snd) X) =
      cnt_lt (P.map Prod.snd) (c.code :: X) := by
  have hrank : bwt_rank (P.map Prod.fst) c (cnt_lt (P.map Prod.snd) X) =
      P.countP (fun p => decide (p.1 = c) && decide (p.2 < X)) := by
    unfold bwt_rank
    rw [← List.map_take, sorted_take_filter P hS X, List.count_eq_countP, List.countP_map,
      List.countP_filter]
    congr 1
  have hC : bwt_C (P.map Prod.fst) c = P.countP (fun p => decide (p.1.code < c.code)) := by
    unfold bwt_C
    rw [List.countP_map]
    rfl
  have hcpos : 0 < c.code := by
    cases c <;> simp [Sym.code] at hc ⊢
  unfold bwt_LF_pos
  rw [hrank, hC]
  conv_rhs => unfold cnt_lt
  rw [hcl]
  symm
  apply countP_add_pointwise
  intro p _
  simp only [cons_lt_cons_iff]
  by_cases hp : p.1 = Sym.TERM
  · have h1 : ¬ (Sym.TERM = c) := fun h => hc h.symm
    have h0 : Sym.TERM.code = 0 := rfl
    simp [hp, h0, hcpos, h1]
  · by_cases h2 : p.1 = c
    · subst h2
      simp [hp]
    · have h3 : ¬ (p.1.code = c.code) := fun h => h2 (code_inj _ _ h)
      simp [hp, h2, h3]

/-! ## Writing into an LCP vector under the invariant -/

theorem lcp_inv_congr (S : List (List Nat)) (w : Nat) (wt wt1 : Nat → Prop) (LCP : List Nat)
    (h : lcp_inv S w wt LCP) (hiff : ∀ j, j < S.length → (wt j ↔ wt1 j)) :
    lcp_inv S w wt1 LCP := by
  refine ⟨h.1, fun i hi => ⟨fun hw => (h.2 i hi).1 ((hiff i hi).mpr hw), fun hw => ?_⟩⟩
  exact (h.2 i hi).2 (fun hc => hw ((hiff i hi).mp hc))

theorem write_nil_inv (S : List (List Nat)) (w : Nat) (wt : Nat → Prop) (LCP : List Nat)
    (i d : Nat) (h : lcp_inv S w wt LCP) (hi : i < S.length) (hw : wt i)
    (hd : d % 2 ^ (8 * w) = lcp_target S w i) :
    ∃ LCP1, write_nil w LCP i d = some LCP1 ∧ lcp_inv S w (fun j => wt j ∧ j ≠ i) LCP1 := by
  have hnil := (h.2 i hi).1 hw
  refine ⟨LCP.set i (d % 2 ^ (8 * w)), by simp [write_nil, hnil], ?_, ?_⟩
  · rw [List.length_set, h.1]
  · intro j hj
    by_cases hji : j = i
    · subst hji
      refine ⟨fun hc => absurd rfl hc.2, fun _ => ?_⟩
      rw [List.getElem?_set_self (by rw [h.1]; exact hj), hd]
    · rw [List.getElem?_set_ne (fun hc => hji hc.symm)]
      refine ⟨fun hc => (h.2 j hj).1 hc.1, fun hc => (h.2 j hj).2 (fun hw => hc ⟨hw, hji⟩)⟩

theorem fill_nil_inv (S : List (List Nat)) (w d len : Nat) (wt : Nat → Prop) (start : Nat)
    (LCP : List Nat) (h : lcp_inv S w wt LCP) (hr : start + len ≤ S.length)
    (hw : ∀ j, start ≤ j → j < start + len → wt j ∧ d % 2 ^ (8 * w) = lcp_target S w j) :
    ∃ LCP1, fill_nil w d start len LCP = some LCP1 ∧
      lcp_inv S w (fun j => wt j ∧ ¬ (start ≤ j ∧ j < start + len)) LCP1 := by
  induction len generalizing start wt LCP with
  | zero =>
    refine ⟨LCP, rfl, lcp_inv_congr S w wt _ LCP h (fun j _ => ?_)⟩
    constructor
    · intro hj
      exact ⟨hj, by omega⟩
    · exact fun hj => hj.1
  | succ len ih =>
    obtain ⟨h1, h2⟩ := hw start (le_refl _) (by omega)
    obtain ⟨L1, e1, i1⟩ := write_nil_inv S w wt LCP start d h (by omega) h1 h2
    obtain ⟨L2, e2, i2⟩ := ih (fun j => wt j ∧ j ≠ start) (start + 1) L1 i1 (by omega)
      (fun j hj1 hj2 => ⟨⟨(hw j (by omega) (by omega)).1, by omega⟩,
        (hw j (by omega) (by omega)).2⟩)
    refine ⟨L2, by simp only [fill_nil, e1, e2], lcp_inv_congr S w _ _ L2 i2 (fun j _ => ?_)⟩
    constructor
    · rintro ⟨⟨a, b⟩, c⟩
      exact ⟨a, by omega⟩
    · rintro ⟨a, b⟩
      exact ⟨⟨a, by omega⟩, by omega⟩

/-! ## Structure of a suffix collection -/

theorem str_at_get (S : List (List Nat)) (i : Nat) (hi : i < S.length) :
    S[i]? = some (str_at S i) := by
  unfold str_at
  rw [List.getD_eq_getElem?_getD, List.getElem?_eq_getElem hi]
  rfl

theorem str_at_mem (S : List (List Nat)) (i : Nat) (hi : i < S.length) : str_at S i ∈ S :=
  List.getElem?_mem (str_at_get S i hi)

theorem pos_lt_iff (S : List (List Nat)) (hS : S.Sorted (· ≤ ·)) (X : List Nat) (i : Nat)
    (hi : i < S.length) : str_at S i < X ↔ i < cnt_lt S X :=
  sorted_lt_iff S hS X i _ (str_at_get S i hi)

theorem pos_ge_iff (S : List (List Nat)) (hS : S.Sorted (· ≤ ·)) (X : List Nat) (i : Nat)
    (hi : i < S.length) : X ≤ str_at S i ↔ cnt_lt S X ≤ i :=
  sorted_ge_iff S hS X i _ (str_at_get S i hi)

theorem dna_no_term (V : List Nat) (hV : dna_string V) : (0 : Nat) ∉ V := by
  intro h
  rcases hV 0 h with h | h | h | h <;> omega

/-- A terminated string that starts with `W.TERM` is `W.TERM`. -/
theorem term_unique (V W r : List Nat) (hV : dna_string V) (h : V ++ [0] = W ++ 0 :: r) :
    r = [] ∧ V = W := by
  rcases List.eq_nil_or_concat r with rfl | ⟨r1, z, rfl⟩
  · have := List.append_inj' h rfl
    exact ⟨rfl, this.1⟩
  · exfalso
    rw [List.concat_eq_append, ← List.cons_append, ← List.append_assoc] at h
    have := (List.append_inj' h rfl).1
    apply dna_no_term V hV
    rw [this]
    simp

theorem leaf_member (S : List (List Nat)) (hS : suffix_collection S) (W s : List Nat)
    (hs : s ∈ S) (h1 : W ++ [0] ≤ s) (h2 : s < W ++ [1]) : s = W ++ [0] := by
  obtain ⟨x, r, hx, ha, hb⟩ := between_prefix W 0 1 s h1 h2
  have hx0 : x = 0 := by omega
  subst hx0
  obtain ⟨V, hV, hdna⟩ := hS.term s hs
  rw [hV] at hx
  obtain ⟨rfl, rfl⟩ := term_unique V W r hdna hx
  exact hV

theorem term_dropLast (S : List (List Nat)) (hS : suffix_collection S) (s : List Nat)
    (hs : s ∈ S) : s = s.dropLast ++ [0] ∧ dna_string s.dropLast := by
  obtain ⟨V, hV, hdna⟩ := hS.term s hs
  subst hV
  rw [List.dropLast_concat]
  exact ⟨rfl, hdna⟩

theorem cnt_lt_leaf_count (S : List (List Nat)) (hS : suffix_collection S) (W : List Nat) :
    cnt_lt S (W ++ [1]) = cnt_lt S (W ++ [0]) + S.count (W ++ [0]) := by
  unfold cnt_lt
  rw [List.count_eq_countP]
  have := countP_add_pointwise (fun s => decide (s < W ++ [1])) (fun _ => false)
    (fun s => decide (s < W ++ [0])) (fun s => s == W ++ [0]) S (by
      intro s hs
      by_cases h0 : s < W ++ [0]
      · have h1 : s < W ++ [1] := lt_trans h0 (prefix_lt W 0 1 [] (by omega))
        have h2 : s ≠ W ++ [0] := ne_of_lt h0
        simp [h0, h1, h2]
      · by_cases h1 : s < W ++ [1]
        · have := leaf_member S hS W s hs (not_lt.mp h0) h1
          subst this
          simp [h1]
        · have h2 : s ≠ W ++ [0] := by
            intro h
            rw [h] at h1
            exact h1 (prefix_lt W 0 1 [] (by omega))
          simp [h0, h1, h2])
  simpa using this

theorem count_ge_two_of_adjacent (S : List (List Nat)) (i : Nat) (h0 : 0 < i)
    (hi : i < S.length) (he : str_at S (i - 1) = str_at S i) : 2 ≤ S.count (str_at S i) := by
  have h1 : str_at S (i - 1) ∈ S.take i := by
    apply List.getElem?_mem (n := i - 1)
    rw [List.getElem?_take, if_pos (by omega)]
    exact str_at_get S (i - 1) (by omega)
  have h2 : str_at S i ∈ S.drop i := by
    apply List.getElem?_mem (n := 0)
    rw [List.getElem?_drop]
    exact str_at_get S i hi
  rw [he] at h1
  have := List.count_append (str_at S i) (S.take i) (S.drop i)
  rw [List.take_append_drop] at this
  have c1 := List.count_pos_iff.mpr h1
  have c2 := List.count_pos_iff.mpr h2
  omega

theorem count_append_le (S : List (List Nat)) (hS : suffix_collection S) (U X : List Nat)
    (hU : ∀ c ∈ U, c ≠ 0) : S.count (U ++ X) ≤ S.count X := by
  induction U with
  | nil => simp
  | cons c U ih =>
    have h1 := hS.tail c (U ++ X) (hU c (List.mem_cons_self c U))
    have h2 := ih (fun x hx => hU x (List.mem_cons_of_mem c hx))
    simp only [List.cons_append]
    omega

/-! ## The leaf pass on a suffix collection -/

theorem leaf_block (S : List (List Nat)) (hS : suffix_collection S) (W : List Nat) (j : Nat)
    (h1 : cnt_lt S (W ++ [0]) ≤ j) (h2 : j < cnt_lt S (W ++ [1])) :
    j < S.length ∧ str_at S j = W ++ [0] := by
  have hj : j < S.length := lt_of_lt_of_le h2 (cnt_lt_le_length S _)
  refine ⟨hj, leaf_member S hS W _ (str_at_mem S j hj) ?_ ?_⟩
  · exact (pos_ge_iff S hS.sorted _ j hj).mpr h1
  · exact (pos_lt_iff S hS.sorted _ j hj).mpr h2

theorem leaf_block_conv (S : List (List Nat)) (hS : suffix_collection S) (W : List Nat)
    (j : Nat) (hj : j < S.length) (h : str_at S j = W ++ [0]) :
    cnt_lt S (W ++ [0]) ≤ j ∧ j < cnt_lt S (W ++ [1]) := by
  constructor
  · exact (pos_ge_iff S hS.sorted _ j hj).mp (by rw [h])
  · exact (pos_lt_iff S hS.sorted _ j hj).mp (by rw [h]; exact prefix_lt W 0 1 [] (by omega))

theorem leaf_interior (S : List (List Nat)) (hS : suffix_collection S) (w : Nat)
    (W : List Nat) (j : Nat) (h1 : cnt_lt S (W ++ [0]) < j) (h2 : j < cnt_lt S (W ++ [1])) :
    j < S.length ∧ leaf_pos S j ∧ leaf_str S j = W ∧
      (W.length + 1) % 2 ^ (8 * w) = lcp_target S w j := by
  obtain ⟨hj, e1⟩ := leaf_block S hS W j (by omega) h2
  obtain ⟨-, e0⟩ := leaf_block S hS W (j - 1) (by omega) (by omega)
  refine ⟨hj, ⟨by omega, by rw [e0, e1]⟩, by rw [leaf_str, e1, List.dropLast_concat], ?_⟩
  unfold lcp_target
  rw [if_neg (by omega), e0, e1, lcp_len_self]
  simp

theorem proper_suffix (W V : List Nat) (h : W <:+ V) (hne : V ≠ W) :
    ∃ U a, V = U ++ a :: W := by
  obtain ⟨t, ht⟩ := h
  rcases List.eq_nil_or_concat t with rfl | ⟨U, a, rfl⟩
  · exact absurd ht.symm hne
  · refine ⟨U, a, ?_⟩
    rw [← ht, List.concat_eq_append, List.append_assoc]
    rfl

theorem not_suffix_cons (a : Nat) (W : List Nat) : ¬ (a :: W) <:+ W := by
  intro h
  have := h.length_le
  simp at this

theorem suffix_of_cons_suffix (a : Nat) (W V : List Nat) (h : (a :: W) <:+ V) : W <:+ V :=
  (List.suffix_cons a W).trans h

/-- Effect of one iteration of a leaf pass on the set of waiting positions: the positions
inside the popped leaf leave it, provided every left extension of the popped leaf that
holds at least two suffixes is pushed. -/
theorem leaf_waiting_step (S : List (List Nat)) (hS : suffix_collection S) (W : List Nat)
    (rest cs : List (List Nat)) (hfree : suffix_free (W :: rest))
    (hcs : ∀ c ∈ cs, ∃ a, c = a :: W)
    (hall : ∀ a, a = 1 ∨ a = 2 ∨ a = 3 ∨ a = 5 → 2 ≤ S.count (a :: W ++ [0]) → a :: W ∈ cs)
    (j : Nat) (hj : j < S.length) :
    (leaf_waiting S (W :: rest) j ∧
      ¬ (cnt_lt S (W ++ [0]) < j ∧ j < cnt_lt S (W ++ [1]))) ↔
    leaf_waiting S (cs ++ rest) j := by
  have hfr : ∀ R ∈ rest, ¬ W <:+ R ∧ ¬ R <:+ W := (List.pairwise_cons.mp hfree).1
  constructor
  · rintro ⟨hw, hout⟩
    rcases hw with hn | ⟨hl, W1, hW1, hsuf⟩
    · exact Or.inl hn
    · refine Or.inr ⟨hl, ?_⟩
      rcases List.mem_cons.mp hW1 with rfl | hr
      · -- pending through the popped leaf
        obtain ⟨hterm, hdna⟩ := term_dropLast S hS _ (str_at_mem S j hj)
        by_cases hV : leaf_str S j = W1
        · exfalso
          apply hout
          have e1 : str_at S j = W1 ++ [0] := by
            rw [hterm]
            unfold leaf_str at hV
            rw [hV]
          have b1 := leaf_block_conv S hS W1 j hj e1
          have b0 := leaf_block_conv S hS W1 (j - 1) (by omega) (by rw [hl.2, e1])
          have := hl.1
          exact ⟨by omega, b1.2⟩
        · obtain ⟨U, a, hUa⟩ := proper_suffix W1 (leaf_str S j) hsuf hV
          have hdna' : dna_string (leaf_str S j) := hdna
          have ha : a = 1 ∨ a = 2 ∨ a = 3 ∨ a = 5 := hdna' a (by rw [hUa]; simp)
          have hcount : 2 ≤ S.count (a :: W1 ++ [0]) := by
            have c2 := count_ge_two_of_adjacent S j hl.1 hj hl.2
            have c3 := count_append_le S hS U (a :: W1 ++ [0]) (fun c hc => by
              intro h0
              apply dna_no_term _ hdna'
              rw [hUa, ← h0]
              exact List.mem_append_left _ hc)
            have e : U ++ (a :: W1 ++ [0]) = str_at S j := by
              rw [hterm]
              unfold leaf_str at hUa
              rw [hUa]
              simp
            rw [e] at c3
            omega
          exact ⟨a :: W1, List.mem_append_left _ (hall a ha hcount), by
            rw [hUa]; exact List.suffix_append U (a :: W1)⟩
      · exact ⟨W1, List.mem_append_right _ hr, hsuf⟩
  · intro hw
    rcases hw with hn | ⟨hl, W1, hW1, hsuf⟩
    · refine ⟨Or.inl hn, ?_⟩
      rintro ⟨i1, i2⟩
      obtain ⟨_, lp, _, _⟩ := leaf_interior S hS 0 W j i1 i2
      exact hn.2 lp.2
    · rcases List.mem_append.mp hW1 with hc | hr
      · obtain ⟨a, rfl⟩ := hcs W1 hc
        refine ⟨Or.inr ⟨hl, W, List.mem_cons_self W rest, suffix_of_cons_suffix a W _ hsuf⟩, ?_⟩
        rintro ⟨i1, i2⟩
        obtain ⟨_, _, ls, _⟩ := leaf_interior S hS 0 W j i1 i2
        rw [ls] at hsuf
        exact not_suffix_cons a W hsuf
      · refine ⟨Or.inr ⟨hl, W1, List.mem_cons_of_mem W hr, hsuf⟩, ?_⟩
        rintro ⟨i1, i2⟩
        obtain ⟨_, _, ls, _⟩ := leaf_interior S hS 0 W j i1 i2
        rw [ls] at hsuf
        exact (hfr W1 hr).2 hsuf

/-! ## The node pass on a suffix collection -/

theorem cnt_lt_chain (S : List (List Nat)) (W : List Nat) (a b : Nat) (h : a ≤ b) :
    cnt_lt S (W ++ [a]) ≤ cnt_lt S (W ++ [b]) := by
  apply cnt_lt_mono
  rw [append_le_append_iff, ← not_lt, cons_lt_cons_iff]
  rintro (h1 | ⟨_, h1⟩)
  · omega
  · exact not_lt_nil _ h1

theorem cnt_lt_strict (S : List (List Nat)) (X Y s : List Nat) (hs : s ∈ S) (h1 : X ≤ s)
    (h2 : s < Y) : cnt_lt S X < cnt_lt S Y := by
  unfold cnt_lt
  induction S with
  | nil => simp at hs
  | cons t S ih =>
    simp only [List.countP_cons, decide_eq_true_eq]
    have hmono : List.countP (fun s => decide (s < X)) S ≤
        List.countP (fun s => decide (s < Y)) S :=
      cnt_lt_mono S X Y (le_of_lt (lt_of_le_of_lt h1 h2))
    rcases List.mem_cons.mp hs with rfl | hs
    · rw [if_neg (not_lt.mpr h1), if_pos h2]
      omega
    · have := ih hs
      by_cases hX : t < X
      · rw [if_pos hX, if_pos (lt_trans hX (lt_of_le_of_lt h1 h2))]
        omega
      · rw [if_neg hX]
        split <;> omega

/-- A suffix that continues `W` with a symbol in `[a, b)` followed by a suffix that continues
`W` with a symbol in `[b, 6)` marks a border of the node `W`. -/
theorem border_pos (S : List (List Nat)) (hS : suffix_collection S) (w : Nat) (W : List Nat)
    (a b : Nat) (h1 : cnt_lt S (W ++ [a]) < cnt_lt S (W ++ [b]))
    (h2 : cnt_lt S (W ++ [b]) < cnt_lt S (W ++ [6])) :
    cnt_lt S (W ++ [b]) < S.length ∧ node_pos S (cnt_lt S (W ++ [b])) ∧
      node_str S (cnt_lt S (W ++ [b])) = W ∧
      W.length % 2 ^ (8 * w) = lcp_target S w (cnt_lt S (W ++ [b])) := by
  have hi : cnt_lt S (W ++ [b]) < S.length := lt_of_lt_of_le h2 (cnt_lt_le_length S _)
  have hi0 : 0 < cnt_lt S (W ++ [b]) := by omega
  obtain ⟨x, r1, e0, hx1, hx2⟩ := between_prefix W a b (str_at S (cnt_lt S (W ++ [b]) - 1))
    ((pos_ge_iff S hS.sorted _ _ (by omega)).mpr (by omega))
    ((pos_lt_iff S hS.sorted _ _ (by omega)).mpr (by omega))
  obtain ⟨y, r2, e1, hy1, hy2⟩ := between_prefix W b 6 (str_at S (cnt_lt S (W ++ [b])))
    ((pos_ge_iff S hS.sorted _ _ hi).mpr (le_refl _))
    ((pos_lt_iff S hS.sorted _ _ hi).mpr h2)
  have hxy : x ≠ y := by omega
  have hlen : lcp_len (str_at S (cnt_lt S (W ++ [b]) - 1)) (str_at S (cnt_lt S (W ++ [b]))) =
      W.length := by
    rw [e0, e1]
    exact lcp_len_branch W x y r1 r2 hxy
  refine ⟨hi, ⟨hi0, ?_⟩, ?_, ?_⟩
  · rw [e0, e1]
    intro h
    have := List.append_cancel_left h
    simp only [List.cons.injEq] at this
    exact hxy this.1
  · unfold node_str
    rw [hlen, e1]
    simp
  · unfold lcp_target
    rw [if_neg (by omega), hlen]

/-- Positions written by `update_lcp` on the node of `W`. -/
theorem written_node_pos (S : List (List Nat)) (hS : suffix_collection S) (w : Nat)
    (W : List Nat) (j : Nat)
    (h : (j = cnt_lt S (W ++ [1]) ∧ cnt_lt S (W ++ [0]) < cnt_lt S (W ++ [1]) ∧
          cnt_lt S (W ++ [1]) ≠ cnt_lt S (W ++ [6])) ∨
         (j = cnt_lt S (W ++ [2]) ∧ cnt_lt S (W ++ [1]) < cnt_lt S (W ++ [2]) ∧
          cnt_lt S (W ++ [2]) ≠ cnt_lt S (W ++ [6])) ∨
         (j = cnt_lt S (W ++ [3]) ∧ cnt_lt S (W ++ [2]) < cnt_lt S (W ++ [3]) ∧
          cnt_lt S (W ++ [3]) ≠ cnt_lt S (W ++ [6])) ∨
         (j = cnt_lt S (W ++ [5]) ∧ cnt_lt S (W ++ [3]) < cnt_lt S (W ++ [5]) ∧
          cnt_lt S (W ++ [5]) ≠ cnt_lt S (W ++ [6]))) :
    j < S.length ∧ node_pos S j ∧ node_str S j = W ∧
      W.length % 2 ^ (8 * w) = lcp_target S w j := by
  have c1 := cnt_lt_chain S W 1 6 (by omega)
  have c2 := cnt_lt_chain S W 2 6 (by omega)
  have c3 := cnt_lt_chain S W 3 6 (by omega)
  have c5 := cnt_lt_chain S W 5 6 (by omega)
  rcases h with ⟨rfl, h1, h2⟩ | ⟨rfl, h1, h2⟩ | ⟨rfl, h1, h2⟩ | ⟨rfl, h1, h2⟩
  · exact border_pos S hS w W 0 1 h1 (by omega)
  · exact border_pos S hS w W 1 2 h1 (by omega)
  · exact border_pos S hS w W 2 3 h1 (by omega)
  · exact border_pos S hS w W 3 5 h1 (by omega)

theorem mem_of_append_mem (S : List (List Nat)) (hS : suffix_collection S) (U X : List Nat)
    (hU : ∀ c ∈ U, c ≠ 0) (h : U ++ X ∈ S) : X ∈ S := by
  have h1 := count_append_le S hS U X hU
  have h2 := List.count_pos_iff.mpr h
  exact List.count_pos_iff.mp (by omega)

theorem term_symbol (S : List (List Nat)) (hS : suffix_collection S) (s W r : List Nat)
    (x : Nat) (hs : s ∈ S) (h : s = W ++ x :: r) :
    (x = 0 ∨ x = 1 ∨ x = 2 ∨ x = 3 ∨ x = 5) ∧ dna_string W := by
  obtain ⟨V, hV, hdna⟩ := hS.term s hs
  rw [hV] at h
  rcases List.eq_nil_or_concat r with rfl | ⟨r1, z, rfl⟩
  · have := List.append_inj' h rfl
    simp only [List.cons.injEq, and_true] at this
    exact ⟨Or.inl this.2.symm, by rw [← this.1]; exact hdna⟩
  · rw [List.concat_eq_append, ← List.cons_append, ← List.append_assoc] at h
    have hV' := (List.append_inj' h rfl).1
    constructor
    · have := hdna x (by rw [hV']; simp)
      omega
    · intro c hc
      exact hdna c (by rw [hV']; simp [hc])

/-- A string that is continued by two different symbols has at least two children. -/
theorem two_children (S : List (List Nat)) (Y : List Nat) (x y : Nat) (r1 r2 : List Nat)
    (hx : x = 0 ∨ x = 1 ∨ x = 2 ∨ x = 3 ∨ x = 5) (hy : y = 0 ∨ y = 1 ∨ y = 2 ∨ y = 3 ∨ y = 5)
    (hxy : x < y) (h1 : Y ++ x :: r1 ∈ S) (h2 : Y ++ y :: r2 ∈ S) :
    2 ≤ number_of_children (node_of S Y) := by
  have key : ∀ (a b z : Nat) (r : List Nat), Y ++ z :: r ∈ S → a ≤ z → z < b →
      cnt_lt S (Y ++ [a]) < cnt_lt S (Y ++ [b]) := fun a b z r hm ha hb =>
    cnt_lt_strict S _ _ _ hm (prefix_ge Y z a r ha) (prefix_lt Y z b r hb)
  have m01 := cnt_lt_chain S Y 0 1 (by omega)
  have m12 := cnt_lt_chain S Y 1 2 (by omega)
  have m23 := cnt_lt_chain S Y 2 3 (by omega)
  have m35 := cnt_lt_chain S Y 3 5 (by omega)
  have m56 := cnt_lt_chain S Y 5 6 (by omega)
  have kx : (x = 0 → cnt_lt S (Y ++ [0]) < cnt_lt S (Y ++ [1])) ∧
      (x = 1 → cnt_lt S (Y ++ [1]) < cnt_lt S (Y ++ [2])) ∧
      (x = 2 → cnt_lt S (Y ++ [2]) < cnt_lt S (Y ++ [3])) ∧
      (x = 3 → cnt_lt S (Y ++ [3]) < cnt_lt S (Y ++ [5])) :=
    ⟨fun e => key 0 1 x r1 h1 (by omega) (by omega),
     fun e => key 1 2 x r1 h1 (by omega) (by omega),
     fun e => key 2 3 x r1 h1 (by omega) (by omega),
     fun e => key 3 5 x r1 h1 (by omega) (by omega)⟩
  have ky : (y = 1 → cnt_lt S (Y ++ [1]) < cnt_lt S (Y ++ [2])) ∧
      (y = 2 → cnt_lt S (Y ++ [2]) < cnt_lt S (Y ++ [3])) ∧
      (y = 3 → cnt_lt S (Y ++ [3]) < cnt_lt S (Y ++ [5])) ∧
      (y = 5 → cnt_lt S (Y ++ [5]) < cnt_lt S (Y ++ [6])) :=
    ⟨fun e => key 1 2 y r2 h2 (by omega) (by omega),
     fun e => key 2 3 y r2 h2 (by omega) (by omega),
     fun e => key 3 5 y r2 h2 (by omega) (by omega),
     fun e => key 5 6 y r2 h2 (by omega) (by omega)⟩
  simp only [number_of_children, node_of, b2n, gt_iff_lt, decide_eq_true_eq]
  split <;> split <;> split <;> split <;> split <;> omega

/-- Two adjacent different suffixes branch after their longest common prefix. -/
theorem adjacent_branch (S : List (List Nat)) (hS : suffix_collection S) (j : Nat)
    (hj : j < S.length) (hn : node_pos S j) :
    ∃ x y r1 r2, str_at S (j - 1) = node_str S j ++ x :: r1 ∧
      str_at S j = node_str S j ++ y :: r2 ∧ x < y := by
  have hj0 : j - 1 < S.length := by omega
  have hle : str_at S (j - 1) ≤ str_at S j := by
    have hsorted := hS.sorted
    rw [List.Sorted, List.pairwise_iff_getElem] at hsorted
    have := hsorted (j - 1) j hj0 hj (by have := hn.1; omega)
    have e0 := str_at_get S (j - 1) hj0
    have e1 := str_at_get S j hj
    rw [List.getElem?_eq_getElem hj0] at e0
    rw [List.getElem?_eq_getElem hj] at e1
    simp only [Option.some.injEq] at e0 e1
    rw [← e0, ← e1]
    exact this
  have hlt : str_at S (j - 1) < str_at S j := lt_of_le_of_ne hle hn.2
  rcases lcp_len_split _ _ hlt with ⟨r, hr, hne⟩ | ⟨W, x, y, r1, r2, e0, e1, hxy⟩
  · exfalso
    obtain ⟨V0, hV0, hd0⟩ := hS.term _ (str_at_mem S (j - 1) hj0)
    obtain ⟨V1, hV1, hd1⟩ := hS.term _ (str_at_mem S j hj)
    rw [hV0, hV1] at hr
    rcases List.eq_nil_or_concat r with rfl | ⟨r1, z, rfl⟩
    · exact hne rfl
    · rw [List.concat_eq_append, ← List.append_assoc] at hr
      have := (List.append_inj' hr rfl).1
      apply dna_no_term V1 hd1
      rw [this]
      simp
  · have hlen : lcp_len (str_at S (j - 1)) (str_at S j) = W.length := by
      rw [e0, e1]
      exact lcp_len_branch W x y r1 r2 (by omega)
    have hns : node_str S j = W := by
      unfold node_str
      rw [hlen, e1]
      simp
    rw [hns]
    exact ⟨x, y, r1, r2, e0, e1, hxy⟩

/-- Effect of one iteration of a node pass on the set of waiting positions: the borders of
the popped node leave it, provided every left extension of the popped node with at least two
children is pushed. -/
theorem node_waiting_step (S : List (List Nat)) (hS : suffix_collection S) (W : List Nat)
    (rest cs : List (List Nat)) (hfree : suffix_free (W :: rest))
    (hcs : ∀ c ∈ cs, ∃ a, c = a :: W)
    (hall : ∀ a, a = 1 ∨ a = 2 ∨ a = 3 ∨ a = 5 →
      2 ≤ number_of_children (node_of S (a :: W)) → a :: W ∈ cs)
    (j : Nat) (hj : j < S.length) :
    (node_waiting S (W :: rest) j ∧ ¬ written_by S W j) ↔ node_waiting S (cs ++ rest) j := by
  have hfr : ∀ R ∈ rest, ¬ W <:+ R ∧ ¬ R <:+ W := (List.pairwise_cons.mp hfree).1
  constructor
  · rintro ⟨⟨hn, W1, hW1, hsuf⟩, hout⟩
    refine ⟨hn, ?_⟩
    rcases List.mem_cons.mp hW1 with rfl | hr
    · obtain ⟨x, y, r1, r2, e0, e1, hxy⟩ := adjacent_branch S hS j hj hn
      have hj0 : j - 1 < S.length := by omega
      have hjpos := hn.1
      obtain ⟨hx, hdna⟩ := term_symbol S hS _ _ _ x (str_at_mem S (j - 1) hj0) e0
      obtain ⟨hy, -⟩ := term_symbol S hS _ _ _ y (str_at_mem S j hj) e1
      by_cases hV : node_str S j = W1
      · exfalso
        apply hout
        rw [hV] at e0 e1
        have lo : ∀ a, a ≤ x → cnt_lt S (W1 ++ [a]) < j := fun a ha => by
          have := (pos_ge_iff S hS.sorted (W1 ++ [a]) (j - 1) hj0).mp
            (by rw [e0]; exact prefix_ge W1 x a r1 ha)
          omega
        have up : ∀ b, x < b → b ≤ y → cnt_lt S (W1 ++ [b]) = j := fun b hb1 hb2 => by
          have u1 := (pos_lt_iff S hS.sorted (W1 ++ [b]) (j - 1) hj0).mp
            (by rw [e0]; exact prefix_lt W1 x b r1 hb1)
          have u2 := (pos_ge_iff S hS.sorted (W1 ++ [b]) j hj).mp
            (by rw [e1]; exact prefix_ge W1 y b r2 hb2)
          omega
        have top : j < cnt_lt S (W1 ++ [6]) :=
          (pos_lt_iff S hS.sorted (W1 ++ [6]) j hj).mp
            (by rw [e1]; exact prefix_lt W1 y 6 r2 (by omega))
        unfold written_by
        rcases hx with rfl | rfl | rfl | rfl | rfl
        · left
          have := up 1 (by omega) (by omega)
          have := lo 0 (by omega)
          exact ⟨by omega, by omega, by omega⟩
        · right; left
          have := up 2 (by omega) (by omega)
          have := lo 1 (by omega)
          exact ⟨by omega, by omega, by omega⟩
        · right; right; left
          have := up 3 (by omega) (by omega)
          have := lo 2 (by omega)
          exact ⟨by omega, by omega, by omega⟩
        · right; right; right
          have := up 5 (by omega) (by omega)
          have := lo 3 (by omega)
          exact ⟨by omega, by omega, by omega⟩
        · omega
      · obtain ⟨U, a, hUa⟩ := proper_suffix W1 (node_str S j) hsuf hV
        have ha : a = 1 ∨ a = 2 ∨ a = 3 ∨ a = 5 := hdna a (by rw [hUa]; simp)
        have hU0 : ∀ c ∈ U, c ≠ 0 := fun c hc h0 => by
          apply dna_no_term _ hdna
          rw [hUa, ← h0]
          exact List.mem_append_left _ hc
        have m0 : (a :: W1) ++ x :: r1 ∈ S := by
          apply mem_of_append_mem S hS U _ hU0
          have := str_at_mem S (j - 1) hj0
          rw [e0, hUa] at this
          simpa using this
        have m1 : (a :: W1) ++ y :: r2 ∈ S := by
          apply mem_of_append_mem S hS U _ hU0
          have := str_at_mem S j hj
          rw [e1, hUa] at this
          simpa using this
        have := two_children S (a :: W1) x y r1 r2 hx hy hxy m0 m1
        exact ⟨a :: W1, List.mem_append_left _ (hall a ha this), by
          rw [hUa]; exact List.suffix_append U (a :: W1)⟩
    · exact ⟨W1, List.mem_append_right _ hr, hsuf⟩
  · rintro ⟨hn, W1, hW1, hsuf⟩
    rcases List.mem_append.mp hW1 with hc | hr
    · obtain ⟨a, rfl⟩ := hcs W1 hc
      refine ⟨⟨hn, W, List.mem_cons_self W rest, suffix_of_cons_suffix a W _ hsuf⟩, ?_⟩
      intro hwr
      obtain ⟨_, _, ns, _⟩ := written_node_pos S hS 0 W j hwr
      rw [ns] at hsuf
      exact not_suffix_cons a W hsuf
    · refine ⟨⟨hn, W1, List.mem_cons_of_mem W hr, hsuf⟩, ?_⟩
      intro hwr
      obtain ⟨_, _, ns, _⟩ := written_node_pos S hS 0 W j hwr
      rw [ns] at hsuf
      exact (hfr W1 hr).2 hsuf

theorem lcp_border_inv (S : List (List Nat)) (w : Nat) (wt : Nat → Prop) (c : Bool)
    (i d v : Nat) (LCP : List Nat) (h : lcp_inv S w wt LCP)
    (hc : c = true → i < S.length ∧ wt i ∧ d % 2 ^ (8 * w) = lcp_target S w i) :
    ∃ L1, lcp_border w c i d (LCP, v) = some (L1, v + b2n c) ∧
      lcp_inv S w (fun j => wt j ∧ ¬ (c = true ∧ j = i)) L1 := by
  cases c with
  | false =>
    refine ⟨LCP, by simp [lcp_border, b2n], lcp_inv_congr S w wt _ LCP h (fun j _ => ?_)⟩
    simp
  | true =>
    obtain ⟨h1, h2, h3⟩ := hc rfl
    obtain ⟨L1, e1, i1⟩ := write_nil_inv S w wt LCP i d h h1 h2 h3
    refine ⟨L1, by simp [lcp_border, b2n, e1], lcp_inv_congr S w _ _ L1 i1 (fun j _ => ?_)⟩
    simp

/-- Under the invariant, `update_lcp` on the node of `W` succeeds and fills exactly the
borders of `W`. -/
theorem update_lcp_inv (S : List (List Nat)) (hS : suffix_collection S) (w : Nat)
    (wt : Nat → Prop) (W : List Nat) (LCP : List Nat) (v : Nat) (h : lcp_inv S w wt LCP)
    (hwt : ∀ j, written_by S W j → wt j) (hch : 2 ≤ number_of_children (node_of S W)) :
    ∃ L1 v1, update_lcp w (node_of S W) LCP v = some (L1, v1) ∧
      lcp_inv S w (fun j => wt j ∧ ¬ written_by S W j) L1 := by
  have m01 := cnt_lt_chain S W 0 1 (by omega)
  have m12 := cnt_lt_chain S W 1 2 (by omega)
  have m23 := cnt_lt_chain S W 2 3 (by omega)
  have m35 := cnt_lt_chain S W 3 5 (by omega)
  have hcond : (node_of S W).first_A ≥ (node_of S W).first_TERM ∧
      (node_of S W).first_C ≥ (node_of S W).first_A ∧
      (node_of S W).first_G ≥ (node_of S W).first_C ∧
      (node_of S W).first_T ≥ (node_of S W).first_G ∧
      number_of_children (node_of S W) ≥ 2 := ⟨m01, m12, m23, m35, hch⟩
  have wr : ∀ j, written_by S W j →
      j < S.length ∧ wt j ∧ W.length % 2 ^ (8 * w) = lcp_target S w j := fun j hj =>
    ⟨(written_node_pos S hS w W j hj).1, hwt j hj, (written_node_pos S hS w W j hj).2.2.2⟩
  obtain ⟨L1, e1, i1⟩ := lcp_border_inv S w wt
    (has_child_TERM (node_of S W) && decide ((node_of S W).first_A ≠ (node_of S W).last))
    (node_of S W).first_A (node_of S W).depth v LCP h (by
      intro hc
      simp only [has_child_TERM, node_of, Bool.and_eq_true, decide_eq_true_eq] at hc
      exact wr _ (Or.inl ⟨rfl, hc.1, hc.2⟩))
  obtain ⟨L2, e2, i2⟩ := lcp_border_inv S w _
    (has_child_A (node_of S W) && decide ((node_of S W).first_C ≠ (node_of S W).last))
    (node_of S W).first_C (node_of S W).depth (v + b2n (has_child_TERM (node_of S W) && decide ((node_of S W).first_A ≠ (node_of S W).last))) L1 i1 (by
      intro hc
      simp only [has_child_A, node_of, Bool.and_eq_true, decide_eq_true_eq] at hc
      obtain ⟨a, b, c⟩ := wr _ (Or.inr (Or.inl ⟨rfl, hc.1, hc.2⟩))
      refine ⟨a, ⟨b, ?_⟩, c⟩
      simp only [node_of]
      omega)
  obtain ⟨L3, e3, i3⟩ := lcp_border_inv S w _
    (has_child_C (node_of S W) && decide ((node_of S W).first_G ≠ (node_of S W).last))
    (node_of S W).first_G (node_of S W).depth (v + b2n (has_child_TERM (node_of S W) && decide ((node_of S W).first_A ≠ (node_of S W).last)) + b2n (has_child_A (node_of S W) && decide ((node_of S W).first_C ≠ (node_of S W).last))) L2 i2 (by
      intro hc
      simp only [has_child_C, node_of, Bool.and_eq_true, decide_eq_true_eq] at hc
      obtain ⟨a, b, c⟩ := wr _ (Or.inr (Or.inr (Or.inl ⟨rfl, hc.1, hc.2⟩)))
      refine ⟨a, ⟨⟨b, ?_⟩, ?_⟩, c⟩ <;> simp only [node_of] <;> omega)
  obtain ⟨L4, e4, i4⟩ := lcp_border_inv S w _
    (has_child_G (node_of S W) && decide ((node_of S W).first_T ≠ (node_of S W).last))
    (node_of S W).first_T (node_of S W).depth (v + b2n (has_child_TERM (node_of S W) && decide ((node_of S W).first_A ≠ (node_of S W).last)) + b2n (has_child_A (node_of S W) && decide ((node_of S W).first_C ≠ (node_of S W).last)) + b2n (has_child_C (node_of S W) && decide ((node_of S W).first_G ≠ (node_of S W).last))) L3 i3 (by
      intro hc
      simp only [has_child_G, node_of, Bool.and_eq_true, decide_eq_true_eq] at hc
      obtain ⟨a, b, c⟩ := wr _ (Or.inr (Or.inr (Or.inr ⟨rfl, hc.1, hc.2⟩)))
      refine ⟨a, ⟨⟨⟨b, ?_⟩, ?_⟩, ?_⟩, c⟩ <;> simp only [node_of] <;> omega)
  refine ⟨L4, v + b2n (has_child_TERM (node_of S W) && decide ((node_of S W).first_A ≠ (node_of S W).last)) + b2n (has_child_A (node_of S W) && decide ((node_of S W).first_C ≠ (node_of S W).last)) + b2n (has_child_C (node_of S W) && decide ((node_of S W).first_G ≠ (node_of S W).last)) +
    b2n (has_child_G (node_of S W) && decide ((node_of S W).first_T ≠ (node_of S W).last)), ?_, lcp_inv_congr S w _ _ L4 i4 (fun j _ => ?_)⟩
  · unfold update_lcp
    rw [if_pos hcond, e1, Option.some_bind, e2, Option.some_bind, e3, Option.some_bind, e4]
  · simp only [has_child_TERM, has_child_A, has_child_C, has_child_G, node_of,
      Bool.and_eq_true, decide_eq_true_eq, written_by]
    constructor
    · rintro ⟨⟨⟨⟨a, b1⟩, b2⟩, b3⟩, b4⟩
      refine ⟨a, ?_⟩
      rintro (⟨e, c1, c2⟩ | ⟨e, c1, c2⟩ | ⟨e, c1, c2⟩ | ⟨e, c1, c2⟩)
      · exact b1 ⟨⟨c1, c2⟩, e⟩
      · exact b2 ⟨⟨c1, c2⟩, e⟩
      · exact b3 ⟨⟨c1, c2⟩, e⟩
      · exact b4 ⟨⟨c1, c2⟩, e⟩
    · rintro ⟨a, b⟩
      refine ⟨⟨⟨⟨a, ?_⟩, ?_⟩, ?_⟩, ?_⟩
      · rintro ⟨⟨c1, c2⟩, e⟩
        exact b (Or.inl ⟨e, c1, c2⟩)
      · rintro ⟨⟨c1, c2⟩, e⟩
        exact b (Or.inr (Or.inl ⟨e, c1, c2⟩))
      · rintro ⟨⟨c1, c2⟩, e⟩
        exact b (Or.inr (Or.inr (Or.inl ⟨e, c1, c2⟩)))
      · rintro ⟨⟨c1, c2⟩, e⟩
        exact b (Or.inr (Or.inr (Or.inr ⟨e, c1, c2⟩)))

/-- A node with two children has a border. -/
theorem exists_written (S : List (List Nat)) (W : List Nat)
    (hch : 2 ≤ number_of_children (node_of S W)) : ∃ j, written_by S W j := by
  have m01 := cnt_lt_chain S W 0 1 (by omega)
  have m12 := cnt_lt_chain S W 1 2 (by omega)
  have m23 := cnt_lt_chain S W 2 3 (by omega)
  have m35 := cnt_lt_chain S W 3 5 (by omega)
  have m56 := cnt_lt_chain S W 5 6 (by omega)
  simp only [number_of_children, node_of, b2n, gt_iff_lt, decide_eq_true_eq] at hch
  unfold written_by
  by_cases h1 : cnt_lt S (W ++ [0]) < cnt_lt S (W ++ [1]) ∧
      cnt_lt S (W ++ [1]) ≠ cnt_lt S (W ++ [6])
  · exact ⟨_, Or.inl ⟨rfl, h1⟩⟩
  by_cases h2 : cnt_lt S (W ++ [1]) < cnt_lt S (W ++ [2]) ∧
      cnt_lt S (W ++ [2]) ≠ cnt_lt S (W ++ [6])
  · exact ⟨_, Or.inr (Or.inl ⟨rfl, h2⟩)⟩
  by_cases h3 : cnt_lt S (W ++ [2]) < cnt_lt S (W ++ [3]) ∧
      cnt_lt S (W ++ [3]) ≠ cnt_lt S (W ++ [6])
  · exact ⟨_, Or.inr (Or.inr (Or.inl ⟨rfl, h3⟩))⟩
  by_cases h4 : cnt_lt S (W ++ [3]) < cnt_lt S (W ++ [5]) ∧
      cnt_lt S (W ++ [5]) ≠ cnt_lt S (W ++ [6])
  · exact ⟨_, Or.inr (Or.inr (Or.inr ⟨rfl, h4⟩))⟩
  exfalso
  revert hch
  split <;> split <;> split <;> split <;> split <;> omega

/-! ## Sorting, children and termination -/

theorem insert_by_key_perm {α : Type} (key : α → Nat) (a : α) (l : List α) :
    (insert_by_key key a l).Perm (a :: l) := by
  induction l with
  | nil => simp [insert_by_key]
  | cons b l ih =>
    simp only [insert_by_key]
    split
    · exact List.Perm.refl _
    · exact (List.Perm.cons b ih).trans (List.Perm.swap a b l)

theorem sort_by_key_perm {α : Type} (key : α → Nat) (l : List α) :
    (sort_by_key key l).Perm l := by
  induction l with
  | nil => simp [sort_by_key]
  | cons a l ih =>
    simp only [sort_by_key]
    exact (insert_by_key_perm key a _).trans (List.Perm.cons a ih)

theorem insert_by_key_map {α β : Type} (key : β → Nat) (f : α → β) (a : α) (l : List α) :
    insert_by_key key (f a) (l.map f) = (insert_by_key (fun x => key (f x)) a l).map f := by
  induction l with
  | nil => simp [insert_by_key]
  | cons b l ih =>
    simp only [insert_by_key, List.map_cons]
    split
    · simp
    · simp [ih]

theorem sort_by_key_map {α β : Type} (key : β → Nat) (f : α → β) (l : List α) :
    sort_by_key key (l.map f) = (sort_by_key (fun x => key (f x)) l).map f := by
  induction l with
  | nil => simp [sort_by_key]
  | cons a l ih =>
    simp only [sort_by_key, List.map_cons, ih, insert_by_key_map]

theorem extensions_map {β : Type} (keep : List Nat → Bool) (W : List Nat)
    (f : List Nat → β) :
    (extensions keep W).map f =
      (if keep (1 :: W) then [f (1 :: W)] else []) ++
      (if keep (2 :: W) then [f (2 :: W)] else []) ++
      (if keep (3 :: W) then [f (3 :: W)] else []) ++
      (if keep (5 :: W) then [f (5 :: W)] else []) := by
  unfold extensions
  cases keep (1 :: W) <;> cases keep (2 :: W) <;> cases keep (3 :: W) <;>
    cases keep (5 :: W) <;> simp

theorem mem_extensions (keep : List Nat → Bool) (W c : List Nat) :
    c ∈ extensions keep W ↔
      ∃ a, (a = 1 ∨ a = 2 ∨ a = 3 ∨ a = 5) ∧ c = a :: W ∧ keep (a :: W) = true := by
  unfold extensions
  constructor
  · intro h
    simp only [List.mem_append] at h
    rcases h with ((h | h) | h) | h
    · split at h
      · rename_i hk
        exact ⟨1, by omega, by simpa using h, hk⟩
      · simp at h
    · split at h
      · rename_i hk
        exact ⟨2, by omega, by simpa using h, hk⟩
      · simp at h
    · split at h
      · rename_i hk
        exact ⟨3, by omega, by simpa using h, hk⟩
      · simp at h
    · split at h
      · rename_i hk
        exact ⟨5, by omega, by simpa using h, hk⟩
      · simp at h
  · rintro ⟨a, ha, rfl, hk⟩
    simp only [List.mem_append]
    rcases ha with rfl | rfl | rfl | rfl
    · left; left; left
      simp [hk]
    · left; left; right
      simp [hk]
    · left; right
      simp [hk]
    · right
      simp [hk]

theorem suffix_free_cons_family (W : List Nat) (l : List (List Nat))
    (hl : l.Sublist [1 :: W, 2 :: W, 3 :: W, 5 :: W]) : suffix_free l := by
  apply List.Pairwise.sublist hl
  have key : ∀ a b : Nat, a ≠ b → ¬ (a :: W) <:+ (b :: W) := by
    intro a b hab h
    have := List.IsSuffix.eq_of_length h (by simp)
    simp only [List.cons.injEq, and_true] at this
    exact hab this
  simp only [List.pairwise_cons, List.mem_cons, List.mem_singleton, forall_eq_or_imp, forall_eq,
    List.not_mem_nil, false_implies, implies_true, List.Pairwise.nil, and_true]
  refine ⟨⟨⟨?_, ?_⟩, ⟨?_, ?_⟩, ⟨?_, ?_⟩⟩, ⟨⟨?_, ?_⟩, ⟨?_, ?_⟩⟩, ⟨?_, ?_⟩⟩ <;>
    exact key _ _ (by omega)

theorem extensions_sublist (keep : List Nat → Bool) (W : List Nat) :
    (extensions keep W).Sublist [1 :: W, 2 :: W, 3 :: W, 5 :: W] := by
  unfold extensions
  cases keep (1 :: W) <;> cases keep (2 :: W) <;> cases keep (3 :: W) <;>
    cases keep (5 :: W) <;> simp

/-- Pushing a permutation of kept left extensions of the popped string keeps the stack free of
suffix relations. -/
theorem suffix_free_push (keep : List Nat → Bool) (W : List Nat) (rest cs : List (List Nat))
    (hfree : suffix_free (W :: rest)) (hperm : cs.Perm (extensions keep W)) :
    suffix_free (cs ++ rest) := by
  have hsym : ∀ {x y : List Nat}, (¬ x <:+ y ∧ ¬ y <:+ x) → (¬ y <:+ x ∧ ¬ x <:+ y) :=
    fun h => ⟨h.2, h.1⟩
  obtain ⟨hfr, hrest⟩ := List.pairwise_cons.mp hfree
  unfold suffix_free
  rw [List.pairwise_append]
  refine ⟨?_, hrest, ?_⟩
  · exact (List.Perm.pairwise_iff hsym hperm).mpr
      (suffix_free_cons_family W _ (extensions_sublist keep W))
  · intro c hc R hR
    obtain ⟨a, -, rfl, -⟩ := (mem_extensions keep W c).mp (hperm.mem_iff.mp hc)
    constructor
    · intro h
      exact (hfr R hR).1 (suffix_of_cons_suffix a W R h)
    · intro h
      rcases List.suffix_cons_iff.mp h with h | h
      · exact (hfr R hR).1 (by rw [h]; exact List.suffix_cons a W)
      · exact (hfr R hR).2 h

theorem countP_add_le_pointwise {α : Type} (p q r : α → Bool) (l : List α)
    (h : ∀ x ∈ l, (if p x then 1 else 0) + (if q x then 1 else 0) ≤ (if r x then 1 else 0)) :
    l.countP p + l.countP q ≤ l.countP r := by
  induction l with
  | nil => simp
  | cons a l ih =>
    simp only [List.countP_cons]
    have h1 := h a (List.mem_cons_self a l)
    have h2 := ih (fun x hx => h x (List.mem_cons_of_mem a hx))
    omega

theorem countP_lt_of_witness {α : Type} (p q : α → Bool) (l : List α)
    (h : ∀ x ∈ l, p x = true → q x = true) (x : α) (hx : x ∈ l) (hq : q x = true)
    (hp : p x = false) : l.countP p < l.countP q := by
  induction l with
  | nil => simp at hx
  | cons a l ih =>
    simp only [List.countP_cons]
    have hmono : l.countP p ≤ l.countP q :=
      List.countP_mono_left (fun y hy => h y (List.mem_cons_of_mem a hy))
    rcases List.mem_cons.mp hx with rfl | hx
    · rw [hq, hp]
      simp
      omega
    · have := ih (fun y hy => h y (List.mem_cons_of_mem a hy)) hx
      have ha := h a (List.mem_cons_self a l)
      by_cases hpa : p a = true
      · rw [hpa, ha hpa]
        simp
        omega
      · by_cases hqa : q a = true
        · simp only [hpa, hqa, if_true, Bool.false_eq_true, if_false]
          omega
        · simp only [hpa, hqa, Bool.false_eq_true, if_false]
          omega

/-- A loop whose body preserves an invariant and decreases a measure runs to completion
within a budget of the size of the measure. -/
theorem run_loop_terminates {σ : Type} (step : σ → Option σ) (fin : σ → Bool)
    (I : σ → Nat → Prop)
    (hprog : ∀ s k, I s k → fin s = false → ∃ s1 k1, step s = some s1 ∧ I s1 k1 ∧ k1 < k)
    (fuel : Nat) (s : σ) (k : Nat) (hI : I s k) (hk : k ≤ fuel) :
    ∃ a k1, run_loop step fin fuel s = .done a ∧ I a k1 ∧ fin a = true := by
  induction fuel generalizing s k with
  | zero =>
    by_cases hf : fin s = true
    · exact ⟨s, k, by simp [run_loop, hf], hI, hf⟩
    · obtain ⟨s1, k1, -, -, hlt⟩ := hprog s k hI (by simpa using hf)
      omega
  | succ fuel ih =>
    by_cases hf : fin s = true
    · exact ⟨s, k, by simp [run_loop, hf], hI, hf⟩
    · obtain ⟨s1, k1, hs, hI1, hlt⟩ := hprog s k hI (by simpa using hf)
      obtain ⟨a, k2, ha, hIa, hfa⟩ := ih s1 k1 hI1 (by omega)
      exact ⟨a, k2, by simp [run_loop, hf, hs, ha], hIa, hfa⟩

/-! ## The BWT index on a suffix-sorted arrangement -/

theorem LF_append (P : List (Sym × List Nat)) (hcl : closed_arrangement P)
    (hS : (P.map Prod.snd).Sorted (· ≤ ·)) (c : Sym) (hc : c ≠ Sym.TERM) (W : List Nat)
    (k : Nat) :
    bwt_LF_pos (P.map Prod.fst) c (cnt_lt (P.map Prod.snd) (W ++ [k])) =
      cnt_lt (P.map Prod.snd) ((c.code :: W) ++ [k]) :=
  LF_cnt_lt P hcl hS c hc (W ++ [k])

theorem first_leaf_eq (P : List (Sym × List Nat)) (hcl : closed_arrangement P) :
    bwt_first_leaf (P.map Prod.fst) = leaf_of (P.map Prod.snd) [] := by
  unfold bwt_first_leaf leaf_of
  simp only [List.nil_append, List.length_nil, Nat.zero_add]
  rw [cnt_lt_singleton P hcl 0, cnt_lt_singleton P hcl 1]
  simp only [Nat.not_lt_zero, decide_False, List.countP_false]
  unfold bwt_C
  rw [List.countP_map]
  rfl

theorem root_eq (P : List (Sym × List Nat)) (hcl : closed_arrangement P) :
    bwt_root (P.map Prod.fst) = node_of (P.map Prod.snd) [] := by
  unfold bwt_root node_of
  simp only [List.nil_append, List.length_nil, List.length_map]
  rw [cnt_lt_singleton P hcl 0, cnt_lt_singleton P hcl 1, cnt_lt_singleton P hcl 2,
    cnt_lt_singleton P hcl 3, cnt_lt_singleton P hcl 5, cnt_lt_singleton P hcl 6]
  have h6 : P.countP (fun p => decide (p.1.code < 6)) = P.length := by
    rw [List.countP_eq_length]
    intro p _
    have := code_le_five p.1
    simp only [decide_eq_true_eq]
    omega
  simp only [Nat.not_lt_zero, decide_False, List.countP_false, h6]
  unfold bwt_C
  simp only [List.countP_map]
  rfl

theorem LF_node_eq (P : List (Sym × List Nat)) (hcl : closed_arrangement P)
    (hS : (P.map Prod.snd).Sorted (· ≤ ·)) (c : Sym) (hc : c ≠ Sym.TERM) (W : List Nat) :
    bwt_LF_node1 (P.map Prod.fst) c (node_of (P.map Prod.snd) W) =
      node_of (P.map Prod.snd) (c.code :: W) := by
  unfold bwt_LF_node1 node_of
  simp only [LF_append P hcl hS c hc, List.length_cons]

theorem LF_leaf_eq (P : List (Sym × List Nat)) (hcl : closed_arrangement P)
    (hS : (P.map Prod.snd).Sorted (· ≤ ·)) (c : Sym) (hc : c ≠ Sym.TERM) (W : List Nat) :
    (⟨⟨bwt_LF_pos (P.map Prod.fst) c (leaf_of (P.map Prod.snd) W).rn.first,
       bwt_LF_pos (P.map Prod.fst) c (leaf_of (P.map Prod.snd) W).rn.second⟩,
      (leaf_of (P.map Prod.snd) W).depth + 1⟩ : sa_leaf) =
      leaf_of (P.map Prod.snd) (c.code :: W) := by
  unfold leaf_of
  simp only [LF_append P hcl hS c hc, List.length_cons]

theorem leaf_range_le (S : List (List Nat)) (W : List Nat) :
    (leaf_of S W).rn.first ≤ (leaf_of S W).rn.second :=
  cnt_lt_chain S W 0 1 (by omega)

theorem leaf_range_length (S : List (List Nat)) (W : List Nat) :
    range_length (leaf_of S W).rn = some (range_len (leaf_of S W).rn) := by
  unfold range_length
  rw [if_pos (leaf_range_le S W)]

theorem leaf_range_count (S : List (List Nat)) (hS : suffix_collection S) (W : List Nat) :
    range_len (leaf_of S W).rn = S.count (W ++ [0]) := by
  unfold range_len leaf_of
  simp only
  rw [cnt_lt_leaf_count S hS W]
  omega

/-- The children that `next_leaves` returns for the leaf of `W`. -/
theorem next_leaves_eq (P : List (Sym × List Nat)) (hcl : closed_arrangement P)
    (hS : (P.map Prod.snd).Sorted (· ≤ ·)) (W : List Nat) (k : Nat) :
    bwt_next_leaves (P.map Prod.fst) (leaf_of (P.map Prod.snd) W) k =
      some ((sort_by_key (fun V => range_len (leaf_of (P.map Prod.snd) V).rn)
        (extensions (fun V => decide (k ≤ range_len (leaf_of (P.map Prod.snd) V).rn)) W)).map
          (leaf_of (P.map Prod.snd))) := by
  have hA := LF_leaf_eq P hcl hS Sym.A (by decide) W
  have hC := LF_leaf_eq P hcl hS Sym.C (by decide) W
  have hG := LF_leaf_eq P hcl hS Sym.G (by decide) W
  have hT := LF_leaf_eq P hcl hS Sym.T (by decide) W
  simp only [Sym.code] at hA hC hG hT
  have rA := congrArg sa_leaf.rn hA
  have rC := congrArg sa_leaf.rn hC
  have rG := congrArg sa_leaf.rn hG
  have rT := congrArg sa_leaf.rn hT
  simp only at rA rC rG rT
  have hd : ∀ a : Nat, (⟨(leaf_of (P.map Prod.snd) (a :: W)).rn,
      (leaf_of (P.map Prod.snd) W).depth + 1⟩ : sa_leaf) =
      leaf_of (P.map Prod.snd) (a :: W) := fun a => rfl
  unfold bwt_next_leaves bwt_LF_range
  simp only [rA, rC, rG, rT, leaf_range_length, hd, ge_iff_le]
  rw [← sort_by_key_map (fun l : sa_leaf => range_len l.rn) (leaf_of (P.map Prod.snd)),
    extensions_map]
  simp only [decide_eq_true_eq]

/-- The children that `next_nodes` returns for the node of `W`. -/
theorem next_nodes_eq (P : List (Sym × List Nat)) (hcl : closed_arrangement P)
    (hS : (P.map Prod.snd).Sorted (· ≤ ·)) (W : List Nat) :
    bwt_next_nodes (P.map Prod.fst) (node_of (P.map Prod.snd) W) =
      (sort_by_key (fun V => node_size (node_of (P.map Prod.snd) V))
        (extensions (fun V => decide (2 ≤ number_of_children (node_of (P.map Prod.snd) V)))
          W)).map (node_of (P.map Prod.snd)) := by
  have hA := LF_node_eq P hcl hS Sym.A (by decide) W
  have hC := LF_node_eq P hcl hS Sym.C (by decide) W
  have hG := LF_node_eq P hcl hS Sym.G (by decide) W
  have hT := LF_node_eq P hcl hS Sym.T (by decide) W
  simp only [Sym.code] at hA hC hG hT
  unfold bwt_next_nodes bwt_LF_node
  simp only [hA, hC, hG, hT, ge_iff_le]
  rw [← sort_by_key_map node_size (node_of (P.map Prod.snd)), extensions_map]
  simp only [decide_eq_true_eq]

/-! ## Measures of the two passes -/

theorem leaf_weight_le (S Ws : List (List Nat)) : leaf_weight S Ws ≤ S.length :=
  List.countP_le_length _

theorem node_weight_le (S Ws : List (List Nat)) : node_weight S Ws ≤ S.length := by
  unfold node_weight
  have := List.countP_le_length (fun j => decide (node_waiting S Ws j))
    (l := List.range S.length)
  simpa using this

theorem leaf_weight_step (S : List (List Nat)) (W : List Nat)
    (rest cs : List (List Nat)) (hfree : suffix_free (W :: rest))
    (hcs : ∀ c ∈ cs, ∃ a, c = a :: W) :
    leaf_weight S (cs ++ rest) + S.count (W ++ [0]) ≤ leaf_weight S (W :: rest) := by
  have hfr : ∀ R ∈ rest, ¬ W <:+ R ∧ ¬ R <:+ W := (List.pairwise_cons.mp hfree).1
  unfold leaf_weight
  rw [List.count_eq_countP]
  apply countP_add_le_pointwise
  intro s _
  by_cases hs : s = W ++ [0]
  · subst hs
    have h1 : ¬ pending (cs ++ rest) W := by
      rintro ⟨W1, hW1, hsuf⟩
      rcases List.mem_append.mp hW1 with hc | hr
      · obtain ⟨a, rfl⟩ := hcs W1 hc
        exact not_suffix_cons a W hsuf
      · exact (hfr W1 hr).2 hsuf
    have h2 : pending (W :: rest) W := ⟨W, List.mem_cons_self W rest, List.suffix_refl W⟩
    simp [h1, h2]
  · have h3 : pending (cs ++ rest) s.dropLast → pending (W :: rest) s.dropLast := by
      rintro ⟨W1, hW1, hsuf⟩
      rcases List.mem_append.mp hW1 with hc | hr
      · obtain ⟨a, rfl⟩ := hcs W1 hc
        exact ⟨W, List.mem_cons_self W rest, suffix_of_cons_suffix a W _ hsuf⟩
      · exact ⟨W1, List.mem_cons_of_mem W hr, hsuf⟩
    by_cases h4 : pending (cs ++ rest) s.dropLast
    · simp [h4, h3 h4, hs]
    · simp [h4, hs]

theorem node_weight_step (S : List (List Nat)) (hS : suffix_collection S) (W : List Nat)
    (rest cs : List (List Nat)) (hfree : suffix_free (W :: rest))
    (hcs : ∀ c ∈ cs, ∃ a, c = a :: W)
    (hall : ∀ a, a = 1 ∨ a = 2 ∨ a = 3 ∨ a = 5 →
      2 ≤ number_of_children (node_of S (a :: W)) → a :: W ∈ cs)
    (hch : 2 ≤ number_of_children (node_of S W)) :
    node_weight S (cs ++ rest) < node_weight S (W :: rest) := by
  obtain ⟨j, hj⟩ := exists_written S W hch
  obtain ⟨hjn, hnp, hns, -⟩ := written_node_pos S hS 0 W j hj
  have hstep := fun i hi => node_waiting_step S hS W rest cs hfree hcs hall i hi
  have hw : node_waiting S (W :: rest) j :=
    ⟨hnp, W, List.mem_cons_self W rest, by rw [hns]⟩
  unfold node_weight
  apply countP_lt_of_witness _ _ _ _ j (List.mem_range.mpr hjn)
  · simpa using hw
  · have : ¬ node_waiting S (cs ++ rest) j := fun h => ((hstep j hjn).mpr h).2 hj
    simpa using this
  · intro i hi hp
    simp only [decide_eq_true_eq] at hp ⊢
    exact ((hstep i (List.mem_range.mp hi)).mpr hp).1

/-! ## The two loops of the LCP inducer -/

theorem lcp_leaf_step_eq (w : Nat) (B : List Sym) (st : LeafState) (L : sa_leaf)
    (rest : List sa_leaf) (LCP1 : List Nat) (TMP : List sa_leaf) (hS : st.S = L :: rest)
    (h1 : L.rn.second > L.rn.first)
    (h2 : fill_nil w L.depth (L.rn.first + 1) (L.rn.second - (L.rn.first + 1)) st.LCP =
      some LCP1)
    (h3 : st.m + (L.rn.second - (L.rn.first + 1)) + 1 ≤ B.length)
    (h4 : bwt_next_leaves B L 2 = some TMP) :
    lcp_leaf_step w B st = some
      { S := TMP ++ rest, LCP := LCP1, m := st.m + (L.rn.second - (L.rn.first + 1)) + 1,
        lcp_values := st.lcp_values + (L.rn.second - (L.rn.first + 1)) } := by
  unfold lcp_leaf_step
  rw [hS]
  simp only [h1, if_true, h2, h3, h4]

theorem lcp_node_step_eq (w : Nat) (B : List Sym) (st : NodeState) (x : sa_node)
    (rest : List sa_node) (LCP1 : List Nat) (v1 : Nat) (hS : st.S = x :: rest)
    (h1 : update_lcp w x st.LCP st.lcp_values = some (LCP1, v1)) :
    lcp_node_step w B st = some
      { S := bwt_next_nodes B x ++ rest, LCP := LCP1, lcp_values := v1 } := by
  unfold lcp_node_step
  rw [hS]
  simp only [h1]

theorem lcp_leaf_step_progress (P : List (Sym × List Nat)) (hcl : closed_arrangement P)
    (hS : suffix_collection (P.map Prod.snd)) (w : Nat) (st : LeafState) (k : Nat)
    (hI : leaf_pass_inv (P.map Prod.snd) w st k) (hne : st.S.isEmpty = false) :
    ∃ st1 k1, lcp_leaf_step w (P.map Prod.fst) st = some st1 ∧
      leaf_pass_inv (P.map Prod.snd) w st1 k1 ∧ k1 < k := by
  obtain ⟨Ws, hst, hfree, hpos, hinv, hm, rfl⟩ := hI
  cases Ws with
  | nil => simp [hst] at hne
  | cons W rest =>
    have hcnt := cnt_lt_leaf_count _ hS W
    have hW := hpos W (List.mem_cons_self W rest)
    -- the children pushed by next_leaves
    have hnext := next_leaves_eq P hcl hS.sorted W 2
    have hperm := sort_by_key_perm (fun V => range_len (leaf_of (P.map Prod.snd) V).rn)
      (extensions (fun V => decide (2 ≤ range_len (leaf_of (P.map Prod.snd) V).rn)) W)
    have hcs : ∀ c ∈ sort_by_key (fun V => range_len (leaf_of (P.map Prod.snd) V).rn)
        (extensions (fun V => decide (2 ≤ range_len (leaf_of (P.map Prod.snd) V).rn)) W),
        ∃ a, c = a :: W := fun c hc => by
      obtain ⟨a, -, rfl, -⟩ := (mem_extensions _ W c).mp (hperm.mem_iff.mp hc)
      exact ⟨a, rfl⟩
    have hall : ∀ a, a = 1 ∨ a = 2 ∨ a = 3 ∨ a = 5 →
        2 ≤ (P.map Prod.snd).count (a :: W ++ [0]) →
        a :: W ∈ sort_by_key (fun V => range_len (leaf_of (P.map Prod.snd) V).rn)
          (extensions (fun V => decide (2 ≤ range_len (leaf_of (P.map Prod.snd) V).rn)) W) :=
      fun a ha hc => hperm.mem_iff.mpr ((mem_extensions _ W _).mpr ⟨a, ha, rfl, by
        rw [decide_eq_true_eq, leaf_range_count _ hS]
        exact hc⟩)
    -- the interior of the leaf is filled
    obtain ⟨LCP1, hfill, hinv1⟩ := fill_nil_inv (P.map Prod.snd) w (W.length + 1)
      (cnt_lt (P.map Prod.snd) (W ++ [1]) - (cnt_lt (P.map Prod.snd) (W ++ [0]) + 1))
      (leaf_waiting (P.map Prod.snd) (W :: rest)) (cnt_lt (P.map Prod.snd) (W ++ [0]) + 1)
      st.LCP hinv (by have := cnt_lt_le_length (P.map Prod.snd) (W ++ [1]); omega)
      (fun j hj1 hj2 => by
        obtain ⟨_, lp, ls, lt⟩ := leaf_interior _ hS w W j (by omega) (by omega)
        exact ⟨Or.inr ⟨lp, W, List.mem_cons_self W rest, by rw [ls]⟩, lt⟩)
    have hwstep := leaf_weight_step (P.map Prod.snd) W rest _ hfree hcs
    refine ⟨_, _, lcp_leaf_step_eq w (P.map Prod.fst) st (leaf_of (P.map Prod.snd) W)
      (rest.map (leaf_of (P.map Prod.snd))) LCP1 _ (by rw [hst]; rfl) ?_ hfill ?_ hnext,
      ⟨_, by simp only [List.map_append], suffix_free_push _ W rest _ hfree hperm, ?_, ?_, ?_,
        rfl⟩, ?_⟩
    · show cnt_lt (P.map Prod.snd) (W ++ [1]) > cnt_lt (P.map Prod.snd) (W ++ [0])
      omega
    · show st.m + (cnt_lt (P.map Prod.snd) (W ++ [1]) -
        (cnt_lt (P.map Prod.snd) (W ++ [0]) + 1)) + 1 ≤ (P.map Prod.fst).length
      simp only [List.length_map] at hm ⊢
      omega
    · intro V hV
      rcases List.mem_append.mp hV with hc | hr
      · obtain ⟨a, -, rfl, hk⟩ := (mem_extensions _ W V).mp (hperm.mem_iff.mp hc)
        rw [decide_eq_true_eq, leaf_range_count _ hS] at hk
        omega
      · exact hpos V (List.mem_cons_of_mem W hr)
    · refine lcp_inv_congr _ w _ _ LCP1 hinv1 (fun j hj => ?_)
      rw [← leaf_waiting_step _ hS W rest _ hfree hcs hall j hj]
      constructor
      · rintro ⟨a, b⟩
        exact ⟨a, fun hc => b ⟨by omega, by omega⟩⟩
      · rintro ⟨a, b⟩
        exact ⟨a, fun hc => b ⟨by omega, by omega⟩⟩
    · show st.m + (cnt_lt (P.map Prod.snd) (W ++ [1]) -
        (cnt_lt (P.map Prod.snd) (W ++ [0]) + 1)) + 1 + _ ≤ _
      omega
    · omega

theorem lcp_node_step_progress (P : List (Sym × List Nat)) (hcl : closed_arrangement P)
    (hS : suffix_collection (P.map Prod.snd)) (w : Nat) (st : NodeState) (k : Nat)
    (hI : node_pass_inv (P.map Prod.snd) w st k) (hne : st.S.isEmpty = false) :
    ∃ st1 k1, lcp_node_step w (P.map Prod.fst) st = some st1 ∧
      node_pass_inv (P.map Prod.snd) w st1 k1 ∧ k1 < k := by
  obtain ⟨Ws, hst, hfree, hch, hinv, rfl⟩ := hI
  cases Ws with
  | nil => simp [hst] at hne
  | cons W rest =>
    have hW := hch W (List.mem_cons_self W rest)
    have hnext := next_nodes_eq P hcl hS.sorted W
    have hperm := sort_by_key_perm (fun V => node_size (node_of (P.map Prod.snd) V))
      (extensions (fun V => decide (2 ≤ number_of_children (node_of (P.map Prod.snd) V))) W)
    have hcs : ∀ c ∈ sort_by_key (fun V => node_size (node_of (P.map Prod.snd) V))
        (extensions (fun V => decide (2 ≤ number_of_children (node_of (P.map Prod.snd) V))) W),
        ∃ a, c = a :: W := fun c hc => by
      obtain ⟨a, -, rfl, -⟩ := (mem_extensions _ W c).mp (hperm.mem_iff.mp hc)
      exact ⟨a, rfl⟩
    have hall : ∀ a, a = 1 ∨ a = 2 ∨ a = 3 ∨ a = 5 →
        2 ≤ number_of_children (node_of (P.map Prod.snd) (a :: W)) →
        a :: W ∈ sort_by_key (fun V => node_size (node_of (P.map Prod.snd) V))
          (extensions (fun V => decide (2 ≤ number_of_children (node_of (P.map Prod.snd) V)))
            W) :=
      fun a ha hc => hperm.mem_iff.mpr ((mem_extensions _ W _).mpr ⟨a, ha, rfl, by
        rw [decide_eq_true_eq]
        exact hc⟩)
    obtain ⟨L1, v1, hup, hinv1⟩ := update_lcp_inv _ hS w
      (node_waiting (P.map Prod.snd) (W :: rest)) W st.LCP st.lcp_values hinv
      (fun j hj => by
        obtain ⟨_, np, ns, _⟩ := written_node_pos _ hS w W j hj
        exact ⟨np, W, List.mem_cons_self W rest, by rw [ns]⟩) hW
    refine ⟨_, _, lcp_node_step_eq w (P.map Prod.fst) st (node_of (P.map Prod.snd) W)
      (rest.map (node_of (P.map Prod.snd))) L1 v1 (by rw [hst]; rfl) hup,
      ⟨_, by rw [hnext, List.map_append], suffix_free_push _ W rest _ hfree hperm, ?_, ?_,
        rfl⟩, node_weight_step _ hS W rest _ hfree hcs hall hW⟩
    · intro V hV
      rcases List.mem_append.mp hV with hc | hr
      · obtain ⟨a, -, rfl, hk⟩ := (mem_extensions _ W V).mp (hperm.mem_iff.mp hc)
        rw [decide_eq_true_eq] at hk
        exact hk
      · exact hch V (List.mem_cons_of_mem W hr)
    · exact lcp_inv_congr _ w _ _ L1 hinv1
        (fun j hj => node_waiting_step _ hS W rest _ hfree hcs hall j hj)

theorem pending_nil (V : List Nat) : pending [[]] V :=
  ⟨[], List.mem_singleton.mpr rfl, List.nil_suffix⟩

theorem not_pending_empty (V : List Nat) : ¬ pending [] V := by
  rintro ⟨W, hW, -⟩
  simp at hW

theorem lcp_init_inv (S : List (List Nat)) (w : Nat) :
    lcp_inv S w (leaf_waiting S [[]]) ((List.replicate S.length (nil w)).set 0 0) := by
  refine ⟨by simp, fun i hi => ⟨fun hw => ?_, fun hw => ?_⟩⟩
  · have hi0 : 0 < i := by
      rcases hw with h | h
      · exact h.1
      · exact h.1.1
    rw [List.getElem?_set_ne (by omega)]
    simp [hi]
  · have hi0 : i = 0 := by
      by_contra hne
      apply hw
      by_cases he : str_at S (i - 1) = str_at S i
      · exact Or.inr ⟨⟨by omega, he⟩, pending_nil _⟩
      · exact Or.inl ⟨by omega, he⟩
    subst hi0
    rw [List.getElem?_set_self (by simp; omega)]
    simp [lcp_target]

/-- On a suffix-sorted arrangement whose root has two children, the LCP inducer returns, for
every budget of at least `n` iterations per loop, the vector of the final values. -/
theorem lcp_build_arrangement (P : List (Sym × List Nat)) (hcl : closed_arrangement P)
    (hS : suffix_collection (P.map Prod.snd)) (hterm : [0] ∈ P.map Prod.snd)
    (hroot : 2 ≤ number_of_children (node_of (P.map Prod.snd) [])) (w fuel : Nat)
    (hfuel : P.length ≤ fuel) :
    ∃ LCP, lcp_build w fuel (P.map Prod.fst) = .done LCP ∧ LCP.length = P.length ∧
      ∀ i, i < P.length → LCP[i]? = some (lcp_target (P.map Prod.snd) w i) := by
  have hlen : (P.map Prod.snd).length = P.length := List.length_map _ _
  have hn : (P.map Prod.snd).length ≠ 0 := by
    intro h
    rw [List.length_eq_zero] at h
    rw [h] at hterm
    simp at hterm
  have hnB : (P.map Prod.fst).length ≠ 0 := by
    rw [List.length_map]
    omega
  -- first loop
  have hinit : lcp_init w (P.map Prod.fst) = some
      { S := [leaf_of (P.map Prod.snd) []],
        LCP := (List.replicate (P.map Prod.snd).length (nil w)).set 0 0, m := 0,
        lcp_values := 1 } := by
    unfold lcp_init
    rw [if_neg hnB, first_leaf_eq P hcl]
    simp
  have hI0 : leaf_pass_inv (P.map Prod.snd) w
      { S := [leaf_of (P.map Prod.snd) []],
        LCP := (List.replicate (P.map Prod.snd).length (nil w)).set 0 0, m := 0,
        lcp_values := 1 } (leaf_weight (P.map Prod.snd) [[]]) :=
    ⟨[[]], rfl, List.pairwise_singleton _ _, fun W hW => by
        rw [List.mem_singleton.mp hW]
        exact List.count_pos_iff.mpr hterm,
      lcp_init_inv _ w, by
        have := leaf_weight_le (P.map Prod.snd) [[]]
        simp only [Nat.zero_add]
        exact this, rfl⟩
  obtain ⟨s1, k1, hrun1, hI1, hfin1⟩ := run_loop_terminates (lcp_leaf_step w (P.map Prod.fst))
    (fun s => s.S.isEmpty) (leaf_pass_inv (P.map Prod.snd) w)
    (fun s k hI hne => lcp_leaf_step_progress P hcl hS w s k hI hne) fuel _ _ hI0
    (by have := leaf_weight_le (P.map Prod.snd) [[]]; omega)
  obtain ⟨Ws1, hst1, -, -, hinv1, -, -⟩ := hI1
  have hWs1 : Ws1 = [] := by
    cases Ws1 with
    | nil => rfl
    | cons a l => simp [hst1] at hfin1
  subst hWs1
  -- second loop
  have hI2 : node_pass_inv (P.map Prod.snd) w
      { S := [bwt_root (P.map Prod.fst)], LCP := s1.LCP, lcp_values := s1.lcp_values }
      (node_weight (P.map Prod.snd) [[]]) :=
    ⟨[[]], by rw [root_eq P hcl]; rfl, List.pairwise_singleton _ _, fun W hW => by
        rw [List.mem_singleton.mp hW]
        exact hroot,
      lcp_inv_congr _ w _ _ _ hinv1 (fun j _ => by
        constructor
        · rintro (h | ⟨_, h⟩)
          · exact ⟨h, pending_nil _⟩
          · exact absurd h (not_pending_empty _)
        · rintro ⟨h, _⟩
          exact Or.inl h), rfl⟩
  obtain ⟨s2, k2, hrun2, hI2', hfin2⟩ := run_loop_terminates
    (lcp_node_step w (P.map Prod.fst)) (fun s => s.S.isEmpty)
    (node_pass_inv (P.map Prod.snd) w)
    (fun s k hI hne => lcp_node_step_progress P hcl hS w s k hI hne) fuel _ _ hI2
    (by have := node_weight_le (P.map Prod.snd) [[]]; omega)
  obtain ⟨Ws2, hst2, -, -, hinv2, -⟩ := hI2'
  have hWs2 : Ws2 = [] := by
    cases Ws2 with
    | nil => rfl
    | cons a l => simp [hst2] at hfin2
  subst hWs2
  refine ⟨s2.LCP, (lcp_build_done w fuel _ _).mpr ⟨_, s1, s2, hinit, hrun1, hrun2, rfl⟩,
    by rw [hinv2.1, hlen], fun i hi => ?_⟩
  exact (hinv2.2 i (by omega)).2 (fun h => not_pending_empty _ h.2)

/-! ## Read collections -/

theorem suffix_pairs_term_mem (r : List Sym) (hr : r ≠ []) :
    ∃ p ∈ suffix_pairs r, p.2 = [0] := by
  induction r with
  | nil => exact absurd rfl hr
  | cons c r ih =>
    cases r with
    | nil => exact ⟨(c, [0]), by simp [suffix_pairs], rfl⟩
    | cons d r =>
      obtain ⟨p, hp, h0⟩ := ih (by simp)
      exact ⟨p, by simp only [suffix_pairs, List.mem_cons] at hp ⊢; exact Or.inr hp, h0⟩

theorem read_pairs_term_mem (r : List Sym) : ∃ p ∈ read_pairs r, p.2 = [0] := by
  cases r with
  | nil => exact ⟨(Sym.TERM, [0]), by simp [read_pairs], rfl⟩
  | cons c r =>
    obtain ⟨p, hp, h0⟩ := suffix_pairs_term_mem (c :: r) (by simp)
    exact ⟨p, by simp only [read_pairs, List.mem_cons]; exact Or.inr hp, h0⟩

theorem collection_pairs_mem (reads : List (List Sym)) (r : List Sym) (hr : r ∈ reads)
    (p : Sym × List Nat) (hp : p ∈ read_pairs r) : p ∈ collection_pairs reads := by
  induction reads with
  | nil => simp at hr
  | cons a rs ih =>
    simp only [collection_pairs, List.mem_append]
    rcases List.mem_cons.mp hr with rfl | h
    · exact Or.inl hp
    · exact Or.inr (ih h)

/-- The suffixes of a non-empty collection contain the terminator string. -/
theorem arrangement_term_mem (reads : List (List Sym)) (P : List (Sym × List Nat))
    (hP : sorted_arrangement reads P) (hne : reads ≠ []) : [0] ∈ P.map Prod.snd := by
  cases reads with
  | nil => exact absurd rfl hne
  | cons r rs =>
    obtain ⟨p, hp, h0⟩ := read_pairs_term_mem r
    have := hP.1.mem_iff.mpr (collection_pairs_mem (r :: rs) r (List.mem_cons_self r rs) p hp)
    exact List.mem_map.mpr ⟨p, this, h0⟩

/-- The root of a collection with a non-empty read over `{A,C,G,T}` has two children. -/
theorem arrangement_root (reads : List (List Sym)) (hr : ∀ r ∈ reads, dna_read r)
    (P : List (Sym × List Nat)) (hP : sorted_arrangement reads P)
    (hne : ∃ r ∈ reads, r ≠ []) : 2 ≤ number_of_children (node_of (P.map Prod.snd) []) := by
  obtain ⟨r, hrm, hrne⟩ := hne
  have h0 := arrangement_term_mem reads P hP (List.ne_nil_of_mem hrm)
  have h1 : r.map Sym.code ++ [0] ∈ P.map Prod.snd := by
    have : (Sym.TERM, r.map Sym.code ++ [0]) ∈ read_pairs r := by simp [read_pairs]
    have := hP.1.mem_iff.mpr (collection_pairs_mem reads r hrm _ this)
    exact List.mem_map.mpr ⟨_, this, rfl⟩
  cases r with
  | nil => exact absurd rfl hrne
  | cons c r =>
    have hc : c.code = 1 ∨ c.code = 2 ∨ c.code = 3 ∨ c.code = 5 := by
      rcases hr _ hrm c (List.mem_cons_self c r) with h | h | h | h <;> rw [h] <;>
        simp [Sym.code]
    exact two_children (P.map Prod.snd) [] 0 c.code [] (r.map Sym.code ++ [0]) (Or.inl rfl)
      (Or.inr hc) (by omega) h0 (by simpa using h1)

/-- A constructor run that returns has passed the root's assertion. -/
theorem lcp_build_done_root (w fuel : Nat) (B : List Sym) (LCP : List Nat)
    (h : lcp_build w fuel B = .done LCP) : 2 ≤ number_of_children (bwt_root B) := by
  obtain ⟨s0, s1, s2, -, -, h2, -⟩ := (lcp_build_done w fuel B LCP).mp h
  cases fuel with
  | zero => simp [run_loop] at h2
  | succ fuel =>
    simp only [run_loop, List.isEmpty_cons, Bool.false_eq_true, if_false] at h2
    cases hs : lcp_node_step w B
        { S := [bwt_root B], LCP := s1.LCP, lcp_values := s1.lcp_values } with
    | none => simp [hs] at h2
    | some s =>
      unfold lcp_node_step at hs
      simp only at hs
      cases hu : update_lcp w (bwt_root B) s1.LCP s1.lcp_values with
      | none => simp [hu] at hs
      | some r => exact (update_lcp_some w _ _ _ r hu).1.2.2.2.2

/-- Whatever the budget, a returned LCP vector is the vector of final values. -/
theorem lcp_build_partial (reads : List (List Sym)) (hr : ∀ r ∈ reads, dna_read r)
    (P : List (Sym × List Nat)) (hP : sorted_arrangement reads P) (w fuel : Nat)
    (LCP : List Nat) (h : lcp_build w fuel (P.map Prod.fst) = .done LCP) :
    LCP.length = P.length ∧
      ∀ i, i < P.length → LCP[i]? = some (lcp_target (P.map Prod.snd) w i) := by
  have hcl := closed_arrangement_perm P _ hP.1 (collection_pairs_closed reads hr)
  have hS := arrangement_suffix_collection reads hr P hP
  have hroot := lcp_build_done_root w fuel _ LCP h
  rw [root_eq P hcl] at hroot
  have hne : reads ≠ [] := by
    rintro rfl
    have hP0 : P = [] := List.Perm.eq_nil hP.1
    subst hP0
    simp [lcp_build, lcp_pass1, lcp_init] at h
  obtain ⟨L, hL, hlen, hval⟩ := lcp_build_arrangement P hcl hS
    (arrangement_term_mem reads P hP hne) hroot w (max fuel P.length) (le_max_right _ _)
  have := lcp_build_mono w fuel (max fuel P.length) _ LCP h (le_max_left _ _)
  rw [this] at hL
  cases hL
  exact ⟨hlen, hval⟩

theorem lcp_target_small (S : List (List Nat)) (w i : Nat) (hi : 0 < i)
    (h : lcp_len (str_at S (i - 1)) (str_at S i) < nil w) :
    lcp_target S w i = lcp_len (str_at S (i - 1)) (str_at S i) := by
  unfold lcp_target
  rw [if_neg (by omega)]
  apply Nat.mod_eq_of_lt
  unfold nil at h
  omega


theorem nil_pos (w : Nat) (hw : 0 < w) : 0 < nil w := by
  unfold nil
  have : 1 < 2 ^ (8 * w) := Nat.one_lt_two_pow (by omega)
  omega

/-- With one non-empty read the constructor returns within `n` iterations per loop. -/
theorem lcp_build_total (reads : List (List Sym)) (hr : ∀ r ∈ reads, dna_read r)
    (P : List (Sym × List Nat)) (hP : sorted_arrangement reads P) (w : Nat)
    (hne : ∃ r ∈ reads, r ≠ []) (fuel : Nat) (hfuel : P.length ≤ fuel) :
    ∃ LCP, lcp_build w fuel (P.map Prod.fst) = .done LCP := by
  have hcl := closed_arrangement_perm P _ hP.1 (collection_pairs_closed reads hr)
  have hS := arrangement_suffix_collection reads hr P hP
  obtain ⟨r, hrm, -⟩ := id hne
  obtain ⟨L, hL, -, -⟩ := lcp_build_arrangement P hcl hS
    (arrangement_term_mem reads P hP (List.ne_nil_of_mem hrm))
    (arrangement_root reads hr P hP hne) w fuel hfuel
  exact ⟨L, hL⟩

/-! ## The merge of two suffix collections -/

theorem merge_tagged_nil_left (ys : List (List Nat)) :
    merge_tagged [] ys = ys.map fun y => (true, y) := by
  rw [merge_tagged]

theorem merge_tagged_nil_right (xs : List (List Nat)) :
    merge_tagged xs [] = xs.map fun z => (false, z) := by
  cases xs with
  | nil => rw [merge_tagged]; rfl
  | cons x xs => rw [merge_tagged]

theorem merge_tagged_cons_le (x y : List Nat) (xs ys : List (List Nat)) (h : x ≤ y) :
    merge_tagged (x :: xs) (y :: ys) = (false, x) :: merge_tagged xs (y :: ys) := by
  rw [merge_tagged, if_pos h]

theorem merge_tagged_cons_gt (x y : List Nat) (xs ys : List (List Nat)) (h : ¬ x ≤ y) :
    merge_tagged (x :: xs) (y :: ys) = (true, y) :: merge_tagged (x :: xs) ys := by
  rw [merge_tagged, if_neg h]

/-- Induction along the merge. -/
theorem merge_induction (motive : List (List Nat) → List (List Nat) → Prop)
    (h1 : ∀ ys, motive [] ys) (h2 : ∀ x xs, motive (x :: xs) [])
    (h3 : ∀ x xs y ys, x ≤ y → motive xs (y :: ys) → motive (x :: xs) (y :: ys))
    (h4 : ∀ x xs y ys, ¬ x ≤ y → motive (x :: xs) ys → motive (x :: xs) (y :: ys))
    (xs ys : List (List Nat)) : motive xs ys := by
  induction xs generalizing ys with
  | nil => exact h1 ys
  | cons x xs ihx =>
    induction ys with
    | nil => exact h2 x xs
    | cons y ys ihy =>
      by_cases h : x ≤ y
      · exact h3 x xs y ys h (ihx (y :: ys))
      · exact h4 x xs y ys h ihy

theorem merge_strs_perm (xs ys : List (List Nat)) : (merge_strs xs ys).Perm (xs ++ ys) := by
  unfold merge_strs
  refine merge_induction (fun xs ys => ((merge_tagged xs ys).map Prod.snd).Perm (xs ++ ys))
    ?_ ?_ ?_ ?_ xs ys
  · intro ys
    rw [merge_tagged_nil_left]
    simp [Function.comp_def]
  · intro x xs
    rw [merge_tagged_nil_right]
    simp [Function.comp_def]
  · intro x xs y ys h ih
    rw [merge_tagged_cons_le x y xs ys h]
    exact List.Perm.cons x ih
  · intro x xs y ys h ih
    rw [merge_tagged_cons_gt x y xs ys h]
    simp only [List.map_cons]
    exact (List.Perm.cons y ih).trans (@List.perm_middle _ y (x :: xs) _).symm

theorem merge_strs_sorted (xs ys : List (List Nat)) (hx : xs.Sorted (· ≤ ·))
    (hy : ys.Sorted (· ≤ ·)) : (merge_strs xs ys).Sorted (· ≤ ·) := by
  revert hx hy
  refine merge_induction (fun xs ys => xs.Sorted (· ≤ ·) → ys.Sorted (· ≤ ·) →
    (merge_strs xs ys).Sorted (· ≤ ·)) ?_ ?_ ?_ ?_ xs ys
  · intro ys _ hy
    unfold merge_strs
    rw [merge_tagged_nil_left]
    simpa [Function.comp_def] using hy
  · intro x xs hx _
    unfold merge_strs
    rw [merge_tagged_nil_right]
    simpa [Function.comp_def] using hx
  · intro x xs y ys h ih hx hy
    have hperm := merge_strs_perm xs (y :: ys)
    unfold merge_strs at ih hperm ⊢
    rw [merge_tagged_cons_le x y xs ys h]
    simp only [List.map_cons]
    rw [List.sorted_cons] at hx ⊢
    refine ⟨fun b hb => ?_, ih hx.2 hy⟩
    rcases List.mem_append.mp (hperm.mem_iff.mp hb) with hb | hb
    · exact hx.1 b hb
    · rcases List.mem_cons.mp hb with rfl | hb
      · exact h
      · exact le_trans h ((List.sorted_cons.mp hy).1 b hb)
  · intro x xs y ys h ih hx hy
    have hperm := merge_strs_perm (x :: xs) ys
    unfold merge_strs at ih hperm ⊢
    rw [merge_tagged_cons_gt x y xs ys h]
    simp only [List.map_cons]
    have hyx : y ≤ x := le_of_lt (not_le.mp h)
    rw [List.sorted_cons] at hy ⊢
    refine ⟨fun b hb => ?_, ih hx hy.2⟩
    rcases List.mem_append.mp (hperm.mem_iff.mp hb) with hb | hb
    · rcases List.mem_cons.mp hb with rfl | hb
      · exact hyx
      · exact le_trans hyx ((List.sorted_cons.mp hx).1 b hb)
    · exact hy.1 b hb

theorem merge_da_length (xs ys : List (List Nat)) :
    (merge_da xs ys).length = xs.length + ys.length := by
  have := (merge_strs_perm xs ys).length_eq
  unfold merge_strs at this
  unfold merge_da
  simpa using this

theorem merge_da_count (xs ys : List (List Nat)) : (merge_da xs ys).count true = ys.length := by
  unfold merge_da
  refine merge_induction (fun xs ys => ((merge_tagged xs ys).map Prod.fst).count true =
    ys.length) ?_ ?_ ?_ ?_ xs ys
  · intro ys
    rw [merge_tagged_nil_left]
    induction ys with
    | nil => rfl
    | cons y ys ih =>
      simp only [List.map_cons, List.map_map, List.count_cons_self, List.length_cons] at ih ⊢
      rw [ih]
  · intro x xs
    rw [merge_tagged_nil_right]
    have : ∀ l : List (List Nat), (List.map Prod.fst (l.map fun z => (false, z))).count true
        = 0 := by
      intro l
      induction l with
      | nil => rfl
      | cons a l ih => simpa [List.count_cons] using ih
    rw [this]
    rfl
  · intro x xs y ys h ih
    rw [merge_tagged_cons_le x y xs ys h]
    simpa [List.count_cons] using ih
  · intro x xs y ys h ih
    rw [merge_tagged_cons_gt x y xs ys h]
    simp only [List.map_cons, List.count_cons_self, ih, List.length_cons]

theorem merge_strs_eq_weave (xs ys : List (List Nat)) :
    merge_strs xs ys = weave (merge_da xs ys) xs ys := by
  unfold merge_strs merge_da
  refine merge_induction (fun xs ys => (merge_tagged xs ys).map Prod.snd =
    weave ((merge_tagged xs ys).map Prod.fst) xs ys) ?_ ?_ ?_ ?_ xs ys
  · intro ys
    rw [merge_tagged_nil_left]
    induction ys with
    | nil => rfl
    | cons y ys ih =>
      simp only [List.map_cons, List.map_map] at ih ⊢
      simp only [weave]
      rw [ih]
  · intro x xs
    rw [merge_tagged_nil_right]
    generalize x :: xs = l
    induction l with
    | nil => rfl
    | cons a l ih =>
      simp only [List.map_cons, List.map_map] at ih ⊢
      simp only [weave]
      rw [ih]
  · intro x xs y ys h ih
    rw [merge_tagged_cons_le x y xs ys h]
    simp only [List.map_cons, weave]
    rw [ih]
  · intro x xs y ys h ih
    rw [merge_tagged_cons_gt x y xs ys h]
    simp only [List.map_cons, weave]
    rw [ih]

theorem sorted_lt_cnt_count (S : List (List Nat)) (hS : S.Sorted (· ≤ ·)) (i : Nat)
    (s : List Nat) (hi : S[i]? = some s) : i < cnt_lt S s + S.count s := by
  induction S generalizing i with
  | nil => simp at hi
  | cons a S ih =>
    rw [List.sorted_cons] at hS
    rw [cnt_lt_cons, List.count_cons]
    cases i with
    | zero =>
      simp only [List.getElem?_cons_zero, Option.some.injEq] at hi
      subst hi
      simp
    | succ i =>
      simp only [List.getElem?_cons_succ] at hi
      have h1 := ih hS.2 i hi
      have ha : a ≤ s := hS.1 s (List.getElem?_mem hi)
      rcases lt_or_eq_of_le ha with h | h
      · rw [if_pos h]
        omega
      · subst h
        simp only [lt_irrefl, if_false, beq_self_eq_true, if_true]
        omega

theorem sorted_cnt_le (S : List (List Nat)) (hS : S.Sorted (· ≤ ·)) (i : Nat)
    (s : List Nat) (hi : S[i]? = some s) : cnt_lt S s ≤ i :=
  (sorted_ge_iff S hS s i s hi).mp (le_refl s)

theorem count_eq_zero_of_lt (S : List (List Nat)) (y : List Nat) (h : ∀ s ∈ S, y < s) :
    S.count y = 0 := by
  rw [List.count_eq_zero]
  intro hy
  exact lt_irrefl y (h y hy)

/-- In the merge, a position holds a string of the second list exactly when it lies behind
the strings of the first list that are equal to it. -/
theorem merge_tag_iff (xs ys : List (List Nat)) (hx : xs.Sorted (· ≤ ·))
    (hy : ys.Sorted (· ≤ ·)) (i : Nat) (t : Bool) (s : List Nat)
    (hi : (merge_tagged xs ys)[i]? = some (t, s)) :
    t = true ↔ cnt_lt (merge_strs xs ys) s + xs.count s ≤ i := by
  revert hx hy i
  refine merge_induction (fun xs ys => xs.Sorted (· ≤ ·) → ys.Sorted (· ≤ ·) → ∀ i,
    (merge_tagged xs ys)[i]? = some (t, s) →
    (t = true ↔ cnt_lt (merge_strs xs ys) s + xs.count s ≤ i)) ?_ ?_ ?_ ?_ xs ys
  · intro ys _ hy i hi
    have hstr : merge_strs [] ys = ys := by
      unfold merge_strs
      rw [merge_tagged_nil_left]
      simp [Function.comp_def]
    rw [merge_tagged_nil_left, List.getElem?_map] at hi
    cases hyi : ys[i]? with
    | none => simp [hyi] at hi
    | some z =>
      simp only [hyi, Option.map_some', Option.some.injEq, Prod.mk.injEq] at hi
      obtain ⟨rfl, rfl⟩ := hi
      rw [hstr]
      simp only [List.count_nil, Nat.add_zero, true_iff]
      exact sorted_cnt_le ys hy i z hyi
  · intro x xs hx _ i hi
    have hstr : merge_strs (x :: xs) [] = x :: xs := by
      unfold merge_strs
      rw [merge_tagged_nil_right]
      simp [Function.comp_def]
    rw [merge_tagged_nil_right, List.getElem?_map] at hi
    cases hxi : (x :: xs)[i]? with
    | none => simp [hxi] at hi
    | some z =>
      simp only [hxi, Option.map_some', Option.some.injEq, Prod.mk.injEq] at hi
      obtain ⟨rfl, rfl⟩ := hi
      rw [hstr]
      have := sorted_lt_cnt_count (x :: xs) hx i z hxi
      simp only [Bool.false_eq_true, false_iff, not_le]
      exact this
  · intro x xs y ys h ih hx hy i hi
    have hperm := merge_strs_perm xs (y :: ys)
    have hstr : merge_strs (x :: xs) (y :: ys) = x :: merge_strs xs (y :: ys) := by
      unfold merge_strs
      rw [merge_tagged_cons_le x y xs ys h]
      rfl
    rw [merge_tagged_cons_le x y xs ys h] at hi
    rw [hstr, cnt_lt_cons, List.count_cons]
    cases i with
    | zero =>
      simp only [List.getElem?_cons_zero, Option.some.injEq, Prod.mk.injEq] at hi
      obtain ⟨rfl, rfl⟩ := hi
      simp
    | succ i =>
      simp only [List.getElem?_cons_succ] at hi
      have ih' := ih (List.sorted_cons.mp hx).2 hy i hi
      have hmem : s ∈ merge_strs xs (y :: ys) := by
        unfold merge_strs
        exact List.mem_map.mpr ⟨(t, s), List.getElem?_mem hi, rfl⟩
      have hxs : x ≤ s := by
        rcases List.mem_append.mp (hperm.mem_iff.mp hmem) with hb | hb
        · exact (List.sorted_cons.mp hx).1 s hb
        · rcases List.mem_cons.mp hb with rfl | hb
          · exact h
          · exact le_trans h ((List.sorted_cons.mp hy).1 s hb)
      rw [ih']
      rcases lt_or_eq_of_le hxs with h1 | h1
      · have hne : ¬ (x = s) := ne_of_lt h1
        simp only [h1, if_true, beq_iff_eq, hne, if_false]
        omega
      · subst h1
        simp only [lt_irrefl, if_false, beq_self_eq_true, if_true]
        omega
  · intro x xs y ys h ih hx hy i hi
    have hperm := merge_strs_perm (x :: xs) ys
    have hstr : merge_strs (x :: xs) (y :: ys) = y :: merge_strs (x :: xs) ys := by
      unfold merge_strs
      rw [merge_tagged_cons_gt x y xs ys h]
      rfl
    have hyx : y < x := not_le.mp h
    have hxall : ∀ b ∈ x :: xs, y < b := by
      intro b hb
      rcases List.mem_cons.mp hb with rfl | hb
      · exact hyx
      · exact lt_of_lt_of_le hyx ((List.sorted_cons.mp hx).1 b hb)
    have hall : ∀ b ∈ merge_strs (x :: xs) ys, y ≤ b := by
      intro b hb
      rcases List.mem_append.mp (hperm.mem_iff.mp hb) with hb | hb
      · exact le_of_lt (hxall b hb)
      · exact (List.sorted_cons.mp hy).1 b hb
    rw [merge_tagged_cons_gt x y xs ys h] at hi
    rw [hstr, cnt_lt_cons]
    cases i with
    | zero =>
      simp only [List.getElem?_cons_zero, Option.some.injEq, Prod.mk.injEq] at hi
      obtain ⟨rfl, rfl⟩ := hi
      rw [cnt_lt_eq_zero _ y hall, count_eq_zero_of_lt _ y hxall]
      simp
    | succ i =>
      simp only [List.getElem?_cons_succ] at hi
      have ih' := ih hx (List.sorted_cons.mp hy).2 i hi
      have hmem : s ∈ merge_strs (x :: xs) ys := by
        unfold merge_strs
        exact List.mem_map.mpr ⟨(t, s), List.getElem?_mem hi, rfl⟩
      rw [ih']
      rcases lt_or_eq_of_le (hall s hmem) with h1 | h1
      · rw [if_pos h1]
        omega
      · subst h1
        rw [cnt_lt_eq_zero _ y hall, count_eq_zero_of_lt _ y hxall]
        simp

theorem cnt_lt_perm (S T : List (List Nat)) (h : S.Perm T) (X : List Nat) :
    cnt_lt S X = cnt_lt T X :=
  h.countP_eq _

theorem cnt_lt_append (S T : List (List Nat)) (X : List Nat) :
    cnt_lt (S ++ T) X = cnt_lt S X + cnt_lt T X :=
  List.countP_append _ _ _

theorem cnt_lt_merge (S1 S2 : List (List Nat)) (X : List Nat) :
    cnt_lt (merge_strs S1 S2) X = cnt_lt S1 X + cnt_lt S2 X := by
  rw [cnt_lt_perm _ _ (merge_strs_perm S1 S2), cnt_lt_append]

theorem count_merge (S1 S2 : List (List Nat)) (X : List Nat) :
    (merge_strs S1 S2).count X = S1.count X + S2.count X := by
  rw [List.count_eq_countP, List.count_eq_countP, List.count_eq_countP,
    (merge_strs_perm S1 S2).countP_eq, List.countP_append]

/-- The merge of two suffix collections is a suffix collection. -/
theorem merge_suffix_collection (S1 S2 : List (List Nat)) (h1 : suffix_collection S1)
    (h2 : suffix_collection S2) : suffix_collection (merge_strs S1 S2) := by
  refine ⟨merge_strs_sorted S1 S2 h1.sorted h2.sorted, ?_, ?_⟩
  · intro s hs
    rcases List.mem_append.mp ((merge_strs_perm S1 S2).mem_iff.mp hs) with h | h
    · exact h1.term s h
    · exact h2.term s h
  · intro c s hc
    rw [count_merge, count_merge]
    have := h1.tail c s hc
    have := h2.tail c s hc
    omega

theorem merge_strs_length (S1 S2 : List (List Nat)) :
    (merge_strs S1 S2).length = S1.length + S2.length := by
  rw [(merge_strs_perm S1 S2).length_eq, List.length_append]

/-- The document array of the merge at position `i`. -/
theorem merge_da_get (S1 S2 : List (List Nat)) (h1 : S1.Sorted (· ≤ ·))
    (h2 : S2.Sorted (· ≤ ·)) (i : Nat) (hi : i < (merge_strs S1 S2).length) :
    (merge_da S1 S2)[i]? = some (decide (cnt_lt (merge_strs S1 S2) (str_at (merge_strs S1 S2) i)
      + S1.count (str_at (merge_strs S1 S2) i) ≤ i)) := by
  have hs := str_at_get (merge_strs S1 S2) i hi
  unfold merge_strs at hs hi
  unfold merge_da
  rw [List.getElem?_map] at hs ⊢
  rw [List.length_map] at hi
  have hget : (merge_tagged S1 S2)[i]? = some (merge_tagged S1 S2)[i] :=
    List.getElem?_eq_getElem hi
  rw [hget] at hs ⊢
  simp only [Option.map_some', Option.some.injEq] at hs ⊢
  have := merge_tag_iff S1 S2 h1 h2 i (merge_tagged S1 S2)[i].1 (merge_tagged S1 S2)[i].2 hget
  rw [hs] at this
  cases hb : (merge_tagged S1 S2)[i].1
  · rw [hb] at this
    simp only [Bool.false_eq_true, false_iff] at this
    exact (decide_eq_false this).symm
  · rw [hb] at this
    simp only [true_iff] at this
    exact (decide_eq_true this).symm

/-! ## The paired traversal on two suffix-sorted arrangements -/

theorem leaf_pair_len_eq (S1 S2 : List (List Nat)) (h1 : suffix_collection S1)
    (h2 : suffix_collection S2) (V : List Nat) :
    leaf_pair_len (leaf_pair_of S1 S2 V) = (merge_strs S1 S2).count (V ++ [0]) := by
  unfold leaf_pair_len leaf_pair_of
  simp only
  rw [leaf_range_count S1 h1, leaf_range_count S2 h2, count_merge]

theorem leaf_candidate_eq (S1 S2 : List (List Nat)) (V : List Nat) (d1 d2 k : Nat)
    (hd1 : d1 + 1 = (leaf_of S1 V).depth) (hd2 : d2 + 1 = (leaf_of S2 V).depth) :
    leaf_candidate (leaf_of S1 V).rn (leaf_of S2 V).rn d1 d2 k =
      some (if k ≤ leaf_pair_len (leaf_pair_of S1 S2 V) then [leaf_pair_of S1 S2 V] else []) := by
  unfold leaf_candidate
  rw [leaf_range_length, leaf_range_length]
  simp only [ge_iff_le, hd1, hd2]
  rfl

/-- The children that the paired `next_leaves` returns for the leaves of `W`. -/
theorem next_leaves_pair_eq (P1 P2 : List (Sym × List Nat)) (hc1 : closed_arrangement P1)
    (hc2 : closed_arrangement P2) (hs1 : (P1.map Prod.snd).Sorted (· ≤ ·))
    (hs2 : (P2.map Prod.snd).Sorted (· ≤ ·)) (W : List Nat) (k : Nat) :
    next_leaves (P1.map Prod.fst) (P2.map Prod.fst) (leaf_of (P1.map Prod.snd) W)
        (leaf_of (P2.map Prod.snd) W) k =
      some ((sort_by_key
          (fun V => leaf_pair_len (leaf_pair_of (P1.map Prod.snd) (P2.map Prod.snd) V))
          (extensions (fun V => decide
            (k ≤ leaf_pair_len (leaf_pair_of (P1.map Prod.snd) (P2.map Prod.snd) V))) W)).map
        (leaf_pair_of (P1.map Prod.snd) (P2.map Prod.snd))) := by
  have r1 : ∀ c : Sym, c ≠ Sym.TERM →
      (⟨bwt_LF_pos (P1.map Prod.fst) c (leaf_of (P1.map Prod.snd) W).rn.first,
        bwt_LF_pos (P1.map Prod.fst) c (leaf_of (P1.map Prod.snd) W).rn.second⟩ : range_t) =
      (leaf_of (P1.map Prod.snd) (c.code :: W)).rn := fun c hc =>
    congrArg sa_leaf.rn (LF_leaf_eq P1 hc1 hs1 c hc W)
  have r2 : ∀ c : Sym, c ≠ Sym.TERM →
      (⟨bwt_LF_pos (P2.map Prod.fst) c (leaf_of (P2.map Prod.snd) W).rn.first,
        bwt_LF_pos (P2.map Prod.fst) c (leaf_of (P2.map Prod.snd) W).rn.second⟩ : range_t) =
      (leaf_of (P2.map Prod.snd) (c.code :: W)).rn := fun c hc =>
    congrArg sa_leaf.rn (LF_leaf_eq P2 hc2 hs2 c hc W)
  have a1 := r1 Sym.A (by decide)
  have a2 := r2 Sym.A (by decide)
  have c1 := r1 Sym.C (by decide)
  have c2 := r2 Sym.C (by decide)
  have g1 := r1 Sym.G (by decide)
  have g2 := r2 Sym.G (by decide)
  have t1 := r1 Sym.T (by decide)
  have t2 := r2 Sym.T (by decide)
  simp only [Sym.code] at a1 a2 c1 c2 g1 g2 t1 t2
  unfold next_leaves bwt_LF_range
  simp only [a1, a2, c1, c2, g1, g2, t1, t2]
  rw [leaf_candidate_eq (P1.map Prod.snd) (P2.map Prod.snd) (1 :: W) (leaf_of (P1.map Prod.snd) W).depth (leaf_of (P2.map Prod.snd) W).depth k rfl rfl, Option.some_bind,
    leaf_candidate_eq (P1.map Prod.snd) (P2.map Prod.snd) (2 :: W) (leaf_of (P1.map Prod.snd) W).depth (leaf_of (P2.map Prod.snd) W).depth k rfl rfl, Option.some_bind,
    leaf_candidate_eq (P1.map Prod.snd) (P2.map Prod.snd) (3 :: W) (leaf_of (P1.map Prod.snd) W).depth (leaf_of (P2.map Prod.snd) W).depth k rfl rfl, Option.some_bind,
    leaf_candidate_eq (P1.map Prod.snd) (P2.map Prod.snd) (5 :: W) (leaf_of (P1.map Prod.snd) W).depth (leaf_of (P2.map Prod.snd) W).depth k rfl rfl, Option.some_bind,
    ← sort_by_key_map leaf_pair_len (leaf_pair_of (P1.map Prod.snd) (P2.map Prod.snd)),
    extensions_map]
  simp only [decide_eq_true_eq]

theorem children2_eq (S1 S2 : List (List Nat)) (V : List Nat) :
    number_of_children2 (node_of S1 V) (node_of S2 V) =
      number_of_children (node_of (merge_strs S1 S2) V) := by
  have a01 := cnt_lt_chain S1 V 0 1 (by omega)
  have a12 := cnt_lt_chain S1 V 1 2 (by omega)
  have a23 := cnt_lt_chain S1 V 2 3 (by omega)
  have a35 := cnt_lt_chain S1 V 3 5 (by omega)
  have a56 := cnt_lt_chain S1 V 5 6 (by omega)
  have b01 := cnt_lt_chain S2 V 0 1 (by omega)
  have b12 := cnt_lt_chain S2 V 1 2 (by omega)
  have b23 := cnt_lt_chain S2 V 2 3 (by omega)
  have b35 := cnt_lt_chain S2 V 3 5 (by omega)
  have b56 := cnt_lt_chain S2 V 5 6 (by omega)
  have key : ∀ a b c d : Nat, a ≤ b → c ≤ d →
      b2n (decide (b > a) || decide (d > c)) = b2n (decide (b + d > a + c)) := by
    intro a b c d h1 h2
    by_cases e3 : a + c < b + d
    · have e4 : a < b ∨ c < d := by omega
      simp only [b2n, gt_iff_lt, e3, decide_True, if_true]
      rcases e4 with e4 | e4 <;> simp [e4]
    · have e4 : ¬ a < b := by omega
      have e5 : ¬ c < d := by omega
      simp [b2n, e3, e4, e5]
  unfold number_of_children2 number_of_children node_of
  simp only [cnt_lt_merge]
  rw [key _ _ _ _ a56 b56, key _ _ _ _ a35 b35, key _ _ _ _ a23 b23, key _ _ _ _ a12 b12,
    key _ _ _ _ a01 b01]

theorem merge_nodes_eq (S1 S2 : List (List Nat)) (V : List Nat) :
    merge_nodes (node_of S1 V) (node_of S2 V) = some (node_of (merge_strs S1 S2) V) := by
  unfold merge_nodes node_of
  simp only [cnt_lt_merge, if_true]

/-- The children that the paired `next_nodes` returns for the nodes of `W`. -/
theorem next_nodes_pair_eq (P1 P2 : List (Sym × List Nat)) (hc1 : closed_arrangement P1)
    (hc2 : closed_arrangement P2) (hs1 : (P1.map Prod.snd).Sorted (· ≤ ·))
    (hs2 : (P2.map Prod.snd).Sorted (· ≤ ·)) (W : List Nat) :
    next_nodes (P1.map Prod.fst) (P2.map Prod.fst) (node_of (P1.map Prod.snd) W)
        (node_of (P2.map Prod.snd) W) =
      (sort_by_key
          (fun V => node_size_pair (node_pair_of (P1.map Prod.snd) (P2.map Prod.snd) V))
          (extensions (fun V => decide (2 ≤ number_of_children
            (node_of (merge_strs (P1.map Prod.snd) (P2.map Prod.snd)) V))) W)).map
        (node_pair_of (P1.map Prod.snd) (P2.map Prod.snd)) := by
  have a1 := LF_node_eq P1 hc1 hs1 Sym.A (by decide) W
  have c1 := LF_node_eq P1 hc1 hs1 Sym.C (by decide) W
  have g1 := LF_node_eq P1 hc1 hs1 Sym.G (by decide) W
  have t1 := LF_node_eq P1 hc1 hs1 Sym.T (by decide) W
  have a2 := LF_node_eq P2 hc2 hs2 Sym.A (by decide) W
  have c2 := LF_node_eq P2 hc2 hs2 Sym.C (by decide) W
  have g2 := LF_node_eq P2 hc2 hs2 Sym.G (by decide) W
  have t2 := LF_node_eq P2 hc2 hs2 Sym.T (by decide) W
  simp only [Sym.code] at a1 a2 c1 c2 g1 g2 t1 t2
  unfold next_nodes bwt_LF_node
  simp only [a1, a2, c1, c2, g1, g2, t1, t2, number_of_children_pair, children2_eq, ge_iff_le]
  rw [← sort_by_key_map node_size_pair (node_pair_of (P1.map Prod.snd) (P2.map Prod.snd)),
    extensions_map]
  simp only [decide_eq_true_eq]
  rfl

/-! ## Writing the document array -/

theorem fill_da_spec (b : Bool) (len start : Nat) (DA : List Bool)
    (h : start + len ≤ DA.length) :
    ∃ DA1, fill_da b start len DA = some DA1 ∧ DA1.length = DA.length ∧
      ∀ j, DA1[j]? = if start ≤ j ∧ j < start + len then some b else DA[j]? := by
  induction len generalizing start DA with
  | zero =>
    refine ⟨DA, rfl, rfl, fun j => ?_⟩
    rw [if_neg (by omega)]
  | succ len ih =>
    have hs : start < DA.length := by omega
    obtain ⟨DA1, e1, l1, g1⟩ := ih (start + 1) (DA.set start b) (by
      rw [List.length_set]; omega)
    refine ⟨DA1, by simp only [fill_da, hs, if_true, e1], by rw [l1, List.length_set], ?_⟩
    intro j
    rw [g1 j]
    by_cases hj : start + 1 ≤ j ∧ j < start + 1 + len
    · rw [if_pos hj, if_pos (by omega)]
    · rw [if_neg hj]
      by_cases hj2 : j = start
      · subst hj2
        rw [List.getElem?_set_self hs, if_pos (by omega)]
      · rw [List.getElem?_set_ne (fun h => hj2 h.symm), if_neg (by omega)]

/-- Effect of `update_DA` on two leaves with ordered, jointly non-empty ranges. -/
theorem update_DA_spec (w n : Nat) (L1 L2 : sa_leaf) (c : Bool) (DA : List Bool)
    (LCP LCP1 : List Nat) (lv m : Nat) (h1 : L1.rn.first ≤ L1.rn.second)
    (h2 : L2.rn.first ≤ L2.rn.second)
    (hne : L1.rn.first + L2.rn.first < L1.rn.second + L2.rn.second)
    (hlen : L1.rn.second + L2.rn.second ≤ DA.length) (hd : L1.depth = L2.depth)
    (hm : m + (L1.rn.second + L2.rn.second - (L1.rn.first + L2.rn.first)) ≤ n)
    (hl : if c = true then
        fill_nil w L1.depth (L1.rn.first + L2.rn.first + 1)
          (L1.rn.second + L2.rn.second - (L1.rn.first + L2.rn.first + 1)) LCP = some LCP1
      else LCP1 = LCP) :
    ∃ DA1 lv1, update_DA w n L1 L2 c DA LCP lv m =
        some (DA1, LCP1, lv1,
          m + (L1.rn.second + L2.rn.second - (L1.rn.first + L2.rn.first))) ∧
      DA1.length = DA.length ∧
      ∀ j, DA1[j]? =
        if L1.rn.first + L2.rn.first ≤ j ∧ j < L1.rn.second + L2.rn.second then
          some (decide (L2.rn.first + L1.rn.second ≤ j))
        else DA[j]? := by
  obtain ⟨D1, e1, l1, g1⟩ := fill_da_spec false
    (L2.rn.first + L1.rn.second - (L1.rn.first + L2.rn.first)) (L1.rn.first + L2.rn.first) DA
    (by omega)
  obtain ⟨D2, e2, l2, g2⟩ := fill_da_spec true
    (L1.rn.second + L2.rn.second - (L2.rn.first + L1.rn.second)) (L2.rn.first + L1.rn.second) D1
    (by omega)
  have hm2 : m + (L2.rn.first + L1.rn.second - (L1.rn.first + L2.rn.first)) +
      (L1.rn.second + L2.rn.second - (L2.rn.first + L1.rn.second)) =
      m + (L1.rn.second + L2.rn.second - (L1.rn.first + L2.rn.first)) := by omega
  refine ⟨D2, if c = true then lv + (L1.rn.second + L2.rn.second -
    (L1.rn.first + L2.rn.first + 1)) else lv, ?_, by rw [l2, l1], ?_⟩
  · unfold update_DA
    simp only [gt_iff_lt, hne, if_true, e1, Option.some_bind, e2, hd, hm2]
    cases c with
    | false =>
      simp only [Bool.false_eq_true, if_false] at hl ⊢
      subst hl
      simp only [Option.some_bind, hm, if_true]
    | true =>
      simp only [if_true] at hl ⊢
      rw [← hd, hl]
      simp only [Option.map_some', Option.some_bind, hm, if_true]
  · intro j
    rw [g2 j, g1 j]
    by_cases a : L2.rn.first + L1.rn.second ≤ j ∧ j < L1.rn.second + L2.rn.second
    · rw [if_pos (by omega), if_pos (by omega)]
      simp [a.1]
    · rw [if_neg (by omega)]
      by_cases b : L1.rn.first + L2.rn.first ≤ j ∧ j < L2.rn.first + L1.rn.second
      · rw [if_pos (by omega), if_pos (by omega)]
        have : ¬ (L2.rn.first + L1.rn.second ≤ j) := by omega
        simp [this]
      · rw [if_neg (by omega), if_neg (by omega)]

/-! ## The first pass of the merger -/

theorem merge_leaf_step_eq (w : Nat) (B1 B2 : List Sym) (c : Bool) (st : MLeafState)
    (L : sa_leaf × sa_leaf) (rest : List (sa_leaf × sa_leaf)) (sz : Nat) (DA : List Bool)
    (LCP : List Nat) (lv m : Nat) (TMP : List (sa_leaf × sa_leaf)) (hS : st.S = L :: rest)
    (h0 : leaf_size_pair L = some sz) (h1 : sz > 0)
    (h2 : update_DA w (B1.length + B2.length) L.1 L.2 c st.v.DA st.v.LCP st.v.lcp_values
      st.v.da_values = some (DA, LCP, lv, m))
    (h3 : next_leaves B1 B2 L.1 L.2 (min_size c) = some TMP) :
    merge_leaf_step w B1 B2 c st = some
      { S := TMP ++ rest, v := { DA := DA, LCP := LCP, lcp_values := lv, da_values := m } } := by
  unfold min_size at h3
  unfold merge_leaf_step
  simp only [hS, h0, h1, if_true, h2, h3]

theorem leaf_size_pair_eq (S1 S2 : List (List Nat)) (W : List Nat) :
    leaf_size_pair (leaf_pair_of S1 S2 W) = some (leaf_pair_len (leaf_pair_of S1 S2 W)) := by
  unfold leaf_size_pair leaf_size leaf_pair_of leaf_pair_len
  simp only [leaf_range_length]

/-- A position reached through the popped leaf and through none of the pushed ones lies in
the popped leaf. -/
theorem pending_pop (S : List (List Nat)) (hS : suffix_collection S) (W : List Nat)
    (rest cs : List (List Nat)) (k : Nat)
    (hall : ∀ a, a = 1 ∨ a = 2 ∨ a = 3 ∨ a = 5 → k ≤ S.count (a :: W ++ [0]) → a :: W ∈ cs)
    (j : Nat) (hj : j < S.length) (hk : k ≤ S.count (str_at S j))
    (hp : pending (W :: rest) (leaf_str S j)) (hnp : ¬ pending (cs ++ rest) (leaf_str S j)) :
    str_at S j = W ++ [0] := by
  obtain ⟨W1, hW1, hsuf⟩ := hp
  obtain ⟨hterm, hdna⟩ := term_dropLast S hS _ (str_at_mem S j hj)
  rcases List.mem_cons.mp hW1 with rfl | hr
  · by_cases hV : leaf_str S j = W1
    · rw [hterm]
      unfold leaf_str at hV
      rw [hV]
    · exfalso
      apply hnp
      obtain ⟨U, a, hUa⟩ := proper_suffix W1 (leaf_str S j) hsuf hV
      have hdna' : dna_string (leaf_str S j) := hdna
      have ha : a = 1 ∨ a = 2 ∨ a = 3 ∨ a = 5 := hdna' a (by rw [hUa]; simp)
      have hcount : k ≤ S.count (a :: W1 ++ [0]) := by
        have c3 := count_append_le S hS U (a :: W1 ++ [0]) (fun c hc => by
          intro h0
          apply dna_no_term _ hdna'
          rw [hUa, ← h0]
          exact List.mem_append_left _ hc)
        have e : U ++ (a :: W1 ++ [0]) = str_at S j := by
          rw [hterm]
          unfold leaf_str at hUa
          rw [hUa]
          simp
        rw [e] at c3
        omega
      exact ⟨a :: W1, List.mem_append_left _ (hall a ha hcount), by
        rw [hUa]; exact List.suffix_append U (a :: W1)⟩
  · exact absurd ⟨W1, List.mem_append_right _ hr, hsuf⟩ hnp

theorem pending_push (W : List Nat) (rest cs : List (List Nat))
    (hcs : ∀ c ∈ cs, ∃ a, c = a :: W) (V : List Nat) (h : pending (cs ++ rest) V) :
    pending (W :: rest) V := by
  obtain ⟨W1, hW1, hsuf⟩ := h
  rcases List.mem_append.mp hW1 with hc | hr
  · obtain ⟨a, rfl⟩ := hcs W1 hc
    exact ⟨W, List.mem_cons_self W rest, suffix_of_cons_suffix a W _ hsuf⟩
  · exact ⟨W1, List.mem_cons_of_mem W hr, hsuf⟩

theorem not_pending_popped (W : List Nat) (rest cs : List (List Nat))
    (hfree : suffix_free (W :: rest)) (hcs : ∀ c ∈ cs, ∃ a, c = a :: W) :
    ¬ pending (cs ++ rest) W := by
  have hfr : ∀ R ∈ rest, ¬ W <:+ R ∧ ¬ R <:+ W := (List.pairwise_cons.mp hfree).1
  rintro ⟨W1, hW1, hsuf⟩
  rcases List.mem_append.mp hW1 with hc | hr
  · obtain ⟨a, rfl⟩ := hcs W1 hc
    exact not_suffix_cons a W hsuf
  · exact (hfr W1 hr).2 hsuf

theorem da_weight_step (S : List (List Nat)) (W : List Nat) (rest cs : List (List Nat))
    (k : Nat) (hfree : suffix_free (W :: rest)) (hcs : ∀ c ∈ cs, ∃ a, c = a :: W)
    (hk : k ≤ S.count (W ++ [0])) :
    da_weight S (cs ++ rest) k + S.count (W ++ [0]) ≤ da_weight S (W :: rest) k := by
  unfold da_weight
  rw [List.count_eq_countP]
  apply countP_add_le_pointwise
  intro s _
  by_cases hs : s = W ++ [0]
  · subst hs
    have h1 := not_pending_popped W rest cs hfree hcs
    have h2 : pending (W :: rest) W := ⟨W, List.mem_cons_self W rest, List.suffix_refl W⟩
    simp [h1, h2, hk]
  · have h3 := pending_push W rest cs hcs s.dropLast
    by_cases h4 : pending (cs ++ rest) s.dropLast
    · simp [h4, h3 h4, hs]
    · by_cases h5 : S.count s < k
      · simp [h5, hs]
      · simp [h4, h5, hs]

theorem merge_leaf_progress_aux (S1 S2 : List (List Nat)) (B1 B2 : List Sym)
    (hl1 : B1.length = S1.length) (hl2 : B2.length = S2.length)
    (hS1 : suffix_collection S1) (hS2 : suffix_collection S2)
    (hnext : ∀ W k, next_leaves B1 B2 (leaf_of S1 W) (leaf_of S2 W) k =
      some ((sort_by_key (fun V => leaf_pair_len (leaf_pair_of S1 S2 V))
        (extensions (fun V => decide (k ≤ leaf_pair_len (leaf_pair_of S1 S2 V))) W)).map
        (leaf_pair_of S1 S2)))
    (w : Nat) (c : Bool) (st : MLeafState) (k : Nat)
    (hI : merge_leaf_inv S1 S2 w c st k) (hne : st.S.isEmpty = false) :
    ∃ st1 k1, merge_leaf_step w B1 B2 c st = some st1 ∧
      merge_leaf_inv S1 S2 w c st1 k1 ∧ k1 < k := by
  have hS := merge_suffix_collection S1 S2 hS1 hS2
  have hlen := merge_strs_length S1 S2
  have hmu : 1 ≤ min_size c := by unfold min_size; split <;> omega
  obtain ⟨Ws, hst, hfree, hpos, hdl, hda, hinv, hm, rfl⟩ := hI
  cases Ws with
  | nil => simp [hst] at hne
  | cons W rest =>
    have hcnt := cnt_lt_leaf_count _ hS W
    have hcnt1 := cnt_lt_leaf_count _ hS1 W
    have hcnt2 := cnt_lt_leaf_count _ hS2 W
    have hm0 := cnt_lt_merge S1 S2 (W ++ [0])
    have hm1 := cnt_lt_merge S1 S2 (W ++ [1])
    have hb1 := cnt_lt_le_length S1 (W ++ [1])
    have hb2 := cnt_lt_le_length S2 (W ++ [1])
    have hW := hpos W (List.mem_cons_self W rest)
    have hn := hnext W (min_size c)
    have hperm := sort_by_key_perm (fun V => leaf_pair_len (leaf_pair_of S1 S2 V))
      (extensions (fun V => decide (min_size c ≤ leaf_pair_len (leaf_pair_of S1 S2 V))) W)
    have hcs : ∀ x ∈ sort_by_key (fun V => leaf_pair_len (leaf_pair_of S1 S2 V))
        (extensions (fun V => decide (min_size c ≤ leaf_pair_len (leaf_pair_of S1 S2 V))) W),
        ∃ a, x = a :: W := fun x hx => by
      obtain ⟨a, -, rfl, -⟩ := (mem_extensions _ W x).mp (hperm.mem_iff.mp hx)
      exact ⟨a, rfl⟩
    have hall : ∀ a, a = 1 ∨ a = 2 ∨ a = 3 ∨ a = 5 →
        min_size c ≤ (merge_strs S1 S2).count (a :: W ++ [0]) →
        a :: W ∈ sort_by_key (fun V => leaf_pair_len (leaf_pair_of S1 S2 V))
          (extensions (fun V => decide (min_size c ≤ leaf_pair_len (leaf_pair_of S1 S2 V))) W) :=
      fun a ha hc => hperm.mem_iff.mpr ((mem_extensions _ W _).mpr ⟨a, ha, rfl, by
        rw [decide_eq_true_eq, leaf_pair_len_eq S1 S2 hS1 hS2]
        exact hc⟩)
    have hwstep := leaf_weight_step (merge_strs S1 S2) W rest _ hfree hcs
    have hdstep := da_weight_step (merge_strs S1 S2) W rest _ (min_size c) hfree hcs hW
    -- the LCP vector after the leaf
    have hl : ∃ LCP1, (if c = true then
          fill_nil w (leaf_of S1 W).depth ((leaf_of S1 W).rn.first + (leaf_of S2 W).rn.first + 1)
            ((leaf_of S1 W).rn.second + (leaf_of S2 W).rn.second -
              ((leaf_of S1 W).rn.first + (leaf_of S2 W).rn.first + 1)) st.v.LCP = some LCP1
        else LCP1 = st.v.LCP) ∧
        (c = true → lcp_inv (merge_strs S1 S2) w
          (fun j => leaf_waiting (merge_strs S1 S2) (W :: rest) j ∧
            ¬ (cnt_lt (merge_strs S1 S2) (W ++ [0]) + 1 ≤ j ∧
              j < cnt_lt (merge_strs S1 S2) (W ++ [0]) + 1 +
                (cnt_lt (merge_strs S1 S2) (W ++ [1]) -
                  (cnt_lt (merge_strs S1 S2) (W ++ [0]) + 1)))) LCP1) := by
      cases c with
      | false => exact ⟨st.v.LCP, by simp, by simp⟩
      | true =>
        obtain ⟨LCP1, hfill, hinv1⟩ := fill_nil_inv (merge_strs S1 S2) w (W.length + 1)
          (cnt_lt (merge_strs S1 S2) (W ++ [1]) - (cnt_lt (merge_strs S1 S2) (W ++ [0]) + 1))
          (leaf_waiting (merge_strs S1 S2) (W :: rest))
          (cnt_lt (merge_strs S1 S2) (W ++ [0]) + 1)
          st.v.LCP (hinv rfl)
          (by have := cnt_lt_le_length (merge_strs S1 S2) (W ++ [1]); omega)
          (fun j hj1 hj2 => by
            obtain ⟨_, lp, ls, lt⟩ := leaf_interior _ hS w W j (by omega) (by omega)
            exact ⟨Or.inr ⟨lp, W, List.mem_cons_self W rest, by rw [ls]⟩, lt⟩)
        refine ⟨LCP1, ?_, fun _ => hinv1⟩
        rw [if_pos rfl]
        rw [hm0, hm1] at hfill
        exact hfill
    obtain ⟨LCP1, hl1e, hl1i⟩ := hl
    obtain ⟨DA1, lv1, hupd, hdl1, hdg⟩ := update_DA_spec w (B1.length + B2.length)
      (leaf_of S1 W) (leaf_of S2 W) c st.v.DA st.v.LCP LCP1 st.v.lcp_values st.v.da_values
      (leaf_range_le S1 W) (leaf_range_le S2 W)
      (by show cnt_lt S1 (W ++ [0]) + cnt_lt S2 (W ++ [0]) <
            cnt_lt S1 (W ++ [1]) + cnt_lt S2 (W ++ [1])
          omega)
      (by show cnt_lt S1 (W ++ [1]) + cnt_lt S2 (W ++ [1]) ≤ st.v.DA.length
          omega)
      rfl
      (by show st.v.da_values + (cnt_lt S1 (W ++ [1]) + cnt_lt S2 (W ++ [1]) -
            (cnt_lt S1 (W ++ [0]) + cnt_lt S2 (W ++ [0]))) ≤ B1.length + B2.length
          omega)
      hl1e
    refine ⟨_, _, merge_leaf_step_eq w B1 B2 c st (leaf_pair_of S1 S2 W)
      (rest.map (leaf_pair_of S1 S2)) _ DA1 LCP1 lv1 _ _ (by rw [hst]; rfl)
      (leaf_size_pair_eq S1 S2 W) ?_ hupd hn,
      ⟨_, by simp only [List.map_append], suffix_free_push _ W rest _ hfree hperm, ?_, ?_, ?_,
        ?_, ?_, rfl⟩, ?_⟩
    · rw [leaf_pair_len_eq S1 S2 hS1 hS2]
      omega
    · intro V hV
      rcases List.mem_append.mp hV with hc | hr
      · obtain ⟨a, -, rfl, hk⟩ := (mem_extensions _ W V).mp (hperm.mem_iff.mp hc)
        rw [decide_eq_true_eq, leaf_pair_len_eq S1 S2 hS1 hS2] at hk
        exact hk
      · exact hpos V (List.mem_cons_of_mem W hr)
    · exact hdl1.trans hdl
    · intro j hj hk hnp
      show DA1[j]? = _
      rw [hdg j]
      by_cases hin : (leaf_of S1 W).rn.first + (leaf_of S2 W).rn.first ≤ j ∧
          j < (leaf_of S1 W).rn.second + (leaf_of S2 W).rn.second
      · rw [if_pos hin]
        have hin2 : cnt_lt (merge_strs S1 S2) (W ++ [0]) ≤ j ∧
            j < cnt_lt (merge_strs S1 S2) (W ++ [1]) := by
          rw [hm0, hm1]; exact hin
        obtain ⟨_, hstr⟩ := leaf_block _ hS W j hin2.1 hin2.2
        rw [merge_da_get S1 S2 hS1.sorted hS2.sorted j hj, hstr]
        congr 1
        apply decide_eq_decide.mpr
        show cnt_lt S2 (W ++ [0]) + cnt_lt S1 (W ++ [1]) ≤ j ↔ _
        rw [hm0, hcnt1]
        omega
      · rw [if_neg hin]
        apply hda j hj hk
        intro hp
        have hstr := pending_pop _ hS W rest _ (min_size c) hall j hj hk hp hnp
        have hb := leaf_block_conv _ hS W j hj hstr
        rw [hm0, hm1] at hb
        exact hin hb
    · intro hc
      refine lcp_inv_congr _ w _ _ LCP1 (hl1i hc) (fun j hj => ?_)
      subst hc
      rw [← leaf_waiting_step _ hS W rest _ hfree hcs hall j hj]
      constructor
      · rintro ⟨a, b⟩
        exact ⟨a, fun hc => b ⟨by omega, by omega⟩⟩
      · rintro ⟨a, b⟩
        exact ⟨a, fun hc => b ⟨by omega, by omega⟩⟩
    · show st.v.da_values + ((leaf_of S1 W).rn.second + (leaf_of S2 W).rn.second -
        ((leaf_of S1 W).rn.first + (leaf_of S2 W).rn.first)) + _ ≤ _
      show st.v.da_values + (cnt_lt S1 (W ++ [1]) + cnt_lt S2 (W ++ [1]) -
        (cnt_lt S1 (W ++ [0]) + cnt_lt S2 (W ++ [0]))) + _ ≤ _
      omega
    · omega

/-! ## Children of one suffix -/

theorem next_sym_gt (x : Nat) : x < next_sym x := by
  unfold next_sym
  split <;> omega

theorem next_sym_le (x y : Nat)
    (hy : y = 0 ∨ y = 1 ∨ y = 2 ∨ y = 3 ∨ y = 5) (h : x < y) : next_sym x ≤ y := by
  unfold next_sym
  split <;> omega

/-- The occurrences of a string of the range `[X, Y)` lie inside the range. -/
theorem count_le_range (S : List (List Nat)) (X Y s : List Nat) (h1 : X ≤ s) (h2 : s < Y) :
    cnt_lt S X + S.count s ≤ cnt_lt S Y := by
  have h3 : cnt_lt S s + S.count s ≤ cnt_lt S Y := by
    unfold cnt_lt
    rw [List.count_eq_countP]
    apply countP_add_le_pointwise
    intro t _
    by_cases e : t = s
    · subst e
      simp [h2]
    · by_cases e2 : t < s
      · have e3 : t < Y := lt_trans e2 h2
        simp [e, e2, e3]
      · simp [e, e2]
  have := cnt_lt_mono S X s h1
  omega

theorem children_range (S : List (List Nat)) (W : List Nat)
    (h : 2 ≤ number_of_children (node_of S W)) :
    cnt_lt S (W ++ [0]) + 2 ≤ cnt_lt S (W ++ [6]) := by
  have a01 := cnt_lt_chain S W 0 1 (by omega)
  have a12 := cnt_lt_chain S W 1 2 (by omega)
  have a23 := cnt_lt_chain S W 2 3 (by omega)
  have a35 := cnt_lt_chain S W 3 5 (by omega)
  have a56 := cnt_lt_chain S W 5 6 (by omega)
  unfold number_of_children node_of b2n at h
  simp only [gt_iff_lt, decide_eq_true_eq] at h
  split_ifs at h <;> omega

theorem found_by_str (S : List (List Nat)) (hS : S.Sorted (· ≤ ·)) (W : List Nat) (j x : Nat)
    (h1 : cnt_lt S (W ++ [x]) = j) (h2 : cnt_lt S (W ++ [next_sym x]) = j + 1) :
    j < S.length ∧ W ++ [x] ≤ str_at S j ∧ str_at S j < W ++ [next_sym x] := by
  have hj : j < S.length := by
    have := cnt_lt_le_length S (W ++ [next_sym x])
    omega
  exact ⟨hj, (pos_ge_iff S hS _ j hj).mpr (by omega), (pos_lt_iff S hS _ j hj).mpr (by omega)⟩

/-- A suffix found as a child of one suffix occurs once. -/
theorem found_by_single (S : List (List Nat)) (hS : S.Sorted (· ≤ ·)) (W : List Nat) (j : Nat)
    (h : found_by S W j) : j < S.length ∧ S.count (str_at S j) < 2 := by
  obtain ⟨x, -, h1, h2⟩ := h
  obtain ⟨hj, b1, b2⟩ := found_by_str S hS W j x h1 h2
  have := count_le_range S _ _ _ b1 b2
  exact ⟨hj, by omega⟩

theorem finder_len (S : List (List Nat)) (hS : S.Sorted (· ≤ ·)) (W W0 : List Nat) (j : Nat)
    (h : found_by S W j) (h0 : found_by S W0 j)
    (hn : 2 ≤ number_of_children (node_of S W)) : W.length ≤ W0.length := by
  obtain ⟨x, -, h1, h2⟩ := h
  obtain ⟨x0, -, h3, h4⟩ := h0
  obtain ⟨hj, b1, b2⟩ := found_by_str S hS W j x h1 h2
  obtain ⟨-, b3, b4⟩ := found_by_str S hS W0 j x0 h3 h4
  obtain ⟨y, r, e, -, -⟩ := between_prefix W x (next_sym x) _ b1 b2
  obtain ⟨y0, r0, e0, l0, u0⟩ := between_prefix W0 x0 (next_sym x0) _ b3 b4
  by_contra hlen
  have hlt : W0.length < W.length := by omega
  have p0 : W0 <+: str_at S j := by rw [e0]; exact List.prefix_append _ _
  have p1 : W <+: str_at S j := by rw [e]; exact List.prefix_append _ _
  have hp : W0 <+: W := List.prefix_of_prefix_length_le p0 p1 (by omega)
  obtain ⟨t, ht⟩ := hp
  cases t with
  | nil =>
    rw [List.append_nil] at ht
    rw [ht] at hlt
    omega
  | cons z t =>
    have ez : z = y0 := by
      have e1 := e
      rw [e0, ← ht, List.append_assoc] at e1
      have e2 := List.append_cancel_left e1
      simp only [List.cons_append, List.cons.injEq] at e2
      exact e2.1.symm
    subst ez
    have c1 : cnt_lt S (W0 ++ [x0]) ≤ cnt_lt S (W ++ [0]) := by
      apply cnt_lt_mono
      rw [← ht, List.append_assoc]
      exact prefix_ge W0 z x0 _ l0
    have c2 : cnt_lt S (W ++ [6]) ≤ cnt_lt S (W0 ++ [next_sym x0]) := by
      apply cnt_lt_mono
      rw [← ht, List.append_assoc]
      exact le_of_lt (prefix_lt W0 z (next_sym x0) _ u0)
    have := children_range S W hn
    omega

/-- Only one node with two children finds a given position. -/
theorem finder_unique (S : List (List Nat)) (hS : S.Sorted (· ≤ ·)) (W W0 : List Nat) (j : Nat)
    (h : found_by S W j) (h0 : found_by S W0 j)
    (hn : 2 ≤ number_of_children (node_of S W))
    (hn0 : 2 ≤ number_of_children (node_of S W0)) : W = W0 := by
  have l1 := finder_len S hS W W0 j h h0 hn
  have l2 := finder_len S hS W0 W j h0 h hn0
  obtain ⟨x, -, h1, h2⟩ := h
  obtain ⟨x0, -, h3, h4⟩ := h0
  obtain ⟨hj, b1, b2⟩ := found_by_str S hS W j x h1 h2
  obtain ⟨-, b3, b4⟩ := found_by_str S hS W0 j x0 h3 h4
  obtain ⟨y, r, e, -, -⟩ := between_prefix W x (next_sym x) _ b1 b2
  obtain ⟨y0, r0, e0, -, -⟩ := between_prefix W0 x0 (next_sym x0) _ b3 b4
  rw [e] at e0
  exact (List.append_inj e0 (by omega)).1

theorem prefix_split (Y Z : List Nat) (b c : Nat) (r2 r3 : List Nat)
    (h : Y ++ b :: r2 = Z ++ c :: r3) :
    (Y = Z ∧ b = c) ∨ (∃ t, Y = Z ++ c :: t) ∨ (∃ t, Z = Y ++ b :: t) := by
  rcases List.append_eq_append_iff.mp h with ⟨t, e1, e2⟩ | ⟨t, e1, e2⟩
  · cases t with
    | nil =>
      simp only [List.nil_append, List.cons.injEq] at e2
      exact Or.inl ⟨by simpa using e1.symm, e2.1⟩
    | cons z t =>
      simp only [List.cons_append, List.cons.injEq] at e2
      exact Or.inr (Or.inr ⟨t, by rw [e1, e2.1]⟩)
  · cases t with
    | nil =>
      simp only [List.nil_append, List.cons.injEq] at e2
      exact Or.inl ⟨by simpa using e1, e2.1.symm⟩
    | cons z t =>
      simp only [List.cons_append, List.cons.injEq] at e2
      exact Or.inr (Or.inl ⟨t, by rw [e1, e2.1]⟩)

theorem finder_of_bounds (S : List (List Nat)) (hS : S.Sorted (· ≤ ·)) (W : List Nat)
    (x : Nat) (r : List Nat) (j : Nat) (hj : j < S.length) (e : str_at S j = W ++ x :: r)
    (hl : j = 0 ∨ str_at S (j - 1) < W ++ [x])
    (hr : j + 1 = S.length ∨ W ++ [next_sym x] ≤ str_at S (j + 1)) :
    cnt_lt S (W ++ [x]) = j ∧ cnt_lt S (W ++ [next_sym x]) = j + 1 := by
  have a1 : cnt_lt S (W ++ [x]) ≤ j :=
    (pos_ge_iff S hS _ j hj).mp (by rw [e]; exact prefix_ge W x x r (le_refl x))
  have a2 : j < cnt_lt S (W ++ [next_sym x]) :=
    (pos_lt_iff S hS _ j hj).mp (by rw [e]; exact prefix_lt W x _ r (next_sym_gt x))
  have a3 : j ≤ cnt_lt S (W ++ [x]) := by
    rcases hl with h0 | h0
    · omega
    · by_cases hj0 : j = 0
      · omega
      · have := (pos_lt_iff S hS _ (j - 1) (by omega)).mp h0
        omega
  have a4 : cnt_lt S (W ++ [next_sym x]) ≤ j + 1 := by
    rcases hr with h0 | h0
    · have := cnt_lt_le_length S (W ++ [next_sym x])
      omega
    · by_cases hj1 : j + 1 < S.length
      · exact (pos_ge_iff S hS _ (j + 1) hj1).mp h0
      · have := cnt_lt_le_length S (W ++ [next_sym x])
        omega
  exact ⟨by omega, by omega⟩

/-- Every suffix that occurs once is a child of a node with two children. -/
theorem exists_finder (S : List (List Nat)) (hS : suffix_collection S) (j : Nat)
    (hj : j < S.length) (hn : 2 ≤ S.length) (h1 : S.count (str_at S j) < 2) :
    ∃ W, 2 ≤ number_of_children (node_of S W) ∧ found_by S W j := by
  -- the predecessor
  have hL : j = 0 ∨ ∃ Y a b r1 r2, str_at S (j - 1) = Y ++ a :: r1 ∧
      str_at S j = Y ++ b :: r2 ∧ a < b := by
    by_cases hj0 : j = 0
    · exact Or.inl hj0
    · right
      have hnp : node_pos S j := ⟨by omega, fun he => by
        have := count_ge_two_of_adjacent S j (by omega) hj he
        omega⟩
      obtain ⟨a, b, r1, r2, e1, e2, hab⟩ := adjacent_branch S hS j hj hnp
      exact ⟨_, a, b, r1, r2, e1, e2, hab⟩
  -- the successor
  have hR : j + 1 = S.length ∨ ∃ Z c d r3 r4, str_at S j = Z ++ c :: r3 ∧
      str_at S (j + 1) = Z ++ d :: r4 ∧ c < d := by
    by_cases hj1 : j + 1 = S.length
    · exact Or.inl hj1
    · right
      have hnp : node_pos S (j + 1) := ⟨by omega, fun he => by
        have := count_ge_two_of_adjacent S (j + 1) (by omega) (by omega) he
        have he2 : str_at S (j + 1) = str_at S j := by
          rw [← he]; rfl
        rw [he2] at this
        omega⟩
      obtain ⟨c, d, r3, r4, e1, e2, hcd⟩ := adjacent_branch S hS (j + 1) (by omega) hnp
      exact ⟨_, c, d, r3, r4, e1, e2, hcd⟩
  have hmem := str_at_mem S j hj
  have key : ∀ W x r, str_at S j = W ++ x :: r →
      (j = 0 ∨ str_at S (j - 1) < W ++ [x]) →
      (j + 1 = S.length ∨ W ++ [next_sym x] ≤ str_at S (j + 1)) →
      2 ≤ number_of_children (node_of S W) →
      ∃ W, 2 ≤ number_of_children (node_of S W) ∧ found_by S W j := by
    intro W x r e hl hr hch
    obtain ⟨f1, f2⟩ := finder_of_bounds S hS.sorted W x r j hj e hl hr
    exact ⟨W, hch, x, (term_symbol S hS _ W r x hmem e).1, f1, f2⟩
  rcases hL with hj0 | ⟨Y, a, b, r1, r2, e1, e2, hab⟩
  · rcases hR with hj1 | ⟨Z, c, d, r3, r4, e3, e4, hcd⟩
    · omega
    · have hm1 := str_at_mem S (j + 1) (by
        by_contra hc
        have : str_at S (j + 1) = [] := by
          unfold str_at
          rw [List.getD_eq_default _ _ (by omega)]
        rw [this] at e4
        simp at e4)
      have hc := (term_symbol S hS _ Z r3 c hmem e3).1
      have hd := (term_symbol S hS _ Z r4 d hm1 e4).1
      refine key Z c r3 e3 (Or.inl hj0) (Or.inr ?_) ?_
      · rw [e4]
        exact prefix_ge Z d _ r4 (next_sym_le c d hd hcd)
      · exact two_children S Z c d r3 r4 hc hd hcd (e3 ▸ hmem) (e4 ▸ hm1)
  · have hj0 : 0 < j := by
      by_contra hc
      have hc0 : j = 0 := by omega
      subst hc0
      rw [e2] at e1
      have := List.append_cancel_left e1
      simp only [List.cons.injEq] at this
      omega
    have hm0 := str_at_mem S (j - 1) (by omega)
    have ha := (term_symbol S hS _ Y r1 a hm0 e1).1
    have hb := (term_symbol S hS _ Y r2 b hmem e2).1
    have hchY := two_children S Y a b r1 r2 ha hb hab (e1 ▸ hm0) (e2 ▸ hmem)
    have hlY : j = 0 ∨ str_at S (j - 1) < Y ++ [b] := Or.inr (by
      rw [e1]; exact prefix_lt Y a b r1 hab)
    rcases hR with hj1 | ⟨Z, c, d, r3, r4, e3, e4, hcd⟩
    · exact key Y b r2 e2 hlY (Or.inl hj1) hchY
    · have hm1 := str_at_mem S (j + 1) (by
        by_contra hc
        have : str_at S (j + 1) = [] := by
          unfold str_at
          rw [List.getD_eq_default _ _ (by omega)]
        rw [this] at e4
        simp at e4)
      have hc := (term_symbol S hS _ Z r3 c hmem e3).1
      have hd := (term_symbol S hS _ Z r4 d hm1 e4).1
      have hchZ := two_children S Z c d r3 r4 hc hd hcd (e3 ▸ hmem) (e4 ▸ hm1)
      have hrZ : j + 1 = S.length ∨ Z ++ [next_sym c] ≤ str_at S (j + 1) := Or.inr (by
        rw [e4]
        exact prefix_ge Z d _ r4 (next_sym_le c d hd hcd))
      have hsplit := prefix_split Y Z b c r2 r3 (by rw [← e2, ← e3])
      rcases hsplit with ⟨hYZ, hbc⟩ | ⟨t, ht⟩ | ⟨t, ht⟩
      · subst hYZ
        subst hbc
        exact key Y b r2 e2 hlY hrZ hchY
      · -- the predecessor shares more
        refine key Y b r2 e2 hlY (Or.inr ?_) hchY
        rw [e4, ht, List.append_assoc]
        exact le_of_lt (lt_of_lt_of_le (prefix_lt Z c d _ hcd) (prefix_ge Z d d r4 (le_refl d)))
      · -- the successor shares more
        refine key Z c r3 e3 (Or.inr ?_) hrZ hchZ
        rw [e1, ht, List.append_assoc]
        exact lt_of_lt_of_le (prefix_lt Y a b r1 hab) (prefix_ge Y b b _ (le_refl b))

/-! ## The second pass of the merger -/

theorem nodup_length_le (l : List Nat) (n : Nat) (hl : l.Nodup) (h : ∀ j ∈ l, j < n) :
    l.length ≤ n := by
  have hsub : l ⊆ List.range n := fun j hj => List.mem_range.mpr (h j hj)
  have := (List.subperm_of_subset hl hsub).length_le
  rwa [List.length_range] at this

theorem da_inv_congr (S1 S2 : List (List Nat)) (D D1 : Nat → Prop) (v v1 : MergeVars)
    (h : da_inv S1 S2 D v) (hDA : v1.DA = v.DA) (hm : v1.da_values = v.da_values)
    (hiff : ∀ j, j < (merge_strs S1 S2).length → (D j ↔ D1 j)) : da_inv S1 S2 D1 v1 := by
  obtain ⟨a, b, l, c, d, e⟩ := h
  refine ⟨by rw [hDA]; exact a, fun j hj hd => ?_, l, c, fun j hj => ?_, by rw [hm]; exact e⟩
  · rw [hDA]
    exact b j hj ((hiff j hj).mpr hd)
  · exact ⟨(d j hj).1, (hiff j (d j hj).1).mp (d j hj).2⟩

/-- One block of `find_leaves` on the ranges of `[X, Y)` in the two collections. -/
theorem find_leaf_spec (S1 S2 : List (List Nat)) (h1 : S1.Sorted (· ≤ ·))
    (h2 : S2.Sorted (· ≤ ·)) (w n : Nat) (hn : n = (merge_strs S1 S2).length)
    (X Y : List Nat) (hXY : X ≤ Y) (D : Nat → Prop) (v : MergeVars)
    (hinv : da_inv S1 S2 D v)
    (hnew : cnt_lt (merge_strs S1 S2) Y = cnt_lt (merge_strs S1 S2) X + 1 →
      ¬ D (cnt_lt (merge_strs S1 S2) X)) :
    ∃ v1, find_leaf w n ⟨cnt_lt S1 X, cnt_lt S1 Y⟩ ⟨cnt_lt S2 X, cnt_lt S2 Y⟩ v = some v1 ∧
      v1.LCP = v.LCP ∧ v1.lcp_values = v.lcp_values ∧
      da_inv S1 S2 (fun j => D j ∨ (cnt_lt (merge_strs S1 S2) X = j ∧
        cnt_lt (merge_strs S1 S2) Y = j + 1)) v1 := by
  have hS := merge_strs_sorted S1 S2 h1 h2
  have m1 := cnt_lt_mono S1 X Y hXY
  have m2 := cnt_lt_mono S2 X Y hXY
  have cX := cnt_lt_merge S1 S2 X
  have cY := cnt_lt_merge S1 S2 Y
  have r1 : range_length ⟨cnt_lt S1 X, cnt_lt S1 Y⟩ = some (cnt_lt S1 Y - cnt_lt S1 X) := by
    unfold range_length range_len
    simp only [ge_iff_le, m1, if_true]
  have r2 : range_length ⟨cnt_lt S2 X, cnt_lt S2 Y⟩ = some (cnt_lt S2 Y - cnt_lt S2 X) := by
    unfold range_length range_len
    simp only [ge_iff_le, m2, if_true]
  obtain ⟨hdl, hda, l, hnd, hl, hm⟩ := hinv
  by_cases hsz : cnt_lt S1 Y - cnt_lt S1 X + (cnt_lt S2 Y - cnt_lt S2 X) = 1
  · have hone : cnt_lt (merge_strs S1 S2) Y = cnt_lt (merge_strs S1 S2) X + 1 := by omega
    have hnD := hnew hone
    have hYn := cnt_lt_le_length (merge_strs S1 S2) Y
    have hjn : cnt_lt (merge_strs S1 S2) X < (merge_strs S1 S2).length := by omega
    have hnotin : cnt_lt (merge_strs S1 S2) X ∉ l := fun hin => hnD (hl _ hin).2
    have hnd1 : (cnt_lt (merge_strs S1 S2) X :: l).Nodup := List.nodup_cons.mpr ⟨hnotin, hnd⟩
    have hlen1 := nodup_length_le _ (merge_strs S1 S2).length hnd1 (fun j hj => by
      rcases List.mem_cons.mp hj with rfl | hj
      · exact hjn
      · exact (hl j hj).1)
    rw [List.length_cons] at hlen1
    obtain ⟨DA1, lv1, hupd, hdl1, hdg⟩ := update_DA_spec w n
      ⟨⟨cnt_lt S1 X, cnt_lt S1 Y⟩, 0⟩ ⟨⟨cnt_lt S2 X, cnt_lt S2 Y⟩, 0⟩ false v.DA v.LCP v.LCP 0
      v.da_values m1 m2 (by show cnt_lt S1 X + cnt_lt S2 X < cnt_lt S1 Y + cnt_lt S2 Y; omega)
      (by show cnt_lt S1 Y + cnt_lt S2 Y ≤ v.DA.length; omega) rfl
      (by show v.da_values + (cnt_lt S1 Y + cnt_lt S2 Y - (cnt_lt S1 X + cnt_lt S2 X)) ≤ n
          omega)
      (by simp)
    refine ⟨{ v with DA := DA1, da_values := v.da_values +
      (cnt_lt S1 Y + cnt_lt S2 Y - (cnt_lt S1 X + cnt_lt S2 X)) }, ?_, rfl, rfl,
      hdl1.trans hdl, ?_, cnt_lt (merge_strs S1 S2) X :: l, hnd1, ?_, ?_⟩
    · unfold find_leaf
      simp only [r1, r2, hsz, if_true, hupd]
    · intro j hj hD
      show DA1[j]? = _
      rw [hdg j]
      by_cases hin : cnt_lt S1 X + cnt_lt S2 X ≤ j ∧ j < cnt_lt S1 Y + cnt_lt S2 Y
      · rw [if_pos hin]
        have hje : j = cnt_lt (merge_strs S1 S2) X := by omega
        have b1 : X ≤ str_at (merge_strs S1 S2) j :=
          (pos_ge_iff _ hS X j hj).mpr (by omega)
        have b2 : str_at (merge_strs S1 S2) j < Y :=
          (pos_lt_iff _ hS Y j hj).mpr (by omega)
        have c1 := count_le_range S1 X Y _ b1 b2
        have c2 := count_le_range S2 X Y _ b1 b2
        have c3 := count_merge S1 S2 (str_at (merge_strs S1 S2) j)
        have c4 : 0 < (merge_strs S1 S2).count (str_at (merge_strs S1 S2) j) :=
          List.count_pos_iff.mpr (str_at_mem _ j hj)
        have c5 : cnt_lt (merge_strs S1 S2) (str_at (merge_strs S1 S2) j) = j := by
          have := sorted_cnt_le _ hS j _ (str_at_get _ j hj)
          have := cnt_lt_mono (merge_strs S1 S2) X _ b1
          omega
        rw [merge_da_get S1 S2 h1 h2 j hj, c5]
        congr 1
        apply decide_eq_decide.mpr
        show cnt_lt S2 X + cnt_lt S1 Y ≤ j ↔ _
        omega
      · rw [if_neg hin]
        rcases hD with hD | ⟨e1, e2⟩
        · exact hda j hj hD
        · omega
    · intro j hj
      rcases List.mem_cons.mp hj with rfl | hj
      · exact ⟨hjn, Or.inr ⟨rfl, hone⟩⟩
      · exact ⟨(hl j hj).1, Or.inl (hl j hj).2⟩
    · show v.da_values + _ ≤ (_ :: l).length
      rw [List.length_cons]
      omega
  · refine ⟨v, ?_, rfl, rfl, hdl, ?_, l, hnd, fun j hj => ⟨(hl j hj).1, Or.inl (hl j hj).2⟩, hm⟩
    · unfold find_leaf
      simp only [r1, r2, hsz, if_false]
    · intro j hj hD
      rcases hD with hD | ⟨e1, e2⟩
      · exact hda j hj hD
      · omega

theorem find_leaves_spec (S1 S2 : List (List Nat)) (h1 : S1.Sorted (· ≤ ·))
    (h2 : S2.Sorted (· ≤ ·)) (w n : Nat) (hn : n = (merge_strs S1 S2).length)
    (W : List Nat) (D : Nat → Prop) (v : MergeVars) (hinv : da_inv S1 S2 D v)
    (hnew : ∀ j, found_by (merge_strs S1 S2) W j → ¬ D j) :
    ∃ v1, find_leaves w n (node_of S1 W) (node_of S2 W) v = some v1 ∧
      v1.LCP = v.LCP ∧ v1.lcp_values = v.lcp_values ∧
      da_inv S1 S2 (fun j => D j ∨ found_by (merge_strs S1 S2) W j) v1 := by
  have a01 := cnt_lt_chain (merge_strs S1 S2) W 0 1 (by omega)
  have a12 := cnt_lt_chain (merge_strs S1 S2) W 1 2 (by omega)
  have a23 := cnt_lt_chain (merge_strs S1 S2) W 2 3 (by omega)
  have a35 := cnt_lt_chain (merge_strs S1 S2) W 3 5 (by omega)
  have a56 := cnt_lt_chain (merge_strs S1 S2) W 5 6 (by omega)
  have le : ∀ a b : Nat, a ≤ b → W ++ [a] ≤ W ++ [b] := fun a b hab =>
    prefix_ge W b a [] hab
  have f : ∀ x, (x = 0 ∨ x = 1 ∨ x = 2 ∨ x = 3 ∨ x = 5) →
      cnt_lt (merge_strs S1 S2) (W ++ [next_sym x]) = cnt_lt (merge_strs S1 S2) (W ++ [x]) + 1 →
      ¬ D (cnt_lt (merge_strs S1 S2) (W ++ [x])) := fun x hx hs =>
    hnew _ ⟨x, hx, rfl, hs⟩
  obtain ⟨v1, e1, l1, k1, i1⟩ := find_leaf_spec S1 S2 h1 h2 w n hn (W ++ [0]) (W ++ [1])
    (le 0 1 (by omega)) D v hinv (f 0 (by omega))
  obtain ⟨v2, e2, l2, k2, i2⟩ := find_leaf_spec S1 S2 h1 h2 w n hn (W ++ [1]) (W ++ [2])
    (le 1 2 (by omega)) _ v1 i1 (by
      intro hs
      have := f 1 (by omega) hs
      rintro (hD | ⟨p, q⟩)
      · exact this hD
      · omega)
  obtain ⟨v3, e3, l3, k3, i3⟩ := find_leaf_spec S1 S2 h1 h2 w n hn (W ++ [2]) (W ++ [3])
    (le 2 3 (by omega)) _ v2 i2 (by
      intro hs
      have := f 2 (by omega) hs
      rintro ((hD | ⟨p, q⟩) | ⟨p, q⟩)
      · exact this hD
      · omega
      · omega)
  obtain ⟨v4, e4, l4, k4, i4⟩ := find_leaf_spec S1 S2 h1 h2 w n hn (W ++ [3]) (W ++ [5])
    (le 3 5 (by omega)) _ v3 i3 (by
      intro hs
      have := f 3 (by omega) hs
      rintro (((hD | ⟨p, q⟩) | ⟨p, q⟩) | ⟨p, q⟩)
      · exact this hD
      · omega
      · omega
      · omega)
  obtain ⟨v5, e5, l5, k5, i5⟩ := find_leaf_spec S1 S2 h1 h2 w n hn (W ++ [5]) (W ++ [6])
    (le 5 6 (by omega)) _ v4 i4 (by
      intro hs
      have := f 5 (by omega) hs
      rintro ((((hD | ⟨p, q⟩) | ⟨p, q⟩) | ⟨p, q⟩) | ⟨p, q⟩)
      · exact this hD
      · omega
      · omega
      · omega
      · omega)
  refine ⟨v5, ?_, by rw [l5, l4, l3, l2, l1], by rw [k5, k4, k3, k2, k1],
    da_inv_congr S1 S2 _ _ v5 v5 i5 rfl rfl (fun j _ => ?_)⟩
  · unfold find_leaves
    show (find_leaf w n ⟨cnt_lt S1 (W ++ [0]), cnt_lt S1 (W ++ [1])⟩
      ⟨cnt_lt S2 (W ++ [0]), cnt_lt S2 (W ++ [1])⟩ v).bind _ = _
    rw [e1, Option.some_bind]
    show (find_leaf w n ⟨cnt_lt S1 (W ++ [1]), cnt_lt S1 (W ++ [2])⟩
      ⟨cnt_lt S2 (W ++ [1]), cnt_lt S2 (W ++ [2])⟩ v1).bind _ = _
    rw [e2, Option.some_bind]
    show (find_leaf w n ⟨cnt_lt S1 (W ++ [2]), cnt_lt S1 (W ++ [3])⟩
      ⟨cnt_lt S2 (W ++ [2]), cnt_lt S2 (W ++ [3])⟩ v2).bind _ = _
    rw [e3, Option.some_bind]
    show (find_leaf w n ⟨cnt_lt S1 (W ++ [3]), cnt_lt S1 (W ++ [5])⟩
      ⟨cnt_lt S2 (W ++ [3]), cnt_lt S2 (W ++ [5])⟩ v3).bind _ = _
    rw [e4, Option.some_bind]
    exact e5
  · constructor
    · rintro (((((hD | ⟨p, q⟩) | ⟨p, q⟩) | ⟨p, q⟩) | ⟨p, q⟩) | ⟨p, q⟩)
      · exact Or.inl hD
      · exact Or.inr ⟨0, by omega, p, q⟩
      · exact Or.inr ⟨1, by omega, p, q⟩
      · exact Or.inr ⟨2, by omega, p, q⟩
      · exact Or.inr ⟨3, by omega, p, q⟩
      · exact Or.inr ⟨5, by omega, p, q⟩
    · rintro (hD | ⟨x, hx, p, q⟩)
      · exact Or.inl (Or.inl (Or.inl (Or.inl (Or.inl hD))))
      · rcases hx with rfl | rfl | rfl | rfl | rfl
        · exact Or.inl (Or.inl (Or.inl (Or.inl (Or.inr ⟨p, q⟩))))
        · exact Or.inl (Or.inl (Or.inl (Or.inr ⟨p, q⟩)))
        · exact Or.inl (Or.inl (Or.inr ⟨p, q⟩))
        · exact Or.inl (Or.inr ⟨p, q⟩)
        · exact Or.inr ⟨p, q⟩

/-- The suffixes of a node that finds a position are nodes with two children. -/
theorem finder_suffix_node (S : List (List Nat)) (hS : suffix_collection S) (W0 : List Nat)
    (j : Nat) (hf : found_by S W0 j) (hn : 2 ≤ number_of_children (node_of S W0))
    (U : List Nat) (a : Nat) (W : List Nat) (e : W0 = U ++ a :: W) :
    (a = 1 ∨ a = 2 ∨ a = 3 ∨ a = 5) ∧ 2 ≤ number_of_children (node_of S (a :: W)) := by
  obtain ⟨x, hx, f1, f2⟩ := hf
  obtain ⟨hj, b1, b2⟩ := found_by_str S hS.sorted W0 j x f1 f2
  obtain ⟨x1, r, es, lx, ux⟩ := between_prefix W0 x (next_sym x) _ b1 b2
  have hmem := str_at_mem S j hj
  obtain ⟨hx1, hdna⟩ := term_symbol S hS _ W0 r x1 hmem es
  have ha : a = 1 ∨ a = 2 ∨ a = 3 ∨ a = 5 := hdna a (by rw [e]; simp)
  have hU0 : ∀ c ∈ U, c ≠ 0 := fun c hc h0 => by
    apply dna_no_term _ hdna
    rw [e, ← h0]
    exact List.mem_append_left _ hc
  have hrange := children_range S W0 hn
  have c0 := cnt_lt_chain S W0 0 x (by omega)
  have c6 := cnt_lt_chain S W0 (next_sym x) 6 (by unfold next_sym; split <;> omega)
  have mj : (a :: W) ++ x1 :: r ∈ S := by
    apply mem_of_append_mem S hS U _ hU0
    rw [es, e] at hmem
    simpa using hmem
  -- another suffix below the node
  have other : ∃ y r1, W0 ++ y :: r1 ∈ S ∧ y ≠ x1 := by
    by_cases hlo : cnt_lt S (W0 ++ [0]) < j
    · have hi : j - 1 < S.length := by omega
      have g1 : W0 ++ [0] ≤ str_at S (j - 1) := (pos_ge_iff S hS.sorted _ _ hi).mpr (by omega)
      have g2 : str_at S (j - 1) < W0 ++ [x] := (pos_lt_iff S hS.sorted _ _ hi).mpr (by omega)
      obtain ⟨y, r1, ey, -, uy⟩ := between_prefix W0 0 x _ g1 g2
      exact ⟨y, r1, ey ▸ str_at_mem S (j - 1) hi, by omega⟩
    · have hi : j + 1 < S.length := by
        have := cnt_lt_le_length S (W0 ++ [6])
        omega
      have g1 : W0 ++ [next_sym x] ≤ str_at S (j + 1) :=
        (pos_ge_iff S hS.sorted _ _ hi).mpr (by omega)
      have g2 : str_at S (j + 1) < W0 ++ [6] := (pos_lt_iff S hS.sorted _ _ hi).mpr (by omega)
      obtain ⟨y, r1, ey, ly, -⟩ := between_prefix W0 (next_sym x) 6 _
        g1 g2
      exact ⟨y, r1, ey ▸ str_at_mem S (j + 1) hi, by omega⟩
  obtain ⟨y, r1, hy, hne⟩ := other
  obtain ⟨hy1, -⟩ := term_symbol S hS _ W0 r1 y hy rfl
  have my : (a :: W) ++ y :: r1 ∈ S := by
    apply mem_of_append_mem S hS U _ hU0
    rw [e] at hy
    simpa using hy
  refine ⟨ha, ?_⟩
  rcases Nat.lt_or_gt_of_ne hne with h | h
  · exact two_children S (a :: W) y x1 r1 r hy1 hx1 h my mj
  · exact two_children S (a :: W) x1 y r r1 hx1 hy1 h mj my

theorem merge_node_step_eq (w : Nat) (B1 B2 : List Sym) (st : MNodeState)
    (N : sa_node × sa_node) (rest : List (sa_node × sa_node)) (merged : sa_node)
    (v1 : MergeVars) (LCP : List Nat) (lv : Nat) (hS : st.S = N :: rest)
    (h1 : merge_nodes N.1 N.2 = some merged)
    (h2 : find_leaves w (B1.length + B2.length) N.1 N.2 st.v = some v1)
    (h3 : update_lcp w merged v1.LCP v1.lcp_values = some (LCP, lv)) :
    merge_node_step w B1 B2 st = some
      { S := next_nodes B1 B2 N.1 N.2 ++ rest,
        v := { v1 with LCP := LCP, lcp_values := lv } } := by
  unfold merge_node_step
  simp only [hS, h1, h2, h3]

theorem da_settled_step (S : List (List Nat)) (hS : suffix_collection S) (W : List Nat)
    (rest cs : List (List Nat)) (hfree : suffix_free (W :: rest))
    (hcs : ∀ c ∈ cs, ∃ a, c = a :: W)
    (hall : ∀ a, a = 1 ∨ a = 2 ∨ a = 3 ∨ a = 5 →
      2 ≤ number_of_children (node_of S (a :: W)) → a :: W ∈ cs)
    (hW : 2 ≤ number_of_children (node_of S W)) (j : Nat) :
    (da_settled S (W :: rest) j ∨ found_by S W j) ↔ da_settled S (cs ++ rest) j := by
  constructor
  · rintro ((h | ⟨W0, hn0, hf0, hp0⟩) | hf)
    · exact Or.inl h
    · exact Or.inr ⟨W0, hn0, hf0, fun hp => hp0 (pending_push W rest cs hcs W0 hp)⟩
    · exact Or.inr ⟨W, hW, hf, not_pending_popped W rest cs hfree hcs⟩
  · rintro (h | ⟨W0, hn0, hf0, hp0⟩)
    · exact Or.inl (Or.inl h)
    · by_cases e : W0 = W
      · subst e
        exact Or.inr hf0
      · refine Or.inl (Or.inr ⟨W0, hn0, hf0, ?_⟩)
        rintro ⟨W1, hW1, hsuf⟩
        apply hp0
        rcases List.mem_cons.mp hW1 with rfl | hr
        · obtain ⟨U, a, hUa⟩ := proper_suffix W1 W0 hsuf e
          obtain ⟨ha, hch⟩ := finder_suffix_node S hS W0 j hf0 hn0 U a W1 hUa
          exact ⟨a :: W1, List.mem_append_left _ (hall a ha hch), by
            rw [hUa]; exact List.suffix_append U (a :: W1)⟩
        · exact ⟨W1, List.mem_append_right _ hr, hsuf⟩

theorem merge_node_progress_aux (S1 S2 : List (List Nat)) (B1 B2 : List Sym)
    (hl1 : B1.length = S1.length) (hl2 : B2.length = S2.length)
    (hS1 : suffix_collection S1) (hS2 : suffix_collection S2)
    (hnext : ∀ W, next_nodes B1 B2 (node_of S1 W) (node_of S2 W) =
      (sort_by_key (fun V => node_size_pair (node_pair_of S1 S2 V))
        (extensions (fun V => decide (2 ≤ number_of_children
          (node_of (merge_strs S1 S2) V))) W)).map (node_pair_of S1 S2))
    (w : Nat) (st : MNodeState) (k : Nat)
    (hI : merge_node_inv S1 S2 w st k) (hne : st.S.isEmpty = false) :
    ∃ st1 k1, merge_node_step w B1 B2 st = some st1 ∧
      merge_node_inv S1 S2 w st1 k1 ∧ k1 < k := by
  have hS := merge_suffix_collection S1 S2 hS1 hS2
  have hlen := merge_strs_length S1 S2
  obtain ⟨Ws, hst, hfree, hch, hda, hinv, rfl⟩ := hI
  cases Ws with
  | nil => simp [hst] at hne
  | cons W rest =>
    have hW := hch W (List.mem_cons_self W rest)
    have hperm := sort_by_key_perm (fun V => node_size_pair (node_pair_of S1 S2 V))
      (extensions (fun V => decide (2 ≤ number_of_children
        (node_of (merge_strs S1 S2) V))) W)
    have hcs : ∀ c ∈ sort_by_key (fun V => node_size_pair (node_pair_of S1 S2 V))
        (extensions (fun V => decide (2 ≤ number_of_children
          (node_of (merge_strs S1 S2) V))) W), ∃ a, c = a :: W := fun c hc => by
      obtain ⟨a, -, rfl, -⟩ := (mem_extensions _ W c).mp (hperm.mem_iff.mp hc)
      exact ⟨a, rfl⟩
    have hall : ∀ a, a = 1 ∨ a = 2 ∨ a = 3 ∨ a = 5 →
        2 ≤ number_of_children (node_of (merge_strs S1 S2) (a :: W)) →
        a :: W ∈ sort_by_key (fun V => node_size_pair (node_pair_of S1 S2 V))
          (extensions (fun V => decide (2 ≤ number_of_children
            (node_of (merge_strs S1 S2) V))) W) :=
      fun a ha hc => hperm.mem_iff.mpr ((mem_extensions _ W _).mpr ⟨a, ha, rfl, by
        rw [decide_eq_true_eq]
        exact hc⟩)
    obtain ⟨v1, hfind, hL, hV, hda1⟩ := find_leaves_spec S1 S2 hS1.sorted hS2.sorted w
      (B1.length + B2.length) (by omega) W _ st.v hda (fun j hf hset => by
        rcases hset with h | ⟨W0, hn0, hf0, hp0⟩
        · have := (found_by_single _ hS.sorted W j hf).2
          omega
        · have := finder_unique _ hS.sorted W0 W j hf0 hf hn0 hW
          subst this
          exact hp0 ⟨W0, List.mem_cons_self W0 rest, List.suffix_refl W0⟩)
    obtain ⟨L1, lv1, hup, hinv1⟩ := update_lcp_inv _ hS w
      (node_waiting (merge_strs S1 S2) (W :: rest)) W v1.LCP v1.lcp_values (by rw [hL]; exact hinv)
      (fun j hj => by
        obtain ⟨_, np, ns, _⟩ := written_node_pos _ hS w W j hj
        exact ⟨np, W, List.mem_cons_self W rest, by rw [ns]⟩) hW
    refine ⟨_, _, merge_node_step_eq w B1 B2 st (node_pair_of S1 S2 W)
      (rest.map (node_pair_of S1 S2)) (node_of (merge_strs S1 S2) W) v1 L1 lv1
      (by rw [hst]; rfl) (merge_nodes_eq S1 S2 W) hfind hup,
      ⟨_, by
        show next_nodes B1 B2 (node_of S1 W) (node_of S2 W) ++ _ = _
        rw [hnext, List.map_append], suffix_free_push _ W rest _ hfree hperm, ?_, ?_, ?_,
        rfl⟩, node_weight_step _ hS W rest _ hfree hcs hall hW⟩
    · intro V hV
      rcases List.mem_append.mp hV with hc | hr
      · obtain ⟨a, -, rfl, hk⟩ := (mem_extensions _ W V).mp (hperm.mem_iff.mp hc)
        rw [decide_eq_true_eq] at hk
        exact hk
      · exact hch V (List.mem_cons_of_mem W hr)
    · exact da_inv_congr S1 S2 _ _ v1 _ hda1 rfl rfl
        (fun j _ => da_settled_step _ hS W rest _ hfree hcs hall hW j)
    · exact lcp_inv_congr _ w _ _ L1 hinv1
        (fun j hj => node_waiting_step _ hS W rest _ hfree hcs hall j hj)

/-! ## The merger on two suffix-sorted arrangements -/

theorem range_map_str_at (S : List (List Nat)) : (List.range S.length).map (str_at S) = S := by
  apply List.ext_getElem?
  intro i
  by_cases hi : i < S.length
  · rw [List.getElem?_map, List.getElem?_range hi, str_at_get S i hi]
    rfl
  · rw [List.getElem?_eq_none (by simpa using hi), List.getElem?_eq_none (by simpa using hi)]

theorem countP_range_str (S : List (List Nat)) (p : List Nat → Bool) :
    (List.range S.length).countP (fun j => p (str_at S j)) = S.countP p := by
  conv_rhs => rw [← range_map_str_at S]
  rw [List.countP_map]
  rfl

/-- After the first pass with LCP computation the document array is settled on the leaves of
two or more suffixes, and the counter is covered by these positions. -/
theorem da_inv_after_leaves (S1 S2 : List (List Nat)) (v : MergeVars)
    (hdl : v.DA.length = (merge_strs S1 S2).length)
    (hda : ∀ j, j < (merge_strs S1 S2).length →
      2 ≤ (merge_strs S1 S2).count (str_at (merge_strs S1 S2) j) →
      v.DA[j]? = (merge_da S1 S2)[j]?)
    (hm : v.da_values + da_weight (merge_strs S1 S2) [] 2 ≤ (merge_strs S1 S2).length) :
    da_inv S1 S2 (da_settled (merge_strs S1 S2) [[]]) v := by
  have hiff : ∀ j, da_settled (merge_strs S1 S2) [[]] j ↔
      2 ≤ (merge_strs S1 S2).count (str_at (merge_strs S1 S2) j) := fun j => by
    constructor
    · rintro (h | ⟨W, -, -, hp⟩)
      · exact h
      · exact absurd (pending_nil W) hp
    · exact Or.inl
  refine ⟨hdl, fun j hj hD => hda j hj ((hiff j).mp hD),
    (List.range (merge_strs S1 S2).length).filter
      (fun j => decide (2 ≤ (merge_strs S1 S2).count (str_at (merge_strs S1 S2) j))),
    (List.nodup_range _).filter _, fun j hj => ?_, ?_⟩
  · rw [List.mem_filter, List.mem_range, decide_eq_true_eq] at hj
    exact ⟨hj.1, (hiff j).mpr hj.2⟩
  · rw [← List.countP_eq_length_filter]
    have h1 := List.length_eq_countP_add_countP
      (fun j => decide (2 ≤ (merge_strs S1 S2).count (str_at (merge_strs S1 S2) j)))
      (List.range (merge_strs S1 S2).length)
    rw [List.length_range] at h1
    have h2 := countP_range_str (merge_strs S1 S2)
      (fun s => decide (pending [] s.dropLast ∨ (merge_strs S1 S2).count s < 2))
    have h3 : (List.range (merge_strs S1 S2).length).countP
        (fun j => decide (pending [] (str_at (merge_strs S1 S2) j).dropLast ∨
          (merge_strs S1 S2).count (str_at (merge_strs S1 S2) j) < 2)) =
        (List.range (merge_strs S1 S2).length).countP
        (fun a => decide ¬ (decide (2 ≤ (merge_strs S1 S2).count
          (str_at (merge_strs S1 S2) a)) = true)) := by
      apply List.countP_congr
      intro j _
      have hnp := not_pending_empty (str_at (merge_strs S1 S2) j).dropLast
      simp only [decide_eq_true_eq, hnp, false_or, not_le]
    unfold da_weight at hm
    rw [← h2, h3] at hm
    omega

/-- On two suffix-sorted arrangements that contain the terminator string, the merger
returns, for every budget of at least `n` iterations per loop, the document array of the
stable merge and, with LCP computation, the vector of the final LCP values. -/
theorem merge_build_arrangement (P1 P2 : List (Sym × List Nat))
    (hc1 : closed_arrangement P1) (hc2 : closed_arrangement P2)
    (hS1 : suffix_collection (P1.map Prod.snd)) (hS2 : suffix_collection (P2.map Prod.snd))
    (ht1 : [0] ∈ P1.map Prod.snd) (ht2 : [0] ∈ P2.map Prod.snd) (w fuel : Nat) (c : Bool)
    (hroot : c = true → 2 ≤ number_of_children
      (node_of (merge_strs (P1.map Prod.snd) (P2.map Prod.snd)) []))
    (hfuel : P1.length + P2.length ≤ fuel) :
    ∃ v, merge_build w fuel (P1.map Prod.fst) (P2.map Prod.fst) c = .done v ∧
      v.DA = merge_da (P1.map Prod.snd) (P2.map Prod.snd) ∧
      (c = true → v.LCP.length = P1.length + P2.length ∧
        ∀ i, i < P1.length + P2.length →
          v.LCP[i]? = some (lcp_target (merge_strs (P1.map Prod.snd) (P2.map Prod.snd)) w i)) := by
  have hS := merge_suffix_collection _ _ hS1 hS2
  have hlen : (merge_strs (P1.map Prod.snd) (P2.map Prod.snd)).length =
      P1.length + P2.length := by
    rw [merge_strs_length, List.length_map, List.length_map]
  have hB : (P1.map Prod.fst).length + (P2.map Prod.fst).length =
      (merge_strs (P1.map Prod.snd) (P2.map Prod.snd)).length := by
    rw [hlen, List.length_map, List.length_map]
  have hcount0 : 2 ≤ (merge_strs (P1.map Prod.snd) (P2.map Prod.snd)).count [0] := by
    rw [count_merge]
    have := List.count_pos_iff.mpr ht1
    have := List.count_pos_iff.mpr ht2
    omega
  have hn2 : 2 ≤ (merge_strs (P1.map Prod.snd) (P2.map Prod.snd)).length :=
    le_trans hcount0 (List.count_le_length _ _)
  have hdaeq : ∀ DA : List Bool,
      DA.length = (merge_strs (P1.map Prod.snd) (P2.map Prod.snd)).length →
      (∀ j, j < (merge_strs (P1.map Prod.snd) (P2.map Prod.snd)).length →
        DA[j]? = (merge_da (P1.map Prod.snd) (P2.map Prod.snd))[j]?) →
      DA = merge_da (P1.map Prod.snd) (P2.map Prod.snd) := by
    intro DA hl hg
    apply List.ext_getElem?
    intro j
    by_cases hj : j < (merge_strs (P1.map Prod.snd) (P2.map Prod.snd)).length
    · exact hg j hj
    · have hl2 := merge_da_length (P1.map Prod.snd) (P2.map Prod.snd)
      rw [← merge_strs_length] at hl2
      rw [List.getElem?_eq_none (by omega), List.getElem?_eq_none (by omega)]
  -- first loop
  have hinit : merge_init w (P1.map Prod.fst) (P2.map Prod.fst) c = some
      { S := [leaf_pair_of (P1.map Prod.snd) (P2.map Prod.snd) []],
        v := { DA := List.replicate (merge_strs (P1.map Prod.snd) (P2.map Prod.snd)).length false,
               LCP := if c = true then (List.replicate
                 (merge_strs (P1.map Prod.snd) (P2.map Prod.snd)).length (nil w)).set 0 0
                 else [],
               lcp_values := 1, da_values := 0 } } := by
    unfold merge_init leaf_pair_of
    rw [first_leaf_eq P1 hc1, first_leaf_eq P2 hc2]
    simp only [hB]
    cases c with
    | false => simp
    | true =>
      have : (merge_strs (P1.map Prod.snd) (P2.map Prod.snd)).length ≠ 0 := by omega
      simp [this]
  have hI0 : merge_leaf_inv (P1.map Prod.snd) (P2.map Prod.snd) w c
      { S := [leaf_pair_of (P1.map Prod.snd) (P2.map Prod.snd) []],
        v := { DA := List.replicate (merge_strs (P1.map Prod.snd) (P2.map Prod.snd)).length false,
               LCP := if c = true then (List.replicate
                 (merge_strs (P1.map Prod.snd) (P2.map Prod.snd)).length (nil w)).set 0 0
                 else [],
               lcp_values := 1, da_values := 0 } }
      (leaf_weight (merge_strs (P1.map Prod.snd) (P2.map Prod.snd)) [[]]) :=
    ⟨[[]], rfl, List.pairwise_singleton _ _, fun W hW => by
        rw [List.mem_singleton.mp hW]
        have : min_size c ≤ 2 := by unfold min_size; split <;> omega
        exact le_trans this hcount0,
      List.length_replicate _ _, fun j _ _ hp => absurd (pending_nil _) hp, fun hc => by
        subst hc
        exact lcp_init_inv _ w, by
        have : da_weight (merge_strs (P1.map Prod.snd) (P2.map Prod.snd)) [[]] (min_size c) ≤
            (merge_strs (P1.map Prod.snd) (P2.map Prod.snd)).length := List.countP_le_length _
        simp only [Nat.zero_add]
        exact this, rfl⟩
  obtain ⟨s1, k1, hrun1, hI1, hfin1⟩ := run_loop_terminates
    (merge_leaf_step w (P1.map Prod.fst) (P2.map Prod.fst) c) (fun s => s.S.isEmpty)
    (merge_leaf_inv (P1.map Prod.snd) (P2.map Prod.snd) w c)
    (fun s k hI hne => merge_leaf_progress_aux _ _ _ _ (by simp) (by simp) hS1 hS2
      (fun W k => next_leaves_pair_eq P1 P2 hc1 hc2 hS1.sorted hS2.sorted W k) w c s k hI hne)
    fuel _ _ hI0
    (by have := leaf_weight_le (merge_strs (P1.map Prod.snd) (P2.map Prod.snd)) [[]]; omega)
  obtain ⟨Ws1, hst1, -, -, hdl1, hda1, hinv1, hm1, -⟩ := hI1
  have hWs1 : Ws1 = [] := by
    cases Ws1 with
    | nil => rfl
    | cons a l => simp [hst1] at hfin1
  subst hWs1
  cases c with
  | false =>
    refine ⟨s1.v, (merge_build_done w fuel _ _ false _).mpr
      ⟨_, s1, hinit, hrun1, Or.inl ⟨rfl, rfl⟩⟩, ?_, fun h => by simp at h⟩
    exact hdaeq _ hdl1 (fun j hj => hda1 j hj
      (List.count_pos_iff.mpr (str_at_mem _ j hj)) (not_pending_empty _))
  | true =>
    -- second loop
    have hI2 : merge_node_inv (P1.map Prod.snd) (P2.map Prod.snd) w
        { S := [(bwt_root (P1.map Prod.fst), bwt_root (P2.map Prod.fst))], v := s1.v }
        (node_weight (merge_strs (P1.map Prod.snd) (P2.map Prod.snd)) [[]]) :=
      ⟨[[]], by rw [root_eq P1 hc1, root_eq P2 hc2]; rfl, List.pairwise_singleton _ _,
        fun W hW => by
          rw [List.mem_singleton.mp hW]
          exact hroot rfl,
        da_inv_after_leaves _ _ s1.v hdl1
          (fun j hj h2 => hda1 j hj h2 (not_pending_empty _)) hm1,
        lcp_inv_congr _ w _ _ _ (hinv1 rfl) (fun j _ => by
          constructor
          · rintro (h | ⟨_, h⟩)
            · exact ⟨h, pending_nil _⟩
            · exact absurd h (not_pending_empty _)
          · rintro ⟨h, _⟩
            exact Or.inl h), rfl⟩
    obtain ⟨s2, k2, hrun2, hI2', hfin2⟩ := run_loop_terminates
      (merge_node_step w (P1.map Prod.fst) (P2.map Prod.fst)) (fun s => s.S.isEmpty)
      (merge_node_inv (P1.map Prod.snd) (P2.map Prod.snd) w)
      (fun s k hI hne => merge_node_progress_aux _ _ _ _ (by simp) (by simp) hS1 hS2
        (fun W => next_nodes_pair_eq P1 P2 hc1 hc2 hS1.sorted hS2.sorted W) w s k hI hne)
      fuel _ _ hI2
      (by have := node_weight_le (merge_strs (P1.map Prod.snd) (P2.map Prod.snd)) [[]]; omega)
    obtain ⟨Ws2, hst2, -, -, ⟨hdl2, hda2, -⟩, hinv2, -⟩ := hI2'
    have hWs2 : Ws2 = [] := by
      cases Ws2 with
      | nil => rfl
      | cons a l => simp [hst2] at hfin2
    subst hWs2
    refine ⟨s2.v, (merge_build_done w fuel _ _ true _).mpr
      ⟨_, s1, hinit, hrun1, Or.inr ⟨rfl, s2, hrun2, rfl⟩⟩, ?_, fun _ => ⟨?_, fun i hi => ?_⟩⟩
    · refine hdaeq _ hdl2 (fun j hj => hda2 j hj ?_)
      by_cases h2 : 2 ≤ (merge_strs (P1.map Prod.snd) (P2.map Prod.snd)).count
          (str_at (merge_strs (P1.map Prod.snd) (P2.map Prod.snd)) j)
      · exact Or.inl h2
      · obtain ⟨W, hW, hf⟩ := exists_finder _ hS j hj hn2 (by omega)
        exact Or.inr ⟨W, hW, hf, not_pending_empty _⟩
    · rw [hinv2.1, hlen]
    · exact (hinv2.2 i (by omega)).2 (fun h => not_pending_empty _ h.2)

/-! ## The merged arrangement -/

theorem weave_perm {α : Type} (DA : List Bool) (xs ys : List α)
    (h0 : DA.count false = xs.length) (h1 : DA.count true = ys.length) :
    (weave DA xs ys).Perm (xs ++ ys) := by
  induction DA generalizing xs ys with
  | nil =>
    simp only [List.count_nil] at h0 h1
    have hx : xs = [] := List.length_eq_zero.mp h0.symm
    have hy : ys = [] := List.length_eq_zero.mp h1.symm
    subst hx; subst hy
    simp [weave]
  | cons d DA ih =>
    cases d with
    | false =>
      cases xs with
      | nil => simp at h0
      | cons x xs =>
        simp only [weave, List.cons_append]
        apply List.Perm.cons
        apply ih
        · simpa using h0
        · simpa using h1
    | true =>
      cases ys with
      | nil => simp at h1
      | cons y ys =>
        simp only [weave]
        refine List.Perm.trans (List.Perm.cons y (ih xs ys ?_ ?_)) ?_
        · simpa using h0
        · simpa using h1
        · exact List.perm_middle.symm

theorem weave_map {α β : Type} (f : α → β) (DA : List Bool) (xs ys : List α) :
    (weave DA xs ys).map f = weave DA (xs.map f) (ys.map f) := by
  induction DA generalizing xs ys with
  | nil => simp [weave]
  | cons d DA ih =>
    cases d with
    | false =>
      cases xs with
      | nil => simp [weave]
      | cons x xs => simp [weave, ih]
    | true =>
      cases ys with
      | nil => simp [weave]
      | cons y ys => simp [weave, ih]

theorem collection_pairs_append (r1 r2 : List (List Sym)) :
    collection_pairs (r1 ++ r2) = collection_pairs r1 ++ collection_pairs r2 := by
  induction r1 with
  | nil => simp [collection_pairs]
  | cons r rs ih => simp [collection_pairs, ih]

theorem merge_da_count_false (S1 S2 : List (List Nat)) :
    (merge_da S1 S2).count false = S1.length := by
  have h1 := count_false_add_count_true (merge_da S1 S2)
  rw [merge_da_length, merge_da_count] at h1
  omega

/-- The interleaving of two suffix-sorted arrangements directed by the document array of the
stable merge is a suffix-sorted arrangement of the union of the collections. -/
theorem merged_arrangement (reads1 reads2 : List (List Sym)) (P1 P2 : List (Sym × List Nat))
    (hP1 : sorted_arrangement reads1 P1) (hP2 : sorted_arrangement reads2 P2) :
    sorted_arrangement (reads1 ++ reads2)
        (weave (merge_da (P1.map Prod.snd) (P2.map Prod.snd)) P1 P2) ∧
      (weave (merge_da (P1.map Prod.snd) (P2.map Prod.snd)) P1 P2).map Prod.snd =
        merge_strs (P1.map Prod.snd) (P2.map Prod.snd) := by
  have e : (weave (merge_da (P1.map Prod.snd) (P2.map Prod.snd)) P1 P2).map Prod.snd =
      merge_strs (P1.map Prod.snd) (P2.map Prod.snd) := by
    rw [weave_map, ← merge_strs_eq_weave]
  refine ⟨⟨?_, ?_⟩, e⟩
  · rw [collection_pairs_append]
    refine (weave_perm _ P1 P2 ?_ ?_).trans (List.Perm.append hP1.1 hP2.1)
    · rw [merge_da_count_false, List.length_map]
    · rw [merge_da_count, List.length_map]
  · rw [e]
    exact merge_strs_sorted _ _ hP1.2 hP2.2

/-- With LCP computation, the merger returns only when the merged root has two children. -/
theorem merge_build_done_root (w fuel : Nat) (B1 B2 : List Sym) (v : MergeVars)
    (h : merge_build w fuel B1 B2 true = .done v) :
    ∃ merged, merge_nodes (bwt_root B1) (bwt_root B2) = some merged ∧
      2 ≤ number_of_children merged := by
  obtain ⟨s0, s1, -, -, h2⟩ := (merge_build_done w fuel B1 B2 true v).mp h
  rcases h2 with ⟨hc, -⟩ | ⟨-, s2, h2, -⟩
  · simp at hc
  · cases fuel with
    | zero => simp [run_loop] at h2
    | succ fuel =>
      simp only [run_loop, List.isEmpty_cons, Bool.false_eq_true, if_false] at h2
      cases hs : merge_node_step w B1 B2 { S := [(bwt_root B1, bwt_root B2)], v := s1.v } with
      | none => simp [hs] at h2
      | some s =>
        unfold merge_node_step at hs
        simp only at hs
        cases hm : merge_nodes (bwt_root B1) (bwt_root B2) with
        | none => simp [hm] at hs
        | some merged =>
          simp only [hm] at hs
          cases hf : find_leaves w (B1.length + B2.length) (bwt_root B1) (bwt_root B2) s1.v with
          | none => simp [hf] at hs
          | some v1 =>
            simp only [hf] at hs
            cases hu : update_lcp w merged v1.LCP v1.lcp_values with
            | none => simp [hu] at hs
            | some r => exact ⟨merged, rfl, (update_lcp_some w _ _ _ r hu).1.2.2.2.2⟩

/-- Whatever the budget, the merger returns the document array of the stable merge of the
two suffix lists and, with LCP computation, the vector of the final LCP values. -/
theorem merge_build_partial (reads1 reads2 : List (List Sym))
    (hr1 : ∀ r ∈ reads1, dna_read r) (hr2 : ∀ r ∈ reads2, dna_read r)
    (hne1 : reads1 ≠ []) (hne2 : reads2 ≠ [])
    (P1 P2 : List (Sym × List Nat)) (hP1 : sorted_arrangement reads1 P1)
    (hP2 : sorted_arrangement reads2 P2) (w fuel : Nat) (c : Bool) (v : MergeVars)
    (h : merge_build w fuel (P1.map Prod.fst) (P2.map Prod.fst) c = .done v) :
    v.DA = merge_da (P1.map Prod.snd) (P2.map Prod.snd) ∧
      (c = true →
        2 ≤ number_of_children (node_of (merge_strs (P1.map Prod.snd) (P2.map Prod.snd)) []) ∧
        v.LCP.length = P1.length + P2.length ∧
        ∀ i, i < P1.length + P2.length →
          v.LCP[i]? = some (lcp_target (merge_strs (P1.map Prod.snd) (P2.map Prod.snd)) w i)) := by
  have hc1 := closed_arrangement_perm P1 _ hP1.1 (collection_pairs_closed reads1 hr1)
  have hc2 := closed_arrangement_perm P2 _ hP2.1 (collection_pairs_closed reads2 hr2)
  have hS1 := arrangement_suffix_collection reads1 hr1 P1 hP1
  have hS2 := arrangement_suffix_collection reads2 hr2 P2 hP2
  have hroot : c = true → 2 ≤ number_of_children
      (node_of (merge_strs (P1.map Prod.snd) (P2.map Prod.snd)) []) := by
    intro hc
    subst hc
    obtain ⟨merged, hm, hch⟩ := merge_build_done_root w fuel _ _ v h
    rw [root_eq P1 hc1, root_eq P2 hc2, merge_nodes_eq] at hm
    cases hm
    exact hch
  obtain ⟨v1, hv1, hda, hlcp⟩ := merge_build_arrangement P1 P2 hc1 hc2 hS1 hS2
    (arrangement_term_mem reads1 P1 hP1 hne1) (arrangement_term_mem reads2 P2 hP2 hne2) w
    (max fuel (P1.length + P2.length)) c hroot (le_max_right _ _)
  have := merge_build_mono w fuel (max fuel (P1.length + P2.length)) _ _ c v h
    (le_max_left _ _)
  rw [this] at hv1
  cases hv1
  exact ⟨hda, fun hc => ⟨hroot hc, hlcp hc⟩⟩

/-- The merger returns within `n` iterations per loop; with LCP computation this needs a
non-empty read. -/
theorem merge_build_total (reads1 reads2 : List (List Sym))
    (hr1 : ∀ r ∈ reads1, dna_read r) (hr2 : ∀ r ∈ reads2, dna_read r)
    (hne1 : reads1 ≠ []) (hne2 : reads2 ≠ [])
    (P1 P2 : List (Sym × List Nat)) (hP1 : sorted_arrangement reads1 P1)
    (hP2 : sorted_arrangement reads2 P2) (w : Nat) (c : Bool)
    (hne : c = false ∨ ∃ r ∈ reads1 ++ reads2, r ≠ []) (fuel : Nat)
    (hfuel : P1.length + P2.length ≤ fuel) :
    ∃ v, merge_build w fuel (P1.map Prod.fst) (P2.map Prod.fst) c = .done v := by
  have hc1 := closed_arrangement_perm P1 _ hP1.1 (collection_pairs_closed reads1 hr1)
  have hc2 := closed_arrangement_perm P2 _ hP2.1 (collection_pairs_closed reads2 hr2)
  have hS1 := arrangement_suffix_collection reads1 hr1 P1 hP1
  have hS2 := arrangement_suffix_collection reads2 hr2 P2 hP2
  have hroot : c = true → 2 ≤ number_of_children
      (node_of (merge_strs (P1.map Prod.snd) (P2.map Prod.snd)) []) := by
    intro hc
    rcases hne with hf | hex
    · rw [hf] at hc
      simp at hc
    · obtain ⟨hP, e⟩ := merged_arrangement reads1 reads2 P1 P2 hP1 hP2
      have := arrangement_root (reads1 ++ reads2) (fun r hr => by
        rcases List.mem_append.mp hr with h | h
        · exact hr1 r h
        · exact hr2 r h) _ hP hex
      rw [e] at this
      exact this
  obtain ⟨v1, hv1, -, -⟩ := merge_build_arrangement P1 P2 hc1 hc2 hS1 hS2
    (arrangement_term_mem reads1 P1 hP1 hne1) (arrangement_term_mem reads2 P2 hP2 hne2) w
    fuel c hroot hfuel
  exact ⟨v1, hv1⟩

theorem merge_example_run (c : Bool) :
    ∃ v, merge_build 1 6 [Sym.C, Sym.TERM, Sym.A] [Sym.T, Sym.TERM, Sym.G] c = .done v ∧
      v.DA = [false, true, false, false, true, true] ∧
      save_bwt [Sym.C, Sym.TERM, Sym.A] [Sym.T, Sym.TERM, Sym.G] v.DA =
        some [Sym.C, Sym.T, Sym.TERM, Sym.A, Sym.TERM, Sym.G] := by
  cases c
  · exact ⟨⟨[false, true, false, false, true, true], [], 1, 6⟩, by decide, rfl, by decide⟩
  · exact ⟨⟨[false, true, false, false, true, true], [0, 1, 0, 0, 0, 0], 6, 6⟩, by decide, rfl,
      by decide⟩

/-! ## The merged BWT and its LCP array -/

/-- Equal suffixes keep the suffixes of the first collection in front. -/
theorem merge_da_ties (S1 S2 : List (List Nat)) (h1 : S1.Sorted (· ≤ ·))
    (h2 : S2.Sorted (· ≤ ·)) (i j : Nat) (hij : i < j) (hj : j < (merge_strs S1 S2).length)
    (e : str_at (merge_strs S1 S2) i = str_at (merge_strs S1 S2) j)
    (hi : (merge_da S1 S2)[i]? = some true) : (merge_da S1 S2)[j]? = some true := by
  rw [merge_da_get S1 S2 h1 h2 i (by omega)] at hi
  rw [merge_da_get S1 S2 h1 h2 j hj, ← e]
  simp only [Option.some.injEq, decide_eq_true_eq] at hi ⊢
  omega

/-- The bytes `save_to_file` writes from the document array of the stable merge. -/
theorem merged_bwt_emitted (P1 P2 : List (Sym × List Nat)) :
    save_bwt (P1.map Prod.fst) (P2.map Prod.fst) (merge_da (P1.map Prod.snd) (P2.map Prod.snd)) =
      some ((weave (merge_da (P1.map Prod.snd) (P2.map Prod.snd)) P1 P2).map Prod.fst) := by
  rw [weave_map]
  apply save_bwt_eq_weave
  · rw [merge_da_length]
    simp
  · rw [merge_da_count]
    simp

theorem lcp_vector_ext (L1 L2 : List Nat) (n : Nat) (f : Nat → Nat) (h1 : L1.length = n)
    (h2 : L2.length = n) (g1 : ∀ i, i < n → L1[i]? = some (f i))
    (g2 : ∀ i, i < n → L2[i]? = some (f i)) : L1 = L2 := by
  apply List.ext_getElem?
  intro i
  by_cases hi : i < n
  · rw [g1 i hi, g2 i hi]
  · rw [List.getElem?_eq_none (by omega), List.getElem?_eq_none (by omega)]

/-- The LCP vector of the merger is the one the single-BWT constructor builds on the merged
BWT. -/
theorem merged_lcp_run (reads1 reads2 : List (List Sym))
    (hr1 : ∀ r ∈ reads1, dna_read r) (hr2 : ∀ r ∈ reads2, dna_read r)
    (hne1 : reads1 ≠ []) (hne2 : reads2 ≠ [])
    (P1 P2 : List (Sym × List Nat)) (hP1 : sorted_arrangement reads1 P1)
    (hP2 : sorted_arrangement reads2 P2) (w fuel : Nat) (v : MergeVars)
    (h : merge_build w fuel (P1.map Prod.fst) (P2.map Prod.fst) true = .done v) :
    (∀ fuel1 LCP, lcp_build w fuel1 ((weave v.DA P1 P2).map Prod.fst) = .done LCP →
        LCP = v.LCP) ∧
      (∀ fuel1, P1.length + P2.length ≤ fuel1 →
        lcp_build w fuel1 ((weave v.DA P1 P2).map Prod.fst) = .done v.LCP) := by
  obtain ⟨hda, hl⟩ := merge_build_partial reads1 reads2 hr1 hr2 hne1 hne2 P1 P2 hP1 hP2 w fuel
    true v h
  obtain ⟨hroot, hlen, hval⟩ := hl rfl
  obtain ⟨hP, e⟩ := merged_arrangement reads1 reads2 P1 P2 hP1 hP2
  rw [hda]
  have hr : ∀ r ∈ reads1 ++ reads2, dna_read r := fun r hr => by
    rcases List.mem_append.mp hr with h | h
    · exact hr1 r h
    · exact hr2 r h
  have hPlen : (weave (merge_da (P1.map Prod.snd) (P2.map Prod.snd)) P1 P2).length =
      P1.length + P2.length := by
    have := congrArg List.length e
    rw [List.length_map, merge_strs_length, List.length_map, List.length_map] at this
    exact this
  constructor
  · intro fuel1 LCP h1
    obtain ⟨a, b⟩ := lcp_build_partial (reads1 ++ reads2) hr _ hP w fuel1 LCP h1
    rw [e, hPlen] at b
    rw [hPlen] at a
    exact lcp_vector_ext LCP v.LCP _ _ a hlen b hval
  · intro fuel1 hf
    have hcl := closed_arrangement_perm _ _ hP.1 (collection_pairs_closed _ hr)
    have hS := arrangement_suffix_collection _ hr _ hP
    obtain ⟨L, hL, a, b⟩ := lcp_build_arrangement _ hcl hS
      (arrangement_term_mem _ _ hP (by simp [hne1])) (by rw [e]; exact hroot) w fuel1
      (by rw [hPlen]; exact hf)
    rw [e, hPlen] at b
    rw [hPlen] at a
    rw [hL, lcp_vector_ext L v.LCP _ _ a hlen b hval]

/-! ## The command-line tools -/

theorem hasN_iff (bytes : List Nat) : hasN bytes = true ↔ 78 ∈ bytes := by
  induction bytes with
  | nil => simp [hasN]
  | cons c cs ih =>
    unfold hasN
    by_cases h : c = 78
    · simp [h]
    · rw [if_neg h, ih, List.mem_cons]
      constructor
      · exact Or.inr
      · rintro (e | e)
        · exact absurd e.symm h
        · exact e

theorem bwt2lcp_main_five (argc : Nat) (opts : List lcp_opt) (file : String → List Nat)
    (g : lcp_globals) (hg : lcp_getopt opts lcp_globals_init = some g)
    (hl : (bwt2lcp_main argc opts file).loaded = true) :
    (bwt2lcp_main argc opts file).five_letters = hasN (file g.input_bwt) := by
  unfold bwt2lcp_main at hl ⊢
  rw [hg] at hl ⊢
  simp only at hl ⊢
  split_ifs at hl ⊢ <;> first | rfl | (simp [help] at hl)

theorem merge_bwt_main_five (argc : Nat) (opts : List merge_opt) (file : String → List Nat)
    (g : merge_globals) (hg : merge_getopt opts merge_globals_init = some g)
    (hl : (merge_bwt_main argc opts file).loaded = true) :
    (merge_bwt_main argc opts file).five_letters =
      (hasN (file g.input_bwt1) || hasN (file g.input_bwt2)) := by
  unfold merge_bwt_main at hl ⊢
  rw [hg] at hl ⊢
  simp only at hl ⊢
  split_ifs at hl ⊢ <;> first | rfl | (simp [help] at hl)

/-! ## The effect of `update_DA` -/

theorem write_nil_some (w : Nat) (LCP L : List Nat) (i d : Nat)
    (h : write_nil w LCP i d = some L) :
    LCP[i]? = some (nil w) ∧ L = LCP.set i (d % 2 ^ (8 * w)) := by
  unfold write_nil at h
  split at h
  · rename_i hn
    cases h
    exact ⟨hn, rfl⟩
  · cases h

theorem fill_nil_exists (w d : Nat) (len start : Nat) (LCP : List Nat)
    (h : ∀ j, start ≤ j → j < start + len → LCP[j]? = some (nil w)) :
    ∃ L1, fill_nil w d start len LCP = some L1 := by
  induction len generalizing start LCP with
  | zero => exact ⟨LCP, rfl⟩
  | succ len ih =>
    have hn := h start (le_refl _) (by omega)
    obtain ⟨L1, hL⟩ := ih (start + 1) (LCP.set start (d % 2 ^ (8 * w))) (fun j h1 h2 => by
      rw [List.getElem?_set_ne (by omega)]
      exact h j (by omega) (by omega))
    exact ⟨L1, by simp only [fill_nil, write_nil, hn, if_true, hL]⟩

/-- What a returning call of `update_DA` has checked and computed. -/
theorem update_DA_some (w n : Nat) (L1 L2 : sa_leaf) (c : Bool) (DA : List Bool)
    (LCP : List Nat) (lv m : Nat) (r : List Bool × List Nat × Nat × Nat)
    (h : update_DA w n L1 L2 c DA LCP lv m = some r) :
    L1.rn.first + L2.rn.first < L1.rn.second + L2.rn.second ∧ L1.depth = L2.depth ∧
    (∃ DA1, fill_da false (L1.rn.first + L2.rn.first)
        (L2.rn.first + L1.rn.second - (L1.rn.first + L2.rn.first)) DA = some DA1 ∧
      fill_da true (L2.rn.first + L1.rn.second)
        (L1.rn.second + L2.rn.second - (L2.rn.first + L1.rn.second)) DA1 = some r.1) ∧
    r.2.2.2 = m + (L2.rn.first + L1.rn.second - (L1.rn.first + L2.rn.first)) +
      (L1.rn.second + L2.rn.second - (L2.rn.first + L1.rn.second)) ∧
    r.2.2.2 ≤ n ∧
    (if c = true then
      fill_nil w L1.depth (L1.rn.first + L2.rn.first + 1)
        (L1.rn.second + L2.rn.second - (L1.rn.first + L2.rn.first + 1)) LCP = some r.2.1 ∧
      r.2.2.1 = lv + (L1.rn.second + L2.rn.second - (L1.rn.first + L2.rn.first + 1))
    else r.2.1 = LCP ∧ r.2.2.1 = lv) := by
  unfold update_DA at h
  simp only at h
  split at h
  · rename_i hne
    obtain ⟨DA1, e1, h⟩ := Option.bind_eq_some.mp h
    obtain ⟨DA2, e2, h⟩ := Option.bind_eq_some.mp h
    split at h
    · rename_i hd
      obtain ⟨q, e3, h⟩ := Option.bind_eq_some.mp h
      split at h
      · rename_i hm
        cases h
        refine ⟨hne, hd, ⟨DA1, e1, e2⟩, rfl, hm, ?_⟩
        cases c with
        | false =>
          simp only [Bool.false_eq_true, if_false, Option.some.injEq] at e3 ⊢
          subst e3
          exact ⟨rfl, rfl⟩
        | true =>
          simp only [if_true] at e3 ⊢
          obtain ⟨L, eL, rfl⟩ := Option.map_eq_some'.mp e3
          exact ⟨eL, rfl⟩
      · cases h
    · cases h
  · cases h

/-- A call of `update_DA` returns when its assertions hold. -/
theorem update_DA_returns (w n : Nat) (L1 L2 : sa_leaf) (c : Bool) (DA : List Bool)
    (LCP : List Nat) (lv m : Nat) (h1 : L1.rn.first ≤ L1.rn.second)
    (h2 : L2.rn.first ≤ L2.rn.second)
    (hne : L1.rn.first + L2.rn.first < L1.rn.second + L2.rn.second)
    (hlen : L1.rn.second + L2.rn.second ≤ DA.length) (hd : L1.depth = L2.depth)
    (hm : m + (range_len L1.rn + range_len L2.rn) ≤ n)
    (hnil : c = true → ∀ i, L1.rn.first + L2.rn.first < i → i < L1.rn.second + L2.rn.second →
      LCP[i]? = some (nil w)) :
    ∃ r, update_DA w n L1 L2 c DA LCP lv m = some r := by
  have hm1 : m + (L1.rn.second + L2.rn.second - (L1.rn.first + L2.rn.first)) ≤ n := by
    unfold range_len at hm
    omega
  cases c with
  | false =>
    obtain ⟨DA1, lv1, e, -⟩ := update_DA_spec w n L1 L2 false DA LCP LCP lv m h1 h2 hne hlen hd
      hm1 (by simp)
    exact ⟨_, e⟩
  | true =>
    obtain ⟨LCP1, hL⟩ := fill_nil_exists w L1.depth
      (L1.rn.second + L2.rn.second - (L1.rn.first + L2.rn.first + 1))
      (L1.rn.first + L2.rn.first + 1) LCP (fun j a b => hnil rfl j (by omega) (by omega))
    obtain ⟨DA1, lv1, e, -⟩ := update_DA_spec w n L1 L2 true DA LCP LCP1 lv m h1 h2 hne hlen hd
      hm1 (by simpa using hL)
    exact ⟨_, e⟩

/-! ## The effect of `update_lcp` -/

theorem update_lcp_eq (w : Nat) (x : sa_node) (LCP : List Nat) (v : Nat) :
    update_lcp w x LCP v =
      if x.first_A ≥ x.first_TERM ∧ x.first_C ≥ x.first_A ∧ x.first_G ≥ x.first_C ∧
          x.first_T ≥ x.first_G ∧ number_of_children x ≥ 2 then
        lcp_borders w x.depth (guarded_borders x) (LCP, v)
      else none := by
  unfold update_lcp guarded_borders
  simp only [lcp_borders]
  split
  · congr 1; funext s1; congr 1; funext s2; congr 1; funext s3
    cases lcp_border w (has_child_G x && decide (x.first_T ≠ x.last)) x.first_T x.depth s3 <;> rfl
  · rfl

theorem update_lcp_n_eq (w : Nat) (x : sa_node_n) (LCP : List Nat) (v : Nat) :
    update_lcp_n w x LCP v =
      if x.first_A ≥ x.first_TERM ∧ x.first_C ≥ x.first_A ∧ x.first_G ≥ x.first_C ∧
          x.first_N ≥ x.first_G ∧ x.first_T ≥ x.first_N ∧ number_of_children_n x ≥ 2 then
        lcp_borders w x.depth (guarded_borders_n x) (LCP, v)
      else none := by
  unfold update_lcp_n guarded_borders_n
  simp only [lcp_borders]
  split
  · congr 1; funext s1; congr 1; funext s2; congr 1; funext s3; congr 1; funext s4
    cases lcp_border w (has_child_N_n x && decide (x.first_T ≠ x.last)) x.first_T x.depth s4 <;>
      rfl
  · rfl

theorem enabled_cons (b : Bool × Nat) (bs : List (Bool × Nat)) :
    enabled (b :: bs) = (if b.1 = true then [b.2] else []) ++ enabled bs := by
  unfold enabled
  rw [List.filterMap_cons]
  cases h : b.1 <;> simp

/-- A returning run of the guarded stores found the sentinel at every enabled position and
left the stored value there; it changed nothing else. -/
theorem lcp_borders_some (w d : Nat) (bs : List (Bool × Nat)) (L : List Nat) (v : Nat)
    (r : List Nat × Nat) (hnd : (enabled bs).Nodup)
    (h : lcp_borders w d bs (L, v) = some r) :
    r.1.length = L.length ∧ r.2 = v + (enabled bs).length ∧
      (∀ i ∈ enabled bs, L[i]? = some (nil w) ∧ r.1[i]? = some (d % 2 ^ (8 * w))) ∧
      (∀ i, i ∉ enabled bs → r.1[i]? = L[i]?) := by
  induction bs generalizing L v with
  | nil =>
    simp only [lcp_borders, Option.some.injEq] at h
    subst h
    simp [enabled]
  | cons b bs ih =>
    rw [enabled_cons] at hnd ⊢
    simp only [lcp_borders] at h
    obtain ⟨s, hs, h⟩ := Option.bind_eq_some.mp h
    unfold lcp_border at hs
    cases hb : b.1 with
    | false =>
      simp only [hb, Bool.false_eq_true, if_false, Option.some.injEq] at hs
      subst hs
      simp only [hb, Bool.false_eq_true, if_false, List.nil_append] at hnd ⊢
      exact ih L v hnd h
    | true =>
      simp only [hb, if_true] at hs
      cases hw : write_nil w L b.2 d with
      | none => simp [hw] at hs
      | some L2 =>
        simp only [hw, Option.some.injEq] at hs
        subst hs
        obtain ⟨hn, rfl⟩ := write_nil_some w L L2 b.2 d hw
        simp only [hb, if_true, List.singleton_append, List.nodup_cons] at hnd ⊢
        obtain ⟨a1, a2, a3, a4⟩ := ih _ _ hnd.2 h
        have hlt : b.2 < L.length := (List.getElem?_eq_some_iff.mp hn).1
        refine ⟨by rw [a1, List.length_set], by rw [a2, List.length_cons]; omega,
          fun i hi => ?_, fun i hi => ?_⟩
        · rcases List.mem_cons.mp hi with rfl | hi
          · refine ⟨hn, ?_⟩
            rw [a4 _ hnd.1, List.getElem?_set_self hlt]
          · have hne : b.2 ≠ i := fun e => hnd.1 (e ▸ hi)
            obtain ⟨p, q⟩ := a3 i hi
            rw [List.getElem?_set_ne hne] at p
            exact ⟨p, q⟩
        · rw [List.mem_cons, not_or] at hi
          rw [a4 i hi.2, List.getElem?_set_ne (fun e => hi.1 e.symm)]

/-- The guarded stores return when every enabled position holds the sentinel. -/
theorem lcp_borders_exists (w d : Nat) (bs : List (Bool × Nat)) (L : List Nat) (v : Nat)
    (hnd : (enabled bs).Nodup) (hn : ∀ i ∈ enabled bs, L[i]? = some (nil w)) :
    ∃ r, lcp_borders w d bs (L, v) = some r := by
  induction bs generalizing L v with
  | nil => exact ⟨_, rfl⟩
  | cons b bs ih =>
    rw [enabled_cons] at hnd hn
    simp only [lcp_borders]
    unfold lcp_border
    cases hb : b.1 with
    | false =>
      simp only [hb, Bool.false_eq_true, if_false, List.nil_append] at hnd hn ⊢
      rw [Option.some_bind]
      exact ih L v hnd hn
    | true =>
      simp only [hb, if_true, List.singleton_append, List.nodup_cons] at hnd hn ⊢
      have h0 := hn b.2 (List.mem_cons_self _ _)
      simp only [write_nil, h0, if_true, Option.some_bind]
      apply ih _ _ hnd.2
      intro i hi
      rw [List.getElem?_set_ne (fun e : b.2 = i => hnd.1 (by rw [e]; exact hi))]
      exact hn i (List.mem_cons_of_mem _ hi)
/-! ### Boundaries between the children of a node -/

theorem nonempty_starts_mem (bs : List Nat) (i : Nat) (h : i ∈ nonempty_starts bs) :
    i ∈ bs := by
  induction bs with
  | nil => simp [nonempty_starts] at h
  | cons a r ih =>
    cases r with
    | nil => simp [nonempty_starts] at h
    | cons b r =>
      simp only [nonempty_starts, List.mem_append] at h
      rcases h with h | h
      · split at h
        · rw [List.mem_singleton] at h
          rw [h]
          exact List.mem_cons_self _ _
        · simp at h
      · exact List.mem_cons_of_mem _ (ih h)

theorem sorted_getLast_ge (b : Nat) (r : List Nat) (last : Nat)
    (hs : (b :: r).Sorted (· ≤ ·)) (hl : (b :: r).getLast? = some last) : b ≤ last := by
  have hm : last ∈ b :: r := List.mem_of_getLast?_eq_some hl
  rcases List.mem_cons.mp hm with rfl | hm
  · exact le_refl _
  · exact (List.sorted_cons.mp hs).1 last hm

/-- In a sorted list of boundaries that does not end at its head, the first non-empty child
starts at the head. -/
theorem nonempty_starts_head (r : List Nat) (b last : Nat) (hs : (b :: r).Sorted (· ≤ ·))
    (hl : (b :: r).getLast? = some last) :
    nonempty_starts (b :: r) =
      if b ≠ last then b :: (nonempty_starts (b :: r)).tail else [] := by
  induction r generalizing b with
  | nil =>
    simp only [List.getLast?_singleton, Option.some.injEq] at hl
    simp [nonempty_starts, hl]
  | cons c r ih =>
    have hbc : b ≤ c := (List.sorted_cons.mp hs).1 c (List.mem_cons_self _ _)
    have hs1 : (c :: r).Sorted (· ≤ ·) := (List.sorted_cons.mp hs).2
    have hl1 : (c :: r).getLast? = some last := by
      rw [List.getLast?_cons_cons] at hl
      exact hl
    have hcl := sorted_getLast_ge c r last hs1 hl1
    simp only [nonempty_starts]
    by_cases h : b < c
    · have hne : b ≠ last := by omega
      simp [h, hne]
    · have e : b = c := by omega
      subst e
      simp only [lt_irrefl, if_false, List.nil_append]
      exact ih b hs1 hl1

/-- On sorted boundaries, the boundaries that end a non-empty child before `last` are the
starts of the non-empty children other than the first one. -/
theorem inner_ends_eq (bs : List Nat) (last : Nat) (hs : bs.Sorted (· ≤ ·))
    (hl : bs.getLast? = some last) : inner_ends last bs = child_borders bs := by
  unfold child_borders
  induction bs with
  | nil => rfl
  | cons a r ih =>
    cases r with
    | nil => rfl
    | cons b r =>
      have hs1 : (b :: r).Sorted (· ≤ ·) := (List.sorted_cons.mp hs).2
      have hl1 : (b :: r).getLast? = some last := by
        rw [List.getLast?_cons_cons] at hl
        exact hl
      have hh := nonempty_starts_head r b last hs1 hl1
      simp only [inner_ends, nonempty_starts]
      rw [ih hs1 hl1]
      by_cases h : a < b
      · by_cases h2 : b = last
        · subst h2
          rw [if_neg (by simp)] at hh
          simp [h, hh]
        · rw [if_pos h2] at hh
          simp only [h, h2, ne_eq, not_false_eq_true, and_self, if_true, List.singleton_append,
            List.tail_cons]
          exact hh.symm
      · simp [h]

theorem inner_ends_gt (last : Nat) (rest : List Nat) (a : Nat)
    (hs : (a :: rest).Sorted (· ≤ ·)) : ∀ i ∈ inner_ends last (a :: rest), a < i := by
  induction rest generalizing a with
  | nil => simp [inner_ends]
  | cons b r ih =>
    have hab : a ≤ b := (List.sorted_cons.mp hs).1 b (List.mem_cons_self _ _)
    have hs1 : (b :: r).Sorted (· ≤ ·) := (List.sorted_cons.mp hs).2
    intro i hi
    simp only [inner_ends, List.mem_append] at hi
    rcases hi with hi | hi
    · split at hi
      · rename_i hc
        rw [List.mem_singleton] at hi
        omega
      · simp at hi
    · have := ih b hs1 i hi
      omega

theorem inner_ends_nodup (last : Nat) (bs : List Nat) (hs : bs.Sorted (· ≤ ·)) :
    (inner_ends last bs).Nodup := by
  induction bs with
  | nil => simp [inner_ends]
  | cons a r ih =>
    cases r with
    | nil => simp [inner_ends]
    | cons b r =>
      have hs1 : (b :: r).Sorted (· ≤ ·) := (List.sorted_cons.mp hs).2
      simp only [inner_ends]
      split
      · rw [List.singleton_append, List.nodup_cons]
        refine ⟨fun hin => ?_, ih hs1⟩
        have := inner_ends_gt last r b hs1 b hin
        omega
      · rw [List.nil_append]
        exact ih hs1

theorem eligible_borders_eq (x : sa_node) :
    eligible_borders x =
      inner_ends x.last [x.first_TERM, x.first_A, x.first_C, x.first_G, x.first_T] := by
  unfold eligible_borders guarded_borders
  simp only [enabled_cons, inner_ends, has_child_TERM, has_child_A, has_child_C, has_child_G,
    Bool.and_eq_true, decide_eq_true_eq, gt_iff_lt]
  rfl

theorem eligible_borders_n_eq (x : sa_node_n) :
    eligible_borders_n x =
      inner_ends x.last
        [x.first_TERM, x.first_A, x.first_C, x.first_G, x.first_N, x.first_T] := by
  unfold eligible_borders_n guarded_borders_n
  simp only [enabled_cons, inner_ends, has_child_TERM_n, has_child_A_n, has_child_C_n,
    has_child_G_n, has_child_N_n, Bool.and_eq_true, decide_eq_true_eq, gt_iff_lt]
  rfl

theorem inner_ends_snoc (last : Nat) (bs : List Nat) :
    inner_ends last (bs ++ [last]) = inner_ends last bs := by
  induction bs with
  | nil => rfl
  | cons a r ih =>
    cases r with
    | nil => simp [inner_ends]
    | cons b r =>
      simp only [List.cons_append, inner_ends] at ih ⊢
      have ih1 : inner_ends last (b :: r.append [last]) = inner_ends last (b :: r) := ih
      rw [ih1]

theorem number_of_children_eq (x : sa_node) :
    number_of_children x = (nonempty_starts (boundaries x)).length := by
  unfold number_of_children boundaries b2n
  simp only [nonempty_starts, gt_iff_lt, decide_eq_true_eq, List.length_append]
  split_ifs <;> simp

theorem number_of_children_n_eq (x : sa_node_n) :
    number_of_children_n x = (nonempty_starts (boundaries_n x)).length := by
  unfold number_of_children_n boundaries_n b2n
  simp only [nonempty_starts, gt_iff_lt, decide_eq_true_eq, List.length_append]
  split_ifs <;> simp
theorem eligible_borders_nodup (x : sa_node) (h0 : x.first_TERM ≤ x.first_A)
    (h1 : x.first_A ≤ x.first_C) (h2 : x.first_C ≤ x.first_G) (h3 : x.first_G ≤ x.first_T) :
    (eligible_borders x).Nodup := by
  rw [eligible_borders_eq]
  apply inner_ends_nodup
  simp only [List.Sorted, List.pairwise_cons, List.mem_cons, List.mem_singleton,
    List.not_mem_nil, forall_eq_or_imp, forall_eq, IsEmpty.forall_iff, implies_true,
    List.Pairwise.nil, and_true]
  omega

theorem eligible_borders_n_nodup (x : sa_node_n) (h0 : x.first_TERM ≤ x.first_A)
    (h1 : x.first_A ≤ x.first_C) (h2 : x.first_C ≤ x.first_G) (h3 : x.first_G ≤ x.first_N)
    (h4 : x.first_N ≤ x.first_T) : (eligible_borders_n x).Nodup := by
  rw [eligible_borders_n_eq]
  apply inner_ends_nodup
  simp only [List.Sorted, List.pairwise_cons, List.mem_cons, List.mem_singleton,
    List.not_mem_nil, forall_eq_or_imp, forall_eq, IsEmpty.forall_iff, implies_true,
    List.Pairwise.nil, and_true]
  omega

/-- On a well-formed node the eligible boundaries of `update_lcp` are the starts of the
non-empty children other than the first one. -/
theorem eligible_borders_children (x : sa_node) (h0 : x.first_TERM ≤ x.first_A)
    (h1 : x.first_A ≤ x.first_C) (h2 : x.first_C ≤ x.first_G) (h3 : x.first_G ≤ x.first_T)
    (h4 : x.first_T ≤ x.last) : eligible_borders x = child_borders (boundaries x) := by
  rw [eligible_borders_eq, ← inner_ends_snoc]
  apply inner_ends_eq
  · simp only [List.cons_append, List.nil_append, List.Sorted, List.pairwise_cons,
      List.mem_cons, List.mem_singleton, List.not_mem_nil, forall_eq_or_imp, forall_eq,
      IsEmpty.forall_iff, implies_true, List.Pairwise.nil, and_true]
    omega
  · rfl

theorem eligible_borders_n_children (x : sa_node_n) (h0 : x.first_TERM ≤ x.first_A)
    (h1 : x.first_A ≤ x.first_C) (h2 : x.first_C ≤ x.first_G) (h3 : x.first_G ≤ x.first_N)
    (h4 : x.first_N ≤ x.first_T) (h5 : x.first_T ≤ x.last) :
    eligible_borders_n x = child_borders (boundaries_n x) := by
  rw [eligible_borders_n_eq, ← inner_ends_snoc]
  apply inner_ends_eq
  · simp only [List.cons_append, List.nil_append, List.Sorted, List.pairwise_cons,
      List.mem_cons, List.mem_singleton, List.not_mem_nil, forall_eq_or_imp, forall_eq,
      IsEmpty.forall_iff, implies_true, List.Pairwise.nil, and_true]
    omega
  · rfl

/-- What a returning call of `update_lcp(sa_node)` has checked and stored. -/
theorem update_lcp_guarded (w : Nat) (x : sa_node) (LCP : List Nat) (v : Nat)
    (r : List Nat × Nat) (h : update_lcp w x LCP v = some r) :
    (x.first_TERM ≤ x.first_A ∧ x.first_A ≤ x.first_C ∧ x.first_C ≤ x.first_G ∧
      x.first_G ≤ x.first_T ∧ 2 ≤ number_of_children x) ∧
    r.1.length = LCP.length ∧ r.2 = v + (eligible_borders x).length ∧
    (∀ i ∈ eligible_borders x, LCP[i]? = some (nil w) ∧ r.1[i]? = some (x.depth % 2 ^ (8 * w))) ∧
    (∀ i, i ∉ eligible_borders x → r.1[i]? = LCP[i]?) := by
  rw [update_lcp_eq] at h
  split at h
  · rename_i hg
    exact ⟨hg, lcp_borders_some w x.depth (guarded_borders x) LCP v r
      (eligible_borders_nodup x hg.1 hg.2.1 hg.2.2.1 hg.2.2.2.1) h⟩
  · cases h

/-- What a returning call of `update_lcp(sa_node_n)` has checked and stored. -/
theorem update_lcp_n_guarded (w : Nat) (x : sa_node_n) (LCP : List Nat) (v : Nat)
    (r : List Nat × Nat) (h : update_lcp_n w x LCP v = some r) :
    (x.first_TERM ≤ x.first_A ∧ x.first_A ≤ x.first_C ∧ x.first_C ≤ x.first_G ∧
      x.first_G ≤ x.first_N ∧ x.first_N ≤ x.first_T ∧ 2 ≤ number_of_children_n x) ∧
    r.1.length = LCP.length ∧ r.2 = v + (eligible_borders_n x).length ∧
    (∀ i ∈ eligible_borders_n x,
      LCP[i]? = some (nil w) ∧ r.1[i]? = some (x.depth % 2 ^ (8 * w))) ∧
    (∀ i, i ∉ eligible_borders_n x → r.1[i]? = LCP[i]?) := by
  rw [update_lcp_n_eq] at h
  split at h
  · rename_i hg
    exact ⟨hg, lcp_borders_some w x.depth (guarded_borders_n x) LCP v r
      (eligible_borders_n_nodup x hg.1 hg.2.1 hg.2.2.1 hg.2.2.2.1 hg.2.2.2.2.1) h⟩
  · cases h

/-- A call of `update_lcp(sa_node)` returns when its assertions hold. -/
theorem update_lcp_returns (w : Nat) (x : sa_node) (LCP : List Nat) (v : Nat)
    (h0 : x.first_TERM ≤ x.first_A) (h1 : x.first_A ≤ x.first_C) (h2 : x.first_C ≤ x.first_G)
    (h3 : x.first_G ≤ x.first_T) (hk : 2 ≤ number_of_children x)
    (hnil : ∀ i ∈ eligible_borders x, LCP[i]? = some (nil w)) :
    ∃ r, update_lcp w x LCP v = some r := by
  rw [update_lcp_eq, if_pos ⟨h0, h1, h2, h3, hk⟩]
  exact lcp_borders_exists w x.depth (guarded_borders x) LCP v
    (eligible_borders_nodup x h0 h1 h2 h3) hnil

/-- A call of `update_lcp(sa_node_n)` returns when its assertions hold. -/
theorem update_lcp_n_returns (w : Nat) (x : sa_node_n) (LCP : List Nat) (v : Nat)
    (h0 : x.first_TERM ≤ x.first_A) (h1 : x.first_A ≤ x.first_C) (h2 : x.first_C ≤ x.first_G)
    (h3 : x.first_G ≤ x.first_N) (h4 : x.first_N ≤ x.first_T)
    (hk : 2 ≤ number_of_children_n x)
    (hnil : ∀ i ∈ eligible_borders_n x, LCP[i]? = some (nil w)) :
    ∃ r, update_lcp_n w x LCP v = some r := by
  rw [update_lcp_n_eq, if_pos ⟨h0, h1, h2, h3, h4, hk⟩]
  exact lcp_borders_exists w x.depth (guarded_borders_n x) LCP v
    (eligible_borders_n_nodup x h0 h1 h2 h3 h4) hnil

theorem child_borders_length (bs : List Nat) :
    (child_borders bs).length = (nonempty_starts bs).length - 1 := by
  unfold child_borders
  rw [List.length_tail]

/-! ## The effect of `find_leaves` -/

theorem find_leaves_eq (w n : Nat) (x1 x2 : sa_node) (v : MergeVars) :
    find_leaves w n x1 x2 v = find_list w n (child_pairs x1 x2) v := by
  unfold find_leaves child_pairs
  simp only [find_list]
  congr 1; funext v1; congr 1; funext v2; congr 1; funext v3; congr 1; funext v4
  cases find_leaf w n (child_T x1) (child_T x2) v4 <;> rfl

theorem find_leaves_n_eq (w n : Nat) (x1 x2 : sa_node_n) (v : MergeVars) :
    find_leaves_n w n x1 x2 v = find_list w n (child_pairs_n x1 x2) v := by
  unfold find_leaves_n child_pairs_n
  simp only [find_list]
  congr 1; funext v1; congr 1; funext v2; congr 1; funext v3; congr 1; funext v4
  congr 1; funext v5
  cases find_leaf w n (child_T_n x1) (child_T_n x2) v5 <;> rfl

theorem single_writes_cons (c : range_t × range_t) (cs : List (range_t × range_t)) :
    single_writes (c :: cs) =
      (if range_len c.1 + range_len c.2 = 1 then
        [(c.1.first + c.2.first, decide (range_len c.2 = 1))] else []) ++
      single_writes cs := by
  unfold single_writes
  rw [List.filterMap_cons]
  split_ifs <;> simp

theorem range_length_eq (r : range_t) (h : r.first ≤ r.second) :
    range_length r = some (range_len r) := by
  unfold range_length
  rw [if_pos h]

/-- One block of `find_leaves` on two well-formed ranges inside the document array. -/
theorem find_leaf_some (w n : Nat) (r1 r2 : range_t) (v v1 : MergeVars)
    (h1 : r1.first ≤ r1.second) (h2 : r2.first ≤ r2.second)
    (hlen : r1.second + r2.second ≤ v.DA.length)
    (h : find_leaf w n r1 r2 v = some v1) :
    v1.LCP = v.LCP ∧ v1.lcp_values = v.lcp_values ∧ v1.DA.length = v.DA.length ∧
    (if range_len r1 + range_len r2 = 1 then
      v1.da_values = v.da_values + 1 ∧ v1.da_values ≤ n ∧
      v1.DA[r1.first + r2.first]? = some (decide (range_len r2 = 1)) ∧
      ∀ i, i ≠ r1.first + r2.first → v1.DA[i]? = v.DA[i]?
    else v1 = v) := by
  have hl := find_leaf_lcp w n r1 r2 v v1 h
  unfold find_leaf at h
  rw [range_length_eq r1 h1, range_length_eq r2 h2] at h
  simp only at h
  by_cases hsz : range_len r1 + range_len r2 = 1
  · rw [if_pos hsz] at h ⊢
    cases hu : update_DA w n ⟨r1, 0⟩ ⟨r2, 0⟩ false v.DA v.LCP 0 v.da_values with
    | none => simp [hu] at h
    | some r =>
      obtain ⟨DA, L, lv, m⟩ := r
      simp only [hu, Option.some.injEq] at h
      subst h
      obtain ⟨-, -, ⟨D1, e1, e2⟩, hm, hmn, -⟩ := update_DA_some w n _ _ _ _ _ _ _ _ hu
      simp only at e1 e2 hm hmn
      unfold range_len at hsz
      obtain ⟨D1a, f1, l1, g1⟩ := fill_da_spec false
        (r2.first + r1.second - (r1.first + r2.first)) (r1.first + r2.first) v.DA (by omega)
      rw [e1] at f1
      cases f1
      obtain ⟨D2a, f2, l2, g2⟩ := fill_da_spec true
        (r1.second + r2.second - (r2.first + r1.second)) (r2.first + r1.second) D1 (by omega)
      rw [e2] at f2
      cases f2
      refine ⟨hl.1, hl.2, by rw [l2, l1], ?_, ?_, ?_, fun i hi => ?_⟩
      · show m = v.da_values + 1
        omega
      · exact hmn
      · show DA[r1.first + r2.first]? = _
        rw [g2]
        by_cases hb : r2.second - r2.first = 1
        · rw [if_pos (by omega)]
          simp [range_len, hb]
        · rw [if_neg (by omega), g1, if_pos (by omega)]
          simp [range_len, hb]
      · show DA[i]? = _
        rw [g2, if_neg (by omega), g1, if_neg (by omega)]
  · rw [if_neg hsz] at h ⊢
    simp only [Option.some.injEq] at h
    exact ⟨hl.1, hl.2, by rw [h], h.symm⟩

theorem find_leaf_returns (w n : Nat) (r1 r2 : range_t) (v : MergeVars)
    (h1 : r1.first ≤ r1.second) (h2 : r2.first ≤ r2.second)
    (hlen : r1.second + r2.second ≤ v.DA.length)
    (hm : range_len r1 + range_len r2 = 1 → v.da_values + 1 ≤ n) :
    ∃ v1, find_leaf w n r1 r2 v = some v1 := by
  unfold find_leaf
  rw [range_length_eq r1 h1, range_length_eq r2 h2]
  simp only
  by_cases hsz : range_len r1 + range_len r2 = 1
  · rw [if_pos hsz]
    have hm1 := hm hsz
    obtain ⟨r, hr⟩ := update_DA_returns w n ⟨r1, 0⟩ ⟨r2, 0⟩ false v.DA v.LCP 0 v.da_values h1 h2
      (by unfold range_len at hsz; show r1.first + r2.first < r1.second + r2.second; omega)
      hlen rfl (by show v.da_values + (range_len r1 + range_len r2) ≤ n; omega)
      (fun hc => by simp at hc)
    rw [hr]
    exact ⟨_, rfl⟩
  · rw [if_neg hsz]
    exact ⟨v, rfl⟩

/-- A returning run of the blocks of `find_leaves` wrote the owed entries and nothing
else. -/
theorem find_list_some (w n : Nat) (cs : List (range_t × range_t)) (v v1 : MergeVars)
    (hwf : ∀ c ∈ cs, c.1.first ≤ c.1.second ∧ c.2.first ≤ c.2.second ∧
      c.1.second + c.2.second ≤ v.DA.length)
    (hnd : ((single_writes cs).map Prod.fst).Nodup)
    (h : find_list w n cs v = some v1) :
    v1.LCP = v.LCP ∧ v1.lcp_values = v.lcp_values ∧ v1.DA.length = v.DA.length ∧
    v1.da_values = v.da_values + (single_writes cs).length ∧ v1.da_values ≤ max n v.da_values ∧
    (∀ p ∈ single_writes cs, v1.DA[p.1]? = some p.2) ∧
    (∀ i, i ∉ (single_writes cs).map Prod.fst → v1.DA[i]? = v.DA[i]?) := by
  induction cs generalizing v with
  | nil =>
    simp only [find_list, Option.some.injEq] at h
    subst h
    simp [single_writes]
  | cons c cs ih =>
    simp only [find_list] at h
    obtain ⟨v2, e, h⟩ := Option.bind_eq_some.mp h
    obtain ⟨w1, w2, w3⟩ := hwf c (List.mem_cons_self _ _)
    obtain ⟨a1, a2, a3, a4⟩ := find_leaf_some w n c.1 c.2 v v2 w1 w2 w3 e
    rw [single_writes_cons] at hnd ⊢
    have hwf2 : ∀ c ∈ cs, c.1.first ≤ c.1.second ∧ c.2.first ≤ c.2.second ∧
        c.1.second + c.2.second ≤ v2.DA.length := fun c1 hc1 => by
      rw [a3]
      exact hwf c1 (List.mem_cons_of_mem _ hc1)
    by_cases hsz : range_len c.1 + range_len c.2 = 1
    · rw [if_pos hsz] at a4 hnd ⊢
      simp only [List.singleton_append, List.map_cons, List.nodup_cons] at hnd
      obtain ⟨b1, b2, b3, b4, b5, b6, b7⟩ := ih v2 hwf2 hnd.2 h
      refine ⟨by rw [b1, a1], by rw [b2, a2], by rw [b3, a3], ?_, ?_, fun p hp => ?_,
        fun i hi => ?_⟩
      · rw [b4, a4.1, List.singleton_append, List.length_cons]
        omega
      · have := a4.2.1
        omega
      · rcases List.mem_cons.mp hp with rfl | hp
        · rw [b7 _ hnd.1]
          exact a4.2.2.1
        · exact b6 p hp
      · simp only [List.singleton_append, List.map_cons, List.mem_cons, not_or] at hi
        rw [b7 i hi.2, a4.2.2.2 i hi.1]
    · rw [if_neg hsz] at a4 hnd ⊢
      rw [a4] at h
      rw [List.nil_append] at hnd ⊢
      obtain ⟨b1, b2, b3, b4, b5, b6, b7⟩ :=
        ih v (fun c1 hc1 => hwf c1 (List.mem_cons_of_mem _ hc1)) hnd h
      exact ⟨b1, b2, b3, b4, b5, b6, b7⟩

/-- The blocks of `find_leaves` return when the counter stays within `n`. -/
theorem find_list_returns (w n : Nat) (cs : List (range_t × range_t)) (v : MergeVars)
    (hwf : ∀ c ∈ cs, c.1.first ≤ c.1.second ∧ c.2.first ≤ c.2.second ∧
      c.1.second + c.2.second ≤ v.DA.length)
    (hm : v.da_values + (single_writes cs).length ≤ n) :
    ∃ v1, find_list w n cs v = some v1 := by
  induction cs generalizing v with
  | nil => exact ⟨v, rfl⟩
  | cons c cs ih =>
    obtain ⟨w1, w2, w3⟩ := hwf c (List.mem_cons_self _ _)
    rw [single_writes_cons, List.length_append] at hm
    obtain ⟨v2, e⟩ := find_leaf_returns w n c.1 c.2 v w1 w2 w3 (fun hsz => by
      rw [if_pos hsz, List.length_singleton] at hm
      omega)
    obtain ⟨a1, a2, a3, a4⟩ := find_leaf_some w n c.1 c.2 v v2 w1 w2 w3 e
    simp only [find_list, e, Option.some_bind]
    apply ih v2
    · intro c1 hc1
      rw [a3]
      exact hwf c1 (List.mem_cons_of_mem _ hc1)
    · by_cases hsz : range_len c.1 + range_len c.2 = 1
      · rw [if_pos hsz] at a4 hm
        rw [List.length_singleton] at hm
        omega
      · rw [if_neg hsz] at a4 hm
        subst a4
        simpa using hm

theorem single_writes_ge (cs : List (range_t × range_t)) (lo : Nat)
    (hch : List.Chain (fun a b : Nat × Nat => a.2 ≤ b.1) (lo, lo)
      (cs.map fun c => (c.1.first + c.2.first, c.1.second + c.2.second)))
    (hwf : ∀ c ∈ cs, c.1.first ≤ c.1.second ∧ c.2.first ≤ c.2.second) :
    ∀ p ∈ single_writes cs, lo ≤ p.1 := by
  induction cs generalizing lo with
  | nil => simp [single_writes]
  | cons c cs ih =>
    rw [List.map_cons, List.chain_cons] at hch
    obtain ⟨w1, w2⟩ := hwf c (List.mem_cons_self _ _)
    have hch2 : List.Chain (fun a b : Nat × Nat => a.2 ≤ b.1)
        (c.1.second + c.2.second, c.1.second + c.2.second)
        (cs.map fun c => (c.1.first + c.2.first, c.1.second + c.2.second)) := by
      cases hcs : cs.map fun c => (c.1.first + c.2.first, c.1.second + c.2.second) with
      | nil => exact List.Chain.nil
      | cons d ds =>
        have h2 := hch.2
        rw [hcs] at h2
        rw [List.chain_cons] at h2 ⊢
        exact ⟨h2.1, h2.2⟩
    have hrest := ih (c.1.second + c.2.second) hch2
      (fun c1 hc1 => hwf c1 (List.mem_cons_of_mem _ hc1))
    have h1 : lo ≤ c.1.first + c.2.first := hch.1
    intro p hp
    rw [single_writes_cons, List.mem_append] at hp
    rcases hp with hp | hp
    · split at hp
      · rw [List.mem_singleton] at hp
        rw [hp]
        exact h1
      · simp at hp
    · have := hrest p hp
      omega

/-- The positions owed by chained pairs of well-formed ranges are distinct. -/
theorem single_writes_chain_nodup (cs : List (range_t × range_t)) (lo : Nat)
    (hch : List.Chain (fun a b : Nat × Nat => a.2 ≤ b.1) (lo, lo)
      (cs.map fun c => (c.1.first + c.2.first, c.1.second + c.2.second)))
    (hwf : ∀ c ∈ cs, c.1.first ≤ c.1.second ∧ c.2.first ≤ c.2.second) :
    ((single_writes cs).map Prod.fst).Nodup := by
  induction cs generalizing lo with
  | nil => simp [single_writes]
  | cons c cs ih =>
    rw [List.map_cons, List.chain_cons] at hch
    obtain ⟨w1, w2⟩ := hwf c (List.mem_cons_self _ _)
    have hwf2 : ∀ c ∈ cs, c.1.first ≤ c.1.second ∧ c.2.first ≤ c.2.second :=
      fun c1 hc1 => hwf c1 (List.mem_cons_of_mem _ hc1)
    have hch2 : List.Chain (fun a b : Nat × Nat => a.2 ≤ b.1)
        (c.1.second + c.2.second, c.1.second + c.2.second)
        (cs.map fun c => (c.1.first + c.2.first, c.1.second + c.2.second)) := by
      cases hcs : cs.map fun c => (c.1.first + c.2.first, c.1.second + c.2.second) with
      | nil => exact List.Chain.nil
      | cons d ds =>
        have h2 := hch.2
        rw [hcs] at h2
        rw [List.chain_cons] at h2 ⊢
        exact ⟨h2.1, h2.2⟩
    have hge := single_writes_ge cs _ hch2 hwf2
    rw [single_writes_cons]
    split
    · rename_i hsz
      rw [List.singleton_append, List.map_cons, List.nodup_cons]
      refine ⟨fun hin => ?_, ih _ hch2 hwf2⟩
      obtain ⟨p, hp, e⟩ := List.mem_map.mp hin
      have := hge p hp
      unfold range_len at hsz
      simp only at e
      omega
    · rw [List.nil_append]
      exact ih _ hch2 hwf2

theorem single_writes_nodup (x1 x2 : sa_node) (h1 : well_formed x1) (h2 : well_formed x2) :
    ((single_writes (child_pairs x1 x2)).map Prod.fst).Nodup := by
  apply single_writes_chain_nodup _ 0
  · simp [child_pairs, child_TERM, child_A, child_C, child_G, child_T]
  · obtain ⟨a0, a1, a2, a3, a4⟩ := h1
    obtain ⟨b0, b1, b2, b3, b4⟩ := h2
    intro c hc
    simp only [child_pairs, List.mem_cons, List.mem_singleton, List.not_mem_nil,
      or_false] at hc
    rcases hc with rfl | rfl | rfl | rfl | rfl <;>
      simp only [child_TERM, child_A, child_C, child_G, child_T] <;> omega

theorem single_writes_n_nodup (x1 x2 : sa_node_n) (h1 : well_formed_n x1)
    (h2 : well_formed_n x2) :
    ((single_writes (child_pairs_n x1 x2)).map Prod.fst).Nodup := by
  apply single_writes_chain_nodup _ 0
  · simp [child_pairs_n, child_TERM_n, child_A_n, child_C_n, child_G_n, child_N_n, child_T_n]
  · obtain ⟨a0, a1, a2, a3, a4, a5⟩ := h1
    obtain ⟨b0, b1, b2, b3, b4, b5⟩ := h2
    intro c hc
    simp only [child_pairs_n, List.mem_cons, List.mem_singleton, List.not_mem_nil,
      or_false] at hc
    rcases hc with rfl | rfl | rfl | rfl | rfl | rfl <;>
      simp only [child_TERM_n, child_A_n, child_C_n, child_G_n, child_N_n, child_T_n] <;>
      omega

theorem child_pairs_wf (x1 x2 : sa_node) (h1 : well_formed x1) (h2 : well_formed x2)
    (n : Nat) (hn : x1.last + x2.last ≤ n) :
    ∀ c ∈ child_pairs x1 x2, c.1.first ≤ c.1.second ∧ c.2.first ≤ c.2.second ∧
      c.1.second + c.2.second ≤ n := by
  obtain ⟨a0, a1, a2, a3, a4⟩ := h1
  obtain ⟨b0, b1, b2, b3, b4⟩ := h2
  intro c hc
  simp only [child_pairs, List.mem_cons, List.mem_singleton, List.not_mem_nil, or_false] at hc
  rcases hc with rfl | rfl | rfl | rfl | rfl <;>
    simp only [child_TERM, child_A, child_C, child_G, child_T] <;> omega

theorem child_pairs_n_wf (x1 x2 : sa_node_n) (h1 : well_formed_n x1) (h2 : well_formed_n x2)
    (n : Nat) (hn : x1.last + x2.last ≤ n) :
    ∀ c ∈ child_pairs_n x1 x2, c.1.first ≤ c.1.second ∧ c.2.first ≤ c.2.second ∧
      c.1.second + c.2.second ≤ n := by
  obtain ⟨a0, a1, a2, a3, a4, a5⟩ := h1
  obtain ⟨b0, b1, b2, b3, b4, b5⟩ := h2
  intro c hc
  simp only [child_pairs_n, List.mem_cons, List.mem_singleton, List.not_mem_nil,
    or_false] at hc
  rcases hc with rfl | rfl | rfl | rfl | rfl | rfl <;>
    simp only [child_TERM_n, child_A_n, child_C_n, child_G_n, child_N_n, child_T_n] <;> omega

/-! ## The two modes of the merger -/

theorem mem_single_writes (cs : List (range_t × range_t)) (p : Nat × Bool) :
    p ∈ single_writes cs ↔ ∃ c ∈ cs, range_len c.1 + range_len c.2 = 1 ∧
      p = (c.1.first + c.2.first, decide (range_len c.2 = 1)) := by
  unfold single_writes
  rw [List.mem_filterMap]
  constructor
  · rintro ⟨c, hc, h⟩
    by_cases h1 : range_len c.1 + range_len c.2 = 1
    · rw [if_pos h1] at h
      exact ⟨c, hc, h1, (Option.some.inj h).symm⟩
    · rw [if_neg h1] at h
      cases h
  · rintro ⟨c, hc, h1, h⟩
    exact ⟨c, hc, by rw [if_pos h1, h]⟩

/-- The child of `W` by the symbol `x` in the two collections, as a pair of ranges. -/
theorem child_pairs_node (S1 S2 : List (List Nat)) (W : List Nat) (c : range_t × range_t) :
    c ∈ child_pairs (node_of S1 W) (node_of S2 W) ↔
      ∃ x, (x = 0 ∨ x = 1 ∨ x = 2 ∨ x = 3 ∨ x = 5) ∧
        c = (⟨cnt_lt S1 (W ++ [x]), cnt_lt S1 (W ++ [next_sym x])⟩,
             ⟨cnt_lt S2 (W ++ [x]), cnt_lt S2 (W ++ [next_sym x])⟩) := by
  unfold child_pairs child_TERM child_A child_C child_G child_T node_of
  simp only [List.mem_cons, List.mem_singleton, List.not_mem_nil, or_false]
  constructor
  · rintro (h | h | h | h | h)
    · exact ⟨0, by omega, h⟩
    · exact ⟨1, by omega, h⟩
    · exact ⟨2, by omega, h⟩
    · exact ⟨3, by omega, h⟩
    · exact ⟨5, by omega, h⟩
  · rintro ⟨x, hx | hx | hx | hx | hx, h⟩ <;> subst hx
    · exact Or.inl h
    · exact Or.inr (Or.inl h)
    · exact Or.inr (Or.inr (Or.inl h))
    · exact Or.inr (Or.inr (Or.inr (Or.inl h)))
    · exact Or.inr (Or.inr (Or.inr (Or.inr h)))

/-- The positions that `find_leaves` owes at the pair of nodes of `W` are the positions that
the node of `W` in the merged collection finds. -/
theorem single_writes_found (S1 S2 : List (List Nat)) (W : List Nat) (j : Nat) :
    (∃ p ∈ single_writes (child_pairs (node_of S1 W) (node_of S2 W)), p.1 = j) ↔
      found_by (merge_strs S1 S2) W j := by
  have mono : ∀ (S : List (List Nat)) (x : Nat),
      cnt_lt S (W ++ [x]) ≤ cnt_lt S (W ++ [next_sym x]) := fun S x =>
    cnt_lt_chain S W x (next_sym x) (le_of_lt (next_sym_gt x))
  unfold found_by
  constructor
  · rintro ⟨p, hp, rfl⟩
    obtain ⟨c, hc, h1, rfl⟩ := (mem_single_writes _ p).mp hp
    obtain ⟨x, hx, rfl⟩ := (child_pairs_node S1 S2 W c).mp hc
    refine ⟨x, hx, ?_, ?_⟩
    · rw [cnt_lt_merge]
    · rw [cnt_lt_merge]
      have := mono S1 x
      have := mono S2 x
      unfold range_len at h1
      simp only at h1 ⊢
      omega
  · rintro ⟨x, hx, h1, h2⟩
    rw [cnt_lt_merge] at h1 h2
    have := mono S1 x
    have := mono S2 x
    refine ⟨_, (mem_single_writes _ _).mpr ⟨_, (child_pairs_node S1 S2 W _).mpr ⟨x, hx, rfl⟩,
      ?_, rfl⟩, h1⟩
    unfold range_len
    simp only
    omega

/-- The value that `find_leaves` owes at a position is the entry of the document array of
the stable merge. -/
theorem single_writes_value (S1 S2 : List (List Nat)) (h1 : S1.Sorted (· ≤ ·))
    (h2 : S2.Sorted (· ≤ ·)) (W : List Nat) (p : Nat × Bool)
    (hp : p ∈ single_writes (child_pairs (node_of S1 W) (node_of S2 W))) :
    (merge_da S1 S2)[p.1]? = some p.2 := by
  have hS := merge_strs_sorted S1 S2 h1 h2
  obtain ⟨c, hc, hone, rfl⟩ := (mem_single_writes _ p).mp hp
  obtain ⟨x, hx, rfl⟩ := (child_pairs_node S1 S2 W c).mp hc
  have m1 := cnt_lt_chain S1 W x (next_sym x) (le_of_lt (next_sym_gt x))
  have m2 := cnt_lt_chain S2 W x (next_sym x) (le_of_lt (next_sym_gt x))
  have cX := cnt_lt_merge S1 S2 (W ++ [x])
  have cY := cnt_lt_merge S1 S2 (W ++ [next_sym x])
  have hYn := cnt_lt_le_length (merge_strs S1 S2) (W ++ [next_sym x])
  unfold range_len at hone ⊢
  simp only at hone ⊢
  have hj : cnt_lt S1 (W ++ [x]) + cnt_lt S2 (W ++ [x]) < (merge_strs S1 S2).length := by omega
  have b1 : W ++ [x] ≤ str_at (merge_strs S1 S2) (cnt_lt S1 (W ++ [x]) + cnt_lt S2 (W ++ [x])) :=
    (pos_ge_iff _ hS _ _ hj).mpr (by omega)
  have b2 : str_at (merge_strs S1 S2) (cnt_lt S1 (W ++ [x]) + cnt_lt S2 (W ++ [x])) <
      W ++ [next_sym x] := (pos_lt_iff _ hS _ _ hj).mpr (by omega)
  have c1 := count_le_range S1 _ _ _ b1 b2
  have c2 := count_le_range S2 _ _ _ b1 b2
  have c3 := count_merge S1 S2
    (str_at (merge_strs S1 S2) (cnt_lt S1 (W ++ [x]) + cnt_lt S2 (W ++ [x])))
  have c4 : 0 < (merge_strs S1 S2).count
      (str_at (merge_strs S1 S2) (cnt_lt S1 (W ++ [x]) + cnt_lt S2 (W ++ [x]))) :=
    List.count_pos_iff.mpr (str_at_mem _ _ hj)
  have c5 : cnt_lt (merge_strs S1 S2)
      (str_at (merge_strs S1 S2) (cnt_lt S1 (W ++ [x]) + cnt_lt S2 (W ++ [x]))) =
      cnt_lt S1 (W ++ [x]) + cnt_lt S2 (W ++ [x]) := by
    have := sorted_cnt_le _ hS _ _ (str_at_get _ _ hj)
    have := cnt_lt_mono (merge_strs S1 S2) (W ++ [x]) _ b1
    omega
  rw [merge_da_get S1 S2 h1 h2 _ hj, c5]
  congr 1
  apply decide_eq_decide.mpr
  omega

/-- The suffix at a position of the merged collection is the string of its leaf followed by
the terminator. -/
theorem leaf_str_append (S : List (List Nat)) (hS : suffix_collection S) (j : Nat)
    (hj : j < S.length) : leaf_str S j ++ [0] = str_at S j := by
  obtain ⟨W, e, -⟩ := hS.term _ (str_at_mem S j hj)
  unfold leaf_str
  rw [e, List.dropLast_concat]

/-- With two non-empty collections, the leaves of combined size 1 hold the positions that
the nodes with two children find. -/
theorem single_leaf_iff_found (S1 S2 : List (List Nat)) (hS1 : suffix_collection S1)
    (hS2 : suffix_collection S2) (ht1 : [0] ∈ S1) (ht2 : [0] ∈ S2) (j : Nat)
    (hj : j < (merge_strs S1 S2).length) :
    leaf_pair_len (leaf_pair_of S1 S2 (leaf_str (merge_strs S1 S2) j)) = 1 ↔
      ∃ W, 2 ≤ number_of_children (node_of (merge_strs S1 S2) W) ∧
        ∃ p ∈ single_writes (child_pairs (node_of S1 W) (node_of S2 W)), p.1 = j := by
  have hS := merge_suffix_collection S1 S2 hS1 hS2
  have hn2 : 2 ≤ (merge_strs S1 S2).length := by
    have h0 : 2 ≤ (merge_strs S1 S2).count [0] := by
      rw [count_merge]
      have := List.count_pos_iff.mpr ht1
      have := List.count_pos_iff.mpr ht2
      omega
    exact le_trans h0 (List.count_le_length _ _)
  have hpos : 0 < (merge_strs S1 S2).count (str_at (merge_strs S1 S2) j) :=
    List.count_pos_iff.mpr (str_at_mem _ j hj)
  rw [leaf_pair_len_eq S1 S2 hS1 hS2, leaf_str_append _ hS j hj]
  constructor
  · intro h
    obtain ⟨W, hW, hf⟩ := exists_finder _ hS j hj hn2 (by omega)
    exact ⟨W, hW, (single_writes_found S1 S2 W j).mpr hf⟩
  · rintro ⟨W, -, hp⟩
    have := (found_by_single _ hS.sorted W j ((single_writes_found S1 S2 W j).mp hp)).2
    omega

/-! ## The paired `next_leaves` -/

theorem insert_by_key_sorted {α : Type} (key : α → Nat) (a : α) (l : List α)
    (h : l.Sorted (fun x y => key x ≤ key y)) :
    (insert_by_key key a l).Sorted (fun x y => key x ≤ key y) := by
  induction l with
  | nil => simp [insert_by_key]
  | cons b l ih =>
    have hb := List.sorted_cons.mp h
    unfold insert_by_key
    split
    · rename_i hab
      refine List.sorted_cons.mpr ⟨fun y hy => ?_, h⟩
      rcases List.mem_cons.mp hy with rfl | hy
      · exact hab
      · exact le_trans hab (hb.1 y hy)
    · rename_i hab
      refine List.sorted_cons.mpr ⟨fun y hy => ?_, ih hb.2⟩
      rcases List.mem_cons.mp ((insert_by_key_perm key a l).mem_iff.mp hy) with rfl | hy
      · omega
      · exact hb.1 y hy

theorem sort_by_key_sorted {α : Type} (key : α → Nat) (l : List α) :
    (sort_by_key key l).Sorted (fun x y => key x ≤ key y) := by
  induction l with
  | nil => simp [sort_by_key]
  | cons a l ih =>
    unfold sort_by_key
    exact insert_by_key_sorted key a _ ih

/-- The boundary `C[c] + rank(c, i)` grows with `i`. -/
theorem bwt_LF_pos_mono (B : List Sym) (c : Sym) (i j : Nat) (h : i ≤ j) :
    bwt_LF_pos B c i ≤ bwt_LF_pos B c j := by
  unfold bwt_LF_pos bwt_rank
  have e : B.take i = (B.take j).take i := by
    rw [List.take_take, Nat.min_eq_left h]
  have := (List.take_sublist i (B.take j)).count_le c
  rw [← e] at this
  omega

theorem leaf_candidate_some (r1 r2 : range_t) (d1 d2 k : Nat) (l : List (sa_leaf × sa_leaf))
    (h : leaf_candidate r1 r2 d1 d2 k = some l) :
    l = [((⟨r1, d1 + 1⟩, ⟨r2, d2 + 1⟩) : sa_leaf × sa_leaf)].filter
      (fun P => decide (k ≤ leaf_pair_len P)) := by
  unfold leaf_candidate range_length at h
  by_cases h1 : r1.second ≥ r1.first
  · by_cases h2 : r2.second ≥ r2.first
    · simp only [h1, h2, if_true, Option.some.injEq] at h
      rw [← h]
      unfold leaf_pair_len
      by_cases hk : range_len r1 + range_len r2 ≥ k
      · simp [hk]
      · simp [hk]
    · simp [h1, h2] at h
  · simp [h1] at h

theorem leaf_candidate_returns (r1 r2 : range_t) (d1 d2 k : Nat) (h1 : r1.first ≤ r1.second)
    (h2 : r2.first ≤ r2.second) : ∃ l, leaf_candidate r1 r2 d1 d2 k = some l := by
  unfold leaf_candidate range_length
  simp only [ge_iff_le, h1, h2, if_true]
  exact ⟨_, rfl⟩

theorem next_leaves_some (B1 B2 : List Sym) (L1 L2 : sa_leaf) (k : Nat)
    (TMP : List (sa_leaf × sa_leaf)) (h : next_leaves B1 B2 L1 L2 k = some TMP) :
    TMP = sort_by_key leaf_pair_len (lf_candidates [.A, .C, .G, .T] B1 B2 L1 L2 k) := by
  unfold next_leaves at h
  simp only [bwt_LF_range] at h
  obtain ⟨a, ha, h⟩ := Option.bind_eq_some.mp h
  obtain ⟨c, hc, h⟩ := Option.bind_eq_some.mp h
  obtain ⟨g, hg, h⟩ := Option.bind_eq_some.mp h
  obtain ⟨t, ht, h⟩ := Option.bind_eq_some.mp h
  rw [← Option.some.inj h, leaf_candidate_some _ _ _ _ _ _ ha, leaf_candidate_some _ _ _ _ _ _ hc,
    leaf_candidate_some _ _ _ _ _ _ hg, leaf_candidate_some _ _ _ _ _ _ ht]
  unfold lf_candidates lf_pair
  simp only [List.map_cons, List.map_nil, ← List.filter_append, List.singleton_append,
    List.cons_append, List.nil_append]

theorem next_leaves_n_some (B1 B2 : List Sym) (L1 L2 : sa_leaf) (k : Nat)
    (TMP : List (sa_leaf × sa_leaf)) (h : next_leaves_n B1 B2 L1 L2 k = some TMP) :
    TMP = sort_by_key leaf_pair_len (lf_candidates [.A, .C, .G, .N, .T] B1 B2 L1 L2 k) := by
  unfold next_leaves_n at h
  simp only [bwt_LF_range_n] at h
  obtain ⟨a, ha, h⟩ := Option.bind_eq_some.mp h
  obtain ⟨c, hc, h⟩ := Option.bind_eq_some.mp h
  obtain ⟨g, hg, h⟩ := Option.bind_eq_some.mp h
  obtain ⟨n, hn, h⟩ := Option.bind_eq_some.mp h
  obtain ⟨t, ht, h⟩ := Option.bind_eq_some.mp h
  rw [← Option.some.inj h, leaf_candidate_some _ _ _ _ _ _ ha, leaf_candidate_some _ _ _ _ _ _ hc,
    leaf_candidate_some _ _ _ _ _ _ hg, leaf_candidate_some _ _ _ _ _ _ hn,
    leaf_candidate_some _ _ _ _ _ _ ht]
  unfold lf_candidates lf_pair
  simp only [List.map_cons, List.map_nil, ← List.filter_append, List.singleton_append,
    List.cons_append, List.nil_append]

theorem next_leaves_returns (B1 B2 : List Sym) (L1 L2 : sa_leaf) (k : Nat)
    (h1 : L1.rn.first ≤ L1.rn.second) (h2 : L2.rn.first ≤ L2.rn.second) :
    ∃ TMP, next_leaves B1 B2 L1 L2 k = some TMP := by
  unfold next_leaves
  simp only [bwt_LF_range]
  obtain ⟨a, ha⟩ := leaf_candidate_returns
    ⟨bwt_LF_pos B1 .A L1.rn.first, bwt_LF_pos B1 .A L1.rn.second⟩
    ⟨bwt_LF_pos B2 .A L2.rn.first, bwt_LF_pos B2 .A L2.rn.second⟩ L1.depth L2.depth k
    (bwt_LF_pos_mono _ _ _ _ h1) (bwt_LF_pos_mono _ _ _ _ h2)
  obtain ⟨c, hc⟩ := leaf_candidate_returns
    ⟨bwt_LF_pos B1 .C L1.rn.first, bwt_LF_pos B1 .C L1.rn.second⟩
    ⟨bwt_LF_pos B2 .C L2.rn.first, bwt_LF_pos B2 .C L2.rn.second⟩ L1.depth L2.depth k
    (bwt_LF_pos_mono _ _ _ _ h1) (bwt_LF_pos_mono _ _ _ _ h2)
  obtain ⟨g, hg⟩ := leaf_candidate_returns
    ⟨bwt_LF_pos B1 .G L1.rn.first, bwt_LF_pos B1 .G L1.rn.second⟩
    ⟨bwt_LF_pos B2 .G L2.rn.first, bwt_LF_pos B2 .G L2.rn.second⟩ L1.depth L2.depth k
    (bwt_LF_pos_mono _ _ _ _ h1) (bwt_LF_pos_mono _ _ _ _ h2)
  obtain ⟨t, ht⟩ := leaf_candidate_returns
    ⟨bwt_LF_pos B1 .T L1.rn.first, bwt_LF_pos B1 .T L1.rn.second⟩
    ⟨bwt_LF_pos B2 .T L2.rn.first, bwt_LF_pos B2 .T L2.rn.second⟩ L1.depth L2.depth k
    (bwt_LF_pos_mono _ _ _ _ h1) (bwt_LF_pos_mono _ _ _ _ h2)
  rw [ha, hc, hg, ht]
  exact ⟨_, rfl⟩

theorem next_leaves_n_returns (B1 B2 : List Sym) (L1 L2 : sa_leaf) (k : Nat)
    (h1 : L1.rn.first ≤ L1.rn.second) (h2 : L2.rn.first ≤ L2.rn.second) :
    ∃ TMP, next_leaves_n B1 B2 L1 L2 k = some TMP := by
  unfold next_leaves_n
  simp only [bwt_LF_range_n]
  obtain ⟨a, ha⟩ := leaf_candidate_returns
    ⟨bwt_LF_pos B1 .A L1.rn.first, bwt_LF_pos B1 .A L1.rn.second⟩
    ⟨bwt_LF_pos B2 .A L2.rn.first, bwt_LF_pos B2 .A L2.rn.second⟩ L1.depth L2.depth k
    (bwt_LF_pos_mono _ _ _ _ h1) (bwt_LF_pos_mono _ _ _ _ h2)
  obtain ⟨c, hc⟩ := leaf_candidate_returns
    ⟨bwt_LF_pos B1 .C L1.rn.first, bwt_LF_pos B1 .C L1.rn.second⟩
    ⟨bwt_LF_pos B2 .C L2.rn.first, bwt_LF_pos B2 .C L2.rn.second⟩ L1.depth L2.depth k
    (bwt_LF_pos_mono _ _ _ _ h1) (bwt_LF_pos_mono _ _ _ _ h2)
  obtain ⟨g, hg⟩ := leaf_candidate_returns
    ⟨bwt_LF_pos B1 .G L1.rn.first, bwt_LF_pos B1 .G L1.rn.second⟩
    ⟨bwt_LF_pos B2 .G L2.rn.first, bwt_LF_pos B2 .G L2.rn.second⟩ L1.depth L2.depth k
    (bwt_LF_pos_mono _ _ _ _ h1) (bwt_LF_pos_mono _ _ _ _ h2)
  obtain ⟨n, hn⟩ := leaf_candidate_returns
    ⟨bwt_LF_pos B1 .N L1.rn.first, bwt_LF_pos B1 .N L1.rn.second⟩
    ⟨bwt_LF_pos B2 .N L2.rn.first, bwt_LF_pos B2 .N L2.rn.second⟩ L1.depth L2.depth k
    (bwt_LF_pos_mono _ _ _ _ h1) (bwt_LF_pos_mono _ _ _ _ h2)
  obtain ⟨t, ht⟩ := leaf_candidate_returns
    ⟨bwt_LF_pos B1 .T L1.rn.first, bwt_LF_pos B1 .T L1.rn.second⟩
    ⟨bwt_LF_pos B2 .T L2.rn.first, bwt_LF_pos B2 .T L2.rn.second⟩ L1.depth L2.depth k
    (bwt_LF_pos_mono _ _ _ _ h1) (bwt_LF_pos_mono _ _ _ _ h2)
  rw [ha, hc, hg, hn, ht]
  exact ⟨_, rfl⟩

theorem lf_candidates_length (syms : List Sym) (B1 B2 : List Sym) (L1 L2 : sa_leaf) (k : Nat) :
    (lf_candidates syms B1 B2 L1 L2 k).length ≤ syms.length := by
  unfold lf_candidates
  have := List.length_filter_le (fun P => decide (k ≤ leaf_pair_len P))
    (syms.map (lf_pair B1 B2 L1 L2))
  rw [List.length_map] at this
  exact this

theorem merge_leaf_step_push (w : Nat) (B1 B2 : List Sym) (c : Bool) (L : sa_leaf × sa_leaf)
    (rest : List (sa_leaf × sa_leaf)) (v : MergeVars) (s1 : MLeafState)
    (h : merge_leaf_step w B1 B2 c { S := L :: rest, v := v } = some s1) :
    ∃ TMP, next_leaves B1 B2 L.1 L.2 (if c then 2 else 1) = some TMP ∧ s1.S = TMP ++ rest := by
  unfold merge_leaf_step at h
  simp only at h
  split at h
  · cases h
  · split at h
    · split at h
      · cases h
      · split at h
        · cases h
        · rename_i TMP hT
          exact ⟨TMP, hT, by rw [← Option.some.inj h]⟩
    · cases h

theorem merge_leaf_step_n_push (w : Nat) (B1 B2 : List Sym) (c : Bool) (L : sa_leaf × sa_leaf)
    (rest : List (sa_leaf × sa_leaf)) (v : MergeVars) (s1 : MLeafState)
    (h : merge_leaf_step_n w B1 B2 c { S := L :: rest, v := v } = some s1) :
    ∃ TMP, next_leaves_n B1 B2 L.1 L.2 (if c then 2 else 1) = some TMP ∧ s1.S = TMP ++ rest := by
  unfold merge_leaf_step_n at h
  simp only at h
  split at h
  · cases h
  · split at h
    · split at h
      · cases h
      · split at h
        · cases h
        · rename_i TMP hT
          exact ⟨TMP, hT, by rw [← Option.some.inj h]⟩
    · cases h

theorem leaf_candidate_size (r1 r2 : range_t) (d1 d2 k : Nat) (l : List (sa_leaf × sa_leaf))
    (h : leaf_candidate r1 r2 d1 d2 k = some l) :
    ∀ P ∈ l, leaf_size_pair P = some (leaf_pair_len P) := by
  unfold leaf_candidate range_length at h
  by_cases h1 : r1.second ≥ r1.first
  · by_cases h2 : r2.second ≥ r2.first
    · simp only [h1, h2, if_true, Option.some.injEq] at h
      rw [← h]
      intro P hP
      split at hP
      · rw [List.mem_singleton.mp hP]
        unfold leaf_size_pair leaf_size range_length leaf_pair_len
        simp only [h1, h2, if_true]
      · simp at hP
    · simp [h1, h2] at h
  · simp [h1] at h

/-- The comparator of the `std::sort` call reads `leaf_size` on pairs whose ranges pass its
assertions. -/
theorem next_leaves_size (B1 B2 : List Sym) (L1 L2 : sa_leaf) (k : Nat)
    (TMP : List (sa_leaf × sa_leaf)) (h : next_leaves B1 B2 L1 L2 k = some TMP) :
    ∀ P ∈ TMP, leaf_size_pair P = some (leaf_pair_len P) := by
  unfold next_leaves at h
  obtain ⟨a, ha, h⟩ := Option.bind_eq_some.mp h
  obtain ⟨c, hc, h⟩ := Option.bind_eq_some.mp h
  obtain ⟨g, hg, h⟩ := Option.bind_eq_some.mp h
  obtain ⟨t, ht, h⟩ := Option.bind_eq_some.mp h
  rw [← Option.some.inj h]
  intro P hP
  have hP := (sort_by_key_perm leaf_pair_len _).mem_iff.mp hP
  simp only [List.mem_append] at hP
  rcases hP with ((hP | hP) | hP) | hP
  · exact leaf_candidate_size _ _ _ _ _ _ ha P hP
  · exact leaf_candidate_size _ _ _ _ _ _ hc P hP
  · exact leaf_candidate_size _ _ _ _ _ _ hg P hP
  · exact leaf_candidate_size _ _ _ _ _ _ ht P hP

theorem next_leaves_n_size (B1 B2 : List Sym) (L1 L2 : sa_leaf) (k : Nat)
    (TMP : List (sa_leaf × sa_leaf)) (h : next_leaves_n B1 B2 L1 L2 k = some TMP) :
    ∀ P ∈ TMP, leaf_size_pair P = some (leaf_pair_len P) := by
  unfold next_leaves_n at h
  obtain ⟨a, ha, h⟩ := Option.bind_eq_some.mp h
  obtain ⟨c, hc, h⟩ := Option.bind_eq_some.mp h
  obtain ⟨g, hg, h⟩ := Option.bind_eq_some.mp h
  obtain ⟨n, hn, h⟩ := Option.bind_eq_some.mp h
  obtain ⟨t, ht, h⟩ := Option.bind_eq_some.mp h
  rw [← Option.some.inj h]
  intro P hP
  have hP := (sort_by_key_perm leaf_pair_len _).mem_iff.mp hP
  simp only [List.mem_append] at hP
  rcases hP with (((hP | hP) | hP) | hP) | hP
  · exact leaf_candidate_size _ _ _ _ _ _ ha P hP
  · exact leaf_candidate_size _ _ _ _ _ _ hc P hP
  · exact leaf_candidate_size _ _ _ _ _ _ hg P hP
  · exact leaf_candidate_size _ _ _ _ _ _ hn P hP
  · exact leaf_candidate_size _ _ _ _ _ _ ht P hP

/-! ## Merged nodes and the 5-letter projection -/

theorem b2n_sum_gt (p q r s : Nat) (h1 : p ≤ q) (h2 : r ≤ s) :
    b2n (decide (q + s > p + r)) = b2n (decide (q > p) || decide (s > r)) := by
  by_cases a : q > p
  · have : q + s > p + r := by omega
    simp [a, this]
  · by_cases b : s > r
    · have : q + s > p + r := by omega
      simp [a, b, this]
    · have : ¬ q + s > p + r := by omega
      simp [a, b, this]

theorem merge_nodes_some (a b : sa_node) (h : a.depth = b.depth) :
    merge_nodes a b = some
      { first_TERM := a.first_TERM + b.first_TERM
        first_A := a.first_A + b.first_A
        first_C := a.first_C + b.first_C
        first_G := a.first_G + b.first_G
        first_T := a.first_T + b.first_T
        last := a.last + b.last
        depth := a.depth } := by
  unfold merge_nodes
  rw [if_pos h]

theorem merge_nodes_n_some (a b : sa_node_n) (h : a.depth = b.depth) :
    merge_nodes_n a b = some
      { first_TERM := a.first_TERM + b.first_TERM
        first_A := a.first_A + b.first_A
        first_C := a.first_C + b.first_C
        first_G := a.first_G + b.first_G
        first_N := a.first_N + b.first_N
        first_T := a.first_T + b.first_T
        last := a.last + b.last
        depth := a.depth } := by
  unfold merge_nodes_n
  rw [if_pos h]

/-- The merged node of two well-formed nodes has the children of their union. -/
theorem merged_children (a b m : sa_node) (ha : well_formed a) (hb : well_formed b)
    (h : merge_nodes a b = some m) :
    number_of_children m = number_of_children_pair (a, b) := by
  obtain ⟨a0, a1, a2, a3, a4⟩ := ha
  obtain ⟨b0, b1, b2, b3, b4⟩ := hb
  unfold merge_nodes at h
  split at h
  · cases h
    unfold number_of_children number_of_children_pair number_of_children2
    simp only
    rw [b2n_sum_gt _ _ _ _ a4 b4, b2n_sum_gt _ _ _ _ a3 b3, b2n_sum_gt _ _ _ _ a2 b2,
      b2n_sum_gt _ _ _ _ a1 b1, b2n_sum_gt _ _ _ _ a0 b0]
  · cases h

theorem merged_children_n (a b m : sa_node_n) (ha : well_formed_n a) (hb : well_formed_n b)
    (h : merge_nodes_n a b = some m) :
    number_of_children_n m = number_of_children_pair_n (a, b) := by
  obtain ⟨a0, a1, a2, a3, a4, a5⟩ := ha
  obtain ⟨b0, b1, b2, b3, b4, b5⟩ := hb
  unfold merge_nodes_n at h
  split at h
  · cases h
    unfold number_of_children_n number_of_children_pair_n number_of_children2_n
    simp only
    rw [b2n_sum_gt _ _ _ _ a5 b5, b2n_sum_gt _ _ _ _ a4 b4, b2n_sum_gt _ _ _ _ a3 b3,
      b2n_sum_gt _ _ _ _ a2 b2, b2n_sum_gt _ _ _ _ a1 b1, b2n_sum_gt _ _ _ _ a0 b0]
  · cases h

/-- A left extension of a well-formed node is well-formed. -/
theorem LF_node1_wf (B : List Sym) (c : Sym) (x : sa_node) (h : well_formed x) :
    well_formed (bwt_LF_node1 B c x) := by
  obtain ⟨a0, a1, a2, a3, a4⟩ := h
  exact ⟨bwt_LF_pos_mono B c _ _ a0, bwt_LF_pos_mono B c _ _ a1, bwt_LF_pos_mono B c _ _ a2,
    bwt_LF_pos_mono B c _ _ a3, bwt_LF_pos_mono B c _ _ a4⟩

theorem LF_node1_n_wf (B : List Sym) (c : Sym) (x : sa_node_n) (h : well_formed_n x) :
    well_formed_n (bwt_LF_node1_n B c x) := by
  obtain ⟨a0, a1, a2, a3, a4, a5⟩ := h
  exact ⟨bwt_LF_pos_mono B c _ _ a0, bwt_LF_pos_mono B c _ _ a1, bwt_LF_pos_mono B c _ _ a2,
    bwt_LF_pos_mono B c _ _ a3, bwt_LF_pos_mono B c _ _ a4, bwt_LF_pos_mono B c _ _ a5⟩

/-- The pair of nodes that the symbol `c` extends `N1`, `N2` to. -/
theorem mem_next_nodes (B1 B2 : List Sym) (N1 N2 : sa_node) (P : sa_node × sa_node) :
    P ∈ next_nodes B1 B2 N1 N2 ↔
      ∃ c, (c = Sym.A ∨ c = Sym.C ∨ c = Sym.G ∨ c = Sym.T) ∧
        P = (bwt_LF_node1 B1 c N1, bwt_LF_node1 B2 c N2) ∧ 2 ≤ number_of_children_pair P := by
  unfold next_nodes
  simp only [bwt_LF_node]
  rw [(sort_by_key_perm _ _).mem_iff]
  simp only [List.mem_append]
  constructor
  · rintro (((h | h) | h) | h)
    · split at h
      · rename_i hk
        rw [List.mem_singleton.mp h]
        exact ⟨.A, by simp, rfl, hk⟩
      · simp at h
    · split at h
      · rename_i hk
        rw [List.mem_singleton.mp h]
        exact ⟨.C, by simp, rfl, hk⟩
      · simp at h
    · split at h
      · rename_i hk
        rw [List.mem_singleton.mp h]
        exact ⟨.G, by simp, rfl, hk⟩
      · simp at h
    · split at h
      · rename_i hk
        rw [List.mem_singleton.mp h]
        exact ⟨.T, by simp, rfl, hk⟩
      · simp at h
  · rintro ⟨c, hc | hc | hc | hc, rfl, hk⟩ <;> subst hc
    · exact Or.inl (Or.inl (Or.inl (by rw [if_pos hk]; exact List.mem_singleton.mpr rfl)))
    · exact Or.inl (Or.inl (Or.inr (by rw [if_pos hk]; exact List.mem_singleton.mpr rfl)))
    · exact Or.inl (Or.inr (by rw [if_pos hk]; exact List.mem_singleton.mpr rfl))
    · exact Or.inr (by rw [if_pos hk]; exact List.mem_singleton.mpr rfl)

theorem mem_next_nodes_n (B1 B2 : List Sym) (N1 N2 : sa_node_n) (P : sa_node_n × sa_node_n) :
    P ∈ next_nodes_n B1 B2 N1 N2 ↔
      ∃ c, (c = Sym.A ∨ c = Sym.C ∨ c = Sym.G ∨ c = Sym.N ∨ c = Sym.T) ∧
        P = (bwt_LF_node1_n B1 c N1, bwt_LF_node1_n B2 c N2) ∧
        2 ≤ number_of_children_pair_n P := by
  unfold next_nodes_n
  simp only [bwt_LF_node_n]
  rw [(sort_by_key_perm _ _).mem_iff]
  simp only [List.mem_append]
  constructor
  · rintro ((((h | h) | h) | h) | h)
    · split at h
      · rename_i hk
        rw [List.mem_singleton.mp h]
        exact ⟨.A, by simp, rfl, hk⟩
      · simp at h
    · split at h
      · rename_i hk
        rw [List.mem_singleton.mp h]
        exact ⟨.C, by simp, rfl, hk⟩
      · simp at h
    · split at h
      · rename_i hk
        rw [List.mem_singleton.mp h]
        exact ⟨.G, by simp, rfl, hk⟩
      · simp at h
    · split at h
      · rename_i hk
        rw [List.mem_singleton.mp h]
        exact ⟨.N, by simp, rfl, hk⟩
      · simp at h
    · split at h
      · rename_i hk
        rw [List.mem_singleton.mp h]
        exact ⟨.T, by simp, rfl, hk⟩
      · simp at h
  · rintro ⟨c, hc | hc | hc | hc | hc, rfl, hk⟩ <;> subst hc
    · exact Or.inl (Or.inl (Or.inl (Or.inl
        (by rw [if_pos hk]; exact List.mem_singleton.mpr rfl))))
    · exact Or.inl (Or.inl (Or.inl (Or.inr
        (by rw [if_pos hk]; exact List.mem_singleton.mpr rfl))))
    · exact Or.inl (Or.inl (Or.inr (by rw [if_pos hk]; exact List.mem_singleton.mpr rfl)))
    · exact Or.inl (Or.inr (by rw [if_pos hk]; exact List.mem_singleton.mpr rfl))
    · exact Or.inr (by rw [if_pos hk]; exact List.mem_singleton.mpr rfl)

theorem drop_N_children (x : sa_node_n) (h : x.first_N = x.first_T) :
    number_of_children_n x = number_of_children (drop_N x) := by
  unfold number_of_children_n number_of_children drop_N b2n
  simp only [h, gt_iff_lt, lt_self_iff_false, decide_False, Bool.false_eq_true, if_false,
    Nat.add_zero]

theorem drop_N_update_lcp (w : Nat) (x : sa_node_n) (h : x.first_N = x.first_T)
    (LCP : List Nat) (v : Nat) :
    update_lcp_n w x LCP v = update_lcp w (drop_N x) LCP v := by
  have hc := drop_N_children x h
  unfold update_lcp_n update_lcp
  rw [hc]
  have hN : has_child_N_n x = false := by
    unfold has_child_N_n
    simp [h]
  have hG : has_child_G_n x = has_child_G (drop_N x) := by
    unfold has_child_G_n has_child_G drop_N
    simp [h]
  rw [hN, hG, h]
  have e1 : has_child_TERM_n x = has_child_TERM (drop_N x) := rfl
  have e2 : has_child_A_n x = has_child_A (drop_N x) := rfl
  have e3 : has_child_C_n x = has_child_C (drop_N x) := rfl
  rw [e1, e2, e3]
  have eg : (x.first_A ≥ x.first_TERM ∧ x.first_C ≥ x.first_A ∧ x.first_G ≥ x.first_C ∧
      x.first_T ≥ x.first_G ∧ x.first_T ≥ x.first_T ∧ number_of_children (drop_N x) ≥ 2) ↔
      ((drop_N x).first_A ≥ (drop_N x).first_TERM ∧ (drop_N x).first_C ≥ (drop_N x).first_A ∧
        (drop_N x).first_G ≥ (drop_N x).first_C ∧ (drop_N x).first_T ≥ (drop_N x).first_G ∧
        number_of_children (drop_N x) ≥ 2) := by
    show _ ↔ (x.first_A ≥ x.first_TERM ∧ x.first_C ≥ x.first_A ∧ x.first_G ≥ x.first_C ∧
      x.first_T ≥ x.first_G ∧ number_of_children (drop_N x) ≥ 2)
    constructor
    · rintro ⟨a, b, c, d, -, e⟩
      exact ⟨a, b, c, d, e⟩
    · rintro ⟨a, b, c, d, e⟩
      exact ⟨a, b, c, d, le_refl _, e⟩
  by_cases hg : (drop_N x).first_A ≥ (drop_N x).first_TERM ∧
      (drop_N x).first_C ≥ (drop_N x).first_A ∧ (drop_N x).first_G ≥ (drop_N x).first_C ∧
      (drop_N x).first_T ≥ (drop_N x).first_G ∧ number_of_children (drop_N x) ≥ 2
  · rw [if_pos (eg.mpr hg), if_pos hg]
    show _ = (lcp_border w (has_child_TERM (drop_N x) && decide (x.first_A ≠ x.last))
      x.first_A x.depth (LCP, v)).bind fun s1 =>
      (lcp_border w (has_child_A (drop_N x) && decide (x.first_C ≠ x.last)) x.first_C
        x.depth s1).bind fun s2 =>
      (lcp_border w (has_child_C (drop_N x) && decide (x.first_G ≠ x.last)) x.first_G
        x.depth s2).bind fun s3 =>
      lcp_border w (has_child_G (drop_N x) && decide (x.first_T ≠ x.last)) x.first_T
        x.depth s3
    congr 1
    funext s1
    congr 1
    funext s2
    congr 1
    funext s3
    cases h4 : lcp_border w (has_child_G (drop_N x) && decide (x.first_T ≠ x.last)) x.first_T
      x.depth s3 with
    | none => rfl
    | some s4 =>
      show lcp_border w (false && decide (x.first_T ≠ x.last)) x.first_T x.depth s4 = some s4
      rfl
  · rw [if_neg (fun hh => hg (eg.mp hh)), if_neg hg]

theorem drop_N_merge (a b : sa_node_n) :
    (merge_nodes_n a b).map drop_N = merge_nodes (drop_N a) (drop_N b) := by
  unfold merge_nodes_n merge_nodes
  by_cases h : a.depth = b.depth
  · have h1 : (drop_N a).depth = (drop_N b).depth := h
    rw [if_pos h, if_pos h1]
    rfl
  · have h1 : ¬ (drop_N a).depth = (drop_N b).depth := h
    rw [if_neg h, if_neg h1]
    rfl

theorem drop_N_find_leaves (w n : Nat) (x1 x2 : sa_node_n) (h1 : x1.first_N = x1.first_T)
    (h2 : x2.first_N = x2.first_T) (v : MergeVars) :
    find_leaves_n w n x1 x2 v = find_leaves w n (drop_N x1) (drop_N x2) v := by
  unfold find_leaves_n find_leaves
  have hN : ∀ v4, find_leaf w n (child_N_n x1) (child_N_n x2) v4 = some v4 := by
    intro v4
    unfold find_leaf child_N_n range_length range_len
    simp [h1, h2]
  have eG1 : child_G_n x1 = child_G (drop_N x1) := by
    unfold child_G_n child_G drop_N
    rw [h1]
  have eG2 : child_G_n x2 = child_G (drop_N x2) := by
    unfold child_G_n child_G drop_N
    rw [h2]
  rw [eG1, eG2]
  show _ = (find_leaf w n (child_TERM_n x1) (child_TERM_n x2) v).bind fun v1 =>
    (find_leaf w n (child_A_n x1) (child_A_n x2) v1).bind fun v2 =>
    (find_leaf w n (child_C_n x1) (child_C_n x2) v2).bind fun v3 =>
    (find_leaf w n (child_G (drop_N x1)) (child_G (drop_N x2)) v3).bind fun v4 =>
    find_leaf w n (child_T_n x1) (child_T_n x2) v4
  congr 1
  funext v1
  congr 1
  funext v2
  congr 1
  funext v3
  congr 1
  funext v4
  rw [hN v4]
  rfl

/-! ## The paired `next_nodes` -/

theorem ite_singleton_filter {α : Type} (p : α → Prop) [DecidablePred p] (a : α) :
    (if p a then [a] else []) = [a].filter fun x => decide (p x) := by
  by_cases h : p a
  · simp [h]
  · simp [h]

theorem next_nodes_sorted_candidates (B1 B2 : List Sym) (N1 N2 : sa_node) :
    next_nodes B1 B2 N1 N2 =
      sort_by_key node_size_pair (lf_node_candidates [.A, .C, .G, .T] B1 B2 N1 N2) := by
  unfold next_nodes lf_node_candidates lf_node_pair
  simp only [bwt_LF_node, ge_iff_le]
  rw [ite_singleton_filter (fun P => 2 ≤ number_of_children_pair P),
    ite_singleton_filter (fun P => 2 ≤ number_of_children_pair P),
    ite_singleton_filter (fun P => 2 ≤ number_of_children_pair P),
    ite_singleton_filter (fun P => 2 ≤ number_of_children_pair P)]
  simp only [List.map_cons, List.map_nil, ← List.filter_append, List.singleton_append,
    List.cons_append, List.nil_append]

theorem next_nodes_n_sorted_candidates (B1 B2 : List Sym) (N1 N2 : sa_node_n) :
    next_nodes_n B1 B2 N1 N2 =
      sort_by_key node_size_pair_n
        (lf_node_candidates_n [.A, .C, .G, .N, .T] B1 B2 N1 N2) := by
  unfold next_nodes_n lf_node_candidates_n lf_node_pair_n
  simp only [bwt_LF_node_n, ge_iff_le]
  rw [ite_singleton_filter (fun P => 2 ≤ number_of_children_pair_n P),
    ite_singleton_filter (fun P => 2 ≤ number_of_children_pair_n P),
    ite_singleton_filter (fun P => 2 ≤ number_of_children_pair_n P),
    ite_singleton_filter (fun P => 2 ≤ number_of_children_pair_n P),
    ite_singleton_filter (fun P => 2 ≤ number_of_children_pair_n P)]
  simp only [List.map_cons, List.map_nil, ← List.filter_append, List.singleton_append,
    List.cons_append, List.nil_append]

theorem lf_node_candidates_length (syms : List Sym) (B1 B2 : List Sym) (N1 N2 : sa_node) :
    (lf_node_candidates syms B1 B2 N1 N2).length ≤ syms.length := by
  unfold lf_node_candidates
  have := List.length_filter_le (fun P => decide (2 ≤ number_of_children_pair P))
    (syms.map (lf_node_pair B1 B2 N1 N2))
  rw [List.length_map] at this
  exact this

theorem lf_node_candidates_n_length (syms : List Sym) (B1 B2 : List Sym)
    (N1 N2 : sa_node_n) : (lf_node_candidates_n syms B1 B2 N1 N2).length ≤ syms.length := by
  unfold lf_node_candidates_n
  have := List.length_filter_le (fun P => decide (2 ≤ number_of_children_pair_n P))
    (syms.map (lf_node_pair_n B1 B2 N1 N2))
  rw [List.length_map] at this
  exact this

theorem next_nodes_wf (B1 B2 : List Sym) (N1 N2 : sa_node) (h1 : well_formed N1)
    (h2 : well_formed N2) (P : sa_node × sa_node) (hP : P ∈ next_nodes B1 B2 N1 N2) :
    well_formed P.1 ∧ well_formed P.2 := by
  obtain ⟨c, -, rfl, -⟩ := (mem_next_nodes B1 B2 N1 N2 P).mp hP
  exact ⟨LF_node1_wf B1 c N1 h1, LF_node1_wf B2 c N2 h2⟩

theorem next_nodes_n_wf (B1 B2 : List Sym) (N1 N2 : sa_node_n) (h1 : well_formed_n N1)
    (h2 : well_formed_n N2) (P : sa_node_n × sa_node_n) (hP : P ∈ next_nodes_n B1 B2 N1 N2) :
    well_formed_n P.1 ∧ well_formed_n P.2 := by
  obtain ⟨c, -, rfl, -⟩ := (mem_next_nodes_n B1 B2 N1 N2 P).mp hP
  exact ⟨LF_node1_n_wf B1 c N1 h1, LF_node1_n_wf B2 c N2 h2⟩

/-! ## States of the loops -/

theorem loop_state_succ {σ : Type} (step : σ → Option σ) (fin : σ → Bool) (j : Nat)
    (s0 s : σ) :
    loop_state step fin (j + 1) s0 = some s ↔
      ∃ s1, loop_state step fin j s0 = some s1 ∧ fin s1 = false ∧ step s1 = some s := by
  induction j generalizing s0 with
  | zero =>
    simp only [loop_state]
    constructor
    · intro h
      by_cases hf : fin s0 = true
      · simp [hf] at h
      · simp only [hf, Bool.false_eq_true, if_false] at h
        obtain ⟨a, ha, h⟩ := Option.bind_eq_some.mp h
        cases h
        exact ⟨s0, rfl, by simpa using hf, ha⟩
    · rintro ⟨s1, h1, hf, hs⟩
      cases h1
      simp [hf, hs]
  | succ j ih =>
    constructor
    · intro h
      rw [loop_state] at h
      by_cases hf : fin s0 = true
      · simp [hf] at h
      · simp only [hf, Bool.false_eq_true, if_false] at h
        obtain ⟨a, ha, h⟩ := Option.bind_eq_some.mp h
        obtain ⟨s1, h1, hf1, hs1⟩ := (ih a).mp h
        refine ⟨s1, ?_, hf1, hs1⟩
        rw [loop_state]
        simp only [hf, Bool.false_eq_true, if_false, ha, Option.some_bind]
        exact h1
    · rintro ⟨s1, h1, hf1, hs1⟩
      rw [loop_state] at h1
      by_cases hf : fin s0 = true
      · simp [hf] at h1
      · simp only [hf, Bool.false_eq_true, if_false] at h1
        obtain ⟨a, ha, h1⟩ := Option.bind_eq_some.mp h1
        rw [loop_state]
        simp only [hf, Bool.false_eq_true, if_false, ha, Option.some_bind]
        exact (ih a).mpr ⟨s1, h1, hf1, hs1⟩

/-- A loop that returns has passed through its final state. -/
theorem run_loop_state {σ : Type} (step : σ → Option σ) (fin : σ → Bool) (fuel : Nat)
    (s0 a : σ) (h : run_loop step fin fuel s0 = .done a) :
    ∃ j, j ≤ fuel ∧ loop_state step fin j s0 = some a ∧ fin a = true := by
  induction fuel generalizing s0 with
  | zero =>
    simp only [run_loop] at h
    by_cases hf : fin s0 = true
    · simp only [hf, if_true] at h
      cases h
      exact ⟨0, le_refl _, rfl, hf⟩
    · simp [hf] at h
  | succ fuel ih =>
    simp only [run_loop] at h
    by_cases hf : fin s0 = true
    · simp only [hf, if_true] at h
      cases h
      exact ⟨0, Nat.zero_le _, rfl, hf⟩
    · simp only [hf] at h
      cases hs : step s0 with
      | none => simp [hs] at h
      | some s1 =>
        simp only [hs] at h
        obtain ⟨j, hj, hl, hfa⟩ := ih s1 h
        refine ⟨j + 1, by omega, ?_, hfa⟩
        rw [loop_state]
        simp only [hf, Bool.false_eq_true, if_false, hs, Option.some_bind]
        exact hl

/-- A state of the loop in which the loop condition fails is the result of the loop. -/
theorem loop_state_run {σ : Type} (step : σ → Option σ) (fin : σ → Bool) (j : Nat)
    (s0 a : σ) (h : loop_state step fin j s0 = some a) (hf : fin a = true) :
    run_loop step fin j s0 = .done a := by
  induction j generalizing s0 with
  | zero =>
    simp only [loop_state] at h
    cases h
    simp [run_loop, hf]
  | succ j ih =>
    rw [loop_state] at h
    by_cases hf0 : fin s0 = true
    · simp [hf0] at h
    · simp only [hf0, Bool.false_eq_true, if_false] at h
      obtain ⟨s1, hs, h⟩ := Option.bind_eq_some.mp h
      simp only [run_loop, hf0, Bool.false_eq_true, if_false, hs]
      exact ih s1 h

/-- An invariant with a measure holds in every state of the loop, and the measure bounds the
number of iterations. -/
theorem loop_state_progress {σ : Type} (step : σ → Option σ) (fin : σ → Bool)
    (I : σ → Nat → Prop)
    (hprog : ∀ s k, I s k → fin s = false → ∃ s1 k1, step s = some s1 ∧ I s1 k1 ∧ k1 < k)
    (j : Nat) (s0 s : σ) (k0 : Nat) (hI : I s0 k0)
    (h : loop_state step fin j s0 = some s) : ∃ k, I s k ∧ k + j ≤ k0 := by
  induction j generalizing s0 k0 with
  | zero =>
    simp only [loop_state] at h
    cases h
    exact ⟨k0, hI, le_refl _⟩
  | succ j ih =>
    rw [loop_state] at h
    by_cases hf0 : fin s0 = true
    · simp [hf0] at h
    · simp only [hf0, Bool.false_eq_true, if_false] at h
      obtain ⟨s1, hs, h⟩ := Option.bind_eq_some.mp h
      obtain ⟨s1', k1, hs', hI1, hlt⟩ := hprog s0 k0 hI (by simpa using hf0)
      rw [hs] at hs'
      cases hs'
      obtain ⟨k, hIk, hle⟩ := ih s1 k1 hI1 h
      exact ⟨k, hIk, by omega⟩

/-- An invariant of the loop body holds in every state of the loop. -/
theorem loop_state_invariant {σ : Type} (step : σ → Option σ) (fin : σ → Bool)
    (I : σ → Prop) (hstep : ∀ s s1, I s → fin s = false → step s = some s1 → I s1)
    (j : Nat) (s0 s : σ) (hI : I s0) (h : loop_state step fin j s0 = some s) : I s := by
  induction j generalizing s with
  | zero =>
    simp only [loop_state] at h
    cases h
    exact hI
  | succ j ih =>
    obtain ⟨s1, h1, hf, hs⟩ := (loop_state_succ step fin j s0 s).mp h
    exact hstep s1 s (ih s1 h1) hf hs

/-! ## The states of the merger on two arrangements -/

theorem merge_leaf_progress (P1 P2 : List (Sym × List Nat))
    (hc1 : closed_arrangement P1) (hc2 : closed_arrangement P2)
    (hS1 : suffix_collection (P1.map Prod.snd)) (hS2 : suffix_collection (P2.map Prod.snd))
    (w : Nat) (c : Bool) (s : MLeafState) (k : Nat)
    (hI : merge_leaf_inv (P1.map Prod.snd) (P2.map Prod.snd) w c s k)
    (hne : s.S.isEmpty = false) :
    ∃ s1 k1, merge_leaf_step w (P1.map Prod.fst) (P2.map Prod.fst) c s = some s1 ∧
      merge_leaf_inv (P1.map Prod.snd) (P2.map Prod.snd) w c s1 k1 ∧ k1 < k :=
  merge_leaf_progress_aux _ _ _ _ (by simp) (by simp) hS1 hS2
    (fun W k => next_leaves_pair_eq P1 P2 hc1 hc2 hS1.sorted hS2.sorted W k) w c s k hI hne

theorem merge_node_progress (P1 P2 : List (Sym × List Nat))
    (hc1 : closed_arrangement P1) (hc2 : closed_arrangement P2)
    (hS1 : suffix_collection (P1.map Prod.snd)) (hS2 : suffix_collection (P2.map Prod.snd))
    (w : Nat) (s : MNodeState) (k : Nat)
    (hI : merge_node_inv (P1.map Prod.snd) (P2.map Prod.snd) w s k)
    (hne : s.S.isEmpty = false) :
    ∃ s1 k1, merge_node_step w (P1.map Prod.fst) (P2.map Prod.fst) s = some s1 ∧
      merge_node_inv (P1.map Prod.snd) (P2.map Prod.snd) w s1 k1 ∧ k1 < k :=
  merge_node_progress_aux _ _ _ _ (by simp) (by simp) hS1 hS2
    (fun W => next_nodes_pair_eq P1 P2 hc1 hc2 hS1.sorted hS2.sorted W) w s k hI hne

theorem merge_count_term (S1 S2 : List (List Nat)) (ht1 : [0] ∈ S1) (ht2 : [0] ∈ S2) :
    2 ≤ (merge_strs S1 S2).count [0] ∧ 2 ≤ (merge_strs S1 S2).length := by
  have h0 : 2 ≤ (merge_strs S1 S2).count [0] := by
    rw [count_merge]
    have := List.count_pos_iff.mpr ht1
    have := List.count_pos_iff.mpr ht2
    omega
  exact ⟨h0, le_trans h0 (List.count_le_length _ _)⟩

/-- The state in which the first loop of the merger is entered. -/
theorem merge_init_inv (P1 P2 : List (Sym × List Nat))
    (hc1 : closed_arrangement P1) (hc2 : closed_arrangement P2)
    (ht1 : [0] ∈ P1.map Prod.snd) (ht2 : [0] ∈ P2.map Prod.snd) (w : Nat) (c : Bool) :
    ∃ s0, merge_init w (P1.map Prod.fst) (P2.map Prod.fst) c = some s0 ∧
      merge_leaf_inv (P1.map Prod.snd) (P2.map Prod.snd) w c s0
        (leaf_weight (merge_strs (P1.map Prod.snd) (P2.map Prod.snd)) [[]]) := by
  obtain ⟨hcount0, hn2⟩ := merge_count_term _ _ ht1 ht2
  have hlen : (merge_strs (P1.map Prod.snd) (P2.map Prod.snd)).length =
      P1.length + P2.length := by
    rw [merge_strs_length, List.length_map, List.length_map]
  have hB : (P1.map Prod.fst).length + (P2.map Prod.fst).length =
      (merge_strs (P1.map Prod.snd) (P2.map Prod.snd)).length := by
    rw [hlen, List.length_map, List.length_map]
  have hinit : merge_init w (P1.map Prod.fst) (P2.map Prod.fst) c = some
      { S := [leaf_pair_of (P1.map Prod.snd) (P2.map Prod.snd) []],
        v := { DA := List.replicate (merge_strs (P1.map Prod.snd) (P2.map Prod.snd)).length false,
               LCP := if c = true then (List.replicate
                 (merge_strs (P1.map Prod.snd) (P2.map Prod.snd)).length (nil w)).set 0 0
                 else [],
               lcp_values := 1, da_values := 0 } } := by
    unfold merge_init leaf_pair_of
    rw [first_leaf_eq P1 hc1, first_leaf_eq P2 hc2]
    simp only [hB]
    cases c with
    | false => simp
    | true =>
      have : (merge_strs (P1.map Prod.snd) (P2.map Prod.snd)).length ≠ 0 := by omega
      simp [this]
  refine ⟨_, hinit, [[]], rfl, List.pairwise_singleton _ _, fun W hW => ?_,
    List.length_replicate _ _, fun j _ _ hp => absurd (pending_nil _) hp, fun hc => ?_, ?_,
    rfl⟩
  · rw [List.mem_singleton.mp hW]
    have : min_size c ≤ 2 := by unfold min_size; split <;> omega
    exact le_trans this hcount0
  · subst hc
    exact lcp_init_inv _ w
  · have : da_weight (merge_strs (P1.map Prod.snd) (P2.map Prod.snd)) [[]] (min_size c) ≤
        (merge_strs (P1.map Prod.snd) (P2.map Prod.snd)).length := List.countP_le_length _
    simp only [Nat.zero_add]
    exact this

/-- The state in which the second loop of the merger is entered, after a first loop that has
emptied its stack. -/
theorem merge_pass2_init_inv (P1 P2 : List (Sym × List Nat))
    (hc1 : closed_arrangement P1) (hc2 : closed_arrangement P2) (w : Nat) (s1 : MLeafState)
    (k : Nat) (hI1 : merge_leaf_inv (P1.map Prod.snd) (P2.map Prod.snd) w true s1 k)
    (hfin : s1.S.isEmpty = true)
    (hroot : 2 ≤ number_of_children
      (node_of (merge_strs (P1.map Prod.snd) (P2.map Prod.snd)) [])) :
    merge_node_inv (P1.map Prod.snd) (P2.map Prod.snd) w
      { S := [(bwt_root (P1.map Prod.fst), bwt_root (P2.map Prod.fst))], v := s1.v }
      (node_weight (merge_strs (P1.map Prod.snd) (P2.map Prod.snd)) [[]]) := by
  obtain ⟨Ws1, hst1, -, -, hdl1, hda1, hinv1, hm1, -⟩ := hI1
  have hWs1 : Ws1 = [] := by
    cases Ws1 with
    | nil => rfl
    | cons a l => simp [hst1] at hfin
  subst hWs1
  exact ⟨[[]], by rw [root_eq P1 hc1, root_eq P2 hc2]; rfl, List.pairwise_singleton _ _,
    fun W hW => by
      rw [List.mem_singleton.mp hW]
      exact hroot,
    da_inv_after_leaves _ _ s1.v hdl1
      (fun j hj h2 => hda1 j hj h2 (not_pending_empty _)) hm1,
    lcp_inv_congr _ w _ _ _ (hinv1 rfl) (fun j _ => by
      constructor
      · rintro (h | ⟨_, h⟩)
        · exact ⟨h, pending_nil _⟩
        · exact absurd h (not_pending_empty _)
      · rintro ⟨h, _⟩
        exact Or.inl h), rfl⟩

/-- The result of the first pass of the merger satisfies the invariant of the first loop. -/
theorem merge_pass1_inv (P1 P2 : List (Sym × List Nat))
    (hc1 : closed_arrangement P1) (hc2 : closed_arrangement P2)
    (hS1 : suffix_collection (P1.map Prod.snd)) (hS2 : suffix_collection (P2.map Prod.snd))
    (ht1 : [0] ∈ P1.map Prod.snd) (ht2 : [0] ∈ P2.map Prod.snd) (w fuel : Nat) (c : Bool)
    (s1 : MLeafState)
    (h : merge_pass1 w fuel (P1.map Prod.fst) (P2.map Prod.fst) c = .done s1) :
    (∃ k, merge_leaf_inv (P1.map Prod.snd) (P2.map Prod.snd) w c s1 k) ∧
      s1.S.isEmpty = true := by
  obtain ⟨s0, h0, hI0⟩ := merge_init_inv P1 P2 hc1 hc2 ht1 ht2 w c
  unfold merge_pass1 at h
  rw [h0] at h
  obtain ⟨j, -, hj, hf⟩ := run_loop_state _ _ fuel s0 s1 h
  obtain ⟨k, hk, -⟩ := loop_state_progress _ _
    (merge_leaf_inv (P1.map Prod.snd) (P2.map Prod.snd) w c)
    (fun s k hI hne => merge_leaf_progress P1 P2 hc1 hc2 hS1 hS2 w c s k hI hne) j s0 s1 _
    hI0 hj
  exact ⟨⟨k, hk⟩, hf⟩

/-- The root of the merged collection has two children as soon as one read is not empty. -/
theorem merged_root (reads1 reads2 : List (List Sym))
    (hr1 : ∀ r ∈ reads1, dna_read r) (hr2 : ∀ r ∈ reads2, dna_read r)
    (P1 P2 : List (Sym × List Nat)) (hP1 : sorted_arrangement reads1 P1)
    (hP2 : sorted_arrangement reads2 P2) (hex : ∃ r ∈ reads1 ++ reads2, r ≠ []) :
    2 ≤ number_of_children
      (node_of (merge_strs (P1.map Prod.snd) (P2.map Prod.snd)) []) := by
  obtain ⟨hP, e⟩ := merged_arrangement reads1 reads2 P1 P2 hP1 hP2
  have := arrangement_root (reads1 ++ reads2) (fun r hr => by
    rcases List.mem_append.mp hr with h | h
    · exact hr1 r h
    · exact hr2 r h) _ hP hex
  rw [e] at this
  exact this

/-- The first pass of the merger returns within `n` iterations. -/
theorem merge_pass1_total (P1 P2 : List (Sym × List Nat))
    (hc1 : closed_arrangement P1) (hc2 : closed_arrangement P2)
    (hS1 : suffix_collection (P1.map Prod.snd)) (hS2 : suffix_collection (P2.map Prod.snd))
    (ht1 : [0] ∈ P1.map Prod.snd) (ht2 : [0] ∈ P2.map Prod.snd) (w fuel : Nat) (c : Bool)
    (hfuel : P1.length + P2.length ≤ fuel) :
    ∃ s1, merge_pass1 w fuel (P1.map Prod.fst) (P2.map Prod.fst) c = .done s1 := by
  obtain ⟨s0, h0, hI0⟩ := merge_init_inv P1 P2 hc1 hc2 ht1 ht2 w c
  have hlen : (merge_strs (P1.map Prod.snd) (P2.map Prod.snd)).length =
      P1.length + P2.length := by
    rw [merge_strs_length, List.length_map, List.length_map]
  obtain ⟨s1, k1, hrun1, -, -⟩ := run_loop_terminates
    (merge_leaf_step w (P1.map Prod.fst) (P2.map Prod.fst) c) (fun s => s.S.isEmpty)
    (merge_leaf_inv (P1.map Prod.snd) (P2.map Prod.snd) w c)
    (fun s k hI hne => merge_leaf_progress P1 P2 hc1 hc2 hS1 hS2 w c s k hI hne)
    fuel _ _ hI0
    (by have := leaf_weight_le (merge_strs (P1.map Prod.snd) (P2.map Prod.snd)) [[]]; omega)
  exact ⟨s1, by unfold merge_pass1; rw [h0]; exact hrun1⟩

/-! ## Depths of the stack entries -/

theorem suffix_pairs_length (r : List Sym) : ∀ p ∈ suffix_pairs r, p.2.length ≤ r.length := by
  induction r with
  | nil => simp [suffix_pairs]
  | cons c r ih =>
    intro p hp
    simp only [suffix_pairs, List.mem_cons] at hp
    rcases hp with rfl | hp
    · simp
    · have := ih p hp
      simp only [List.length_cons]
      omega

theorem collection_pairs_length (reads : List (List Sym)) (M : Nat)
    (hM : ∀ r ∈ reads, r.length ≤ M) : ∀ p ∈ collection_pairs reads, p.2.length ≤ M + 1 := by
  induction reads with
  | nil => simp [collection_pairs]
  | cons r rs ih =>
    intro p hp
    have h0 := hM r (List.mem_cons_self r rs)
    simp only [collection_pairs, read_pairs, List.cons_append, List.mem_cons,
      List.mem_append] at hp
    rcases hp with rfl | hp | hp
    · simp only [List.length_append, List.length_map, List.length_singleton]
      omega
    · have := suffix_pairs_length r p hp
      omega
    · exact ih (fun x hx => hM x (List.mem_cons_of_mem r hx)) p hp

theorem arrangement_length (reads : List (List Sym)) (P : List (Sym × List Nat))
    (hP : sorted_arrangement reads P) (M : Nat) (hM : ∀ r ∈ reads, r.length ≤ M) :
    ∀ s ∈ P.map Prod.snd, s.length ≤ M + 1 := by
  intro s hs
  obtain ⟨p, hp, rfl⟩ := List.mem_map.mp hs
  exact collection_pairs_length reads M hM p (hP.1.mem_iff.mp hp)

theorem leaf_depth_bound (S : List (List Nat)) (M : Nat) (hb : ∀ s ∈ S, s.length ≤ M + 1)
    (W : List Nat) (h : 0 < S.count (W ++ [0])) : (leaf_of S W).depth ≤ M + 1 := by
  have := hb _ (List.count_pos_iff.mp h)
  simp only [List.length_append, List.length_singleton] at this
  exact this

theorem node_depth_bound (S : List (List Nat)) (hS : S.Sorted (· ≤ ·)) (M : Nat)
    (hb : ∀ s ∈ S, s.length ≤ M + 1) (W : List Nat)
    (h : 2 ≤ number_of_children (node_of S W)) : (node_of S W).depth ≤ M := by
  have hr := children_range S W h
  have hn := cnt_lt_le_length S (W ++ [6])
  have hj : cnt_lt S (W ++ [0]) < S.length := by omega
  have b1 : W ++ [0] ≤ str_at S (cnt_lt S (W ++ [0])) :=
    (pos_ge_iff S hS _ _ hj).mpr (le_refl _)
  have b2 : str_at S (cnt_lt S (W ++ [0])) < W ++ [6] :=
    (pos_lt_iff S hS _ _ hj).mpr (by omega)
  obtain ⟨x, r, e, -, -⟩ := between_prefix W 0 6 _ b1 b2
  have := hb _ (str_at_mem S _ hj)
  rw [e] at this
  simp only [List.length_append, List.length_cons] at this
  show W.length ≤ M
  omega

theorem bwt_next_leaves_depth (B : List Sym) (L : sa_leaf) (k : Nat) (TMP : List sa_leaf)
    (h : bwt_next_leaves B L k = some TMP) : ∀ c ∈ TMP, c.depth = L.depth + 1 := by
  unfold bwt_next_leaves at h
  simp only at h
  split at h
  · cases h
    intro c hc
    have hc := (sort_by_key_perm _ _).mem_iff.mp hc
    simp only [List.mem_append] at hc
    rcases hc with ((hc | hc) | hc) | hc <;>
    · split at hc
      · rw [List.mem_singleton.mp hc]
      · simp at hc
  · cases h

theorem bwt_next_nodes_depth (B : List Sym) (x : sa_node) :
    ∀ c ∈ bwt_next_nodes B x, c.depth = x.depth + 1 := by
  unfold bwt_next_nodes
  simp only [bwt_LF_node]
  intro c hc
  have hc := (sort_by_key_perm _ _).mem_iff.mp hc
  simp only [List.mem_append] at hc
  rcases hc with ((hc | hc) | hc) | hc <;>
  · split at hc
    · rw [List.mem_singleton.mp hc]
      rfl
    · simp at hc

theorem lcp_leaf_step_push (w : Nat) (B : List Sym) (L : sa_leaf) (rest : List sa_leaf)
    (s s1 : LeafState) (hS : s.S = L :: rest) (h : lcp_leaf_step w B s = some s1) :
    ∃ TMP, s1.S = TMP ++ rest ∧ ∀ c ∈ TMP, c.depth = L.depth + 1 := by
  unfold lcp_leaf_step at h
  rw [hS] at h
  simp only at h
  split at h
  · split at h
    · cases h
    · split at h
      · split at h
        · cases h
        · rename_i TMP hT
          exact ⟨TMP, by rw [← Option.some.inj h], bwt_next_leaves_depth B L 2 TMP hT⟩
      · cases h
  · cases h

theorem lcp_node_step_push (w : Nat) (B : List Sym) (x : sa_node) (rest : List sa_node)
    (s s1 : NodeState) (hS : s.S = x :: rest) (h : lcp_node_step w B s = some s1) :
    ∃ TMP, s1.S = TMP ++ rest ∧ ∀ c ∈ TMP, c.depth = x.depth + 1 := by
  unfold lcp_node_step at h
  rw [hS] at h
  simp only at h
  split at h
  · cases h
  · exact ⟨bwt_next_nodes B x, by rw [← Option.some.inj h], bwt_next_nodes_depth B x⟩

theorem next_leaves_depth (B1 B2 : List Sym) (L1 L2 : sa_leaf) (k : Nat)
    (TMP : List (sa_leaf × sa_leaf)) (h : next_leaves B1 B2 L1 L2 k = some TMP) :
    ∀ c ∈ TMP, c.1.depth = L1.depth + 1 ∧ c.2.depth = L2.depth + 1 := by
  rw [next_leaves_some B1 B2 L1 L2 k TMP h]
  intro c hc
  have hc := (sort_by_key_perm _ _).mem_iff.mp hc
  unfold lf_candidates at hc
  obtain ⟨x, -, rfl⟩ := List.mem_map.mp (List.mem_filter.mp hc).1
  exact ⟨rfl, rfl⟩

theorem merge_leaf_step_depth (w : Nat) (B1 B2 : List Sym) (c : Bool) (L : sa_leaf × sa_leaf)
    (rest : List (sa_leaf × sa_leaf)) (s s1 : MLeafState) (hS : s.S = L :: rest)
    (h : merge_leaf_step w B1 B2 c s = some s1) :
    ∃ TMP, s1.S = TMP ++ rest ∧
      ∀ x ∈ TMP, x.1.depth = L.1.depth + 1 ∧ x.2.depth = L.2.depth + 1 := by
  have e : s = { S := L :: rest, v := s.v } := by
    cases s
    simp only at hS
    rw [hS]
  rw [e] at h
  obtain ⟨TMP, hT, hs⟩ := merge_leaf_step_push w B1 B2 c L rest s.v s1 h
  exact ⟨TMP, hs, next_leaves_depth B1 B2 L.1 L.2 _ TMP hT⟩

theorem merge_node_step_depth (w : Nat) (B1 B2 : List Sym) (N : sa_node × sa_node)
    (rest : List (sa_node × sa_node)) (s s1 : MNodeState) (hS : s.S = N :: rest)
    (h : merge_node_step w B1 B2 s = some s1) :
    ∃ TMP, s1.S = TMP ++ rest ∧
      ∀ x ∈ TMP, x.1.depth = N.1.depth + 1 ∧ x.2.depth = N.2.depth + 1 := by
  unfold merge_node_step at h
  rw [hS] at h
  simp only at h
  split at h
  · cases h
  · split at h
    · cases h
    · split at h
      · cases h
      · refine ⟨next_nodes B1 B2 N.1 N.2, by rw [← Option.some.inj h], fun x hx => ?_⟩
        obtain ⟨c, -, rfl, -⟩ := (mem_next_nodes B1 B2 N.1 N.2 x).mp hx
        exact ⟨rfl, rfl⟩

/-! ## The states of the LCP inducer on an arrangement -/

/-- The state in which the first loop of the inducer is entered. -/
theorem lcp_init_pass_inv (P : List (Sym × List Nat)) (hcl : closed_arrangement P)
    (hterm : [0] ∈ P.map Prod.snd) (w : Nat) :
    ∃ s0, lcp_init w (P.map Prod.fst) = some s0 ∧ s0.lcp_values = 1 ∧
      s0.LCP = (List.replicate (P.map Prod.snd).length (nil w)).set 0 0 ∧
      leaf_pass_inv (P.map Prod.snd) w s0 (leaf_weight (P.map Prod.snd) [[]]) := by
  have hn : (P.map Prod.snd).length ≠ 0 := by
    intro h
    rw [List.length_eq_zero] at h
    rw [h] at hterm
    simp at hterm
  have hnB : (P.map Prod.fst).length ≠ 0 := by
    rw [List.length_map] at hn ⊢
    exact hn
  have hinit : lcp_init w (P.map Prod.fst) = some
      { S := [leaf_of (P.map Prod.snd) []],
        LCP := (List.replicate (P.map Prod.snd).length (nil w)).set 0 0, m := 0,
        lcp_values := 1 } := by
    unfold lcp_init
    rw [if_neg hnB, first_leaf_eq P hcl]
    simp
  exact ⟨_, hinit, rfl, rfl, [[]], rfl, List.pairwise_singleton _ _, fun W hW => by
      rw [List.mem_singleton.mp hW]
      exact List.count_pos_iff.mpr hterm,
    lcp_init_inv _ w, by
      have := leaf_weight_le (P.map Prod.snd) [[]]
      simp only [Nat.zero_add]
      exact this, rfl⟩

/-- The state in which the second loop of the inducer is entered, after a first loop that has
emptied its stack. -/
theorem lcp_pass2_init_inv (P : List (Sym × List Nat)) (hcl : closed_arrangement P)
    (w : Nat) (s1 : LeafState) (k : Nat) (hI1 : leaf_pass_inv (P.map Prod.snd) w s1 k)
    (hfin : s1.S.isEmpty = true)
    (hroot : 2 ≤ number_of_children (node_of (P.map Prod.snd) [])) :
    node_pass_inv (P.map Prod.snd) w
      { S := [bwt_root (P.map Prod.fst)], LCP := s1.LCP, lcp_values := s1.lcp_values }
      (node_weight (P.map Prod.snd) [[]]) := by
  obtain ⟨Ws1, hst1, -, -, hinv1, -, -⟩ := hI1
  have hWs1 : Ws1 = [] := by
    cases Ws1 with
    | nil => rfl
    | cons a l => simp [hst1] at hfin
  subst hWs1
  exact ⟨[[]], by rw [root_eq P hcl]; rfl, List.pairwise_singleton _ _, fun W hW => by
      rw [List.mem_singleton.mp hW]
      exact hroot,
    lcp_inv_congr _ w _ _ _ hinv1 (fun j _ => by
      constructor
      · rintro (h | ⟨_, h⟩)
        · exact ⟨h, pending_nil _⟩
        · exact absurd h (not_pending_empty _)
      · rintro ⟨h, _⟩
        exact Or.inl h), rfl⟩

/-- The result of the first pass of the inducer satisfies the invariant of the first loop. -/
theorem lcp_pass1_inv (P : List (Sym × List Nat)) (hcl : closed_arrangement P)
    (hS : suffix_collection (P.map Prod.snd)) (hterm : [0] ∈ P.map Prod.snd) (w fuel : Nat)
    (s1 : LeafState) (h : lcp_pass1 w fuel (P.map Prod.fst) = .done s1) :
    (∃ k, leaf_pass_inv (P.map Prod.snd) w s1 k) ∧ s1.S.isEmpty = true := by
  obtain ⟨s0, h0, -, -, hI0⟩ := lcp_init_pass_inv P hcl hterm w
  unfold lcp_pass1 at h
  rw [h0] at h
  obtain ⟨j, -, hj, hf⟩ := run_loop_state _ _ fuel s0 s1 h
  obtain ⟨k, hk, -⟩ := loop_state_progress _ _ (leaf_pass_inv (P.map Prod.snd) w)
    (fun s k hI hne => lcp_leaf_step_progress P hcl hS w s k hI hne) j s0 s1 _ hI0 hj
  exact ⟨⟨k, hk⟩, hf⟩

/-! ## The counter of the LCP inducer -/

theorem count_set_nil (v x : Nat) (hx : x ≠ v) (L : List Nat) (i : Nat)
    (h : L[i]? = some v) : (L.set i x).count v + 1 = L.count v := by
  induction L generalizing i with
  | nil => simp at h
  | cons a L ih =>
    cases i with
    | zero =>
      simp only [List.getElem?_cons_zero, Option.some.injEq] at h
      subst h
      simp only [List.set_cons_zero, List.count_cons_self]
      rw [List.count_cons]
      have : (x == a) = false := by simpa using hx
      rw [this]
      simp
    | succ i =>
      simp only [List.getElem?_cons_succ] at h
      simp only [List.set_cons_succ, List.count_cons]
      have := ih i h
      omega

theorem write_nil_count (w : Nat) (L L1 : List Nat) (i d : Nat)
    (h : write_nil w L i d = some L1) (hd : d % 2 ^ (8 * w) ≠ nil w) :
    L1.count (nil w) + 1 = L.count (nil w) := by
  unfold write_nil at h
  split at h
  · rename_i hi
    cases h
    exact count_set_nil (nil w) _ hd L i hi
  · cases h

theorem fill_nil_count (w d : Nat) (len start : Nat) (L L1 : List Nat)
    (h : fill_nil w d start len L = some L1) (hd : len = 0 ∨ d % 2 ^ (8 * w) ≠ nil w) :
    L1.count (nil w) + len = L.count (nil w) := by
  induction len generalizing start L with
  | zero =>
    simp only [fill_nil, Option.some.injEq] at h
    rw [h]
    rfl
  | succ len ih =>
    have hd1 : d % 2 ^ (8 * w) ≠ nil w := by
      rcases hd with h0 | h0
      · omega
      · exact h0
    simp only [fill_nil] at h
    split at h
    · rename_i L2 h2
      have c1 := write_nil_count w L L2 start d h2 hd1
      have c2 := ih (start + 1) L2 h (Or.inr hd1)
      omega
    · cases h

theorem lcp_border_count (w : Nat) (c : Bool) (i d : Nat) (s s1 : List Nat × Nat)
    (h : lcp_border w c i d s = some s1) (hd : d % 2 ^ (8 * w) ≠ nil w) :
    s1.1.count (nil w) + s1.2 = s.1.count (nil w) + s.2 := by
  unfold lcp_border at h
  split at h
  · split at h
    · rename_i L hL
      cases h
      have := write_nil_count w s.1 L i d hL hd
      show L.count (nil w) + (s.2 + 1) = _
      omega
    · cases h
  · cases h
    rfl

theorem update_lcp_count (w : Nat) (x : sa_node) (L : List Nat) (v : Nat)
    (r : List Nat × Nat) (h : update_lcp w x L v = some r)
    (hd : x.depth % 2 ^ (8 * w) ≠ nil w) :
    r.1.count (nil w) + r.2 = L.count (nil w) + v := by
  unfold update_lcp at h
  split at h
  · obtain ⟨s1, h1, h⟩ := Option.bind_eq_some.mp h
    obtain ⟨s2, h2, h⟩ := Option.bind_eq_some.mp h
    obtain ⟨s3, h3, h⟩ := Option.bind_eq_some.mp h
    have c1 := lcp_border_count w _ _ _ _ _ h1 hd
    have c2 := lcp_border_count w _ _ _ _ _ h2 hd
    have c3 := lcp_border_count w _ _ _ _ _ h3 hd
    have c4 := lcp_border_count w _ _ _ _ _ h hd
    simp only at c1
    omega
  · cases h

theorem lcp_leaf_step_count (w : Nat) (B : List Sym) (L : sa_leaf) (rest : List sa_leaf)
    (s s1 : LeafState) (hS : s.S = L :: rest) (h : lcp_leaf_step w B s = some s1)
    (hd : L.rn.second - (L.rn.first + 1) = 0 ∨ L.depth % 2 ^ (8 * w) ≠ nil w) :
    s1.lcp_values + s1.LCP.count (nil w) = s.lcp_values + s.LCP.count (nil w) := by
  unfold lcp_leaf_step at h
  rw [hS] at h
  simp only at h
  split at h
  · split at h
    · cases h
    · rename_i LCP1 hfill
      split at h
      · split at h
        · cases h
        · cases h
          have := fill_nil_count w L.depth _ _ s.LCP LCP1 hfill hd
          show s.lcp_values + (L.rn.second - (L.rn.first + 1)) + LCP1.count (nil w) = _
          omega
      · cases h
  · cases h

theorem lcp_node_step_count (w : Nat) (B : List Sym) (x : sa_node) (rest : List sa_node)
    (s s1 : NodeState) (hS : s.S = x :: rest) (h : lcp_node_step w B s = some s1)
    (hd : x.depth % 2 ^ (8 * w) ≠ nil w) :
    s1.lcp_values + s1.LCP.count (nil w) = s.lcp_values + s.LCP.count (nil w) := by
  unfold lcp_node_step at h
  rw [hS] at h
  simp only at h
  split at h
  · cases h
  · rename_i LCP1 v1 hup
    cases h
    have := update_lcp_count w x s.LCP s.lcp_values (LCP1, v1) hup hd
    simp only at this ⊢
    omega

/-- The final values below the sentinel differ from the sentinel. -/
theorem lcp_target_ne_nil (S : List (List Nat)) (w : Nat) (hw : 0 < w)
    (hnil : ∀ i, 0 < i → i < S.length → lcp_len (str_at S (i - 1)) (str_at S i) < nil w)
    (i : Nat) (hi : i < S.length) : lcp_target S w i ≠ nil w := by
  by_cases h0 : i = 0
  · subst h0
    have := nil_pos w hw
    simp only [lcp_target, if_true]
    omega
  · have := hnil i (by omega) hi
    rw [lcp_target_small S w i (by omega) this]
    omega

/-- Invariant of the first loop of the inducer with its counter: `lcp_values` counts the
entries that no longer hold the sentinel. -/
theorem lcp_leaf_count_progress (P : List (Sym × List Nat)) (hcl : closed_arrangement P)
    (hS : suffix_collection (P.map Prod.snd)) (w : Nat) (hw : 0 < w)
    (hnil : ∀ i, 0 < i → i < (P.map Prod.snd).length →
      lcp_len (str_at (P.map Prod.snd) (i - 1)) (str_at (P.map Prod.snd) i) < nil w)
    (st : LeafState) (k : Nat)
    (hI : leaf_pass_inv (P.map Prod.snd) w st k ∧
      st.lcp_values + st.LCP.count (nil w) = P.length)
    (hne : st.S.isEmpty = false) :
    ∃ st1 k1, lcp_leaf_step w (P.map Prod.fst) st = some st1 ∧
      (leaf_pass_inv (P.map Prod.snd) w st1 k1 ∧
        st1.lcp_values + st1.LCP.count (nil w) = P.length) ∧ k1 < k := by
  obtain ⟨hI, hK⟩ := hI
  obtain ⟨st1, k1, hs, hI1, hlt⟩ := lcp_leaf_step_progress P hcl hS w st k hI hne
  refine ⟨st1, k1, hs, ⟨hI1, ?_⟩, hlt⟩
  obtain ⟨Ws, hst, -, -, -, -, -⟩ := hI
  cases Ws with
  | nil => simp [hst] at hne
  | cons W rest =>
    rw [← hK]
    refine lcp_leaf_step_count w _ (leaf_of (P.map Prod.snd) W)
      (rest.map (leaf_of (P.map Prod.snd))) st st1 (by rw [hst]; rfl) hs ?_
    by_cases hlen : cnt_lt (P.map Prod.snd) (W ++ [1]) -
        (cnt_lt (P.map Prod.snd) (W ++ [0]) + 1) = 0
    · exact Or.inl hlen
    · right
      obtain ⟨hj, -, -, ht⟩ := leaf_interior _ hS w W (cnt_lt (P.map Prod.snd) (W ++ [0]) + 1)
        (by omega) (by omega)
      show (W.length + 1) % 2 ^ (8 * w) ≠ nil w
      rw [ht]
      exact lcp_target_ne_nil _ w hw hnil _ hj

/-- Invariant of the second loop of the inducer with its counter. -/
theorem lcp_node_count_progress (P : List (Sym × List Nat)) (hcl : closed_arrangement P)
    (hS : suffix_collection (P.map Prod.snd)) (w : Nat) (hw : 0 < w)
    (hnil : ∀ i, 0 < i → i < (P.map Prod.snd).length →
      lcp_len (str_at (P.map Prod.snd) (i - 1)) (str_at (P.map Prod.snd) i) < nil w)
    (st : NodeState) (k : Nat)
    (hI : node_pass_inv (P.map Prod.snd) w st k ∧
      st.lcp_values + st.LCP.count (nil w) = P.length)
    (hne : st.S.isEmpty = false) :
    ∃ st1 k1, lcp_node_step w (P.map Prod.fst) st = some st1 ∧
      (node_pass_inv (P.map Prod.snd) w st1 k1 ∧
        st1.lcp_values + st1.LCP.count (nil w) = P.length) ∧ k1 < k := by
  obtain ⟨hI, hK⟩ := hI
  obtain ⟨st1, k1, hs, hI1, hlt⟩ := lcp_node_step_progress P hcl hS w st k hI hne
  refine ⟨st1, k1, hs, ⟨hI1, ?_⟩, hlt⟩
  obtain ⟨Ws, hst, -, hch, -, -⟩ := hI
  cases Ws with
  | nil => simp [hst] at hne
  | cons W rest =>
    rw [← hK]
    refine lcp_node_step_count w _ (node_of (P.map Prod.snd) W)
      (rest.map (node_of (P.map Prod.snd))) st st1 (by rw [hst]; rfl) hs ?_
    obtain ⟨j, hj⟩ := exists_written _ W (hch W (List.mem_cons_self W rest))
    obtain ⟨hjn, -, -, ht⟩ := written_node_pos _ hS w W j hj
    show W.length % 2 ^ (8 * w) ≠ nil w
    rw [ht]
    exact lcp_target_ne_nil _ w hw hnil _ hjn

/-- The counter when the first loop of the inducer is entered. -/
theorem lcp_init_count (n w : Nat) (hn : 0 < n) (hw : 0 < w) :
    1 + ((List.replicate n (nil w)).set 0 0).count (nil w) = n := by
  have hp := nil_pos w hw
  have h0 : (List.replicate n (nil w))[0]? = some (nil w) := by
    rw [List.getElem?_replicate]
    simp [hn]
  have := count_set_nil (nil w) 0 (by omega) (List.replicate n (nil w)) 0 h0
  rw [List.count_replicate_self] at this
  omega

/-- Every state of the first loop of the inducer satisfies the invariant with the counter. -/
theorem lcp_pass1_states (P : List (Sym × List Nat)) (hcl : closed_arrangement P)
    (hS : suffix_collection (P.map Prod.snd)) (hterm : [0] ∈ P.map Prod.snd) (w : Nat)
    (hw : 0 < w)
    (hnil : ∀ i, 0 < i → i < (P.map Prod.snd).length →
      lcp_len (str_at (P.map Prod.snd) (i - 1)) (str_at (P.map Prod.snd) i) < nil w)
    (s0 : LeafState) (h0 : lcp_init w (P.map Prod.fst) = some s0) (j : Nat) (s : LeafState)
    (hj : loop_state (lcp_leaf_step w (P.map Prod.fst)) (fun s => s.S.isEmpty) j s0 = some s) :
    (∃ k, leaf_pass_inv (P.map Prod.snd) w s k) ∧
      s.lcp_values + s.LCP.count (nil w) = P.length := by
  obtain ⟨s0', h0', hv, hL, hI0⟩ := lcp_init_pass_inv P hcl hterm w
  rw [h0] at h0'
  cases h0'
  have hn : 0 < P.length := by
    cases P with
    | nil => simp at hterm
    | cons a l => simp
  have hK0 : s0.lcp_values + s0.LCP.count (nil w) = P.length := by
    rw [hv, hL, List.length_map]
    exact lcp_init_count P.length w hn hw
  obtain ⟨k, ⟨hk, hK⟩, -⟩ := loop_state_progress _ _
    (fun s k => leaf_pass_inv (P.map Prod.snd) w s k ∧
      s.lcp_values + s.LCP.count (nil w) = P.length)
    (fun s k hI hne => lcp_leaf_count_progress P hcl hS w hw hnil s k hI hne) j s0 s _
    ⟨hI0, hK0⟩ hj
  exact ⟨⟨k, hk⟩, hK⟩

/-- Every state of the second loop of the inducer satisfies the invariant with the
counter. -/
theorem lcp_pass2_states (P : List (Sym × List Nat)) (hcl : closed_arrangement P)
    (hS : suffix_collection (P.map Prod.snd)) (hterm : [0] ∈ P.map Prod.snd)
    (hroot : 2 ≤ number_of_children (node_of (P.map Prod.snd) [])) (w : Nat) (hw : 0 < w)
    (hnil : ∀ i, 0 < i → i < (P.map Prod.snd).length →
      lcp_len (str_at (P.map Prod.snd) (i - 1)) (str_at (P.map Prod.snd) i) < nil w)
    (fuel : Nat) (s1 : LeafState) (h1 : lcp_pass1 w fuel (P.map Prod.fst) = .done s1)
    (j : Nat) (s : NodeState)
    (hj : loop_state (lcp_node_step w (P.map Prod.fst)) (fun s => s.S.isEmpty) j
      { S := [bwt_root (P.map Prod.fst)], LCP := s1.LCP, lcp_values := s1.lcp_values } =
        some s) :
    (∃ k, node_pass_inv (P.map Prod.snd) w s k) ∧
      s.lcp_values + s.LCP.count (nil w) = P.length := by
  obtain ⟨⟨k1, hI1⟩, hfin⟩ := lcp_pass1_inv P hcl hS hterm w fuel s1 h1
  have hK1 : s1.lcp_values + s1.LCP.count (nil w) = P.length := by
    have h1' := h1
    unfold lcp_pass1 at h1'
    cases h0 : lcp_init w (P.map Prod.fst) with
    | none => simp [h0] at h1'
    | some s0 =>
      simp only [h0] at h1'
      obtain ⟨j1, -, hj1, -⟩ := run_loop_state _ _ fuel s0 s1 h1'
      exact (lcp_pass1_states P hcl hS hterm w hw hnil s0 h0 j1 s1 hj1).2
  have hI2 := lcp_pass2_init_inv P hcl w s1 k1 hI1 hfin hroot
  obtain ⟨k, ⟨hk, hK⟩, -⟩ := loop_state_progress _ _
    (fun s k => node_pass_inv (P.map Prod.snd) w s k ∧
      s.lcp_values + s.LCP.count (nil w) = P.length)
    (fun s k hI hne => lcp_node_count_progress P hcl hS w hw hnil s k hI hne) j _ s _
    ⟨hI2, hK1⟩ hj
  exact ⟨⟨k, hk⟩, hK⟩

/-- When the second loop of the inducer has emptied its stack, no entry holds the sentinel
and the counter is `n`. -/
theorem lcp_final_count (S : List (List Nat)) (w : Nat) (hw : 0 < w)
    (hnil : ∀ i, 0 < i → i < S.length → lcp_len (str_at S (i - 1)) (str_at S i) < nil w)
    (s : NodeState) (k n : Nat) (hI : node_pass_inv S w s k) (hfin : s.S.isEmpty = true)
    (hK : s.lcp_values + s.LCP.count (nil w) = n) :
    s.lcp_values = n ∧ ∀ x ∈ s.LCP, x ≠ nil w := by
  obtain ⟨Ws, hst, -, -, hinv, -⟩ := hI
  have hWs : Ws = [] := by
    cases Ws with
    | nil => rfl
    | cons a l => simp [hst] at hfin
  subst hWs
  have hall : ∀ x ∈ s.LCP, x ≠ nil w := by
    intro x hx
    obtain ⟨i, hi⟩ := List.mem_iff_getElem?.mp hx
    have hil : i < S.length := by
      rw [← hinv.1]
      exact (List.getElem?_eq_some_iff.mp hi).1
    have := (hinv.2 i hil).2 (fun h => not_pending_empty _ h.2)
    rw [this] at hi
    rw [← Option.some.inj hi]
    exact lcp_target_ne_nil S w hw hnil i hil
  have h0 : s.LCP.count (nil w) = 0 := List.count_eq_zero.mpr (fun h => hall _ h rfl)
  exact ⟨by omega, hall⟩

/-! ## The depth of the traversal stack -/

theorem groups_ok_mono (s : Nat) (U U1 : Nat) (Gs : List (List Nat)) (h : U1 ≤ U)
    (hg : groups_ok s U Gs) : groups_ok s U1 Gs := by
  induction Gs generalizing U U1 with
  | nil => trivial
  | cons G Gs ih =>
    obtain ⟨a, b, c, d, e⟩ := hg
    exact ⟨a, b, c, fun z hz => ⟨le_trans h (d z hz).1, (d z hz).2⟩,
      ih (U + G.sum) (U1 + G.sum) (by omega) e⟩

theorem sum_ge_of_forall_ge (G : List Nat) (U : Nat) (h : ∀ z ∈ G, U ≤ z) :
    U * G.length ≤ G.sum := by
  induction G with
  | nil => simp
  | cons a G ih =>
    have h1 := h a (List.mem_cons_self a G)
    have h2 := ih (fun z hz => h z (List.mem_cons_of_mem a hz))
    simp only [List.length_cons, List.sum_cons]
    rw [Nat.mul_succ]
    omega

/-- The sum of the sizes doubles with every group. -/
theorem groups_ok_pow (s : Nat) (U : Nat) (Gs : List (List Nat)) (hU : 1 ≤ U)
    (hg : groups_ok s U Gs) : U * 2 ^ Gs.length ≤ U + Gs.flatten.sum := by
  induction Gs generalizing U with
  | nil => simp
  | cons G Gs ih =>
    obtain ⟨a, b, c, d, e⟩ := hg
    have hl : 1 ≤ G.length := by
      cases G with
      | nil => exact absurd rfl a
      | cons x G => simp
    have hs := sum_ge_of_forall_ge G U (fun z hz => (d z hz).1)
    have h2 : 2 * U ≤ U + G.sum := by
      have : U * 1 ≤ U * G.length := Nat.mul_le_mul_left U hl
      omega
    have h3 := ih (U + G.sum) (by omega) e
    simp only [List.length_cons, List.flatten_cons, List.sum_append]
    have h4 : 2 * U * 2 ^ Gs.length ≤ (U + G.sum) * 2 ^ Gs.length :=
      Nat.mul_le_mul_right _ h2
    have h5 : U * 2 ^ (Gs.length + 1) = 2 * U * 2 ^ Gs.length := by ring
    omega

theorem groups_ok_length (s : Nat) (U : Nat) (Gs : List (List Nat))
    (hg : groups_ok s U Gs) : Gs.flatten.length + Gs.length ≤ s * Gs.length := by
  induction Gs generalizing U with
  | nil => simp
  | cons G Gs ih =>
    obtain ⟨a, b, c, d, e⟩ := hg
    have := ih (U + G.sum) e
    simp only [List.length_cons, List.flatten_cons, List.length_append]
    rw [Nat.mul_succ]
    omega

theorem stack_inv_single (s n z : Nat) (hs : 1 ≤ s) (h1 : 1 ≤ z) (hn : z ≤ n) :
    stack_inv s n [z] :=
  ⟨[z], [], by simp, fun h => rfl, by simpa using hs, List.sorted_singleton z,
    fun x hx => by rw [List.mem_singleton.mp hx]; exact h1, trivial, by simpa using hn⟩

/-- The invariant survives an iteration that pops the top entry and pushes its children. -/
theorem stack_inv_step (s n z : Nat) (rest cs : List Nat) (h : stack_inv s n (z :: rest))
    (hlen : cs.length ≤ s) (hsorted : cs.Sorted (· ≤ ·)) (hpos : ∀ x ∈ cs, 1 ≤ x)
    (hsum : cs.sum ≤ z) : stack_inv s n (cs ++ rest) := by
  obtain ⟨T, Gs, e, hT, hTl, hTs, hTp, hg, hn⟩ := h
  cases T with
  | nil =>
    have := hT rfl
    subst this
    simp at e
  | cons t T1 =>
    simp only [List.cons_append, List.cons.injEq] at e
    obtain ⟨rfl, rfl⟩ := e
    have hn1 : (cs ++ (T1 ++ Gs.flatten)).sum ≤ n := by
      simp only [List.sum_cons, List.sum_append] at hn ⊢
      omega
    have hT1s : T1.Sorted (· ≤ ·) := (List.sorted_cons.mp hTs).2
    have hT1p : ∀ x ∈ T1, 1 ≤ x := fun x hx => hTp x (List.mem_cons_of_mem _ hx)
    have hT1l : T1.length + 1 ≤ s := by simpa using hTl
    have hge : ∀ x ∈ T1, z ≤ x := (List.sorted_cons.mp hTs).1
    simp only [List.sum_cons] at hg
    cases cs with
    | nil =>
      cases T1 with
      | nil =>
        cases Gs with
        | nil => exact ⟨[], [], by simp, fun _ => rfl, Nat.zero_le _, List.sorted_nil,
            fun x hx => by simp at hx, trivial, by simp⟩
        | cons G Gs1 =>
          obtain ⟨a, b, c, d, e1⟩ := hg
          refine ⟨G, Gs1, by simp, fun h0 => absurd h0 a, by omega, c,
            fun x hx => (d x hx).2, groups_ok_mono s _ _ Gs1 (by omega) e1, hn1⟩
      | cons t1 T2 =>
        refine ⟨t1 :: T2, Gs, by simp, fun h0 => by simp at h0, by omega, hT1s, hT1p,
          groups_ok_mono s _ _ Gs (by omega) hg, hn1⟩
    | cons c cs1 =>
      cases T1 with
      | nil =>
        refine ⟨c :: cs1, Gs, by simp, fun h0 => by simp at h0, hlen, hsorted, hpos,
          groups_ok_mono s _ _ Gs (by simp only [List.sum_nil, Nat.add_zero]; exact hsum) hg,
          hn1⟩
      | cons t1 T2 =>
        refine ⟨c :: cs1, (t1 :: T2) :: Gs, by simp, fun h0 => by simp at h0, hlen, hsorted,
          hpos, ⟨by simp, hT1l, hT1s, fun x hx => ⟨le_trans hsum (hge x hx), hT1p x hx⟩,
            groups_ok_mono s _ _ Gs (by omega) hg⟩, hn1⟩

/-- The invariant bounds the number of entries on the stack. -/
theorem stack_inv_length (s n : Nat) (zs : List Nat) (h : stack_inv s n zs) :
    zs.length ≤ s * (Nat.log 2 n + 1) := by
  obtain ⟨T, Gs, e, hT, hTl, hTs, hTp, hg, hn⟩ := h
  cases T with
  | nil =>
    have := hT rfl
    subst this
    subst e
    simp
  | cons t T1 =>
    have ht : 1 ≤ (t :: T1).sum := by
      have := hTp t (List.mem_cons_self t T1)
      simp only [List.sum_cons]
      omega
    have hp := groups_ok_pow s _ Gs ht hg
    have hl := groups_ok_length s _ Gs hg
    have h2 : 2 ^ Gs.length ≤ n := by
      have : 1 * 2 ^ Gs.length ≤ (t :: T1).sum * 2 ^ Gs.length := Nat.mul_le_mul_right _ ht
      rw [e] at hn
      simp only [List.sum_append] at hn
      omega
    have h3 : Gs.length ≤ Nat.log 2 n := Nat.le_log_of_pow_le (by omega) h2
    rw [e, List.length_append]
    have h4 : s * Gs.length ≤ s * Nat.log 2 n := Nat.mul_le_mul_left s h3
    rw [Nat.mul_succ]
    omega

/-! ## Sizes of the children under left extension -/

theorem sym_count_total (X : List Sym) :
    X.count .TERM + X.count .A + X.count .C + X.count .G + X.count .N + X.count .T =
      X.length := by
  induction X with
  | nil => rfl
  | cons a X ih =>
    cases a <;> simp [List.count_cons] <;> omega

/-- The occurrences of `c` between two positions. -/
theorem LF_pos_diff (B : List Sym) (c : Sym) (l r : Nat) :
    bwt_LF_pos B c r - bwt_LF_pos B c l ≤ ((B.take r).drop l).count c := by
  unfold bwt_LF_pos bwt_rank
  by_cases h : l ≤ r
  · have e : B.take l = (B.take r).take l := by
      rw [List.take_take, Nat.min_eq_left h]
    have e2 : (B.take r).count c =
        ((B.take r).take l).count c + ((B.take r).drop l).count c := by
      rw [← List.count_append, List.take_append_drop]
    rw [e]
    omega
  · have := bwt_LF_pos_mono B c r l (by omega)
    unfold bwt_LF_pos bwt_rank at this
    omega

theorem take_drop_length (B : List Sym) (l r : Nat) : ((B.take r).drop l).length ≤ r - l := by
  rw [List.length_drop, List.length_take]
  omega

/-- The ranges of the four left extensions of a range are together not longer than the
range. -/
theorem LF_sum4 (B : List Sym) (l r : Nat) :
    (bwt_LF_pos B .A r - bwt_LF_pos B .A l) + (bwt_LF_pos B .C r - bwt_LF_pos B .C l) +
      (bwt_LF_pos B .G r - bwt_LF_pos B .G l) + (bwt_LF_pos B .T r - bwt_LF_pos B .T l) ≤
        r - l := by
  have a := LF_pos_diff B .A l r
  have c := LF_pos_diff B .C l r
  have g := LF_pos_diff B .G l r
  have t := LF_pos_diff B .T l r
  have tot := sym_count_total ((B.take r).drop l)
  have len := take_drop_length B l r
  omega

theorem LF_sum5 (B : List Sym) (l r : Nat) :
    (bwt_LF_pos B .A r - bwt_LF_pos B .A l) + (bwt_LF_pos B .C r - bwt_LF_pos B .C l) +
      (bwt_LF_pos B .G r - bwt_LF_pos B .G l) + (bwt_LF_pos B .N r - bwt_LF_pos B .N l) +
      (bwt_LF_pos B .T r - bwt_LF_pos B .T l) ≤ r - l := by
  have a := LF_pos_diff B .A l r
  have c := LF_pos_diff B .C l r
  have g := LF_pos_diff B .G l r
  have n := LF_pos_diff B .N l r
  have t := LF_pos_diff B .T l r
  have tot := sym_count_total ((B.take r).drop l)
  have len := take_drop_length B l r
  omega

theorem sum_map_filter_le {α : Type} (f : α → Nat) (p : α → Bool) (l : List α) :
    ((l.filter p).map f).sum ≤ (l.map f).sum := by
  induction l with
  | nil => simp
  | cons a l ih =>
    by_cases h : p a = true
    · simp only [List.filter_cons_of_pos h, List.map_cons, List.sum_cons]
      omega
    · simp only [List.filter_cons_of_neg h, List.map_cons, List.sum_cons]
      omega

theorem sorted_map_key {α : Type} (key : α → Nat) (l : List α)
    (h : l.Sorted (fun x y => key x ≤ key y)) : (l.map key).Sorted (· ≤ ·) := by
  unfold List.Sorted at h ⊢
  rw [List.pairwise_map]
  exact h

/-- The sizes of the pairs of leaves that `next_leaves` returns: at most four, in
non-decreasing order, each at least `min_size`, and together at most the size of the pair
they extend. -/
theorem next_leaves_sizes (B1 B2 : List Sym) (L1 L2 : sa_leaf) (k : Nat)
    (TMP : List (sa_leaf × sa_leaf)) (h : next_leaves B1 B2 L1 L2 k = some TMP) :
    TMP.length ≤ 4 ∧ (TMP.map leaf_pair_len).Sorted (· ≤ ·) ∧
      (∀ x ∈ TMP.map leaf_pair_len, k ≤ x) ∧
      (TMP.map leaf_pair_len).sum ≤ leaf_pair_len (L1, L2) := by
  have e := next_leaves_some B1 B2 L1 L2 k TMP h
  have hperm : TMP.Perm (lf_candidates [.A, .C, .G, .T] B1 B2 L1 L2 k) := by
    rw [e]
    exact sort_by_key_perm _ _
  refine ⟨?_, ?_, ?_, ?_⟩
  · rw [hperm.length_eq]
    exact lf_candidates_length _ B1 B2 L1 L2 k
  · rw [e]
    exact sorted_map_key _ _ (sort_by_key_sorted _ _)
  · intro x hx
    obtain ⟨P, hP, rfl⟩ := List.mem_map.mp hx
    have := hperm.mem_iff.mp hP
    unfold lf_candidates at this
    simpa using (List.mem_filter.mp this).2
  · rw [(hperm.map leaf_pair_len).sum_eq]
    unfold lf_candidates
    refine le_trans (sum_map_filter_le _ _ _) ?_
    have s1 := LF_sum4 B1 L1.rn.first L1.rn.second
    have s2 := LF_sum4 B2 L2.rn.first L2.rn.second
    simp only [List.map_cons, List.map_nil, List.sum_cons, List.sum_nil, lf_pair,
      leaf_pair_len, range_len]
    omega

theorem next_leaves_n_sizes (B1 B2 : List Sym) (L1 L2 : sa_leaf) (k : Nat)
    (TMP : List (sa_leaf × sa_leaf)) (h : next_leaves_n B1 B2 L1 L2 k = some TMP) :
    TMP.length ≤ 5 ∧ (TMP.map leaf_pair_len).Sorted (· ≤ ·) ∧
      (∀ x ∈ TMP.map leaf_pair_len, k ≤ x) ∧
      (TMP.map leaf_pair_len).sum ≤ leaf_pair_len (L1, L2) := by
  have e := next_leaves_n_some B1 B2 L1 L2 k TMP h
  have hperm : TMP.Perm (lf_candidates [.A, .C, .G, .N, .T] B1 B2 L1 L2 k) := by
    rw [e]
    exact sort_by_key_perm _ _
  refine ⟨?_, ?_, ?_, ?_⟩
  · rw [hperm.length_eq]
    exact lf_candidates_length _ B1 B2 L1 L2 k
  · rw [e]
    exact sorted_map_key _ _ (sort_by_key_sorted _ _)
  · intro x hx
    obtain ⟨P, hP, rfl⟩ := List.mem_map.mp hx
    have := hperm.mem_iff.mp hP
    unfold lf_candidates at this
    simpa using (List.mem_filter.mp this).2
  · rw [(hperm.map leaf_pair_len).sum_eq]
    unfold lf_candidates
    refine le_trans (sum_map_filter_le _ _ _) ?_
    have s1 := LF_sum5 B1 L1.rn.first L1.rn.second
    have s2 := LF_sum5 B2 L2.rn.first L2.rn.second
    simp only [List.map_cons, List.map_nil, List.sum_cons, List.sum_nil, lf_pair,
      leaf_pair_len, range_len]
    omega

/-- A pair of well-formed nodes whose union has a non-empty child is not empty. -/
theorem node_size_pair_pos (P : sa_node × sa_node) (h1 : well_formed P.1)
    (h2 : well_formed P.2) (h : 1 ≤ number_of_children_pair P) : 1 ≤ node_size_pair P := by
  obtain ⟨a0, a1, a2, a3, a4⟩ := h1
  obtain ⟨b0, b1, b2, b3, b4⟩ := h2
  by_contra hc
  have hz : node_size P.1 = 0 ∧ node_size P.2 = 0 := by
    unfold node_size_pair at hc
    omega
  unfold node_size at hz
  have e : number_of_children_pair P = 0 := by
    unfold number_of_children_pair number_of_children2 b2n
    have c1 : ¬ P.1.last > P.1.first_T := by omega
    have c2 : ¬ P.1.first_T > P.1.first_G := by omega
    have c3 : ¬ P.1.first_G > P.1.first_C := by omega
    have c4 : ¬ P.1.first_C > P.1.first_A := by omega
    have c5 : ¬ P.1.first_A > P.1.first_TERM := by omega
    have d1 : ¬ P.2.last > P.2.first_T := by omega
    have d2 : ¬ P.2.first_T > P.2.first_G := by omega
    have d3 : ¬ P.2.first_G > P.2.first_C := by omega
    have d4 : ¬ P.2.first_C > P.2.first_A := by omega
    have d5 : ¬ P.2.first_A > P.2.first_TERM := by omega
    simp [c1, c2, c3, c4, c5, d1, d2, d3, d4, d5]
  omega

theorem node_size_pair_n_pos (P : sa_node_n × sa_node_n) (h1 : well_formed_n P.1)
    (h2 : well_formed_n P.2) (h : 1 ≤ number_of_children_pair_n P) :
    1 ≤ node_size_pair_n P := by
  obtain ⟨a0, a1, a2, a3, a4, a5⟩ := h1
  obtain ⟨b0, b1, b2, b3, b4, b5⟩ := h2
  by_contra hc
  have hz : node_size_n P.1 = 0 ∧ node_size_n P.2 = 0 := by
    unfold node_size_pair_n at hc
    omega
  unfold node_size_n at hz
  have e : number_of_children_pair_n P = 0 := by
    unfold number_of_children_pair_n number_of_children2_n b2n
    have c1 : ¬ P.1.last > P.1.first_T := by omega
    have c2 : ¬ P.1.first_T > P.1.first_N := by omega
    have c6 : ¬ P.1.first_N > P.1.first_G := by omega
    have c3 : ¬ P.1.first_G > P.1.first_C := by omega
    have c4 : ¬ P.1.first_C > P.1.first_A := by omega
    have c5 : ¬ P.1.first_A > P.1.first_TERM := by omega
    have d1 : ¬ P.2.last > P.2.first_T := by omega
    have d2 : ¬ P.2.first_T > P.2.first_N := by omega
    have d6 : ¬ P.2.first_N > P.2.first_G := by omega
    have d3 : ¬ P.2.first_G > P.2.first_C := by omega
    have d4 : ¬ P.2.first_C > P.2.first_A := by omega
    have d5 : ¬ P.2.first_A > P.2.first_TERM := by omega
    simp [c1, c2, c3, c4, c5, c6, d1, d2, d3, d4, d5, d6]
  omega

/-- The sizes of the pairs of nodes that `next_nodes` returns for well-formed nodes. -/
theorem next_nodes_sizes (B1 B2 : List Sym) (N1 N2 : sa_node) (h1 : well_formed N1)
    (h2 : well_formed N2) :
    (next_nodes B1 B2 N1 N2).length ≤ 4 ∧
      ((next_nodes B1 B2 N1 N2).map node_size_pair).Sorted (· ≤ ·) ∧
      (∀ x ∈ (next_nodes B1 B2 N1 N2).map node_size_pair, 1 ≤ x) ∧
      ((next_nodes B1 B2 N1 N2).map node_size_pair).sum ≤ node_size_pair (N1, N2) := by
  have e := next_nodes_sorted_candidates B1 B2 N1 N2
  have hperm : (next_nodes B1 B2 N1 N2).Perm
      (lf_node_candidates [.A, .C, .G, .T] B1 B2 N1 N2) := by
    rw [e]
    exact sort_by_key_perm _ _
  refine ⟨?_, ?_, ?_, ?_⟩
  · rw [hperm.length_eq]
    exact lf_node_candidates_length _ B1 B2 N1 N2
  · rw [e]
    exact sorted_map_key _ _ (sort_by_key_sorted _ _)
  · intro x hx
    obtain ⟨P, hP, rfl⟩ := List.mem_map.mp hx
    obtain ⟨w1, w2⟩ := next_nodes_wf B1 B2 N1 N2 h1 h2 P hP
    obtain ⟨c, -, -, hk⟩ := (mem_next_nodes B1 B2 N1 N2 P).mp hP
    exact node_size_pair_pos P w1 w2 (by omega)
  · rw [(hperm.map node_size_pair).sum_eq]
    unfold lf_node_candidates
    refine le_trans (sum_map_filter_le _ _ _) ?_
    have s1 := LF_sum4 B1 N1.first_TERM N1.last
    have s2 := LF_sum4 B2 N2.first_TERM N2.last
    simp only [List.map_cons, List.map_nil, List.sum_cons, List.sum_nil, lf_node_pair,
      node_size_pair, node_size, bwt_LF_node1]
    omega

theorem next_nodes_n_sizes (B1 B2 : List Sym) (N1 N2 : sa_node_n) (h1 : well_formed_n N1)
    (h2 : well_formed_n N2) :
    (next_nodes_n B1 B2 N1 N2).length ≤ 5 ∧
      ((next_nodes_n B1 B2 N1 N2).map node_size_pair_n).Sorted (· ≤ ·) ∧
      (∀ x ∈ (next_nodes_n B1 B2 N1 N2).map node_size_pair_n, 1 ≤ x) ∧
      ((next_nodes_n B1 B2 N1 N2).map node_size_pair_n).sum ≤ node_size_pair_n (N1, N2) := by
  have e := next_nodes_n_sorted_candidates B1 B2 N1 N2
  have hperm : (next_nodes_n B1 B2 N1 N2).Perm
      (lf_node_candidates_n [.A, .C, .G, .N, .T] B1 B2 N1 N2) := by
    rw [e]
    exact sort_by_key_perm _ _
  refine ⟨?_, ?_, ?_, ?_⟩
  · rw [hperm.length_eq]
    exact lf_node_candidates_n_length _ B1 B2 N1 N2
  · rw [e]
    exact sorted_map_key _ _ (sort_by_key_sorted _ _)
  · intro x hx
    obtain ⟨P, hP, rfl⟩ := List.mem_map.mp hx
    obtain ⟨w1, w2⟩ := next_nodes_n_wf B1 B2 N1 N2 h1 h2 P hP
    obtain ⟨c, -, -, hk⟩ := (mem_next_nodes_n B1 B2 N1 N2 P).mp hP
    exact node_size_pair_n_pos P w1 w2 (by omega)
  · rw [(hperm.map node_size_pair_n).sum_eq]
    unfold lf_node_candidates_n
    refine le_trans (sum_map_filter_le _ _ _) ?_
    have s1 := LF_sum5 B1 N1.first_TERM N1.last
    have s2 := LF_sum5 B2 N2.first_TERM N2.last
    simp only [List.map_cons, List.map_nil, List.sum_cons, List.sum_nil, lf_node_pair_n,
      node_size_pair_n, node_size_n, bwt_LF_node1_n]
    omega

/-! ## The stack of the merger -/

theorem bwt_C_mono (B : List Sym) (c d : Sym) (h : c.code ≤ d.code) :
    bwt_C B c ≤ bwt_C B d := by
  unfold bwt_C
  apply List.countP_mono_left
  intro x _ hx
  simp only [decide_eq_true_eq] at hx ⊢
  omega

theorem bwt_C_le (B : List Sym) (c : Sym) : bwt_C B c ≤ B.length :=
  List.countP_le_length _

theorem bwt_root_wf (B : List Sym) : well_formed (bwt_root B) :=
  ⟨Nat.zero_le _, bwt_C_mono B .A .C (by decide), bwt_C_mono B .C .G (by decide),
    bwt_C_mono B .G .T (by decide), bwt_C_le B .T⟩

theorem bwt_root_n_wf (B : List Sym) : well_formed_n (bwt_root_n B) :=
  ⟨Nat.zero_le _, bwt_C_mono B .A .C (by decide), bwt_C_mono B .C .G (by decide),
    bwt_C_mono B .G .N (by decide), bwt_C_mono B .N .T (by decide), bwt_C_le B .T⟩

theorem merge_init_stack (w : Nat) (B1 B2 : List Sym) (c : Bool) (s0 : MLeafState)
    (h : merge_init w B1 B2 c = some s0) : s0.S = [(bwt_first_leaf B1, bwt_first_leaf B2)] := by
  unfold merge_init at h
  simp only at h
  split at h
  · split at h
    · cases h
    · cases h
      rfl
  · cases h
    rfl

/-- An iteration of the first loop of the merger pops a pair of positive size. -/
theorem merge_leaf_step_pos (w : Nat) (B1 B2 : List Sym) (c : Bool) (L : sa_leaf × sa_leaf)
    (rest : List (sa_leaf × sa_leaf)) (s s1 : MLeafState) (hS : s.S = L :: rest)
    (h : merge_leaf_step w B1 B2 c s = some s1) : 1 ≤ leaf_pair_len L := by
  unfold merge_leaf_step at h
  rw [hS] at h
  simp only at h
  split at h
  · cases h
  · rename_i sz hsz
    split at h
    · rename_i hpos
      unfold leaf_size_pair leaf_size range_length at hsz
      unfold leaf_pair_len
      split at hsz
      · rename_i a b ha hb
        split at ha
        · split at hb
          · cases ha
            cases hb
            cases hsz
            exact hpos
          · cases hb
        · cases ha
      · cases hsz
    · cases h

theorem merge_leaf_step_n_pos (w : Nat) (B1 B2 : List Sym) (c : Bool) (L : sa_leaf × sa_leaf)
    (rest : List (sa_leaf × sa_leaf)) (s s1 : MLeafState) (hS : s.S = L :: rest)
    (h : merge_leaf_step_n w B1 B2 c s = some s1) : 1 ≤ leaf_pair_len L := by
  unfold merge_leaf_step_n at h
  rw [hS] at h
  simp only at h
  split at h
  · cases h
  · rename_i sz hsz
    split at h
    · rename_i hpos
      unfold leaf_size_pair leaf_size range_length at hsz
      unfold leaf_pair_len
      split at hsz
      · rename_i a b ha hb
        split at ha
        · split at hb
          · cases ha
            cases hb
            cases hsz
            exact hpos
          · cases hb
        · cases ha
      · cases hsz
    · cases h

theorem min_size_pos (c : Bool) : 1 ≤ (if c = true then 2 else 1) := by
  split <;> omega

/-- The first loop of the merger keeps the invariant of the stack of sizes. -/
theorem merge_leaf_step_stack (w n : Nat) (B1 B2 : List Sym) (c : Bool) (s s1 : MLeafState)
    (hI : stack_inv 4 n (s.S.map leaf_pair_len))
    (h : merge_leaf_step w B1 B2 c s = some s1) :
    stack_inv 4 n (s1.S.map leaf_pair_len) := by
  cases hS : s.S with
  | nil =>
    unfold merge_leaf_step at h
    rw [hS] at h
    cases h
  | cons L rest =>
    have e : s = { S := L :: rest, v := s.v } := by
      cases s
      simp only at hS
      rw [hS]
    rw [e] at h
    obtain ⟨TMP, hT, hs1⟩ := merge_leaf_step_push w B1 B2 c L rest s.v s1 h
    obtain ⟨a1, a2, a3, a4⟩ := next_leaves_sizes B1 B2 L.1 L.2 _ TMP hT
    rw [hS, List.map_cons] at hI
    rw [hs1, List.map_append]
    exact stack_inv_step 4 n _ _ _ hI (by rw [List.length_map]; exact a1) a2
      (fun x hx => le_trans (min_size_pos c) (a3 x hx)) a4

theorem merge_leaf_step_n_stack (w n : Nat) (B1 B2 : List Sym) (c : Bool)
    (s s1 : MLeafState) (hI : stack_inv 5 n (s.S.map leaf_pair_len))
    (h : merge_leaf_step_n w B1 B2 c s = some s1) :
    stack_inv 5 n (s1.S.map leaf_pair_len) := by
  cases hS : s.S with
  | nil =>
    unfold merge_leaf_step_n at h
    rw [hS] at h
    cases h
  | cons L rest =>
    have e : s = { S := L :: rest, v := s.v } := by
      cases s
      simp only at hS
      rw [hS]
    rw [e] at h
    obtain ⟨TMP, hT, hs1⟩ := merge_leaf_step_n_push w B1 B2 c L rest s.v s1 h
    obtain ⟨a1, a2, a3, a4⟩ := next_leaves_n_sizes B1 B2 L.1 L.2 _ TMP hT
    rw [hS, List.map_cons] at hI
    rw [hs1, List.map_append]
    exact stack_inv_step 5 n _ _ _ hI (by rw [List.length_map]; exact a1) a2
      (fun x hx => le_trans (min_size_pos c) (a3 x hx)) a4

theorem merge_node_step_stack_eq (w : Nat) (B1 B2 : List Sym) (N : sa_node × sa_node)
    (rest : List (sa_node × sa_node)) (s s1 : MNodeState) (hS : s.S = N :: rest)
    (h : merge_node_step w B1 B2 s = some s1) :
    s1.S = next_nodes B1 B2 N.1 N.2 ++ rest := by
  unfold merge_node_step at h
  rw [hS] at h
  simp only at h
  split at h
  · cases h
  · split at h
    · cases h
    · split at h
      · cases h
      · rw [← Option.some.inj h]

theorem merge_node_step_n_stack_eq (w : Nat) (B1 B2 : List Sym) (N : sa_node_n × sa_node_n)
    (rest : List (sa_node_n × sa_node_n)) (s s1 : MNodeState_n) (hS : s.S = N :: rest)
    (h : merge_node_step_n w B1 B2 s = some s1) :
    s1.S = next_nodes_n B1 B2 N.1 N.2 ++ rest := by
  unfold merge_node_step_n at h
  rw [hS] at h
  simp only at h
  split at h
  · cases h
  · split at h
    · cases h
    · split at h
      · cases h
      · rw [← Option.some.inj h]

/-- The second loop of the merger keeps the invariant of the stack of sizes. -/
theorem merge_node_step_stack (w n : Nat) (B1 B2 : List Sym) (s s1 : MNodeState)
    (hI : stack_inv 4 n (s.S.map node_size_pair) ∧
      ∀ N ∈ s.S, well_formed N.1 ∧ well_formed N.2)
    (h : merge_node_step w B1 B2 s = some s1) :
    stack_inv 4 n (s1.S.map node_size_pair) ∧
      ∀ N ∈ s1.S, well_formed N.1 ∧ well_formed N.2 := by
  obtain ⟨hI, hwf⟩ := hI
  cases hS : s.S with
  | nil =>
    unfold merge_node_step at h
    rw [hS] at h
    cases h
  | cons N rest =>
    have hs1 := merge_node_step_stack_eq w B1 B2 N rest s s1 hS h
    rw [hS] at hwf hI
    obtain ⟨w1, w2⟩ := hwf N (List.mem_cons_self N rest)
    obtain ⟨a1, a2, a3, a4⟩ := next_nodes_sizes B1 B2 N.1 N.2 w1 w2
    rw [List.map_cons] at hI
    rw [hs1, List.map_append]
    refine ⟨stack_inv_step 4 n _ _ _ hI (by rw [List.length_map]; exact a1) a2 a3 a4,
      fun P hP => ?_⟩
    rcases List.mem_append.mp hP with hc | hr
    · exact next_nodes_wf B1 B2 N.1 N.2 w1 w2 P hc
    · exact hwf P (List.mem_cons_of_mem N hr)

theorem merge_node_step_n_stack (w n : Nat) (B1 B2 : List Sym) (s s1 : MNodeState_n)
    (hI : stack_inv 5 n (s.S.map node_size_pair_n) ∧
      ∀ N ∈ s.S, well_formed_n N.1 ∧ well_formed_n N.2)
    (h : merge_node_step_n w B1 B2 s = some s1) :
    stack_inv 5 n (s1.S.map node_size_pair_n) ∧
      ∀ N ∈ s1.S, well_formed_n N.1 ∧ well_formed_n N.2 := by
  obtain ⟨hI, hwf⟩ := hI
  cases hS : s.S with
  | nil =>
    unfold merge_node_step_n at h
    rw [hS] at h
    cases h
  | cons N rest =>
    have hs1 := merge_node_step_n_stack_eq w B1 B2 N rest s s1 hS h
    rw [hS] at hwf hI
    obtain ⟨w1, w2⟩ := hwf N (List.mem_cons_self N rest)
    obtain ⟨a1, a2, a3, a4⟩ := next_nodes_n_sizes B1 B2 N.1 N.2 w1 w2
    rw [List.map_cons] at hI
    rw [hs1, List.map_append]
    refine ⟨stack_inv_step 5 n _ _ _ hI (by rw [List.length_map]; exact a1) a2 a3 a4,
      fun P hP => ?_⟩
    rcases List.mem_append.mp hP with hc | hr
    · exact next_nodes_n_wf B1 B2 N.1 N.2 w1 w2 P hc
    · exact hwf P (List.mem_cons_of_mem N hr)

theorem first_leaf_pair_len (B1 B2 : List Sym) :
    leaf_pair_len (bwt_first_leaf B1, bwt_first_leaf B2) ≤ B1.length + B2.length := by
  unfold leaf_pair_len bwt_first_leaf range_len
  have := bwt_C_le B1 .A
  have := bwt_C_le B2 .A
  simp only
  omega

/-- A loop that starts with one entry on its stack and keeps an invariant as soon as its
first iteration completes has that invariant in every later state. -/
theorem loop_state_from_first {σ : Type} (step : σ → Option σ) (fin : σ → Bool)
    (I : σ → Prop) (hstep : ∀ s s1, I s → step s = some s1 → I s1)
    (s0 : σ) (h0 : ∀ s1, step s0 = some s1 → I s0) (j : Nat) (s : σ)
    (h : loop_state step fin (j + 1) s0 = some s) : I s := by
  have h' := h
  rw [loop_state] at h'
  by_cases hf : fin s0 = true
  · simp [hf] at h'
  · simp only [hf, Bool.false_eq_true, if_false] at h'
    obtain ⟨s1, hs1, -⟩ := Option.bind_eq_some.mp h'
    exact loop_state_invariant step fin I (fun a b ha _ hb => hstep a b ha hb) (j + 1) s0 s
      (h0 s1 hs1) h

/-! ## The first pass of the merger on arbitrary sequences -/

theorem bwt_C_count_lt (B : List Sym) (c d : Sym) (h : c.code < d.code) :
    bwt_C B c + B.count c ≤ bwt_C B d := by
  induction B with
  | nil => simp [bwt_C]
  | cons b B ih =>
    unfold bwt_C at ih ⊢
    rw [List.countP_cons, List.countP_cons, List.count_cons]
    generalize List.countP (fun b => decide (b.code < c.code)) B = x at ih ⊢
    generalize List.countP (fun b => decide (b.code < d.code)) B = y at ih ⊢
    generalize List.count c B = z at ih ⊢
    cases b <;> cases c <;> cases d <;> simp [Sym.code] at h ⊢ <;> omega

theorem bwt_C_count_le (B : List Sym) (c : Sym) : bwt_C B c + B.count c ≤ B.length := by
  induction B with
  | nil => simp [bwt_C]
  | cons b B ih =>
    unfold bwt_C at ih ⊢
    rw [List.countP_cons, List.count_cons, List.length_cons]
    generalize List.countP (fun b => decide (b.code < c.code)) B = x at ih ⊢
    generalize List.count c B = z at ih ⊢
    cases b <;> cases c <;> simp [Sym.code] <;> omega

theorem bwt_rank_le (B : List Sym) (c : Sym) (i : Nat) : bwt_rank B c i ≤ B.count c :=
  (List.take_sublist i B).count_le c

theorem bwt_LF_pos_le (B : List Sym) (c : Sym) (i : Nat) : bwt_LF_pos B c i ≤ B.length := by
  have h1 := bwt_rank_le B c i
  have h2 := bwt_C_count_le B c
  unfold bwt_LF_pos
  omega

theorem lf_leaf_depth (B : List Sym) (W : List Sym) : (lf_leaf B W).depth = W.length + 1 := by
  induction W with
  | nil => rfl
  | cons c W ih => simp [lf_leaf, ih]

theorem lf_leaf_wf (B : List Sym) (W : List Sym) :
    (lf_leaf B W).rn.first ≤ (lf_leaf B W).rn.second ∧ (lf_leaf B W).rn.second ≤ B.length := by
  induction W with
  | nil => exact ⟨Nat.zero_le _, bwt_C_le B .A⟩
  | cons c W ih => exact ⟨bwt_LF_pos_mono B c _ _ ih.1, bwt_LF_pos_le B c _⟩

/-- The leaves of two different strings without `TERM` are ordered the same way in every
sequence. -/
theorem lf_leaf_order (U U1 : List Sym) (hU : Sym.TERM ∉ U) (hU1 : Sym.TERM ∉ U1)
    (hne : U ≠ U1) :
    (∀ B, (lf_leaf B U).rn.second ≤ (lf_leaf B U1).rn.first) ∨
      (∀ B, (lf_leaf B U1).rn.second ≤ (lf_leaf B U).rn.first) := by
  induction U generalizing U1 with
  | nil =>
    cases U1 with
    | nil => exact absurd rfl hne
    | cons c V =>
      left
      intro B
      have hc : c ≠ .TERM := fun h => hU1 (h ▸ List.mem_cons_self _ _)
      have h1 : bwt_C B .A ≤ bwt_C B c :=
        bwt_C_mono B .A c (by cases c <;> simp [Sym.code] at hc ⊢)
      show bwt_C B .A ≤ bwt_LF_pos B c _
      unfold bwt_LF_pos
      omega
  | cons c V ih =>
    cases U1 with
    | nil =>
      right
      intro B
      have hc : c ≠ .TERM := fun h => hU (h ▸ List.mem_cons_self _ _)
      have h1 : bwt_C B .A ≤ bwt_C B c :=
        bwt_C_mono B .A c (by cases c <;> simp [Sym.code] at hc ⊢)
      show bwt_C B .A ≤ bwt_LF_pos B c _
      unfold bwt_LF_pos
      omega
    | cons c1 V1 =>
      by_cases hcc : c = c1
      · subst hcc
        have hV : V ≠ V1 := fun h => hne (by rw [h])
        rcases ih V1 (fun h => hU (List.mem_cons_of_mem _ h))
          (fun h => hU1 (List.mem_cons_of_mem _ h)) hV with h | h
        · exact Or.inl fun B => bwt_LF_pos_mono B c _ _ (h B)
        · exact Or.inr fun B => bwt_LF_pos_mono B c _ _ (h B)
      · rcases Nat.lt_or_gt_of_ne (fun h => hcc (code_inj c c1 h)) with h | h
        · left
          intro B
          have h1 := bwt_C_count_lt B c c1 h
          have h2 := bwt_rank_le B c (lf_leaf B V).rn.second
          show bwt_LF_pos B c _ ≤ bwt_LF_pos B c1 _
          unfold bwt_LF_pos
          omega
        · right
          intro B
          have h1 := bwt_C_count_lt B c1 c h
          have h2 := bwt_rank_le B c1 (lf_leaf B V1).rn.second
          show bwt_LF_pos B c1 _ ≤ bwt_LF_pos B c _
          unfold bwt_LF_pos
          omega

/-- Pairwise ordered intervals inside `[0, n)` have total length at most `n`. -/
theorem intervals_sum_le (n : Nat) (l : List (Nat × Nat))
    (hb : ∀ p ∈ l, p.1 ≤ p.2 ∧ p.2 ≤ n)
    (hp : l.Pairwise fun p q => p.2 ≤ q.1 ∨ q.2 ≤ p.1) :
    (l.map fun p => p.2 - p.1).sum ≤ n := by
  suffices h : ∃ F : Finset Nat, F ⊆ Finset.range n ∧ F.card = (l.map fun p => p.2 - p.1).sum ∧
      ∀ x ∈ F, ∃ p ∈ l, p.1 ≤ x ∧ x < p.2 by
    obtain ⟨F, hF, hc, -⟩ := h
    have := Finset.card_le_card hF
    rw [Finset.card_range] at this
    omega
  induction l with
  | nil => exact ⟨∅, by simp, by simp, by simp⟩
  | cons p l ih =>
    obtain ⟨hp1, hp2⟩ := List.pairwise_cons.mp hp
    obtain ⟨F, hF, hc, hx⟩ := ih (fun q hq => hb q (List.mem_cons_of_mem _ hq)) hp2
    have hpb := hb p (List.mem_cons_self _ _)
    have hd : Disjoint (Finset.Ico p.1 p.2) F := by
      rw [Finset.disjoint_left]
      intro x hx1 hx2
      obtain ⟨q, hq, h1, h2⟩ := hx x hx2
      have := hp1 q hq
      rw [Finset.mem_Ico] at hx1
      omega
    refine ⟨Finset.Ico p.1 p.2 ∪ F, ?_, ?_, ?_⟩
    · intro x hx1
      rw [Finset.mem_union] at hx1
      rcases hx1 with h | h
      · rw [Finset.mem_Ico] at h
        rw [Finset.mem_range]
        omega
      · exact hF h
    · rw [Finset.card_union_of_disjoint hd, Nat.card_Ico, hc]
      simp
    · intro x hx1
      rw [Finset.mem_union] at hx1
      rcases hx1 with h | h
      · rw [Finset.mem_Ico] at h
        exact ⟨p, List.mem_cons_self _ _, h.1, h.2⟩
      · obtain ⟨q, hq, h1, h2⟩ := hx x h
        exact ⟨q, List.mem_cons_of_mem _ hq, h1, h2⟩

/-- The leaves of distinct strings without `TERM` have combined length at most `n`. -/
theorem lf_sum_le (B1 B2 : List Sym) (Vs : List (List Sym)) (hn : Vs.Nodup)
    (hT : ∀ V ∈ Vs, Sym.TERM ∉ V) :
    (Vs.map fun V => leaf_pair_len (lf_leaf_pair B1 B2 V)).sum ≤ B1.length + B2.length := by
  have h := intervals_sum_le (B1.length + B2.length)
    (Vs.map fun V => ((lf_leaf B1 V).rn.first + (lf_leaf B2 V).rn.first,
      (lf_leaf B1 V).rn.second + (lf_leaf B2 V).rn.second))
    (by
      intro p hp
      obtain ⟨V, -, rfl⟩ := List.mem_map.mp hp
      have h1 := lf_leaf_wf B1 V
      have h2 := lf_leaf_wf B2 V
      simp only
      omega)
    (by
      rw [List.pairwise_map]
      have hn1 : Vs.Pairwise (· ≠ ·) := hn
      refine (List.Pairwise.and_mem.mp hn1).imp ?_
      rintro U U1 ⟨hU, hU1, hne⟩
      rcases lf_leaf_order U U1 (hT U hU) (hT U1 hU1) hne with h | h
      · left
        have h1 := h B1
        have h2 := h B2
        simp only
        omega
      · right
        have h1 := h B1
        have h2 := h B2
        simp only
        omega)
  rw [List.map_map] at h
  have he : (Vs.map fun V => leaf_pair_len (lf_leaf_pair B1 B2 V)) =
      Vs.map ((fun p : Nat × Nat => p.2 - p.1) ∘ fun V =>
        ((lf_leaf B1 V).rn.first + (lf_leaf B2 V).rn.first,
          (lf_leaf B1 V).rn.second + (lf_leaf B2 V).rn.second)) := by
    apply List.map_congr_left
    intro V _
    have h1 := lf_leaf_wf B1 V
    have h2 := lf_leaf_wf B2 V
    simp only [leaf_pair_len, lf_leaf_pair, range_len, Function.comp]
    omega
  rw [he]
  exact h
/-- The strings whose leaves an iteration of the first loop pushes after popping `W`. -/
theorem lf_children (B1 B2 : List Sym) (W : List Sym) (TMP : List (sa_leaf × sa_leaf))
    (h : next_leaves B1 B2 (lf_leaf B1 W) (lf_leaf B2 W) 1 = some TMP) :
    ∃ TMPs : List (List Sym), TMP = TMPs.map (lf_leaf_pair B1 B2) ∧ TMPs.Nodup ∧
      ∀ U ∈ TMPs, (∃ c, c ≠ Sym.TERM ∧ U = c :: W) ∧
        1 ≤ leaf_pair_len (lf_leaf_pair B1 B2 U) := by
  have h1 := next_leaves_some B1 B2 _ _ 1 TMP h
  have e1 : lf_candidates [.A, .C, .G, .T] B1 B2 (lf_leaf B1 W) (lf_leaf B2 W) 1 =
      ((([.A, .C, .G, .T] : List Sym).map fun c => c :: W).filter fun U =>
        decide (1 ≤ leaf_pair_len (lf_leaf_pair B1 B2 U))).map (lf_leaf_pair B1 B2) := by
    unfold lf_candidates
    rw [List.filter_map, List.filter_map, List.map_map]
    rfl
  rw [e1, sort_by_key_map] at h1
  refine ⟨_, h1, ?_, ?_⟩
  · refine (sort_by_key_perm _ _).nodup_iff.mpr (List.Nodup.filter _ ?_)
    simp
  · intro U hU
    have hU1 := (sort_by_key_perm _ _).mem_iff.mp hU
    rw [List.mem_filter] at hU1
    obtain ⟨hm, hs⟩ := hU1
    refine ⟨?_, by simpa using hs⟩
    simp only [List.map_cons, List.map_nil, List.mem_cons, List.mem_singleton,
      List.not_mem_nil, or_false] at hm
    rcases hm with rfl | rfl | rfl | rfl
    · exact ⟨.A, by simp, rfl⟩
    · exact ⟨.C, by simp, rfl⟩
    · exact ⟨.G, by simp, rfl⟩
    · exact ⟨.T, by simp, rfl⟩

/-- An iteration of the first loop without LCP on arbitrary sequences: it completes, pops the
leaf of `W`, counts its length and pushes leaves of new strings. -/
theorem leaf_trace_step (w : Nat) (B1 B2 : List Sym) (Vs : List (List Sym)) (W : List Sym)
    (rest : List (List Sym)) (st : MLeafState)
    (h : leaf_trace_inv B1 B2 Vs (W :: rest) st) :
    ∃ TMPs st1, merge_leaf_step w B1 B2 false st = some st1 ∧
      leaf_trace_inv B1 B2 (W :: Vs) (TMPs ++ rest) st1 ∧
      st1.v.da_values = st.v.da_values + leaf_pair_len (lf_leaf_pair B1 B2 W) ∧
      1 ≤ leaf_pair_len (lf_leaf_pair B1 B2 W) ∧
      st1.v.da_values ≤ B1.length + B2.length := by
  obtain ⟨hS, hnd, hT, hcl, hsz, hda, hlen⟩ := h
  have hw1 := lf_leaf_wf B1 W
  have hw2 := lf_leaf_wf B2 W
  have hWm : W ∈ Vs ++ W :: rest := by simp
  have hW1 := hsz W hWm
  have hWV : W ∉ Vs := by
    intro hm
    exact (List.nodup_append.mp hnd).2.2 hm (List.mem_cons_self _ _)
  have hnd1 : (W :: Vs).Nodup := List.nodup_cons.mpr ⟨hWV, (List.nodup_append.mp hnd).1⟩
  have hsum := lf_sum_le B1 B2 (W :: Vs) hnd1 (by
    intro V hV
    rcases List.mem_cons.mp hV with rfl | hV
    · exact hT _ hWm
    · exact hT V (List.mem_append_left _ hV))
  rw [List.map_cons, List.sum_cons, ← hda] at hsum
  have hlp : leaf_pair_len (lf_leaf_pair B1 B2 W) =
      (lf_leaf B1 W).rn.second + (lf_leaf B2 W).rn.second -
        ((lf_leaf B1 W).rn.first + (lf_leaf B2 W).rn.first) := by
    simp only [leaf_pair_len, lf_leaf_pair, range_len]
    omega
  obtain ⟨DA1, lv1, hu, hl1, -⟩ := update_DA_spec w (B1.length + B2.length) (lf_leaf B1 W)
    (lf_leaf B2 W) false st.v.DA st.v.LCP st.v.LCP st.v.lcp_values st.v.da_values hw1.1 hw2.1
    (by omega) (by omega) (by rw [lf_leaf_depth, lf_leaf_depth]) (by omega) (by simp)
  obtain ⟨TMP, hnl⟩ := next_leaves_returns B1 B2 (lf_leaf B1 W) (lf_leaf B2 W) 1 hw1.1 hw2.1
  obtain ⟨TMPs, hTMP, hTnd, hTm⟩ := lf_children B1 B2 W TMP hnl
  have hstep := merge_leaf_step_eq w B1 B2 false st (lf_leaf_pair B1 B2 W)
    (rest.map (lf_leaf_pair B1 B2)) (leaf_pair_len (lf_leaf_pair B1 B2 W)) DA1 st.v.LCP lv1
    (st.v.da_values + ((lf_leaf B1 W).rn.second + (lf_leaf B2 W).rn.second -
      ((lf_leaf B1 W).rn.first + (lf_leaf B2 W).rn.first))) TMP
    (by rw [hS, List.map_cons])
    (by
      simp only [leaf_size_pair, leaf_size, range_length, lf_leaf_pair, leaf_pair_len]
      rw [if_pos hw1.1, if_pos hw2.1])
    hW1 hu hnl
  have hnew : ∀ U ∈ TMPs, U ∉ Vs ++ W :: rest := by
    intro U hU hm
    obtain ⟨⟨c, -, rfl⟩, -⟩ := hTm U hU
    exact hWV (hcl c W hm)
  refine ⟨TMPs, _, hstep, ⟨?_, ?_, ?_, ?_, ?_, ?_, ?_⟩, ?_, hW1, ?_⟩
  · simp only [hTMP, List.map_append]
  · have hp : (W :: Vs ++ (TMPs ++ rest)).Perm (TMPs ++ (Vs ++ W :: rest)) := by
      rw [List.perm_iff_count]
      intro a
      simp only [List.count_append, List.count_cons, List.cons_append]
      omega
    rw [hp.nodup_iff, List.nodup_append]
    exact ⟨hTnd, hnd, fun U hU hm => hnew U hU hm⟩
  · intro U hU
    simp only [List.cons_append, List.mem_cons, List.mem_append] at hU
    rcases hU with rfl | hU | hU | hU
    · exact hT _ hWm
    · exact hT U (List.mem_append_left _ hU)
    · obtain ⟨⟨c, hc, rfl⟩, -⟩ := hTm U hU
      intro hm
      rcases List.mem_cons.mp hm with h | h
      · exact hc h.symm
      · exact hT _ hWm h
    · exact hT U (List.mem_append_right _ (List.mem_cons_of_mem _ hU))
  · intro c V hm
    simp only [List.cons_append, List.mem_cons, List.mem_append] at hm
    rcases hm with h | h | h | h
    · exact List.mem_cons_of_mem _ (hcl c V (h ▸ hWm))
    · exact List.mem_cons_of_mem _ (hcl c V (List.mem_append_left _ h))
    · obtain ⟨⟨c1, -, he⟩, -⟩ := hTm _ h
      rw [(List.cons.inj he).2]
      exact List.mem_cons_self _ _
    · exact List.mem_cons_of_mem _
        (hcl c V (List.mem_append_right _ (List.mem_cons_of_mem _ h)))
  · intro U hU
    simp only [List.cons_append, List.mem_cons, List.mem_append] at hU
    rcases hU with rfl | hU | hU | hU
    · exact hW1
    · exact hsz U (List.mem_append_left _ hU)
    · exact (hTm U hU).2
    · exact hsz U (List.mem_append_right _ (List.mem_cons_of_mem _ hU))
  · show st.v.da_values + _ = _
    rw [List.map_cons, List.sum_cons, ← hda, hlp]
    omega
  · exact hl1.trans hlen
  · show st.v.da_values + _ = _
    rw [hlp]
  · show st.v.da_values + _ ≤ _
    omega
theorem loop_state_add {σ : Type} (step : σ → Option σ) (fin : σ → Bool) (j k : Nat)
    (s0 : σ) :
    loop_state step fin (j + k) s0 = (loop_state step fin j s0).bind (loop_state step fin k) := by
  induction j generalizing s0 with
  | zero => simp [loop_state]
  | succ j ih =>
    rw [Nat.add_right_comm]
    simp only [loop_state]
    split
    · rfl
    · cases step s0 with
      | none => rfl
      | some s1 => simp only [Option.some_bind, ih]

/-- The state in which the first loop without LCP is entered, for sequences one of which
contains `TERM`. -/
theorem leaf_trace_init (w : Nat) (B1 B2 : List Sym) (hT : Sym.TERM ∈ B1 ∨ Sym.TERM ∈ B2)
    (s0 : MLeafState) (h0 : merge_init w B1 B2 false = some s0) :
    leaf_trace_inv B1 B2 [] [[]] s0 ∧ s0.v.da_values = 0 := by
  have hpos : ∀ B : List Sym, Sym.TERM ∈ B → 1 ≤ bwt_C B .A := by
    intro B hB
    unfold bwt_C
    exact List.countP_pos_iff.mpr ⟨Sym.TERM, hB, by simp [Sym.code]⟩
  simp only [merge_init, Bool.false_eq_true, if_false, Option.some.injEq] at h0
  subst h0
  refine ⟨⟨rfl, by simp, by simp, by simp, ?_, rfl, by simp⟩, rfl⟩
  intro W hW
  simp only [List.nil_append, List.mem_singleton] at hW
  subst hW
  show (bwt_C B1 .A - 0) + (bwt_C B2 .A - 0) ≥ 1
  rcases hT with h | h
  · have := hpos B1 h
    omega
  · have := hpos B2 h
    omega

/-- A state of the first loop that satisfies the ghost description and has a non-empty
stack has a string on top of the ghost stack. -/
theorem leaf_trace_top (B1 B2 : List Sym) (Vs Ws : List (List Sym)) (st : MLeafState)
    (h : leaf_trace_inv B1 B2 Vs Ws st) (hf : st.S.isEmpty = false) :
    ∃ W rest, Ws = W :: rest := by
  cases Ws with
  | nil =>
    rw [h.1] at hf
    simp at hf
  | cons W rest => exact ⟨W, rest, rfl⟩

theorem leaf_trace_states (w : Nat) (B1 B2 : List Sym) (s0 : MLeafState)
    (h0 : ∃ Vs Ws, leaf_trace_inv B1 B2 Vs Ws s0) (j : Nat) (s : MLeafState)
    (h : loop_state (merge_leaf_step w B1 B2 false) (fun s => s.S.isEmpty) j s0 = some s) :
    ∃ Vs Ws, leaf_trace_inv B1 B2 Vs Ws s := by
  refine loop_state_invariant _ _ (fun s => ∃ Vs Ws, leaf_trace_inv B1 B2 Vs Ws s) ?_ j s0 s
    h0 h
  rintro a b ⟨Vs, Ws, hI⟩ hf hb
  obtain ⟨W, rest, rfl⟩ := leaf_trace_top B1 B2 Vs Ws a hI hf
  obtain ⟨TMPs, st1, h1, hI1, -⟩ := leaf_trace_step w B1 B2 Vs W rest a hI
  rw [h1] at hb
  cases hb
  exact ⟨_, _, hI1⟩

/-- A string popped by an iteration of the first loop stays among the popped strings. -/
theorem leaf_trace_visited (w : Nat) (B1 B2 : List Sym) (Vs : List (List Sym)) (W : List Sym)
    (rest : List (List Sym)) (s : MLeafState) (h0 : leaf_trace_inv B1 B2 Vs (W :: rest) s)
    (d : Nat) (s1 : MLeafState)
    (h : loop_state (merge_leaf_step w B1 B2 false) (fun s => s.S.isEmpty) (d + 1) s =
      some s1) :
    ∃ Vs1 Ws1, leaf_trace_inv B1 B2 Vs1 Ws1 s1 ∧ W ∈ Vs1 := by
  induction d generalizing s1 with
  | zero =>
    obtain ⟨a, ha, -, hb⟩ := (loop_state_succ _ _ 0 s s1).mp h
    simp only [loop_state, Option.some.injEq] at ha
    subst ha
    obtain ⟨TMPs, st1, h1, hI1, -⟩ := leaf_trace_step w B1 B2 Vs W rest s h0
    rw [h1] at hb
    cases hb
    exact ⟨_, _, hI1, List.mem_cons_self _ _⟩
  | succ d ih =>
    obtain ⟨a, ha, hf, hb⟩ := (loop_state_succ _ _ (d + 1) s s1).mp h
    obtain ⟨Vs1, Ws1, hI, hm⟩ := ih a ha
    obtain ⟨W1, rest1, rfl⟩ := leaf_trace_top B1 B2 Vs1 Ws1 a hI hf
    obtain ⟨TMPs, st1, h1, hI1, -⟩ := leaf_trace_step w B1 B2 Vs1 W1 rest1 a hI
    rw [h1] at hb
    cases hb
    exact ⟨_, _, hI1, List.mem_cons_of_mem _ hm⟩

/-! ## Collections whose reads are all empty -/

theorem collection_pairs_all_empty (reads : List (List Sym)) (h : ∀ r ∈ reads, r = []) :
    ∀ p ∈ collection_pairs reads, p.1 = Sym.TERM := by
  induction reads with
  | nil => simp [collection_pairs]
  | cons r rs ih =>
    intro p hp
    have hr := h r (List.mem_cons_self _ _)
    subst hr
    simp only [collection_pairs, read_pairs, suffix_pairs, List.map_nil, List.nil_append,
      List.cons_append, List.mem_cons] at hp
    rcases hp with rfl | hp
    · rfl
    · exact ih (fun x hx => h x (List.mem_cons_of_mem _ hx)) p hp

theorem arrangement_all_term (reads : List (List Sym)) (P : List (Sym × List Nat))
    (hP : sorted_arrangement reads P) (h : ∀ r ∈ reads, r = []) :
    ∀ b ∈ P.map Prod.fst, b = Sym.TERM := by
  intro b hb
  obtain ⟨p, hp, rfl⟩ := List.mem_map.mp hb
  exact collection_pairs_all_empty reads h p (hP.1.mem_iff.mp hp)

theorem bwt_C_all_term (B : List Sym) (h : ∀ b ∈ B, b = Sym.TERM) (c : Sym)
    (hc : c ≠ Sym.TERM) : bwt_C B c = B.length := by
  unfold bwt_C
  rw [List.countP_eq_length]
  intro b hb
  rw [h b hb]
  cases c <;> simp [Sym.code] at hc ⊢

/-- The root of a sequence of terminators has the single child `TERM`. -/
theorem bwt_root_all_term (B : List Sym) (h : ∀ b ∈ B, b = Sym.TERM) :
    bwt_root B = ⟨0, B.length, B.length, B.length, B.length, B.length, 0⟩ := by
  unfold bwt_root
  rw [bwt_C_all_term B h .A (by simp), bwt_C_all_term B h .C (by simp),
    bwt_C_all_term B h .G (by simp), bwt_C_all_term B h .T (by simp)]

theorem one_child_root (n : Nat) : number_of_children ⟨0, n, n, n, n, n, 0⟩ ≤ 1 := by
  simp only [number_of_children, b2n, gt_iff_lt, lt_self_iff_false, decide_False,
    Bool.false_eq_true, if_false, Nat.zero_add]
  split <;> omega

/-- The second loop of `lcp::lcp` aborts on the root of a sequence of terminators. -/
theorem lcp_node_step_all_term (w : Nat) (B : List Sym) (h : ∀ b ∈ B, b = Sym.TERM)
    (s : NodeState) (rest : List sa_node) (hS : s.S = bwt_root B :: rest) :
    lcp_node_step w B s = none := by
  unfold lcp_node_step
  rw [hS]
  simp only
  cases hu : update_lcp w (bwt_root B) s.LCP s.lcp_values with
  | none => rfl
  | some r =>
    have h2 := (update_lcp_some w _ _ _ r hu).1.2.2.2.2
    rw [bwt_root_all_term B h] at h2
    have := one_child_root B.length
    omega

/-- The second loop of the merger aborts on the roots of two sequences of terminators. -/
theorem merge_node_step_all_term (w : Nat) (B1 B2 : List Sym)
    (h1 : ∀ b ∈ B1, b = Sym.TERM) (h2 : ∀ b ∈ B2, b = Sym.TERM) (s : MNodeState)
    (rest : List (sa_node × sa_node)) (hS : s.S = (bwt_root B1, bwt_root B2) :: rest) :
    merge_node_step w B1 B2 s = none := by
  unfold merge_node_step
  rw [hS]
  simp only
  cases hm : merge_nodes (bwt_root B1) (bwt_root B2) with
  | none => rfl
  | some m =>
    simp only
    cases hf : find_leaves w (B1.length + B2.length) (bwt_root B1) (bwt_root B2) s.v with
    | none => rfl
    | some v1 =>
      simp only
      cases hu : update_lcp w m v1.LCP v1.lcp_values with
      | none => rfl
      | some r =>
        have h3 := (update_lcp_some w _ _ _ r hu).1.2.2.2.2
        rw [bwt_root_all_term B1 h1, bwt_root_all_term B2 h2] at hm
        simp only [merge_nodes, if_true, Option.some.injEq] at hm
        subst hm
        have := one_child_root (B1.length + B2.length)
        simp only [Nat.add_zero] at h3
        omega

/-- A loop whose body aborts in the first state has no other state, and a run with a
positive budget aborts. -/
theorem loop_state_abort {σ : Type} (step : σ → Option σ) (fin : σ → Bool) (s0 : σ)
    (hf : fin s0 = false) (h : step s0 = none) :
    (∀ j s, loop_state step fin j s0 = some s → j = 0 ∧ s = s0) ∧
      ∀ fuel, 1 ≤ fuel → run_loop step fin fuel s0 = .aborted := by
  constructor
  · intro j s hj
    cases j with
    | zero =>
      simp only [loop_state, Option.some.injEq] at hj
      exact ⟨rfl, hj.symm⟩
    | succ j =>
      simp [loop_state, hf, h] at hj
  · intro fuel hfuel
    cases fuel with
    | zero => omega
    | succ fuel => simp [run_loop, hf, h]

/-! ## Settled claims -/

/-- C1: let `P` list the suffixes of a collection of reads over `{A,C,G,T}` in lexicographic
order, each with its preceding symbol, so that the first components of `P` are a BWT `B` of
the collection; let every LCP value be below the sentinel of width `w`. Then every array the
`lcp` constructor builds on `B` has `LCP[0] = 0` and `LCP[i]` equal to the length of the
longest common prefix of the suffixes of ranks `i - 1` and `i`, for `0 < i < n`; and the
constructor builds the array within `n` iterations per loop as soon as one read is not
empty. -/
theorem C1_lcp_array_correct (reads : List (List Sym)) (hr : ∀ r ∈ reads, dna_read r)
    (P : List (Sym × List Nat)) (hP : sorted_arrangement reads P) (w : Nat)
    (hnil : ∀ i, 0 < i → i < P.length →
      lcp_len (str_at (P.map Prod.snd) (i - 1)) (str_at (P.map Prod.snd) i) < nil w) :
    (∀ fuel LCP, lcp_build w fuel (P.map Prod.fst) = .done LCP →
      1 ≤ P.length ∧ LCP.length = P.length ∧ LCP[0]? = some 0 ∧
      ∀ i, 0 < i → i < P.length →
        LCP[i]? = some (lcp_len (str_at (P.map Prod.snd) (i - 1)) (str_at (P.map Prod.snd) i))) ∧
    ((∃ r ∈ reads, r ≠ []) → ∀ fuel, P.length ≤ fuel →
      ∃ LCP, lcp_build w fuel (P.map Prod.fst) = .done LCP) := by
  constructor
  · intro fuel LCP h
    obtain ⟨hlen, hval⟩ := lcp_build_partial reads hr P hP w fuel LCP h
    have hpos : 1 ≤ P.length := by
      by_contra hc
      have hP0 : P = [] := List.length_eq_zero.mp (by omega)
      subst hP0
      simp [lcp_build, lcp_pass1, lcp_init] at h
    refine ⟨hpos, hlen, ?_, fun i h0 hi => ?_⟩
    · have := hval 0 (by omega)
      simpa [lcp_target] using this
    · rw [hval i hi, lcp_target_small _ w i h0 (hnil i h0 hi)]
  · intro hne fuel hfuel
    exact lcp_build_total reads hr P hP w hne fuel hfuel

theorem C1_lcp_array_correct_witness :
    ∃ LCP, lcp_build 1 6 [.C, .G, .TERM, .TERM, .A, .A] = .done LCP :=
  (C1_lcp_array_correct [[.A, .C], [.A, .G]] (by decide)
    [(.C, [0]), (.G, [0]), (.TERM, [1, 2, 0]), (.TERM, [1, 3, 0]), (.A, [2, 0]), (.A, [3, 0])]
    ⟨by decide, by decide⟩ 1
    (by intro i h0 h6
        simp only [List.length_cons, List.length_nil] at h6
        interval_cases i <;> decide)).2 ⟨[.A, .C], by decide, by decide⟩ 6 (by decide)

/-- C2: let `P1`, `P2` list the suffixes of two non-empty collections of reads over
`{A,C,G,T}` in lexicographic order, with BWTs `B1`, `B2`. Whatever the LCP option, the width
and the step budget, the document array `DA` that the `bwt_merger` constructor returns is the
one of the stable merge of the two suffix lists: the interleaving of `P1` and `P2` directed by
`DA` lists the suffixes of the union in lexicographic order, equal suffixes of collection 1
before those of collection 2, and `save_to_file` emits its BWT. The constructor returns
within `n` iterations per loop (with LCP computation: as soon as one read is not empty). For
`B1 = C#A` and `B2 = T#G` the array is `0,1,0,0,1,1` and the emitted BWT is `CT#A#G`. -/
theorem C2_merged_bwt (reads1 reads2 : List (List Sym))
    (hr1 : ∀ r ∈ reads1, dna_read r) (hr2 : ∀ r ∈ reads2, dna_read r)
    (hne1 : reads1 ≠ []) (hne2 : reads2 ≠ [])
    (P1 P2 : List (Sym × List Nat)) (hP1 : sorted_arrangement reads1 P1)
    (hP2 : sorted_arrangement reads2 P2) (w : Nat) (c : Bool) :
    (∀ fuel v, merge_build w fuel (P1.map Prod.fst) (P2.map Prod.fst) c = .done v →
      v.DA = merge_da (P1.map Prod.snd) (P2.map Prod.snd) ∧
      sorted_arrangement (reads1 ++ reads2) (weave v.DA P1 P2) ∧
      (∀ i j, i < j → j < P1.length + P2.length →
        str_at ((weave v.DA P1 P2).map Prod.snd) i = str_at ((weave v.DA P1 P2).map Prod.snd) j →
        v.DA[i]? = some true → v.DA[j]? = some true) ∧
      save_bwt (P1.map Prod.fst) (P2.map Prod.fst) v.DA =
        some ((weave v.DA P1 P2).map Prod.fst)) ∧
    ((c = false ∨ ∃ r ∈ reads1 ++ reads2, r ≠ []) → ∀ fuel, P1.length + P2.length ≤ fuel →
      ∃ v, merge_build w fuel (P1.map Prod.fst) (P2.map Prod.fst) c = .done v) ∧
    (∃ v, merge_build 1 6 [Sym.C, Sym.TERM, Sym.A] [Sym.T, Sym.TERM, Sym.G] c = .done v ∧
      v.DA = [false, true, false, false, true, true] ∧
      save_bwt [Sym.C, Sym.TERM, Sym.A] [Sym.T, Sym.TERM, Sym.G] v.DA =
        some [Sym.C, Sym.T, Sym.TERM, Sym.A, Sym.TERM, Sym.G]) := by
  refine ⟨fun fuel v h => ?_, fun hne fuel hfuel =>
    merge_build_total reads1 reads2 hr1 hr2 hne1 hne2 P1 P2 hP1 hP2 w c hne fuel hfuel,
    merge_example_run c⟩
  obtain ⟨hda, -⟩ := merge_build_partial reads1 reads2 hr1 hr2 hne1 hne2 P1 P2 hP1 hP2 w fuel
    c v h
  obtain ⟨hP, e⟩ := merged_arrangement reads1 reads2 P1 P2 hP1 hP2
  rw [hda]
  refine ⟨rfl, hP, fun i j hij hj he hi => ?_, merged_bwt_emitted P1 P2⟩
  rw [e] at he
  exact merge_da_ties _ _ hP1.2 hP2.2 i j hij
    (by rw [merge_strs_length, List.length_map, List.length_map]; exact hj) he hi

theorem C2_merged_bwt_witness :
    ∃ v, merge_build 1 6 [Sym.C, Sym.TERM, Sym.A] [Sym.T, Sym.TERM, Sym.G] true = .done v :=
  (C2_merged_bwt [[.A, .C]] [[.G, .T]] (by decide) (by decide) (by decide) (by decide)
    [(.C, [0]), (.TERM, [1, 2, 0]), (.A, [2, 0])]
    [(.T, [0]), (.TERM, [3, 5, 0]), (.G, [5, 0])]
    ⟨by decide, by decide⟩ ⟨by decide, by decide⟩ 1 true).2.1
    (Or.inr ⟨[.A, .C], by decide, by decide⟩) 6 (by decide)

/-- C3: let `P1`, `P2` list the suffixes of two non-empty collections of reads over
`{A,C,G,T}` in lexicographic order, with BWTs `B1`, `B2`. With or without LCP computation,
the document array that the `bwt_merger` constructor returns has `|B1| + |B2|` entries, of
which `|B2|` are 1 and `|B1|` are 0; and the constructor returns within `n` iterations per
loop (with LCP computation: as soon as one read is not empty). -/
theorem C3_da_counts (reads1 reads2 : List (List Sym))
    (hr1 : ∀ r ∈ reads1, dna_read r) (hr2 : ∀ r ∈ reads2, dna_read r)
    (hne1 : reads1 ≠ []) (hne2 : reads2 ≠ [])
    (P1 P2 : List (Sym × List Nat)) (hP1 : sorted_arrangement reads1 P1)
    (hP2 : sorted_arrangement reads2 P2) (w : Nat) (c : Bool) :
    (∀ fuel v, merge_build w fuel (P1.map Prod.fst) (P2.map Prod.fst) c = .done v →
      v.DA.length = (P1.map Prod.fst).length + (P2.map Prod.fst).length ∧
      v.DA.count true = (P2.map Prod.fst).length ∧
      v.DA.count false = (P1.map Prod.fst).length) ∧
    ((c = false ∨ ∃ r ∈ reads1 ++ reads2, r ≠ []) → ∀ fuel, P1.length + P2.length ≤ fuel →
      ∃ v, merge_build w fuel (P1.map Prod.fst) (P2.map Prod.fst) c = .done v) := by
  refine ⟨fun fuel v h => ?_, fun hne fuel hfuel =>
    merge_build_total reads1 reads2 hr1 hr2 hne1 hne2 P1 P2 hP1 hP2 w c hne fuel hfuel⟩
  obtain ⟨hda, -⟩ := merge_build_partial reads1 reads2 hr1 hr2 hne1 hne2 P1 P2 hP1 hP2 w fuel
    c v h
  rw [hda, merge_da_length, merge_da_count, merge_da_count_false]
  simp only [List.length_map, and_self]

theorem C3_da_counts_witness :
    ∃ v, merge_build 1 6 [Sym.C, Sym.TERM, Sym.A] [Sym.T, Sym.TERM, Sym.G] false = .done v :=
  (C3_da_counts [[.A, .C]] [[.G, .T]] (by decide) (by decide) (by decide) (by decide)
    [(.C, [0]), (.TERM, [1, 2, 0]), (.A, [2, 0])]
    [(.T, [0]), (.TERM, [3, 5, 0]), (.G, [5, 0])]
    ⟨by decide, by decide⟩ ⟨by decide, by decide⟩ 1 false).2 (Or.inl rfl) 6 (by decide)

/-- C4: let `P` list the suffixes of a non-empty collection of reads over `{A,C,G,T}` in
lexicographic order, with BWT `B`, and let every LCP value be below the sentinel of the width
`w >= 1`. Then no entry of an array the `lcp` constructor returns after its two passes equals
the sentinel; and the constructor returns within `n` iterations per loop as soon as one read
is not empty. -/
theorem C4_no_sentinel_left (reads : List (List Sym)) (hr : ∀ r ∈ reads, dna_read r)
    (P : List (Sym × List Nat)) (hP : sorted_arrangement reads P) (w : Nat) (hw : 0 < w)
    (hnil : ∀ i, 0 < i → i < P.length →
      lcp_len (str_at (P.map Prod.snd) (i - 1)) (str_at (P.map Prod.snd) i) < nil w) :
    (∀ fuel LCP, lcp_build w fuel (P.map Prod.fst) = .done LCP → ∀ x ∈ LCP, x ≠ nil w) ∧
    ((∃ r ∈ reads, r ≠ []) → ∀ fuel, P.length ≤ fuel →
      ∃ LCP, lcp_build w fuel (P.map Prod.fst) = .done LCP) := by
  constructor
  · intro fuel LCP h x hx
    obtain ⟨hlen, hval⟩ := lcp_build_partial reads hr P hP w fuel LCP h
    obtain ⟨i, hi⟩ := List.mem_iff_getElem?.mp hx
    have hil : i < P.length := by
      rw [← hlen]
      exact (List.getElem?_eq_some_iff.mp hi).1
    rw [hval i hil] at hi
    simp only [Option.some.injEq] at hi
    rw [← hi]
    by_cases h0 : i = 0
    · subst h0
      have := nil_pos w hw
      simp only [lcp_target, if_true]
      omega
    · rw [lcp_target_small _ w i (by omega) (hnil i (by omega) hil)]
      exact ne_of_lt (hnil i (by omega) hil)
  · intro hne fuel hfuel
    exact lcp_build_total reads hr P hP w hne fuel hfuel

theorem C4_no_sentinel_left_witness :
    lcp_build 1 2 [.C, .G, .TERM, .TERM, .A, .A] = .done [0, 1, 0, 1, 0, 0] ∧
    ∃ LCP, lcp_build 1 6 [.C, .G, .TERM, .TERM, .A, .A] = .done LCP :=
  ⟨by decide,
   (C4_no_sentinel_left [[.A, .C], [.A, .G]] (by decide)
    [(.C, [0]), (.G, [0]), (.TERM, [1, 2, 0]), (.TERM, [1, 3, 0]), (.A, [2, 0]), (.A, [3, 0])]
    ⟨by decide, by decide⟩ 1 (by decide)
    (by intro i h0 h6
        simp only [List.length_cons, List.length_nil] at h6
        interval_cases i <;> decide)).2 ⟨[.A, .C], by decide, by decide⟩ 6 (by decide)⟩

/-- C5, as stated, fails: on the BWT `CG##AA` with width 1 the constructor never produces
`[0,0,0,1,0,1]`, whatever the step budget. -/
theorem C5_scenario_A_refuted :
    ¬ ∃ fuel, lcp_build 1 fuel [.C, .G, .TERM, .TERM, .A, .A] = .done [0, 0, 0, 1, 0, 1] := by
  rintro ⟨fuel, h⟩
  have h1 := lcp_build_mono 1 fuel (max fuel 2) _ _ h (le_max_left _ _)
  have h2 : lcp_build 1 2 [.C, .G, .TERM, .TERM, .A, .A] = .done [0, 1, 0, 1, 0, 0] := by
    decide
  have h3 := lcp_build_mono 1 2 (max fuel 2) _ _ h2 (le_max_right _ _)
  rw [h1] at h3
  exact absurd h3 (by decide)

/-- C5, amended: on the BWT `CG##AA` (collection {"AC#","AG#"}) with width 1 the constructor
produces the LCP array `[0,1,0,1,0,0]` as soon as each loop may run two iterations. -/
theorem C5_scenario_A (k : Nat) :
    lcp_build 1 (k + 2) [.C, .G, .TERM, .TERM, .A, .A] = .done [0, 1, 0, 1, 0, 0] :=
  lcp_build_mono 1 2 (k + 2) _ _ (by decide) (by omega)

/-- C6: let `P1`, `P2` list the suffixes of two non-empty collections of reads over
`{A,C,G,T}` in lexicographic order, with BWTs `B1`, `B2`, and let `w` be any LCP width. An
LCP vector that the `bwt_merger` constructor returns with `compute_lcp = true` holds 0 at
index 0 and elsewhere the LCP (modulo `2^(8w)`) of adjacent suffixes of the union; the merged
BWT `B` that `save_to_file` emits is a BWT of the union, every vector the single-BWT `lcp`
constructor returns on `B` at width `w` is the merger's vector, and that constructor returns
it within `n` iterations per loop. The merger returns within `n` iterations per loop as soon
as one read is not empty. -/
theorem C6_merger_lcp (reads1 reads2 : List (List Sym))
    (hr1 : ∀ r ∈ reads1, dna_read r) (hr2 : ∀ r ∈ reads2, dna_read r)
    (hne1 : reads1 ≠ []) (hne2 : reads2 ≠ [])
    (P1 P2 : List (Sym × List Nat)) (hP1 : sorted_arrangement reads1 P1)
    (hP2 : sorted_arrangement reads2 P2) (w : Nat) :
    (∀ fuel v, merge_build w fuel (P1.map Prod.fst) (P2.map Prod.fst) true = .done v →
      (v.LCP.length = P1.length + P2.length ∧
        ∀ i, i < P1.length + P2.length →
          v.LCP[i]? = some (lcp_target ((weave v.DA P1 P2).map Prod.snd) w i)) ∧
      ∃ B, save_bwt (P1.map Prod.fst) (P2.map Prod.fst) v.DA = some B ∧
        is_bwt_of (reads1 ++ reads2) B ∧
        (∀ fuel1 LCP, lcp_build w fuel1 B = .done LCP → LCP = v.LCP) ∧
        ∀ fuel1, P1.length + P2.length ≤ fuel1 → lcp_build w fuel1 B = .done v.LCP) ∧
    ((∃ r ∈ reads1 ++ reads2, r ≠ []) → ∀ fuel, P1.length + P2.length ≤ fuel →
      ∃ v, merge_build w fuel (P1.map Prod.fst) (P2.map Prod.fst) true = .done v) := by
  refine ⟨fun fuel v h => ?_, fun hne fuel hfuel =>
    merge_build_total reads1 reads2 hr1 hr2 hne1 hne2 P1 P2 hP1 hP2 w true (Or.inr hne) fuel
      hfuel⟩
  obtain ⟨hda, hl⟩ := merge_build_partial reads1 reads2 hr1 hr2 hne1 hne2 P1 P2 hP1 hP2 w fuel
    true v h
  obtain ⟨-, hlen, hval⟩ := hl rfl
  obtain ⟨hP, e⟩ := merged_arrangement reads1 reads2 P1 P2 hP1 hP2
  obtain ⟨g1, g2⟩ := merged_lcp_run reads1 reads2 hr1 hr2 hne1 hne2 P1 P2 hP1 hP2 w fuel v h
  refine ⟨⟨hlen, ?_⟩, (weave v.DA P1 P2).map Prod.fst, ?_, ⟨weave v.DA P1 P2, ?_, rfl⟩, g1, g2⟩
  · rw [hda, e]
    exact hval
  · rw [hda]
    exact merged_bwt_emitted P1 P2
  · rw [hda]
    exact hP

theorem C6_merger_lcp_witness :
    ∃ v, merge_build 2 6 [Sym.C, Sym.TERM, Sym.A] [Sym.T, Sym.TERM, Sym.G] true = .done v :=
  (C6_merger_lcp [[.A, .C]] [[.G, .T]] (by decide) (by decide) (by decide) (by decide)
    [(.C, [0]), (.TERM, [1, 2, 0]), (.A, [2, 0])]
    [(.T, [0]), (.TERM, [3, 5, 0]), (.G, [5, 0])]
    ⟨by decide, by decide⟩ ⟨by decide, by decide⟩ 2).2
    ⟨[.A, .C], by decide, by decide⟩ 6 (by decide)

/-- C7: for a document array with `|B1| + |B2|` entries, `|B2|` of them ones, the emission
loop of `save_to_file` writes `|B1| + |B2|` bytes; at a position `i` holding 0 it reads
`B1[i - rank1]`, where `i - rank1` is the number of zeros before `i` and is below `|B1|`; at
a position holding 1 it reads `B2[rank1]` with `rank1`, the number of ones before `i`, below
`|B2|`; the bytes at the 0-positions are `B1` in order and those at the 1-positions are `B2`
in order. -/
theorem C7_emission_loop {α : Type} (B1 B2 : List α) (DA : List Bool)
    (hlen : DA.length = B1.length + B2.length) (hones : DA.count true = B2.length) :
    ∃ out, save_bwt B1 B2 DA = some out ∧ out.length = B1.length + B2.length ∧
      (∀ i, DA[i]? = some false →
        i - (DA.take i).count true = (DA.take i).count false ∧
        (DA.take i).count false < B1.length ∧
        out[i]? = B1[(DA.take i).count false]?) ∧
      (∀ i, DA[i]? = some true →
        (DA.take i).count true < B2.length ∧ out[i]? = B2[(DA.take i).count true]?) ∧
      select_by false DA out = B1 ∧ select_by true DA out = B2 := by
  have hz : DA.count false = B1.length := by
    have := count_false_add_count_true DA
    omega
  refine ⟨weave DA B1 B2, save_bwt_eq_weave B1 B2 DA hlen hones, ?_, ?_, ?_, ?_⟩
  · rw [weave_length DA B1 B2 hz hones, hlen]
  · intro i hi
    have hlt : i < DA.length := (List.getElem?_eq_some_iff.mp hi).1
    have hsplit := count_take_split DA i (le_of_lt hlt)
    obtain ⟨a1, a2⟩ := weave_get DA B1 B2 hz hones i false hi
    simp only [Bool.false_eq_true, if_false] at a1 a2
    exact ⟨by omega, a1, a2⟩
  · intro i hi
    obtain ⟨a1, a2⟩ := weave_get DA B1 B2 hz hones i true hi
    simp only [if_true] at a1 a2
    exact ⟨a1, a2⟩
  · exact weave_select DA B1 B2 hz hones

theorem C7_emission_loop_witness :
    ∃ out, save_bwt [67, 35, 65] [84, 35, 71] [false, true, false, false, true, true] = some out ∧
      out.length = 6 :=
  (C7_emission_loop [67, 35, 65] [84, 35, 71] [false, true, false, false, true, true]
    (by decide) (by decide)).imp fun _ h => ⟨h.1, h.2.1⟩

/-- C8: for a document array with `|B1| + |B2|` entries, `|B2|` of them ones, every byte
value occurs in the merged BWT written by `save_to_file` as often as in `B1` and `B2`
together. -/
theorem C8_symbol_counts {α : Type} [DecidableEq α] (B1 B2 : List α) (DA : List Bool)
    (hlen : DA.length = B1.length + B2.length) (hones : DA.count true = B2.length) (c : α) :
    ∃ out, save_bwt B1 B2 DA = some out ∧ out.count c = B1.count c + B2.count c := by
  have hz : DA.count false = B1.length := by
    have := count_false_add_count_true DA
    omega
  exact ⟨weave DA B1 B2, save_bwt_eq_weave B1 B2 DA hlen hones,
    weave_count c DA B1 B2 hz hones⟩

theorem C8_symbol_counts_witness :
    ∃ out, save_bwt [67, 35, 65] [84, 35, 71] [false, true, false, false, true, true] = some out ∧
      out.count 35 = 2 :=
  C8_symbol_counts [67, 35, 65] [84, 35, 71] [false, true, false, false, true, true]
    (by decide) (by decide) 35

/-- C9: for every input and every width `w` in {1,2,4}, whenever the constructor builds the
LCP array at width 8 it builds, with the same step budget, the array at width `w`, and each
entry of the latter is the entry at width 8 reduced modulo `2^(8w)`; the sentinel of width 8
reduces to the sentinel of width `w`. -/
theorem C9_width_truncation (w : Nat) (hw : w = 1 ∨ w = 2 ∨ w = 4) (fuel : Nat) (B : List Sym)
    (L8 : List Nat) (h : lcp_build 8 fuel B = .done L8) :
    lcp_build w fuel B = .done (L8.map (· % 2 ^ (8 * w))) ∧ nil 8 % 2 ^ (8 * w) = nil w :=
  ⟨lcp_build_trunc w (by omega) fuel B L8 h, nil_mod w (by omega)⟩

theorem C9_width_truncation_witness :
    lcp_build 1 2 [.C, .G, .TERM, .TERM, .A, .A] =
      .done ([0, 1, 0, 1, 0, 0].map (· % 2 ^ (8 * 1))) ∧ nil 8 % 2 ^ (8 * 1) = nil 1 :=
  C9_width_truncation 1 (Or.inl rfl) 2 [.C, .G, .TERM, .TERM, .A, .A] [0, 1, 0, 1, 0, 0]
    (by decide)

/-- C12: the merge tool does not check the value of `-l`. With `-l 3` and with `-l 9` it
loads both BWTs, constructs no merger, prints `Done.` and ends with exit status 0; with
`-l 256` the value is narrowed to 0 and the merger runs without LCP. -/
theorem C12_merge_width_unchecked :
    merge_bwt_main 9 [.one "a.bwt", .two "b.bwt", .o "ab", .l 3] (Function.const String []) =
      { exit_status := 0, loaded := true, five_letters := false, width := none,
        compute_lcp := false, done := true } ∧
    merge_bwt_main 9 [.one "a.bwt", .two "b.bwt", .o "ab", .l 9] (Function.const String []) =
      { exit_status := 0, loaded := true, five_letters := false, width := none,
        compute_lcp := false, done := true } ∧
    merge_bwt_main 9 [.one "a.bwt", .two "b.bwt", .o "ab", .l 256] (Function.const String []) =
      { exit_status := 0, loaded := true, five_letters := false, width := some 1,
        compute_lcp := false, done := true } := by
  decide

/-- C13: the lcp tool narrows the value of `-l` to `uint8_t` before it checks it. With
`-l 257` it builds the LCP array with 1-byte entries and with `-l 260` with 4-byte entries,
while `-l 3` ends in `help()`. -/
theorem C13_lcp_width_narrowed :
    bwt2lcp_main 7 [.i "reads.bwt", .o "reads.lcp", .l 257] (Function.const String []) =
      { exit_status := 0, loaded := true, five_letters := false, width := some 1,
        compute_lcp := true, done := true } ∧
    bwt2lcp_main 7 [.i "reads.bwt", .o "reads.lcp", .l 260] (Function.const String []) =
      { exit_status := 0, loaded := true, five_letters := false, width := some 4,
        compute_lcp := true, done := true } ∧
    bwt2lcp_main 7 [.i "reads.bwt", .o "reads.lcp", .l 3] (Function.const String []) = help := by
  decide

/-- C14: `hasN` returns true exactly when some byte of the input is `N` (78). A run of the
lcp tool that loads its input takes the 5-letter path exactly when `hasN` holds for the
input file, and a run of the merge tool that loads its inputs takes it exactly when `hasN`
holds for at least one of the two input files. -/
theorem C14_alphabet_detection :
    (∀ bytes : List Nat, hasN bytes = true ↔ 78 ∈ bytes) ∧
    (∀ argc opts file g, lcp_getopt opts lcp_globals_init = some g →
      (bwt2lcp_main argc opts file).loaded = true →
      ((bwt2lcp_main argc opts file).five_letters = true ↔ hasN (file g.input_bwt) = true)) ∧
    (∀ argc opts file g, merge_getopt opts merge_globals_init = some g →
      (merge_bwt_main argc opts file).loaded = true →
      ((merge_bwt_main argc opts file).five_letters = true ↔
        (hasN (file g.input_bwt1) = true ∨ hasN (file g.input_bwt2) = true))) := by
  refine ⟨hasN_iff, fun argc opts file g hg hl => ?_, fun argc opts file g hg hl => ?_⟩
  · rw [bwt2lcp_main_five argc opts file g hg hl]
  · rw [merge_bwt_main_five argc opts file g hg hl, Bool.or_eq_true]

theorem C14_alphabet_detection_witness :
    (bwt2lcp_main 7 [.i "reads.bwt", .o "reads.lcp"]
        (Function.const String [65, 78, 35])).five_letters = true ↔
      hasN (Function.const String [65, 78, 35] "reads.bwt") = true :=
  C14_alphabet_detection.2.1 7 [.i "reads.bwt", .o "reads.lcp"]
    (Function.const String [65, 78, 35])
    { input_bwt := "reads.bwt", output_file := "reads.lcp", lcp_size := 1, TERM := 35 }
    (by decide) (by decide)

/-- C16: let `x` be a well-formed node (`first_TERM <= first_A <= first_C <= first_G <=
(first_N <=) first_T <= last`) with `k = number_of_children(x) >= 2`, and let the LCP vector
hold the sentinel at the starting offset of every non-empty child of `x` other than the first
non-empty child. Then `update_lcp` returns; these offsets are `k - 1` distinct positions;
after the call each of them holds `x.depth` truncated to the LCP width, every other entry is
unchanged, and `lcp_values` has grown by `k - 1`. This holds for `sa_node` and for
`sa_node_n`. -/
theorem C16_update_lcp_children (w : Nat) (LCP : List Nat) (v : Nat) :
    (∀ x : sa_node, x.first_TERM ≤ x.first_A → x.first_A ≤ x.first_C →
      x.first_C ≤ x.first_G → x.first_G ≤ x.first_T → x.first_T ≤ x.last →
      2 ≤ number_of_children x →
      (∀ i ∈ child_borders (boundaries x), LCP[i]? = some (nil w)) →
      ∃ LCP1, update_lcp w x LCP v = some (LCP1, v + (number_of_children x - 1)) ∧
        (child_borders (boundaries x)).Nodup ∧
        (child_borders (boundaries x)).length = number_of_children x - 1 ∧
        LCP1.length = LCP.length ∧
        (∀ i ∈ child_borders (boundaries x), LCP1[i]? = some (x.depth % 2 ^ (8 * w))) ∧
        (∀ i, i ∉ child_borders (boundaries x) → LCP1[i]? = LCP[i]?)) ∧
    (∀ x : sa_node_n, x.first_TERM ≤ x.first_A → x.first_A ≤ x.first_C →
      x.first_C ≤ x.first_G → x.first_G ≤ x.first_N → x.first_N ≤ x.first_T →
      x.first_T ≤ x.last → 2 ≤ number_of_children_n x →
      (∀ i ∈ child_borders (boundaries_n x), LCP[i]? = some (nil w)) →
      ∃ LCP1, update_lcp_n w x LCP v = some (LCP1, v + (number_of_children_n x - 1)) ∧
        (child_borders (boundaries_n x)).Nodup ∧
        (child_borders (boundaries_n x)).length = number_of_children_n x - 1 ∧
        LCP1.length = LCP.length ∧
        (∀ i ∈ child_borders (boundaries_n x), LCP1[i]? = some (x.depth % 2 ^ (8 * w))) ∧
        (∀ i, i ∉ child_borders (boundaries_n x) → LCP1[i]? = LCP[i]?)) := by
  constructor
  · intro x h0 h1 h2 h3 h4 hk hnil
    have e := eligible_borders_children x h0 h1 h2 h3 h4
    have hlen : (child_borders (boundaries x)).length = number_of_children x - 1 := by
      rw [child_borders_length, number_of_children_eq]
    rw [← e] at hnil hlen ⊢
    obtain ⟨r, hr⟩ := update_lcp_returns w x LCP v h0 h1 h2 h3 hk hnil
    obtain ⟨-, a1, a2, a3, a4⟩ := update_lcp_guarded w x LCP v r hr
    refine ⟨r.1, ?_, eligible_borders_nodup x h0 h1 h2 h3, hlen, a1,
      fun i hi => (a3 i hi).2, a4⟩
    rw [hr, ← hlen, ← a2]
  · intro x h0 h1 h2 h3 h4 h5 hk hnil
    have e := eligible_borders_n_children x h0 h1 h2 h3 h4 h5
    have hlen : (child_borders (boundaries_n x)).length = number_of_children_n x - 1 := by
      rw [child_borders_length, number_of_children_n_eq]
    rw [← e] at hnil hlen ⊢
    obtain ⟨r, hr⟩ := update_lcp_n_returns w x LCP v h0 h1 h2 h3 h4 hk hnil
    obtain ⟨-, a1, a2, a3, a4⟩ := update_lcp_n_guarded w x LCP v r hr
    refine ⟨r.1, ?_, eligible_borders_n_nodup x h0 h1 h2 h3 h4, hlen, a1,
      fun i hi => (a3 i hi).2, a4⟩
    rw [hr, ← hlen, ← a2]

theorem C16_update_lcp_children_witness :
    ∃ LCP1, update_lcp 1 ⟨0, 1, 2, 2, 2, 3, 7⟩ [0, 255, 255] 1 = some (LCP1, 3) := by
  obtain ⟨L1, h, -⟩ := (C16_update_lcp_children 1 [0, 255, 255] 1).1 ⟨0, 1, 2, 2, 2, 3, 7⟩
    (by decide) (by decide) (by decide) (by decide) (by decide) (by decide) (by decide)
  exact ⟨L1, h⟩

/-- C17, as stated, fails: boundary 1 of the node with children `TERM = [0,1)` and
`A = [1,2)` is eligible and holds 7, not the sentinel 255; no call of `update_lcp`, for
`sa_node` or for `sa_node_n`, returns a vector that keeps this value: the assertion
`LCP[x.first_A]==nil` fails and the call aborts. -/
theorem C17_update_lcp_guard_refuted :
    ¬ ((∃ r, update_lcp 1 ⟨0, 1, 2, 2, 2, 2, 0⟩ [0, 7] 1 = some r ∧ r.1[1]? = some 7) ∨
       (∃ r, update_lcp_n 1 ⟨0, 1, 2, 2, 2, 2, 2, 0⟩ [0, 7] 1 = some r ∧ r.1[1]? = some 7)) := by
  have h1 : update_lcp 1 ⟨0, 1, 2, 2, 2, 2, 0⟩ [0, 7] 1 = none := by decide
  have h2 : update_lcp_n 1 ⟨0, 1, 2, 2, 2, 2, 2, 0⟩ [0, 7] 1 = none := by decide
  rw [h1, h2]
  simp

/-- C17, amended: for every node `x` and every LCP vector, a call of `update_lcp` that
returns has found the sentinel at every eligible child boundary `b` (preceding child
non-empty and `b != last`) and has assigned `x.depth`, truncated to the width, there; when
some eligible boundary holds another value, or lies outside the vector, the assertion
`LCP[b]==nil` fails and the call does not return. This holds for `sa_node` and for
`sa_node_n`. -/
theorem C17_update_lcp_guard (w : Nat) (LCP : List Nat) (v : Nat) :
    (∀ x : sa_node,
      (∀ r, update_lcp w x LCP v = some r → ∀ b ∈ eligible_borders x,
        LCP[b]? = some (nil w) ∧ r.1[b]? = some (x.depth % 2 ^ (8 * w))) ∧
      ((∃ b ∈ eligible_borders x, LCP[b]? ≠ some (nil w)) → update_lcp w x LCP v = none)) ∧
    (∀ x : sa_node_n,
      (∀ r, update_lcp_n w x LCP v = some r → ∀ b ∈ eligible_borders_n x,
        LCP[b]? = some (nil w) ∧ r.1[b]? = some (x.depth % 2 ^ (8 * w))) ∧
      ((∃ b ∈ eligible_borders_n x, LCP[b]? ≠ some (nil w)) →
        update_lcp_n w x LCP v = none)) := by
  constructor
  · intro x
    refine ⟨fun r h => (update_lcp_guarded w x LCP v r h).2.2.2.1, ?_⟩
    rintro ⟨b, hb, hne⟩
    cases h : update_lcp w x LCP v with
    | none => rfl
    | some r => exact absurd ((update_lcp_guarded w x LCP v r h).2.2.2.1 b hb).1 hne
  · intro x
    refine ⟨fun r h => (update_lcp_n_guarded w x LCP v r h).2.2.2.1, ?_⟩
    rintro ⟨b, hb, hne⟩
    cases h : update_lcp_n w x LCP v with
    | none => rfl
    | some r => exact absurd ((update_lcp_n_guarded w x LCP v r h).2.2.2.1 b hb).1 hne

theorem C17_update_lcp_guard_witness :
    update_lcp 1 ⟨0, 1, 2, 2, 2, 2, 0⟩ [0, 7] 1 = none :=
  ((C17_update_lcp_guard 1 [0, 7] 1).1 ⟨0, 1, 2, 2, 2, 2, 0⟩).2 ⟨1, by decide, by decide⟩

/-- C18: let `x1`, `x2` be well-formed nodes with `x1.last + x2.last <= n`, where `n` is the
size of `DA`. For each child symbol whose two ranges have combined length 1, `find_leaves`
owes one entry: the position `first_c(x1) + first_c(x2)`, with value 0 when the single
position lies in `x1` and 1 when it lies in `x2`. These positions are distinct; after every
returning call each of them holds its value, every other entry of `DA` is unchanged, the DA
counter has grown by the number of such children, and `LCP` and `lcp_values` are unchanged.
The call returns when the counter stays within `n`. This holds for `sa_node` and for
`sa_node_n`. -/
theorem C18_find_leaves (w n : Nat) (v : MergeVars) (hn : v.DA.length = n) :
    (∀ x1 x2 : sa_node, well_formed x1 → well_formed x2 → x1.last + x2.last ≤ n →
      ((single_writes (child_pairs x1 x2)).map Prod.fst).Nodup ∧
      (∀ v1, find_leaves w n x1 x2 v = some v1 →
        (∀ p ∈ single_writes (child_pairs x1 x2), v1.DA[p.1]? = some p.2) ∧
        (∀ i, i ∉ (single_writes (child_pairs x1 x2)).map Prod.fst → v1.DA[i]? = v.DA[i]?) ∧
        v1.DA.length = v.DA.length ∧
        v1.da_values = v.da_values + (single_writes (child_pairs x1 x2)).length ∧
        v1.LCP = v.LCP ∧ v1.lcp_values = v.lcp_values) ∧
      (v.da_values + (single_writes (child_pairs x1 x2)).length ≤ n →
        ∃ v1, find_leaves w n x1 x2 v = some v1)) ∧
    (∀ x1 x2 : sa_node_n, well_formed_n x1 → well_formed_n x2 → x1.last + x2.last ≤ n →
      ((single_writes (child_pairs_n x1 x2)).map Prod.fst).Nodup ∧
      (∀ v1, find_leaves_n w n x1 x2 v = some v1 →
        (∀ p ∈ single_writes (child_pairs_n x1 x2), v1.DA[p.1]? = some p.2) ∧
        (∀ i, i ∉ (single_writes (child_pairs_n x1 x2)).map Prod.fst →
          v1.DA[i]? = v.DA[i]?) ∧
        v1.DA.length = v.DA.length ∧
        v1.da_values = v.da_values + (single_writes (child_pairs_n x1 x2)).length ∧
        v1.LCP = v.LCP ∧ v1.lcp_values = v.lcp_values) ∧
      (v.da_values + (single_writes (child_pairs_n x1 x2)).length ≤ n →
        ∃ v1, find_leaves_n w n x1 x2 v = some v1)) := by
  constructor
  · intro x1 x2 h1 h2 hl
    have hwf := child_pairs_wf x1 x2 h1 h2 v.DA.length (by omega)
    have hnd := single_writes_nodup x1 x2 h1 h2
    refine ⟨hnd, fun v1 h => ?_, fun hm => ?_⟩
    · rw [find_leaves_eq] at h
      obtain ⟨a1, a2, a3, a4, -, a6, a7⟩ := find_list_some w n _ v v1 hwf hnd h
      exact ⟨a6, a7, a3, a4, a1, a2⟩
    · rw [find_leaves_eq]
      exact find_list_returns w n _ v hwf hm
  · intro x1 x2 h1 h2 hl
    have hwf := child_pairs_n_wf x1 x2 h1 h2 v.DA.length (by omega)
    have hnd := single_writes_n_nodup x1 x2 h1 h2
    refine ⟨hnd, fun v1 h => ?_, fun hm => ?_⟩
    · rw [find_leaves_n_eq] at h
      obtain ⟨a1, a2, a3, a4, -, a6, a7⟩ := find_list_some w n _ v v1 hwf hnd h
      exact ⟨a6, a7, a3, a4, a1, a2⟩
    · rw [find_leaves_n_eq]
      exact find_list_returns w n _ v hwf hm

theorem C18_find_leaves_witness :
    ∃ v1, find_leaves 1 6 ⟨0, 1, 2, 2, 2, 3, 0⟩ ⟨0, 1, 1, 2, 2, 3, 0⟩
      ⟨[false, false, false, false, false, false], [0, 1, 255, 255, 255, 255], 2, 2⟩ = some v1 :=
  ((C18_find_leaves 1 6
      ⟨[false, false, false, false, false, false], [0, 1, 255, 255, 255, 255], 2, 2⟩ rfl).1
    ⟨0, 1, 2, 2, 2, 3, 0⟩ ⟨0, 1, 1, 2, 2, 3, 0⟩ (by decide) (by decide) (by decide)).2.2
    (by decide)

/-- C19: let `P1`, `P2` list the suffixes of two non-empty collections of reads over
`{A,C,G,T}` in lexicographic order, with BWTs `B1`, `B2` and suffix lists `S1`, `S2`. Every
document array that the `bwt_merger` constructor returns with `compute_lcp = true` equals
every one it returns with `compute_lcp = false`, whatever the widths and step budgets, and
both runs return within `n` iterations per loop as soon as one read is not empty. The leaf
of the suffix at a merged position `j` has combined size 1 exactly when `find_leaves` owes
an entry at `j` for the pair of nodes of some string `W` whose node in the merged collection
has two children; and each entry that `find_leaves` owes at such a pair of nodes carries the
value that the run with `compute_lcp = false` has at that position. -/
theorem C19_da_modes (reads1 reads2 : List (List Sym))
    (hr1 : ∀ r ∈ reads1, dna_read r) (hr2 : ∀ r ∈ reads2, dna_read r)
    (hne1 : reads1 ≠ []) (hne2 : reads2 ≠ [])
    (P1 P2 : List (Sym × List Nat)) (hP1 : sorted_arrangement reads1 P1)
    (hP2 : sorted_arrangement reads2 P2) (w1 w2 : Nat) :
    (∀ fuel1 fuel2 v1 v2,
      merge_build w1 fuel1 (P1.map Prod.fst) (P2.map Prod.fst) true = .done v1 →
      merge_build w2 fuel2 (P1.map Prod.fst) (P2.map Prod.fst) false = .done v2 →
      v1.DA = v2.DA) ∧
    ((∃ r ∈ reads1 ++ reads2, r ≠ []) → ∀ fuel, P1.length + P2.length ≤ fuel →
      ∃ v1 v2, merge_build w1 fuel (P1.map Prod.fst) (P2.map Prod.fst) true = .done v1 ∧
        merge_build w2 fuel (P1.map Prod.fst) (P2.map Prod.fst) false = .done v2 ∧
        v1.DA = v2.DA) ∧
    (∀ j, j < P1.length + P2.length →
      (leaf_pair_len (leaf_pair_of (P1.map Prod.snd) (P2.map Prod.snd)
          (leaf_str (merge_strs (P1.map Prod.snd) (P2.map Prod.snd)) j)) = 1 ↔
        ∃ W, 2 ≤ number_of_children
            (node_of (merge_strs (P1.map Prod.snd) (P2.map Prod.snd)) W) ∧
          ∃ p ∈ single_writes (child_pairs (node_of (P1.map Prod.snd) W)
            (node_of (P2.map Prod.snd) W)), p.1 = j)) ∧
    (∀ fuel v2, merge_build w2 fuel (P1.map Prod.fst) (P2.map Prod.fst) false = .done v2 →
      ∀ W, ∀ p ∈ single_writes (child_pairs (node_of (P1.map Prod.snd) W)
        (node_of (P2.map Prod.snd) W)), v2.DA[p.1]? = some p.2) := by
  have hS1 := arrangement_suffix_collection reads1 hr1 P1 hP1
  have hS2 := arrangement_suffix_collection reads2 hr2 P2 hP2
  have part : ∀ w fuel c v, merge_build w fuel (P1.map Prod.fst) (P2.map Prod.fst) c = .done v →
      v.DA = merge_da (P1.map Prod.snd) (P2.map Prod.snd) := fun w fuel c v h =>
    ( merge_build_partial reads1 reads2 hr1 hr2 hne1 hne2 P1 P2 hP1 hP2 w fuel c v h).1
  refine ⟨fun fuel1 fuel2 v1 v2 e1 e2 => ?_, fun hne fuel hfuel => ?_, fun j hj => ?_,
    fun fuel v2 e2 W p hp => ?_⟩
  · rw [part _ _ _ _ e1, part _ _ _ _ e2]
  · obtain ⟨v1, e1⟩ := merge_build_total reads1 reads2 hr1 hr2 hne1 hne2 P1 P2 hP1 hP2 w1 true
      (Or.inr hne) fuel hfuel
    obtain ⟨v2, e2⟩ := merge_build_total reads1 reads2 hr1 hr2 hne1 hne2 P1 P2 hP1 hP2 w2 false
      (Or.inl rfl) fuel hfuel
    exact ⟨v1, v2, e1, e2, by rw [part _ _ _ _ e1, part _ _ _ _ e2]⟩
  · exact single_leaf_iff_found _ _ hS1 hS2 (arrangement_term_mem reads1 P1 hP1 hne1)
      (arrangement_term_mem reads2 P2 hP2 hne2) j
      (by rw [merge_strs_length, List.length_map, List.length_map]; exact hj)
  · rw [part _ _ _ _ e2]
    exact single_writes_value _ _ hP1.2 hP2.2 W p hp

theorem C19_da_modes_witness :
    ∃ v1 v2, merge_build 1 6 [Sym.C, Sym.TERM, Sym.A] [Sym.T, Sym.TERM, Sym.G] true = .done v1 ∧
      merge_build 1 6 [Sym.C, Sym.TERM, Sym.A] [Sym.T, Sym.TERM, Sym.G] false = .done v2 ∧
      v1.DA = v2.DA :=
  (C19_da_modes [[.A, .C]] [[.G, .T]] (by decide) (by decide) (by decide) (by decide)
    [(.C, [0]), (.TERM, [1, 2, 0]), (.A, [2, 0])]
    [(.T, [0]), (.TERM, [3, 5, 0]), (.G, [5, 0])]
    ⟨by decide, by decide⟩ ⟨by decide, by decide⟩ 1 1).2.1
    ⟨[.A, .C], by decide, by decide⟩ 6 (by decide)

/-- C20: for every pair of leaves `L1`, `L2` and every `min_size`, the vector
`TMP_LEAVES[0..t)` that the paired `next_leaves` returns is a rearrangement of the pairs
`({LF_c(L1.rn), L1.depth+1}, {LF_c(L2.rn), L2.depth+1})`, `c` in `A, C, G, T` (and `N` in the
5-letter form, never `TERM`), whose combined length is at least `min_size`; it is in
non-decreasing order of `leaf_size`, which is defined on each of its pairs, and `t <= 4`
(`t <= 5` in the 5-letter form). The call returns when `L1.rn.first <= L1.rn.second` and
`L2.rn.first <= L2.rn.second`. An iteration of the first loop of the merger that pops
`(L1, L2)` leaves the stack with `TMP_LEAVES[0..t)` on top of the rest, index 0 topmost, so
the smallest pair is popped next. -/
theorem C20_next_leaves (B1 B2 : List Sym) (L1 L2 : sa_leaf) (min_size : Nat) :
    ((∀ TMP, next_leaves B1 B2 L1 L2 min_size = some TMP →
        TMP.Perm (lf_candidates [.A, .C, .G, .T] B1 B2 L1 L2 min_size) ∧
        TMP.Sorted (fun P Q => leaf_pair_len P ≤ leaf_pair_len Q) ∧
        (∀ P ∈ TMP, leaf_size_pair P = some (leaf_pair_len P)) ∧
        TMP.length ≤ 4) ∧
      (L1.rn.first ≤ L1.rn.second → L2.rn.first ≤ L2.rn.second →
        ∃ TMP, next_leaves B1 B2 L1 L2 min_size = some TMP)) ∧
    ((∀ TMP, next_leaves_n B1 B2 L1 L2 min_size = some TMP →
        TMP.Perm (lf_candidates [.A, .C, .G, .N, .T] B1 B2 L1 L2 min_size) ∧
        TMP.Sorted (fun P Q => leaf_pair_len P ≤ leaf_pair_len Q) ∧
        (∀ P ∈ TMP, leaf_size_pair P = some (leaf_pair_len P)) ∧
        TMP.length ≤ 5) ∧
      (L1.rn.first ≤ L1.rn.second → L2.rn.first ≤ L2.rn.second →
        ∃ TMP, next_leaves_n B1 B2 L1 L2 min_size = some TMP)) ∧
    (∀ w c rest v s1,
      merge_leaf_step w B1 B2 c { S := (L1, L2) :: rest, v := v } = some s1 →
      ∃ TMP, next_leaves B1 B2 L1 L2 (if c then 2 else 1) = some TMP ∧ s1.S = TMP ++ rest) ∧
    (∀ w c rest v s1,
      merge_leaf_step_n w B1 B2 c { S := (L1, L2) :: rest, v := v } = some s1 →
      ∃ TMP, next_leaves_n B1 B2 L1 L2 (if c then 2 else 1) = some TMP ∧
        s1.S = TMP ++ rest) := by
  refine ⟨⟨fun TMP h => ?_, next_leaves_returns B1 B2 L1 L2 min_size⟩,
    ⟨fun TMP h => ?_, next_leaves_n_returns B1 B2 L1 L2 min_size⟩,
    fun w c rest v s1 h => merge_leaf_step_push w B1 B2 c (L1, L2) rest v s1 h,
    fun w c rest v s1 h => merge_leaf_step_n_push w B1 B2 c (L1, L2) rest v s1 h⟩
  · have e := next_leaves_some B1 B2 L1 L2 min_size TMP h
    refine ⟨?_, ?_, next_leaves_size B1 B2 L1 L2 min_size TMP h, ?_⟩
    · rw [e]
      exact sort_by_key_perm _ _
    · rw [e]
      exact sort_by_key_sorted _ _
    · rw [e, (sort_by_key_perm _ _).length_eq]
      exact lf_candidates_length _ B1 B2 L1 L2 min_size
  · have e := next_leaves_n_some B1 B2 L1 L2 min_size TMP h
    refine ⟨?_, ?_, next_leaves_n_size B1 B2 L1 L2 min_size TMP h, ?_⟩
    · rw [e]
      exact sort_by_key_perm _ _
    · rw [e]
      exact sort_by_key_sorted _ _
    · rw [e, (sort_by_key_perm _ _).length_eq]
      exact lf_candidates_length _ B1 B2 L1 L2 min_size

theorem C20_next_leaves_witness :
    ∃ TMP, next_leaves [Sym.C, Sym.TERM, Sym.A] [Sym.T, Sym.TERM, Sym.G]
      ⟨⟨0, 1⟩, 1⟩ ⟨⟨0, 1⟩, 1⟩ 1 = some TMP :=
  (C20_next_leaves [Sym.C, Sym.TERM, Sym.A] [Sym.T, Sym.TERM, Sym.G]
    ⟨⟨0, 1⟩, 1⟩ ⟨⟨0, 1⟩, 1⟩ 1).1.2 (by decide) (by decide)

/-- C21: for every pair of nodes `N1`, `N2` the vector `TMP_NODES[0..t)` that the paired
`next_nodes` returns is a rearrangement of the pairs `(LF_c(N1), LF_c(N2))`, `c` in
`A, C, G, T` (and `N` in the 5-letter form), whose union has at least two non-empty children
(`number_of_children(pair) >= 2`), and `t <= 4` (`t <= 5` in the 5-letter form). When `N1`
and `N2` are well-formed, so are the nodes of every returned pair, and the vector is in
non-decreasing order of `node_size(pair)`. -/
theorem C21_next_nodes (B1 B2 : List Sym) :
    (∀ N1 N2 : sa_node,
      (next_nodes B1 B2 N1 N2).Perm (lf_node_candidates [.A, .C, .G, .T] B1 B2 N1 N2) ∧
      (next_nodes B1 B2 N1 N2).length ≤ 4 ∧
      (well_formed N1 → well_formed N2 →
        (∀ P ∈ next_nodes B1 B2 N1 N2, well_formed P.1 ∧ well_formed P.2) ∧
        (next_nodes B1 B2 N1 N2).Sorted (fun P Q => node_size_pair P ≤ node_size_pair Q))) ∧
    (∀ N1 N2 : sa_node_n,
      (next_nodes_n B1 B2 N1 N2).Perm
        (lf_node_candidates_n [.A, .C, .G, .N, .T] B1 B2 N1 N2) ∧
      (next_nodes_n B1 B2 N1 N2).length ≤ 5 ∧
      (well_formed_n N1 → well_formed_n N2 →
        (∀ P ∈ next_nodes_n B1 B2 N1 N2, well_formed_n P.1 ∧ well_formed_n P.2) ∧
        (next_nodes_n B1 B2 N1 N2).Sorted
          (fun P Q => node_size_pair_n P ≤ node_size_pair_n Q))) := by
  constructor
  · intro N1 N2
    have e := next_nodes_sorted_candidates B1 B2 N1 N2
    refine ⟨?_, ?_, fun h1 h2 => ⟨next_nodes_wf B1 B2 N1 N2 h1 h2, ?_⟩⟩
    · rw [e]
      exact sort_by_key_perm _ _
    · rw [e, (sort_by_key_perm _ _).length_eq]
      exact lf_node_candidates_length _ B1 B2 N1 N2
    · rw [e]
      exact sort_by_key_sorted _ _
  · intro N1 N2
    have e := next_nodes_n_sorted_candidates B1 B2 N1 N2
    refine ⟨?_, ?_, fun h1 h2 => ⟨next_nodes_n_wf B1 B2 N1 N2 h1 h2, ?_⟩⟩
    · rw [e]
      exact sort_by_key_perm _ _
    · rw [e, (sort_by_key_perm _ _).length_eq]
      exact lf_node_candidates_n_length _ B1 B2 N1 N2
    · rw [e]
      exact sort_by_key_sorted _ _

theorem C21_next_nodes_witness :
    (next_nodes [Sym.C, Sym.G, Sym.TERM, Sym.TERM, Sym.A, Sym.A] [Sym.T, Sym.TERM, Sym.G]
      ⟨0, 2, 4, 5, 6, 6, 0⟩ ⟨0, 1, 1, 1, 2, 3, 0⟩).Sorted
      (fun P Q => node_size_pair P ≤ node_size_pair Q) :=
  (((C21_next_nodes [Sym.C, Sym.G, Sym.TERM, Sym.TERM, Sym.A, Sym.A]
    [Sym.T, Sym.TERM, Sym.G]).1
    ⟨0, 2, 4, 5, 6, 6, 0⟩ ⟨0, 1, 1, 1, 2, 3, 0⟩).2.2 (by decide) (by decide)).2

/-- C22: let `a`, `b` be well-formed nodes of equal depth whose sums fit in 64 bits
(`a.last + b.last < 2^64`). Then `merge_nodes(a, b)` returns a well-formed node `m` of the
same depth; every boundary of `m` is the sum of the two boundaries and is below `2^64`; the
length of each child of `m` is the sum of the lengths of that child in `a` and in `b`;
`node_size(m) = node_size(pair(a, b))`; and `number_of_children(m)` is the union count
`number_of_children(a, b)`. Hence for well-formed `N1`, `N2` of equal depth every pair that
the paired `next_nodes` returns merges into a node with at least two children. This holds
for `sa_node` and for `sa_node_n`. -/
theorem C22_merge_nodes :
    (∀ a b : sa_node, well_formed a → well_formed b → a.depth = b.depth →
      a.last + b.last < 2 ^ 64 →
      ∃ m, merge_nodes a b = some m ∧ well_formed m ∧ m.depth = a.depth ∧
        (m.first_TERM = a.first_TERM + b.first_TERM ∧ m.first_A = a.first_A + b.first_A ∧
          m.first_C = a.first_C + b.first_C ∧ m.first_G = a.first_G + b.first_G ∧
          m.first_T = a.first_T + b.first_T ∧ m.last = a.last + b.last) ∧
        m.last < 2 ^ 64 ∧
        (range_len (child_TERM m) = range_len (child_TERM a) + range_len (child_TERM b) ∧
          range_len (child_A m) = range_len (child_A a) + range_len (child_A b) ∧
          range_len (child_C m) = range_len (child_C a) + range_len (child_C b) ∧
          range_len (child_G m) = range_len (child_G a) + range_len (child_G b) ∧
          range_len (child_T m) = range_len (child_T a) + range_len (child_T b)) ∧
        node_size m = node_size_pair (a, b) ∧
        number_of_children m = number_of_children_pair (a, b)) ∧
    (∀ a b : sa_node_n, well_formed_n a → well_formed_n b → a.depth = b.depth →
      a.last + b.last < 2 ^ 64 →
      ∃ m, merge_nodes_n a b = some m ∧ well_formed_n m ∧ m.depth = a.depth ∧
        (m.first_TERM = a.first_TERM + b.first_TERM ∧ m.first_A = a.first_A + b.first_A ∧
          m.first_C = a.first_C + b.first_C ∧ m.first_G = a.first_G + b.first_G ∧
          m.first_N = a.first_N + b.first_N ∧ m.first_T = a.first_T + b.first_T ∧
          m.last = a.last + b.last) ∧
        m.last < 2 ^ 64 ∧
        (range_len (child_TERM_n m) =
            range_len (child_TERM_n a) + range_len (child_TERM_n b) ∧
          range_len (child_A_n m) = range_len (child_A_n a) + range_len (child_A_n b) ∧
          range_len (child_C_n m) = range_len (child_C_n a) + range_len (child_C_n b) ∧
          range_len (child_G_n m) = range_len (child_G_n a) + range_len (child_G_n b) ∧
          range_len (child_N_n m) = range_len (child_N_n a) + range_len (child_N_n b) ∧
          range_len (child_T_n m) = range_len (child_T_n a) + range_len (child_T_n b)) ∧
        node_size_n m = node_size_pair_n (a, b) ∧
        number_of_children_n m = number_of_children_pair_n (a, b)) ∧
    (∀ (B1 B2 : List Sym) (N1 N2 : sa_node), well_formed N1 → well_formed N2 →
      N1.depth = N2.depth → ∀ P ∈ next_nodes B1 B2 N1 N2,
        ∃ m, merge_nodes P.1 P.2 = some m ∧ 2 ≤ number_of_children m) ∧
    (∀ (B1 B2 : List Sym) (N1 N2 : sa_node_n), well_formed_n N1 → well_formed_n N2 →
      N1.depth = N2.depth → ∀ P ∈ next_nodes_n B1 B2 N1 N2,
        ∃ m, merge_nodes_n P.1 P.2 = some m ∧ 2 ≤ number_of_children_n m) := by
  refine ⟨fun a b ha hb hd ho => ?_, fun a b ha hb hd ho => ?_,
    fun B1 B2 N1 N2 h1 h2 hd P hP => ?_, fun B1 B2 N1 N2 h1 h2 hd P hP => ?_⟩
  · have hm := merge_nodes_some a b hd
    refine ⟨_, hm, ?_, rfl, ⟨rfl, rfl, rfl, rfl, rfl, rfl⟩, ho, ?_, ?_,
      merged_children a b _ ha hb hm⟩
    · obtain ⟨a0, a1, a2, a3, a4⟩ := ha
      obtain ⟨b0, b1, b2, b3, b4⟩ := hb
      exact ⟨by show _ + _ ≤ _ + _; omega, by show _ + _ ≤ _ + _; omega,
        by show _ + _ ≤ _ + _; omega, by show _ + _ ≤ _ + _; omega,
        by show _ + _ ≤ _ + _; omega⟩
    · obtain ⟨a0, a1, a2, a3, a4⟩ := ha
      obtain ⟨b0, b1, b2, b3, b4⟩ := hb
      unfold range_len child_TERM child_A child_C child_G child_T
      simp only
      omega
    · obtain ⟨a0, a1, a2, a3, a4⟩ := ha
      obtain ⟨b0, b1, b2, b3, b4⟩ := hb
      unfold node_size_pair node_size
      simp only
      omega
  · have hm := merge_nodes_n_some a b hd
    refine ⟨_, hm, ?_, rfl, ⟨rfl, rfl, rfl, rfl, rfl, rfl, rfl⟩, ho, ?_, ?_,
      merged_children_n a b _ ha hb hm⟩
    · obtain ⟨a0, a1, a2, a3, a4, a5⟩ := ha
      obtain ⟨b0, b1, b2, b3, b4, b5⟩ := hb
      exact ⟨by show _ + _ ≤ _ + _; omega, by show _ + _ ≤ _ + _; omega,
        by show _ + _ ≤ _ + _; omega, by show _ + _ ≤ _ + _; omega,
        by show _ + _ ≤ _ + _; omega, by show _ + _ ≤ _ + _; omega⟩
    · obtain ⟨a0, a1, a2, a3, a4, a5⟩ := ha
      obtain ⟨b0, b1, b2, b3, b4, b5⟩ := hb
      unfold range_len child_TERM_n child_A_n child_C_n child_G_n child_N_n child_T_n
      simp only
      omega
    · obtain ⟨a0, a1, a2, a3, a4, a5⟩ := ha
      obtain ⟨b0, b1, b2, b3, b4, b5⟩ := hb
      unfold node_size_pair_n node_size_n
      simp only
      omega
  · obtain ⟨c, -, rfl, hk⟩ := (mem_next_nodes B1 B2 N1 N2 P).mp hP
    have hm := merge_nodes_some (bwt_LF_node1 B1 c N1) (bwt_LF_node1 B2 c N2)
      (by show N1.depth + 1 = N2.depth + 1; omega)
    refine ⟨_, hm, ?_⟩
    rw [merged_children _ _ _ (LF_node1_wf B1 c N1 h1) (LF_node1_wf B2 c N2 h2) hm]
    exact hk
  · obtain ⟨c, -, rfl, hk⟩ := (mem_next_nodes_n B1 B2 N1 N2 P).mp hP
    have hm := merge_nodes_n_some (bwt_LF_node1_n B1 c N1) (bwt_LF_node1_n B2 c N2)
      (by show N1.depth + 1 = N2.depth + 1; omega)
    refine ⟨_, hm, ?_⟩
    rw [merged_children_n _ _ _ (LF_node1_n_wf B1 c N1 h1) (LF_node1_n_wf B2 c N2 h2) hm]
    exact hk

theorem C22_merge_nodes_witness :
    ∃ m, merge_nodes ⟨0, 1, 2, 2, 2, 3, 1⟩ ⟨0, 0, 1, 2, 2, 2, 1⟩ = some m ∧
      number_of_children m =
        number_of_children_pair (⟨0, 1, 2, 2, 2, 3, 1⟩, ⟨0, 0, 1, 2, 2, 2, 1⟩) := by
  obtain ⟨m, h, -, -, -, -, -, -, hc⟩ := C22_merge_nodes.1 ⟨0, 1, 2, 2, 2, 3, 1⟩
    ⟨0, 0, 1, 2, 2, 2, 1⟩ (by decide) (by decide) (by decide) (by decide)
  exact ⟨m, h, hc⟩

/-- C23: let `P` list the suffixes of a collection of reads over `{A,C,G,T}` in
lexicographic order, with BWT `B`, and let every LCP value be below the sentinel of the
width `w >= 1`. In every state of the two loops of the `lcp` constructor, `lcp_values` plus
the number of entries that hold the sentinel is `n`, and the iteration that starts there
completes, so that none of its assertions `LCP[i]==nil` fails: every store hits an entry
that holds the sentinel and leaves a value that is not the sentinel, hence no entry is
stored twice. When both loops have returned, `lcp_values = n` and no entry holds the
sentinel; they return within `n` iterations each as soon as one read is not empty. -/
theorem C23_lcp_written_once (reads : List (List Sym)) (hr : ∀ r ∈ reads, dna_read r)
    (P : List (Sym × List Nat)) (hP : sorted_arrangement reads P) (w : Nat) (hw : 0 < w)
    (hnil : ∀ i, 0 < i → i < P.length →
      lcp_len (str_at (P.map Prod.snd) (i - 1)) (str_at (P.map Prod.snd) i) < nil w) :
    (∀ s0, lcp_init w (P.map Prod.fst) = some s0 →
      ∀ j s, loop_state (lcp_leaf_step w (P.map Prod.fst)) (fun s => s.S.isEmpty) j s0 =
          some s →
        s.lcp_values + s.LCP.count (nil w) = P.length ∧
        (s.S ≠ [] → ∃ s1, lcp_leaf_step w (P.map Prod.fst) s = some s1)) ∧
    ((∃ r ∈ reads, r ≠ []) → ∀ fuel s1, lcp_pass1 w fuel (P.map Prod.fst) = .done s1 →
      ∀ j s, loop_state (lcp_node_step w (P.map Prod.fst)) (fun s => s.S.isEmpty) j
          { S := [bwt_root (P.map Prod.fst)], LCP := s1.LCP, lcp_values := s1.lcp_values } =
            some s →
        s.lcp_values + s.LCP.count (nil w) = P.length ∧
        (s.S ≠ [] → ∃ s2, lcp_node_step w (P.map Prod.fst) s = some s2)) ∧
    (∀ fuel1 fuel2 s1 s2, lcp_pass1 w fuel1 (P.map Prod.fst) = .done s1 →
      lcp_pass2 w fuel2 (P.map Prod.fst) s1.LCP s1.lcp_values = .done s2 →
      s2.lcp_values = P.length ∧ ∀ x ∈ s2.LCP, x ≠ nil w) ∧
    ((∃ r ∈ reads, r ≠ []) → ∀ fuel, P.length ≤ fuel →
      ∃ s1 s2, lcp_pass1 w fuel (P.map Prod.fst) = .done s1 ∧
        lcp_pass2 w fuel (P.map Prod.fst) s1.LCP s1.lcp_values = .done s2 ∧
        s2.lcp_values = P.length) := by
  have hcl := closed_arrangement_perm P _ hP.1 (collection_pairs_closed reads hr)
  have hS := arrangement_suffix_collection reads hr P hP
  have hnil' : ∀ i, 0 < i → i < (P.map Prod.snd).length →
      lcp_len (str_at (P.map Prod.snd) (i - 1)) (str_at (P.map Prod.snd) i) < nil w := by
    intro i h0 hi
    rw [List.length_map] at hi
    exact hnil i h0 hi
  have hterm_of : ∀ s0, lcp_init w (P.map Prod.fst) = some s0 → [0] ∈ P.map Prod.snd := by
    intro s0 h0
    have hne : reads ≠ [] := by
      rintro rfl
      have hP0 : P = [] := List.Perm.eq_nil hP.1
      subst hP0
      simp [lcp_init] at h0
    exact arrangement_term_mem reads P hP hne
  have hterm_of1 : ∀ fuel s1, lcp_pass1 w fuel (P.map Prod.fst) = .done s1 →
      [0] ∈ P.map Prod.snd := by
    intro fuel s1 h1
    unfold lcp_pass1 at h1
    cases h0 : lcp_init w (P.map Prod.fst) with
    | none => simp [h0] at h1
    | some s0 => exact hterm_of s0 h0
  have key : ∀ fuel1 fuel2 s1 s2, lcp_pass1 w fuel1 (P.map Prod.fst) = .done s1 →
      lcp_pass2 w fuel2 (P.map Prod.fst) s1.LCP s1.lcp_values = .done s2 →
      2 ≤ number_of_children (node_of (P.map Prod.snd) []) →
      s2.lcp_values = P.length ∧ ∀ x ∈ s2.LCP, x ≠ nil w := by
    intro fuel1 fuel2 s1 s2 h1 h2 hroot
    have hterm := hterm_of1 fuel1 s1 h1
    unfold lcp_pass2 at h2
    obtain ⟨j, -, hj, hf⟩ := run_loop_state _ _ fuel2 _ s2 h2
    obtain ⟨⟨k, hk⟩, hK⟩ := lcp_pass2_states P hcl hS hterm hroot w hw hnil' fuel1 s1 h1 j s2
      hj
    exact lcp_final_count _ w hw hnil' s2 k _ hk hf hK
  refine ⟨fun s0 h0 j s hj => ?_, fun hex fuel s1 h1 j s hj => ?_,
    fun fuel1 fuel2 s1 s2 h1 h2 => ?_, fun hex fuel hfuel => ?_⟩
  · obtain ⟨⟨k, hk⟩, hK⟩ := lcp_pass1_states P hcl hS (hterm_of s0 h0) w hw hnil' s0 h0 j s hj
    refine ⟨hK, fun hne => ?_⟩
    obtain ⟨s1, -, hs1, -, -⟩ := lcp_leaf_step_progress P hcl hS w s k hk (by
      cases hs : s.S with
      | nil => exact absurd hs hne
      | cons a l => rfl)
    exact ⟨s1, hs1⟩
  · have hroot := arrangement_root reads hr P hP hex
    obtain ⟨⟨k, hk⟩, hK⟩ := lcp_pass2_states P hcl hS (hterm_of1 fuel s1 h1) hroot w hw hnil'
      fuel s1 h1 j s hj
    refine ⟨hK, fun hne => ?_⟩
    obtain ⟨s2, -, hs2, -, -⟩ := lcp_node_step_progress P hcl hS w s k hk (by
      cases hs : s.S with
      | nil => exact absurd hs hne
      | cons a l => rfl)
    exact ⟨s2, hs2⟩
  · have hroot : 2 ≤ number_of_children (node_of (P.map Prod.snd) []) := by
      have h1' := h1
      unfold lcp_pass1 at h1'
      cases h0 : lcp_init w (P.map Prod.fst) with
      | none => simp [h0] at h1'
      | some s0 =>
        simp only [h0] at h1'
        have hb : lcp_build w (max fuel1 fuel2) (P.map Prod.fst) = .done s2.LCP :=
          (lcp_build_done w _ _ _).mpr ⟨s0, s1, s2, h0,
            run_loop_mono _ _ fuel1 _ s0 s1 h1' (le_max_left _ _),
            run_loop_mono _ _ fuel2 _ _ s2 h2 (le_max_right _ _), rfl⟩
        have := lcp_build_done_root w _ _ _ hb
        rw [root_eq P hcl] at this
        exact this
    exact key fuel1 fuel2 s1 s2 h1 h2 hroot
  · obtain ⟨L, hL⟩ := lcp_build_total reads hr P hP w hex fuel hfuel
    obtain ⟨s0, s1, s2, h0, h1, h2, -⟩ := (lcp_build_done w fuel _ L).mp hL
    have hp1 : lcp_pass1 w fuel (P.map Prod.fst) = .done s1 := by
      unfold lcp_pass1
      rw [h0]
      exact h1
    exact ⟨s1, s2, hp1, h2, (key fuel fuel s1 s2 hp1 h2
      (arrangement_root reads hr P hP hex)).1⟩

theorem C23_lcp_written_once_witness :
    ∃ s1 s2, lcp_pass1 1 6 [Sym.C, Sym.G, Sym.TERM, Sym.TERM, Sym.A, Sym.A] = .done s1 ∧
      lcp_pass2 1 6 [Sym.C, Sym.G, Sym.TERM, Sym.TERM, Sym.A, Sym.A] s1.LCP s1.lcp_values =
        .done s2 ∧ s2.lcp_values = 6 :=
  (C23_lcp_written_once [[.A, .C], [.A, .G]] (by decide)
    [(.C, [0]), (.G, [0]), (.TERM, [1, 2, 0]), (.TERM, [1, 3, 0]), (.A, [2, 0]), (.A, [3, 0])]
    ⟨by decide, by decide⟩ 1 (by decide)
    (by intro i h0 h6
        simp only [List.length_cons, List.length_nil] at h6
        interval_cases i <;> decide)).2.2.2 ⟨[.A, .C], by decide, by decide⟩ 6 (by decide)

/-- C25: let `B1`, `B2` be two sequences of combined length `n >= 1`. In every state of the
first loop and of the second loop of the `bwt_merger` constructor, the stack holds at most
`4 * (floor(log2 n) + 1)` entries for `dna_bwt_t`, and at most `5 * (floor(log2 n) + 1)`
for `dna_bwt_n_t`. The states are those at the head of the loop; inside an iteration the
stack is not larger than before the iteration or after it. -/
theorem C25_stack_depth (B1 B2 : List Sym) (hn : 1 ≤ B1.length + B2.length) (w : Nat) :
    (∀ c s0, merge_init w B1 B2 c = some s0 →
      ∀ j s, loop_state (merge_leaf_step w B1 B2 c) (fun s => s.S.isEmpty) j s0 = some s →
        s.S.length ≤ 4 * (Nat.log 2 (B1.length + B2.length) + 1)) ∧
    (∀ v j s, loop_state (merge_node_step w B1 B2) (fun s => s.S.isEmpty) j
        { S := [(bwt_root B1, bwt_root B2)], v := v } = some s →
      s.S.length ≤ 4 * (Nat.log 2 (B1.length + B2.length) + 1)) ∧
    (∀ c s0, merge_init w B1 B2 c = some s0 →
      ∀ j s, loop_state (merge_leaf_step_n w B1 B2 c) (fun s => s.S.isEmpty) j s0 = some s →
        s.S.length ≤ 5 * (Nat.log 2 (B1.length + B2.length) + 1)) ∧
    (∀ v j s, loop_state (merge_node_step_n w B1 B2) (fun s => s.S.isEmpty) j
        { S := [(bwt_root_n B1, bwt_root_n B2)], v := v } = some s →
      s.S.length ≤ 5 * (Nat.log 2 (B1.length + B2.length) + 1)) := by
  have hone4 : 1 ≤ 4 * (Nat.log 2 (B1.length + B2.length) + 1) := by omega
  have hone5 : 1 ≤ 5 * (Nat.log 2 (B1.length + B2.length) + 1) := by omega
  refine ⟨fun c s0 h0 j s hj => ?_, fun v j s hj => ?_, fun c s0 h0 j s hj => ?_,
    fun v j s hj => ?_⟩
  · have hS0 := merge_init_stack w B1 B2 c s0 h0
    cases j with
    | zero =>
      simp only [loop_state, Option.some.injEq] at hj
      rw [← hj, hS0]
      exact hone4
    | succ j =>
      have := loop_state_from_first _ _
        (fun s : MLeafState => stack_inv 4 (B1.length + B2.length) (s.S.map leaf_pair_len))
        (fun a b ha hb => merge_leaf_step_stack w _ B1 B2 c a b ha hb) s0
        (fun s1 hs1 => by
          show stack_inv 4 _ (s0.S.map leaf_pair_len)
          rw [hS0]
          exact stack_inv_single 4 _ _ (by omega)
            (merge_leaf_step_pos w B1 B2 c _ [] s0 s1 hS0 hs1) (first_leaf_pair_len B1 B2))
        j s hj
      have hl := stack_inv_length 4 _ _ this
      rw [List.length_map] at hl
      exact hl
  · have hI0 : stack_inv 4 (B1.length + B2.length)
        (([(bwt_root B1, bwt_root B2)] : List (sa_node × sa_node)).map node_size_pair) ∧
        ∀ N ∈ ([(bwt_root B1, bwt_root B2)] : List (sa_node × sa_node)),
          well_formed N.1 ∧ well_formed N.2 := by
      refine ⟨stack_inv_single 4 _ _ (by omega) ?_ ?_, fun N hN => ?_⟩
      · show 1 ≤ (B1.length - 0) + (B2.length - 0)
        omega
      · show (B1.length - 0) + (B2.length - 0) ≤ _
        omega
      · rw [List.mem_singleton.mp hN]
        exact ⟨bwt_root_wf B1, bwt_root_wf B2⟩
    have := loop_state_invariant _ _
      (fun s : MNodeState => stack_inv 4 (B1.length + B2.length) (s.S.map node_size_pair) ∧
        ∀ N ∈ s.S, well_formed N.1 ∧ well_formed N.2)
      (fun a b ha _ hb => merge_node_step_stack w _ B1 B2 a b ha hb) j _ s hI0 hj
    have hl := stack_inv_length 4 _ _ this.1
    rw [List.length_map] at hl
    exact hl
  · have hS0 := merge_init_stack w B1 B2 c s0 h0
    cases j with
    | zero =>
      simp only [loop_state, Option.some.injEq] at hj
      rw [← hj, hS0]
      exact hone5
    | succ j =>
      have := loop_state_from_first _ _
        (fun s : MLeafState => stack_inv 5 (B1.length + B2.length) (s.S.map leaf_pair_len))
        (fun a b ha hb => merge_leaf_step_n_stack w _ B1 B2 c a b ha hb) s0
        (fun s1 hs1 => by
          show stack_inv 5 _ (s0.S.map leaf_pair_len)
          rw [hS0]
          exact stack_inv_single 5 _ _ (by omega)
            (merge_leaf_step_n_pos w B1 B2 c _ [] s0 s1 hS0 hs1) (first_leaf_pair_len B1 B2))
        j s hj
      have hl := stack_inv_length 5 _ _ this
      rw [List.length_map] at hl
      exact hl
  · have hI0 : stack_inv 5 (B1.length + B2.length)
        (([(bwt_root_n B1, bwt_root_n B2)] : List (sa_node_n × sa_node_n)).map
          node_size_pair_n) ∧
        ∀ N ∈ ([(bwt_root_n B1, bwt_root_n B2)] : List (sa_node_n × sa_node_n)),
          well_formed_n N.1 ∧ well_formed_n N.2 := by
      refine ⟨stack_inv_single 5 _ _ (by omega) ?_ ?_, fun N hN => ?_⟩
      · show 1 ≤ (B1.length - 0) + (B2.length - 0)
        omega
      · show (B1.length - 0) + (B2.length - 0) ≤ _
        omega
      · rw [List.mem_singleton.mp hN]
        exact ⟨bwt_root_n_wf B1, bwt_root_n_wf B2⟩
    have := loop_state_invariant _ _
      (fun s : MNodeState_n =>
        stack_inv 5 (B1.length + B2.length) (s.S.map node_size_pair_n) ∧
        ∀ N ∈ s.S, well_formed_n N.1 ∧ well_formed_n N.2)
      (fun a b ha _ hb => merge_node_step_n_stack w _ B1 B2 a b ha hb) j _ s hI0 hj
    have hl := stack_inv_length 5 _ _ this.1
    rw [List.length_map] at hl
    exact hl

theorem C25_stack_depth_witness :
    ({ S := [(⟨⟨4, 5⟩, 2⟩, ⟨⟨1, 1⟩, 2⟩), (⟨⟨5, 6⟩, 2⟩, ⟨⟨1, 1⟩, 2⟩),
             (⟨⟨6, 6⟩, 2⟩, ⟨⟨2, 3⟩, 2⟩)],
       v := ⟨[false, false, true, false, false, false, false, false, false], [], 1, 3⟩ } :
      MLeafState).S.length ≤
      4 * (Nat.log 2 ([Sym.C, Sym.G, Sym.TERM, Sym.TERM, Sym.A, Sym.A].length +
        [Sym.T, Sym.TERM, Sym.G].length) + 1) :=
  (C25_stack_depth [Sym.C, Sym.G, Sym.TERM, Sym.TERM, Sym.A, Sym.A] [Sym.T, Sym.TERM, Sym.G]
    (by decide) 1).1 false
    { S := [(⟨⟨0, 2⟩, 1⟩, ⟨⟨0, 1⟩, 1⟩)],
      v := ⟨[false, false, false, false, false, false, false, false, false], [], 1, 0⟩ }
    (by decide) 1 _ (by decide)

/-- C26: let `P1`, `P2` list the suffixes of two non-empty collections of reads over
`{A,C,G,T}` of length at most `M` in lexicographic order, with BWTs `B1`, `B2`, and give
each loop a budget of `n` iterations. No loop exhausts its budget. The first loop of the
`lcp` constructor on `B1` and the first loop of the `bwt_merger` constructor on `B1`, `B2`,
with or without LCP computation, end with an empty stack. The second loop of the `lcp`
constructor ends with an empty stack when a read of the first collection is not empty, and
the second loop of the merger, entered after a first loop with LCP computation, when a read
of the two collections is not empty; when every such read is empty, the second loop ends in
its first iteration, at the failing assertion `number_of_children(x) >= 2` of `update_lcp`
on the root. In every state of each of the four loops the number of completed iterations
is at most `n` and every leaf and node on the stack has a depth of at most `M + 1`; an
iteration that completes removes the top entry, keeps the rest of the stack and pushes
entries whose depth is one more than the depth of the entry it removed, and every
iteration completes except the one on the root when every read is empty. -/
theorem C26_loops_terminate (reads1 reads2 : List (List Sym))
    (hr1 : ∀ r ∈ reads1, dna_read r) (hr2 : ∀ r ∈ reads2, dna_read r)
    (hne1 : reads1 ≠ []) (hne2 : reads2 ≠ [])
    (P1 P2 : List (Sym × List Nat)) (hP1 : sorted_arrangement reads1 P1)
    (hP2 : sorted_arrangement reads2 P2) (M : Nat) (hM1 : ∀ r ∈ reads1, r.length ≤ M)
    (hM2 : ∀ r ∈ reads2, r.length ≤ M) (w : Nat) :
    (∀ fuel, P1.length ≤ fuel →
      ∃ s1, lcp_pass1 w fuel (P1.map Prod.fst) = .done s1 ∧ s1.S = [] ∧
        ((∃ r ∈ reads1, r ≠ []) →
          ∃ s2, lcp_pass2 w fuel (P1.map Prod.fst) s1.LCP s1.lcp_values = .done s2 ∧
            s2.S = []) ∧
        ((∀ r ∈ reads1, r = []) →
          lcp_pass2 w fuel (P1.map Prod.fst) s1.LCP s1.lcp_values = .aborted)) ∧
    (∀ s0, lcp_init w (P1.map Prod.fst) = some s0 →
      ∀ j s, loop_state (lcp_leaf_step w (P1.map Prod.fst)) (fun s => s.S.isEmpty) j s0 =
          some s →
        j ≤ P1.length ∧ (∀ L ∈ s.S, L.depth ≤ M + 1) ∧
        ∀ L rest, s.S = L :: rest →
          ∃ s1 TMP, lcp_leaf_step w (P1.map Prod.fst) s = some s1 ∧ s1.S = TMP ++ rest ∧
            ∀ c ∈ TMP, c.depth = L.depth + 1) ∧
    (∀ fuel s1, lcp_pass1 w fuel (P1.map Prod.fst) = .done s1 →
      ∀ j s, loop_state (lcp_node_step w (P1.map Prod.fst)) (fun s => s.S.isEmpty) j
          { S := [bwt_root (P1.map Prod.fst)], LCP := s1.LCP, lcp_values := s1.lcp_values } =
            some s →
        j ≤ P1.length ∧ (∀ x ∈ s.S, x.depth ≤ M + 1) ∧
        ∀ x rest, s.S = x :: rest →
          ((∃ r ∈ reads1, r ≠ []) →
            ∃ s2 TMP, lcp_node_step w (P1.map Prod.fst) s = some s2 ∧ s2.S = TMP ++ rest ∧
              ∀ c ∈ TMP, c.depth = x.depth + 1) ∧
          ((∀ r ∈ reads1, r = []) →
            j = 0 ∧ x = bwt_root (P1.map Prod.fst) ∧
              lcp_node_step w (P1.map Prod.fst) s = none)) ∧
    (∀ c fuel, P1.length + P2.length ≤ fuel →
      ∃ s1, merge_pass1 w fuel (P1.map Prod.fst) (P2.map Prod.fst) c = .done s1 ∧ s1.S = []) ∧
    (∀ fuel s1, P1.length + P2.length ≤ fuel →
      merge_pass1 w fuel (P1.map Prod.fst) (P2.map Prod.fst) true = .done s1 →
      ((∃ r ∈ reads1 ++ reads2, r ≠ []) →
        ∃ s2, merge_pass2 w fuel (P1.map Prod.fst) (P2.map Prod.fst) s1.v = .done s2 ∧
          s2.S = []) ∧
      ((∀ r ∈ reads1 ++ reads2, r = []) →
        merge_pass2 w fuel (P1.map Prod.fst) (P2.map Prod.fst) s1.v = .aborted)) ∧
    (∀ c s0, merge_init w (P1.map Prod.fst) (P2.map Prod.fst) c = some s0 →
      ∀ j s, loop_state (merge_leaf_step w (P1.map Prod.fst) (P2.map Prod.fst) c)
          (fun s => s.S.isEmpty) j s0 = some s →
        j ≤ P1.length + P2.length ∧
        (∀ L ∈ s.S, L.1.depth ≤ M + 1 ∧ L.2.depth ≤ M + 1) ∧
        ∀ L rest, s.S = L :: rest →
          ∃ s1 TMP, merge_leaf_step w (P1.map Prod.fst) (P2.map Prod.fst) c s = some s1 ∧
            s1.S = TMP ++ rest ∧
            ∀ x ∈ TMP, x.1.depth = L.1.depth + 1 ∧ x.2.depth = L.2.depth + 1) ∧
    (∀ fuel s1, merge_pass1 w fuel (P1.map Prod.fst) (P2.map Prod.fst) true = .done s1 →
      ∀ j s, loop_state (merge_node_step w (P1.map Prod.fst) (P2.map Prod.fst))
          (fun s => s.S.isEmpty) j
          { S := [(bwt_root (P1.map Prod.fst), bwt_root (P2.map Prod.fst))], v := s1.v } =
            some s →
        j ≤ P1.length + P2.length ∧
        (∀ N ∈ s.S, N.1.depth ≤ M + 1 ∧ N.2.depth ≤ M + 1) ∧
        ∀ N rest, s.S = N :: rest →
          ((∃ r ∈ reads1 ++ reads2, r ≠ []) →
            ∃ s2 TMP, merge_node_step w (P1.map Prod.fst) (P2.map Prod.fst) s = some s2 ∧
              s2.S = TMP ++ rest ∧
              ∀ x ∈ TMP, x.1.depth = N.1.depth + 1 ∧ x.2.depth = N.2.depth + 1) ∧
          ((∀ r ∈ reads1 ++ reads2, r = []) →
            j = 0 ∧ N = (bwt_root (P1.map Prod.fst), bwt_root (P2.map Prod.fst)) ∧
              merge_node_step w (P1.map Prod.fst) (P2.map Prod.fst) s = none)) := by
  have hc1 := closed_arrangement_perm P1 _ hP1.1 (collection_pairs_closed reads1 hr1)
  have hc2 := closed_arrangement_perm P2 _ hP2.1 (collection_pairs_closed reads2 hr2)
  have hS1 := arrangement_suffix_collection reads1 hr1 P1 hP1
  have hS2 := arrangement_suffix_collection reads2 hr2 P2 hP2
  have ht1 := arrangement_term_mem reads1 P1 hP1 hne1
  have ht2 := arrangement_term_mem reads2 P2 hP2 hne2
  have hS := merge_suffix_collection _ _ hS1 hS2
  have hb1 := arrangement_length reads1 P1 hP1 M hM1
  have hb2 := arrangement_length reads2 P2 hP2 M hM2
  have hb : ∀ s ∈ merge_strs (P1.map Prod.snd) (P2.map Prod.snd), s.length ≤ M + 1 := by
    intro s hs
    rcases List.mem_append.mp ((merge_strs_perm _ _).mem_iff.mp hs) with h | h
    · exact hb1 s h
    · exact hb2 s h
  have hlen1 : (P1.map Prod.snd).length = P1.length := List.length_map _ _
  have hlen : (merge_strs (P1.map Prod.snd) (P2.map Prod.snd)).length =
      P1.length + P2.length := by
    rw [merge_strs_length, List.length_map, List.length_map]
  have hpos1 : 1 ≤ P1.length := by
    have := List.length_pos_of_mem ht1
    omega
  have hempty : ∀ {α : Type} (l : List α), l.isEmpty = true → l = [] := fun l h =>
    List.isEmpty_iff.mp h
  have hcase1 : ∀ reads : List (List Sym), (¬ ∃ r ∈ reads, r ≠ []) → ∀ r ∈ reads, r = [] := by
    intro reads h r hr
    by_contra hne
    exact h ⟨r, hr, hne⟩
  have hall1 : (∀ r ∈ reads1, r = []) → ∀ b ∈ P1.map Prod.fst, b = Sym.TERM :=
    arrangement_all_term reads1 P1 hP1
  have hall2 : (∀ r ∈ reads1 ++ reads2, r = []) →
      (∀ b ∈ P1.map Prod.fst, b = Sym.TERM) ∧ ∀ b ∈ P2.map Prod.fst, b = Sym.TERM :=
    fun h => ⟨arrangement_all_term reads1 P1 hP1 (fun r hr => h r (List.mem_append_left _ hr)),
      arrangement_all_term reads2 P2 hP2 (fun r hr => h r (List.mem_append_right _ hr))⟩
  refine ⟨fun fuel hfuel => ?_, fun s0 h0 j s hj => ?_, fun fuel s1 hp1 j s hj => ?_,
    fun c fuel hfuel => ?_, fun fuel s1 hfuel hp1 => ⟨fun hex => ?_, fun hall => ?_⟩,
    fun c s0 h0 j s hj => ?_, fun fuel s1 hp1 j s hj => ?_⟩
  · obtain ⟨s0, h0, -, -, hI0⟩ := lcp_init_pass_inv P1 hc1 ht1 w
    obtain ⟨s1, k1, hrun1, hI1, hfin1⟩ := run_loop_terminates
      (lcp_leaf_step w (P1.map Prod.fst)) (fun s => s.S.isEmpty)
      (leaf_pass_inv (P1.map Prod.snd) w)
      (fun s k hI hne => lcp_leaf_step_progress P1 hc1 hS1 w s k hI hne) fuel s0 _ hI0
      (by have := leaf_weight_le (P1.map Prod.snd) [[]]; omega)
    refine ⟨s1, by unfold lcp_pass1; rw [h0]; exact hrun1, hempty _ hfin1, fun hex => ?_,
      fun hall => ?_⟩
    · have hroot1 := arrangement_root reads1 hr1 P1 hP1 hex
      have hI2 := lcp_pass2_init_inv P1 hc1 w s1 k1 hI1 hfin1 hroot1
      obtain ⟨s2, k2, hrun2, -, hfin2⟩ := run_loop_terminates
        (lcp_node_step w (P1.map Prod.fst)) (fun s => s.S.isEmpty)
        (node_pass_inv (P1.map Prod.snd) w)
        (fun s k hI hne => lcp_node_step_progress P1 hc1 hS1 w s k hI hne) fuel _ _ hI2
        (by have := node_weight_le (P1.map Prod.snd) [[]]; omega)
      exact ⟨s2, hrun2, hempty _ hfin2⟩
    · exact (loop_state_abort _ _ _ rfl
        (lcp_node_step_all_term w _ (hall1 hall) _ [] rfl)).2 fuel (by omega)
  · obtain ⟨s0', h0', -, -, hI0⟩ := lcp_init_pass_inv P1 hc1 ht1 w
    rw [h0] at h0'
    cases h0'
    obtain ⟨k, hk, hkj⟩ := loop_state_progress _ _ (leaf_pass_inv (P1.map Prod.snd) w)
      (fun s k hI hne => lcp_leaf_step_progress P1 hc1 hS1 w s k hI hne) j s0 s _ hI0 hj
    have hw := leaf_weight_le (P1.map Prod.snd) [[]]
    refine ⟨by omega, ?_, fun L rest hL => ?_⟩
    · obtain ⟨Ws, hst, -, hpos, -⟩ := hk
      intro L hLm
      rw [hst] at hLm
      obtain ⟨W, hW, rfl⟩ := List.mem_map.mp hLm
      exact leaf_depth_bound _ M hb1 W (hpos W hW)
    · obtain ⟨s1, k1, hs1, -, -⟩ := lcp_leaf_step_progress P1 hc1 hS1 w s k hk
        (by rw [hL]; rfl)
      obtain ⟨TMP, e, hd⟩ := lcp_leaf_step_push w _ L rest s s1 hL hs1
      exact ⟨s1, TMP, hs1, e, hd⟩
  · by_cases hex : ∃ r ∈ reads1, r ≠ []
    · have hroot1 := arrangement_root reads1 hr1 P1 hP1 hex
      obtain ⟨⟨k1, hI1⟩, hfin⟩ := lcp_pass1_inv P1 hc1 hS1 ht1 w fuel s1 hp1
      have hI2 := lcp_pass2_init_inv P1 hc1 w s1 k1 hI1 hfin hroot1
      obtain ⟨k, hk, hkj⟩ := loop_state_progress _ _ (node_pass_inv (P1.map Prod.snd) w)
        (fun s k hI hne => lcp_node_step_progress P1 hc1 hS1 w s k hI hne) j _ s _ hI2 hj
      have hw := node_weight_le (P1.map Prod.snd) [[]]
      refine ⟨by omega, ?_, fun x rest hx => ⟨fun _ => ?_, fun hall => ?_⟩⟩
      · obtain ⟨Ws, hst, -, hch, -⟩ := hk
        intro x hxm
        rw [hst] at hxm
        obtain ⟨W, hW, rfl⟩ := List.mem_map.mp hxm
        have := node_depth_bound _ hS1.sorted M hb1 W (hch W hW)
        omega
      · obtain ⟨s2, k2, hs2, -, -⟩ := lcp_node_step_progress P1 hc1 hS1 w s k hk
          (by rw [hx]; rfl)
        obtain ⟨TMP, e, hd⟩ := lcp_node_step_push w _ x rest s s2 hx hs2
        exact ⟨s2, TMP, hs2, e, hd⟩
      · obtain ⟨r, hr, hne⟩ := hex
        exact absurd (hall r hr) hne
    · have hall := hcase1 reads1 hex
      have hab := lcp_node_step_all_term w _ (hall1 hall)
        { S := [bwt_root (P1.map Prod.fst)], LCP := s1.LCP, lcp_values := s1.lcp_values }
        [] rfl
      obtain ⟨hj0, hs⟩ := (loop_state_abort _ _ _ rfl hab).1 j s hj
      subst hs
      refine ⟨by omega, ?_, fun x rest hx => ⟨fun h => absurd h hex, fun _ => ?_⟩⟩
      · intro x hxm
        rw [List.mem_singleton.mp hxm]
        exact Nat.zero_le _
      · exact ⟨hj0, (List.cons.inj hx).1.symm, hab⟩
  · obtain ⟨s1, hp1⟩ := merge_pass1_total P1 P2 hc1 hc2 hS1 hS2 ht1 ht2 w fuel c hfuel
    obtain ⟨-, hfin⟩ := merge_pass1_inv P1 P2 hc1 hc2 hS1 hS2 ht1 ht2 w fuel c s1 hp1
    exact ⟨s1, hp1, hempty _ hfin⟩
  · have hroot := merged_root reads1 reads2 hr1 hr2 P1 P2 hP1 hP2 hex
    obtain ⟨⟨k1, hI1⟩, hfin⟩ := merge_pass1_inv P1 P2 hc1 hc2 hS1 hS2 ht1 ht2 w fuel true s1
      hp1
    have hI2 := merge_pass2_init_inv P1 P2 hc1 hc2 w s1 k1 hI1 hfin hroot
    obtain ⟨s2, k2, hrun2, -, hfin2⟩ := run_loop_terminates
      (merge_node_step w (P1.map Prod.fst) (P2.map Prod.fst)) (fun s => s.S.isEmpty)
      (merge_node_inv (P1.map Prod.snd) (P2.map Prod.snd) w)
      (fun s k hI hne => merge_node_progress P1 P2 hc1 hc2 hS1 hS2 w s k hI hne) fuel _ _ hI2
      (by have := node_weight_le (merge_strs (P1.map Prod.snd) (P2.map Prod.snd)) [[]]; omega)
    exact ⟨s2, hrun2, hempty _ hfin2⟩
  · exact (loop_state_abort _ _ _ rfl
      (merge_node_step_all_term w _ _ (hall2 hall).1 (hall2 hall).2 _ [] rfl)).2 fuel
      (by omega)
  · obtain ⟨s0', h0', hI0⟩ := merge_init_inv P1 P2 hc1 hc2 ht1 ht2 w c
    rw [h0] at h0'
    cases h0'
    obtain ⟨k, hk, hkj⟩ := loop_state_progress _ _
      (merge_leaf_inv (P1.map Prod.snd) (P2.map Prod.snd) w c)
      (fun s k hI hne => merge_leaf_progress P1 P2 hc1 hc2 hS1 hS2 w c s k hI hne) j s0 s _
      hI0 hj
    have hw := leaf_weight_le (merge_strs (P1.map Prod.snd) (P2.map Prod.snd)) [[]]
    refine ⟨by omega, ?_, fun L rest hL => ?_⟩
    · obtain ⟨Ws, hst, -, hpos, -⟩ := hk
      intro L hLm
      rw [hst] at hLm
      obtain ⟨W, hW, rfl⟩ := List.mem_map.mp hLm
      have hmu : 1 ≤ min_size c := by unfold min_size; split <;> omega
      have hcnt := hpos W hW
      have := leaf_depth_bound _ M hb W (by omega)
      exact ⟨this, this⟩
    · obtain ⟨s1, k1, hs1, -, -⟩ := merge_leaf_progress P1 P2 hc1 hc2 hS1 hS2 w c s k hk
        (by rw [hL]; rfl)
      obtain ⟨TMP, e, hd⟩ := merge_leaf_step_depth w _ _ c L rest s s1 hL hs1
      exact ⟨s1, TMP, hs1, e, hd⟩
  · by_cases hex : ∃ r ∈ reads1 ++ reads2, r ≠ []
    · have hroot := merged_root reads1 reads2 hr1 hr2 P1 P2 hP1 hP2 hex
      obtain ⟨⟨k1, hI1⟩, hfin⟩ := merge_pass1_inv P1 P2 hc1 hc2 hS1 hS2 ht1 ht2 w fuel true s1
        hp1
      have hI2 := merge_pass2_init_inv P1 P2 hc1 hc2 w s1 k1 hI1 hfin hroot
      obtain ⟨k, hk, hkj⟩ := loop_state_progress _ _
        (merge_node_inv (P1.map Prod.snd) (P2.map Prod.snd) w)
        (fun s k hI hne => merge_node_progress P1 P2 hc1 hc2 hS1 hS2 w s k hI hne) j _ s _
        hI2 hj
      have hw := node_weight_le (merge_strs (P1.map Prod.snd) (P2.map Prod.snd)) [[]]
      refine ⟨by omega, ?_, fun N rest hN => ⟨fun _ => ?_, fun hall => ?_⟩⟩
      · obtain ⟨Ws, hst, -, hch, -⟩ := hk
        intro N hNm
        rw [hst] at hNm
        obtain ⟨W, hW, rfl⟩ := List.mem_map.mp hNm
        have := node_depth_bound _ hS.sorted M hb W (hch W hW)
        have e : (node_of (merge_strs (P1.map Prod.snd) (P2.map Prod.snd)) W).depth =
          W.length := rfl
        exact ⟨by show W.length ≤ M + 1; omega, by show W.length ≤ M + 1; omega⟩
      · obtain ⟨s2, k2, hs2, -, -⟩ := merge_node_progress P1 P2 hc1 hc2 hS1 hS2 w s k hk
          (by rw [hN]; rfl)
        obtain ⟨TMP, e, hd⟩ := merge_node_step_depth w _ _ N rest s s2 hN hs2
        exact ⟨s2, TMP, hs2, e, hd⟩
      · obtain ⟨r, hr, hne⟩ := hex
        exact absurd (hall r hr) hne
    · have hall := hcase1 (reads1 ++ reads2) hex
      have hab := merge_node_step_all_term w _ _ (hall2 hall).1 (hall2 hall).2
        { S := [(bwt_root (P1.map Prod.fst), bwt_root (P2.map Prod.fst))], v := s1.v }
        [] rfl
      obtain ⟨hj0, hs⟩ := (loop_state_abort _ _ _ rfl hab).1 j s hj
      subst hs
      refine ⟨by omega, ?_, fun N rest hN => ⟨fun h => absurd h hex, fun _ => ?_⟩⟩
      · intro N hNm
        rw [List.mem_singleton.mp hNm]
        exact ⟨Nat.zero_le _, Nat.zero_le _⟩
      · exact ⟨hj0, (List.cons.inj hN).1.symm, hab⟩

theorem C26_loops_terminate_witness :
    ∃ s1 s2, lcp_pass1 1 6 [Sym.C, Sym.G, Sym.TERM, Sym.TERM, Sym.A, Sym.A] = .done s1 ∧
      s1.S = [] ∧
      lcp_pass2 1 6 [Sym.C, Sym.G, Sym.TERM, Sym.TERM, Sym.A, Sym.A] s1.LCP s1.lcp_values =
        .done s2 ∧ s2.S = [] := by
  obtain ⟨s1, h1, h2, h3, -⟩ := (C26_loops_terminate [[.A, .C], [.A, .G]] [[.G, .T]]
    (by decide) (by decide) (by decide) (by decide)
    [(.C, [0]), (.G, [0]), (.TERM, [1, 2, 0]), (.TERM, [1, 3, 0]), (.A, [2, 0]), (.A, [3, 0])]
    [(.T, [0]), (.TERM, [3, 5, 0]), (.G, [5, 0])]
    ⟨by decide, by decide⟩ ⟨by decide, by decide⟩ 2 (by decide) (by decide) 1).1 6 (by decide)
  obtain ⟨s2, h4, h5⟩ := h3 ⟨[.A, .C], by decide, by decide⟩
  exact ⟨s1, s2, h1, h2, h4, h5⟩

/-- C27: let `B1`, `B2` be arbitrary sequences of symbols, BWTs or not, one of which contains
`TERM`, and `n = |B1| + |B2|`. The first loop of the `bwt_merger` constructor without LCP
computation ends with an empty stack within `n` iterations. In every state of the loop at
most `n` iterations have completed and `da_values ≤ n`; when the stack is not empty, the
pair on top has a non-empty merged interval `[s1, e)` with `e ≤ n`, and the iteration that
starts there completes (no assertion of `update_DA` fails), adds the length of that
interval to `da_values` and leaves `da_values ≤ n`. The merged intervals of the pairs on
top of the stack in two different states of the loop lie one after the other. -/
theorem C27_pass1_arbitrary (B1 B2 : List Sym) (hT : Sym.TERM ∈ B1 ∨ Sym.TERM ∈ B2)
    (w : Nat) :
    (∀ fuel, B1.length + B2.length ≤ fuel →
      ∃ s1, merge_pass1 w fuel B1 B2 false = .done s1 ∧ s1.S = [] ∧
        s1.v.da_values ≤ B1.length + B2.length) ∧
    (∀ s0, merge_init w B1 B2 false = some s0 →
      (∀ j s, loop_state (merge_leaf_step w B1 B2 false) (fun s => s.S.isEmpty) j s0 = some s →
        j ≤ B1.length + B2.length ∧ s.v.da_values ≤ B1.length + B2.length ∧
        ∀ L rest, s.S = L :: rest →
          L.1.rn.first + L.2.rn.first < L.1.rn.second + L.2.rn.second ∧
          L.1.rn.second + L.2.rn.second ≤ B1.length + B2.length ∧
          ∃ s1, merge_leaf_step w B1 B2 false s = some s1 ∧
            s1.v.da_values = s.v.da_values +
              (L.1.rn.second + L.2.rn.second - (L.1.rn.first + L.2.rn.first)) ∧
            s1.v.da_values ≤ B1.length + B2.length) ∧
      (∀ j1 j2 s s1 L rest L1 rest1, j1 < j2 →
        loop_state (merge_leaf_step w B1 B2 false) (fun s => s.S.isEmpty) j1 s0 = some s →
        loop_state (merge_leaf_step w B1 B2 false) (fun s => s.S.isEmpty) j2 s0 = some s1 →
        s.S = L :: rest → s1.S = L1 :: rest1 →
        L.1.rn.second + L.2.rn.second ≤ L1.1.rn.first + L1.2.rn.first ∨
          L1.1.rn.second + L1.2.rn.second ≤ L.1.rn.first + L.2.rn.first)) := by
  have hprog : ∀ (s : MLeafState) (k : Nat),
      ((∃ Vs Ws, leaf_trace_inv B1 B2 Vs Ws s) ∧
        k + s.v.da_values = B1.length + B2.length) →
      s.S.isEmpty = false →
      ∃ s1 k1, merge_leaf_step w B1 B2 false s = some s1 ∧
        ((∃ Vs Ws, leaf_trace_inv B1 B2 Vs Ws s1) ∧
          k1 + s1.v.da_values = B1.length + B2.length) ∧ k1 < k := by
    rintro s k ⟨⟨Vs, Ws, hI⟩, hk⟩ hf
    obtain ⟨W, rest, rfl⟩ := leaf_trace_top B1 B2 Vs Ws s hI hf
    obtain ⟨TMPs, st1, h1, hI1, hd, hp, hle⟩ := leaf_trace_step w B1 B2 Vs W rest s hI
    exact ⟨st1, B1.length + B2.length - st1.v.da_values, h1, ⟨⟨_, _, hI1⟩, by omega⟩,
      by omega⟩
  refine ⟨?_, ?_⟩
  · intro fuel hfuel
    have hs0 : merge_init w B1 B2 false = some
        { S := [(bwt_first_leaf B1, bwt_first_leaf B2)]
          v := { DA := List.replicate (B1.length + B2.length) false, LCP := [],
                 lcp_values := 1, da_values := 0 } } := by
      simp [merge_init]
    obtain ⟨hI0, hd0⟩ := leaf_trace_init w B1 B2 hT _ hs0
    obtain ⟨a, k1, hrun, ⟨-, hk1⟩, hfin⟩ := run_loop_terminates
      (merge_leaf_step w B1 B2 false) (fun s => s.S.isEmpty)
      (fun s k => (∃ Vs Ws, leaf_trace_inv B1 B2 Vs Ws s) ∧
        k + s.v.da_values = B1.length + B2.length)
      hprog fuel _ (B1.length + B2.length) ⟨⟨_, _, hI0⟩, by rw [hd0]; rfl⟩ hfuel
    refine ⟨a, by unfold merge_pass1; rw [hs0]; exact hrun, ?_, by omega⟩
    simpa using hfin
  · intro s0 h0
    obtain ⟨hI0, hd0⟩ := leaf_trace_init w B1 B2 hT s0 h0
    refine ⟨?_, ?_⟩
    · intro j s hj
      obtain ⟨k, ⟨⟨Vs, Ws, hI⟩, hk⟩, hkj⟩ := loop_state_progress
        (merge_leaf_step w B1 B2 false) (fun s => s.S.isEmpty)
        (fun s k => (∃ Vs Ws, leaf_trace_inv B1 B2 Vs Ws s) ∧
          k + s.v.da_values = B1.length + B2.length)
        hprog j s0 s (B1.length + B2.length) ⟨⟨_, _, hI0⟩, by rw [hd0]; rfl⟩ hj
      refine ⟨by omega, by omega, ?_⟩
      intro L rest hS
      obtain ⟨W, rest0, rfl⟩ := leaf_trace_top B1 B2 Vs Ws s hI (by rw [hS]; rfl)
      obtain ⟨TMPs, st1, h1, -, hd, hp, hle⟩ := leaf_trace_step w B1 B2 Vs W rest0 s hI
      have hL : L = lf_leaf_pair B1 B2 W := by
        have := hI.1
        rw [hS, List.map_cons] at this
        exact (List.cons.inj this).1
      subst hL
      have hw1 := lf_leaf_wf B1 W
      have hw2 := lf_leaf_wf B2 W
      simp only [leaf_pair_len, lf_leaf_pair, range_len] at hp hd ⊢
      exact ⟨by omega, by omega, st1, h1, by omega, hle⟩
    · intro j1 j2 s s1 L rest L1 rest1 hlt hj1 hj2 hS hS1
      obtain ⟨Vs, Ws, hI⟩ := leaf_trace_states w B1 B2 s0 ⟨_, _, hI0⟩ j1 s hj1
      obtain ⟨W, rest0, rfl⟩ := leaf_trace_top B1 B2 Vs Ws s hI (by rw [hS]; rfl)
      obtain ⟨d, rfl⟩ : ∃ d, j2 = j1 + (d + 1) := ⟨j2 - j1 - 1, by omega⟩
      rw [loop_state_add, hj1, Option.some_bind] at hj2
      obtain ⟨Vs1, Ws1, hI1, hm⟩ := leaf_trace_visited w B1 B2 Vs W rest0 s hI d s1 hj2
      obtain ⟨W1, rest2, rfl⟩ := leaf_trace_top B1 B2 Vs1 Ws1 s1 hI1 (by rw [hS1]; rfl)
      have hL : L = lf_leaf_pair B1 B2 W := by
        have := hI.1
        rw [hS, List.map_cons] at this
        exact (List.cons.inj this).1
      have hL1 : L1 = lf_leaf_pair B1 B2 W1 := by
        have := hI1.1
        rw [hS1, List.map_cons] at this
        exact (List.cons.inj this).1
      subst hL hL1
      have hne : W ≠ W1 := by
        rintro rfl
        exact (List.nodup_append.mp hI1.2.1).2.2 hm (List.mem_cons_self _ _)
      rcases lf_leaf_order W W1 (hI.2.2.1 W (by simp)) (hI1.2.2.1 W1 (by simp)) hne with h | h
      · left
        have h1 := h B1
        have h2 := h B2
        simp only [lf_leaf_pair]
        omega
      · right
        have h1 := h B1
        have h2 := h B2
        simp only [lf_leaf_pair]
        omega

theorem C27_pass1_arbitrary_witness :
    ∃ s1, merge_pass1 1 3 [Sym.TERM, Sym.A] [Sym.C] false = .done s1 ∧ s1.S = [] ∧
      s1.v.da_values ≤ [Sym.TERM, Sym.A].length + [Sym.C].length :=
  (C27_pass1_arbitrary [Sym.TERM, Sym.A] [Sym.C] (Or.inl (by decide)) 1).1 3 (by decide)

/-- C28: let `x` be a 5-letter node whose `N` child is empty (`first_N = first_T`) and
`drop_N x` the 4-letter node without `first_N`. Then `number_of_children` gives the same
count on both; `update_lcp` has the same result on both (the same stores, the same
`lcp_values`, the same aborts); and for a second such node `y`, `merge_nodes` commutes with
the projection, the merged node again has an empty `N` child, and `find_leaves` has the same
result on the pair of 5-letter nodes and on the pair of projections. -/
theorem C28_drop_N (x : sa_node_n) (hx : x.first_N = x.first_T) :
    number_of_children_n x = number_of_children (drop_N x) ∧
    (∀ w LCP v, update_lcp_n w x LCP v = update_lcp w (drop_N x) LCP v) ∧
    (∀ y : sa_node_n, y.first_N = y.first_T →
      (merge_nodes_n x y).map drop_N = merge_nodes (drop_N x) (drop_N y) ∧
      (∀ m, merge_nodes_n x y = some m → m.first_N = m.first_T) ∧
      (∀ w n v, find_leaves_n w n x y v = find_leaves w n (drop_N x) (drop_N y) v)) := by
  refine ⟨drop_N_children x hx, fun w LCP v => drop_N_update_lcp w x hx LCP v,
    fun y hy => ⟨drop_N_merge x y, fun m hm => ?_,
      fun w n v => drop_N_find_leaves w n x y hx hy v⟩⟩
  unfold merge_nodes_n at hm
  split at hm
  · cases hm
    show x.first_N + y.first_N = x.first_T + y.first_T
    rw [hx, hy]
  · cases hm

theorem C28_drop_N_witness :
    number_of_children_n ⟨0, 1, 2, 2, 3, 3, 4, 0⟩ =
      number_of_children (drop_N ⟨0, 1, 2, 2, 3, 3, 4, 0⟩) :=
  (C28_drop_N ⟨0, 1, 2, 2, 3, 3, 4, 0⟩ rfl).1

end Bwt2lcp
